import Mathlib

/-!
# Elliptics: notification registry, merge sort, bulk read and configuration reader

A shallow embedding of `library/notify.c` (the bucketed subscription registry),
of `library/contrib/bsd/merge.c` (the hybrid merge sort), of the bulk-read
completion handler of `cocaine/plugins/service.cpp` and of the configuration
reader `example/config.c`, and a model of the session layer and the backend
that the test suite `bindings/cpp/test.cpp` drives, followed by the properties
proved about them.

Conventions of the embedding.

* C pointers into an array of records become record indices (`Nat`).
* Functions with side effects return the new state together with the list of
  effects they performed, in program order.
* Calls into parts of the library that are not in these files
  (`dnet_send_reply`, `dnet_convert_io_attr`, `malloc`, `strtoul`, ...) are
  taken as parameters.
* Calls are executed one at a time, without interleaving of threads; the
  calls that the registry functions make on the bucket locks are recorded in
  a second embedding of these functions.
-/

namespace Elliptics

/-! ## Part 1. `library/notify.c` -/

/-- Length of an object identifier in bytes (`DNET_ID_SIZE`). -/
def DNET_ID_SIZE : Nat := 64

/-- Value of `ENOENT` in errno.h. -/
def ENOENT : Int := 2

/-- Value of `ENOMEM` in errno.h. -/
def ENOMEM : Int := 12

/-- Value of `EINVAL` in errno.h. -/
def EINVAL : Int := 22

/-- Command number of a notification request (`DNET_CMD_NOTIFY`); only its
being a fixed constant matters here. -/
def DNET_CMD_NOTIFY : Nat := 7

/-- The fields of `struct dnet_cmd` (packet header): `id` is the list of the
bytes of the identifier. -/
structure dnet_cmd where
  id : List Nat
  flags : Nat
  status : Int
  trans : Nat
  size : Nat
deriving DecidableEq, Repr

/-- The fields of `struct dnet_attr`. -/
structure dnet_attr where
  size : Nat
  cmd : Nat
  flags : Nat
deriving DecidableEq, Repr

/-- The fields of `struct dnet_io_attr` that `notify.c` reads or writes. -/
structure dnet_io_attr where
  origin : List Nat
  id : List Nat
  offset : Nat
  size : Nat
  flags : Nat
deriving DecidableEq, Repr

/-- The fields of `struct dnet_history_entry` that `notify.c` reads. -/
structure dnet_history_entry where
  id : List Nat
  offset : Nat
  size : Nat
deriving DecidableEq, Repr

/-- The fields of `struct dnet_addr_attr`; `addr` stands for the whole
`struct dnet_addr`. -/
structure dnet_addr_attr where
  sock_type : Nat
  family : Nat
  proto : Nat
  addr : Nat
deriving DecidableEq, Repr

/-- The payload `struct dnet_io_notification` of a notification. -/
structure dnet_io_notification where
  addr : dnet_addr_attr
  io : dnet_io_attr
deriving DecidableEq, Repr

/-- A `struct dnet_net_state` as far as `notify.c` looks at it: `handle`
identifies the connection (the observer), `addr` is its `st->addr`. -/
structure dnet_net_state where
  handle : Nat
  addr : Nat
deriving DecidableEq, Repr

/-- One subscription, `struct dnet_notify_entry`: the stored command and the
observer. The list linkage is the position in the bucket. -/
structure dnet_notify_entry where
  cmd : dnet_cmd
  state : dnet_net_state
deriving DecidableEq, Repr

/-- The part of `struct dnet_node` used by `notify.c`. `notify_hash` is the
bucket array; a bucket is its `notify_list` from head to tail. -/
structure dnet_node where
  notify_hash_size : Nat
  notify_hash : List (List dnet_notify_entry)
  sock_type : Nat
  family : Nat
  proto : Nat
deriving DecidableEq, Repr

/-- What the functions of `notify.c` do to the world outside the registry. -/
inductive Effect where
  /-- A call `dnet_state_get(st)`: one reference to the observer is taken. -/
  | state_get (st : dnet_net_state)
  /-- A call `dnet_state_put(st)`: one reference to the observer is released. -/
  | state_put (st : dnet_net_state)
  /-- A call `dnet_send_reply(st, cmd, attr, data, size, more)`. -/
  | send_reply (st : dnet_net_state) (cmd : dnet_cmd) (attr : dnet_attr)
      (data : Option dnet_io_notification) (size : Nat) (more : Nat)
deriving DecidableEq, Repr

/-- The library calls and sizes that `notify.c` uses without defining them. -/
structure Externals where
  /-- Value of `sizeof(struct dnet_io_attr)`. -/
  sizeof_dnet_io_attr : Nat
  /-- Value of `sizeof(struct dnet_history_entry)`. -/
  sizeof_dnet_history_entry : Nat
  /-- Value of `sizeof(struct dnet_io_notification)`. -/
  sizeof_dnet_io_notification : Nat
  /-- Byte-order conversion `dnet_convert_io_attr`. -/
  dnet_convert_io_attr : dnet_io_attr → dnet_io_attr
  /-- Return value of `dnet_send_reply` for the given observer and command. -/
  dnet_send_reply : dnet_net_state → dnet_cmd → Int

/-- Comparison of two identifiers, `dnet_id_cmp`: unsigned bytewise
lexicographic order, 0 when equal. -/
def dnet_id_cmp : List Nat → List Nat → Int
  | [], [] => 0
  | [], _ :: _ => -1
  | _ :: _, [] => 1
  | a :: as, b :: bs =>
    if a < b then -1 else if b < a then 1 else dnet_id_cmp as bs

/-- The `i`-th 32-bit word of an identifier, `((unsigned int *)id)[i]`, read
in little-endian byte order. -/
def int_id (id : List Nat) (i : Nat) : Nat :=
  (id.getD (4 * i) 0 + 256 * id.getD (4 * i + 1) 0 + 65536 * id.getD (4 * i + 2) 0
    + 16777216 * id.getD (4 * i + 3) 0) % 2 ^ 32

/-- The loop `for (i=0; i<DNET_ID_SIZE / 4; ++i) hash ^= int_id[i];` run from
word `i` for `k` more words. -/
def dnet_notify_hash_loop (id : List Nat) : Nat → Nat → Nat → Nat
  | 0, _, hash => hash
  | k + 1, i, hash => dnet_notify_hash_loop id k (i + 1) (hash ^^^ int_id id i)

/-- Bucket index of an identifier, `dnet_notify_hash`, for a bucket count
`hash_size > 0`. For `hash_size = 0` the statement `hash %= hash_size` of the
code divides by zero and the call does not return; every statement below
that reads a bucket index is made for `0 < hash_size`. -/
def dnet_notify_hash (id : List Nat) (hash_size : Nat) : Nat :=
  dnet_notify_hash_loop id (DNET_ID_SIZE / 4) 0 0xbb40e64d % hash_size

/-- The notification body built by `dnet_update_notify` before the bucket is
scanned (`not.io` and the three address fields taken from the node). -/
def build_notification (x : Externals) (n : dnet_node) (io : dnet_io_attr)
    (h : dnet_history_entry) : dnet_io_notification :=
  let io1 : dnet_io_attr :=
    if io.size = x.sizeof_dnet_history_entry then
      x.dnet_convert_io_attr
        { id := h.id, origin := io.origin, size := h.size, offset := h.offset,
          flags := io.flags }
    else
      x.dnet_convert_io_attr io
  { addr := { sock_type := n.sock_type, family := n.family, proto := n.proto, addr := 0 },
    io := io1 }

/-- The loop `list_for_each_entry(nt, &b->notify_list, notify_entry)` of
`dnet_update_notify`: one `dnet_send_reply` per entry whose identifier compares
equal to `cmd->id`. -/
def dnet_update_notify_scan (x : Externals) (st : dnet_net_state) (cmd : dnet_cmd)
    (a : dnet_attr) (notif : dnet_io_notification) :
    List dnet_notify_entry → List Effect
  | [] => []
  | nt :: rest =>
    if dnet_id_cmp cmd.id nt.cmd.id ≠ 0 then
      dnet_update_notify_scan x st cmd a notif rest
    else
      Effect.send_reply nt.state nt.cmd a
          (some { notif with addr := { notif.addr with addr := st.addr } })
          x.sizeof_dnet_io_notification 1
        :: dnet_update_notify_scan x st cmd a notif rest

/-- The function `dnet_update_notify(st, cmd, attr, data)`; `io` is `data` and
`h` the history entry behind it. The registry is only read, so the result is
the return value and the effects. -/
def dnet_update_notify (x : Externals) (n : dnet_node) (st : dnet_net_state)
    (cmd : dnet_cmd) (attr : dnet_attr) (io : dnet_io_attr) (h : dnet_history_entry) :
    Int × List Effect :=
  let hash := dnet_notify_hash cmd.id n.notify_hash_size
  let b := n.notify_hash.getD hash []
  if attr.size ≤ x.sizeof_dnet_io_attr then
    (0, [])
  else
    let notif := build_notification x n io h
    let a : dnet_attr := { cmd := DNET_CMD_NOTIFY, size := 0, flags := 0 }
    (0, dnet_update_notify_scan x st cmd a notif b)

/-- The function `dnet_notify_entry_destroy`: releases the observer reference
(the `free` of the entry itself leaves no trace in the model). -/
def dnet_notify_entry_destroy (e : dnet_notify_entry) : List Effect :=
  [Effect.state_put e.state]

/-- The function `dnet_notify_add(st, cmd)`; `malloc_ok` tells whether the
allocation of the entry succeeds. -/
def dnet_notify_add (n : dnet_node) (st : dnet_net_state) (cmd : dnet_cmd)
    ( malloc_ok : Bool) : Int × dnet_node × List Effect :=
  let hash := dnet_notify_hash cmd.id n.notify_hash_size
  let b := n.notify_hash.getD hash []
  if !malloc_ok then
    (-ENOMEM, n, [])
  else
    let e : dnet_notify_entry := { state := st, cmd := cmd }
    (0, { n with notify_hash := n.notify_hash.set hash (b ++ [e]) },
      [Effect.state_get st])

/-- The loop `list_for_each_entry_safe` of `dnet_notify_remove` over one
bucket, started with the value of `err` so far: result value, the bucket
afterwards, and the effects. -/
def dnet_notify_remove_scan (x : Externals) (cmd : dnet_cmd) (attr : dnet_attr) (err : Int) :
    List dnet_notify_entry → Int × List dnet_notify_entry × List Effect
  | [] => (err, [], [])
  | e :: rest =>
    if dnet_id_cmp e.cmd.id cmd.id ≠ 0 then
      let r := dnet_notify_remove_scan x cmd attr err rest
      (r.1, e :: r.2.1, r.2.2)
    else
      let ecmd : dnet_cmd := { e.cmd with flags := 0 }
      (x.dnet_send_reply e.state ecmd, rest,
        Effect.send_reply e.state ecmd attr none 0 0
          :: dnet_notify_entry_destroy { e with cmd := ecmd })

/-- The function `dnet_notify_remove(st, cmd, attr)`. -/
def dnet_notify_remove (x : Externals) (n : dnet_node) (_st : dnet_net_state)
    (cmd : dnet_cmd) (attr : dnet_attr) : Int × dnet_node × List Effect :=
  let hash := dnet_notify_hash cmd.id n.notify_hash_size
  let b := n.notify_hash.getD hash []
  let r := dnet_notify_remove_scan x cmd attr (-ENOENT) b
  (r.1, { n with notify_hash := n.notify_hash.set hash r.2.1 }, r.2.2)

/-- A successful `dnet_notify_init`: `notify_hash_size` buckets, each with an
empty list. -/
def dnet_notify_init (n : dnet_node) : Int × dnet_node :=
  (0, { n with notify_hash := List.replicate n.notify_hash_size [] })

/-- The inner loop of `dnet_notify_exit` over one bucket: every entry is
unlinked and destroyed. -/
def dnet_notify_exit_bucket : List dnet_notify_entry → List Effect
  | [] => []
  | e :: rest => dnet_notify_entry_destroy e ++ dnet_notify_exit_bucket rest

/-- The function `dnet_notify_exit(n)`: the buckets `0 .. notify_hash_size - 1`
are emptied in turn. -/
def dnet_notify_exit (n : dnet_node) : dnet_node × List Effect :=
  let front := n.notify_hash.take n.notify_hash_size
  ({ n with notify_hash := front.map (fun _ => []) ++ n.notify_hash.drop n.notify_hash_size },
    (front.map dnet_notify_exit_bucket).flatten)

end Elliptics

namespace Elliptics

/-! ## Harness for sequences of registry calls -/

/-- One call into the registry. -/
inductive Op where
  | add (st : dnet_net_state) (cmd : dnet_cmd) ( malloc_ok : Bool)
  | remove (st : dnet_net_state) (cmd : dnet_cmd) (attr : dnet_attr)
  | publish (st : dnet_net_state) (cmd : dnet_cmd) (attr : dnet_attr) (io : dnet_io_attr)
      (h : dnet_history_entry)
deriving DecidableEq, Repr

/-- Executes one call: the node afterwards and the effects of the call. -/
def step (x : Externals) (n : dnet_node) : Op → dnet_node × List Effect
  | Op.add st cmd ok => (dnet_notify_add n st cmd ok).2
  | Op.remove st cmd attr => (dnet_notify_remove x n st cmd attr).2
  | Op.publish st cmd attr io h => (n, (dnet_update_notify x n st cmd attr io h).2)

/-- Executes a sequence of calls from left to right, collecting the effects. -/
def run (x : Externals) : dnet_node → List Op → dnet_node × List Effect
  | n, [] => (n, [])
  | n, op :: ops =>
    let r := step x n op
    let r2 := run x r.1 ops
    (r2.1, r.2 ++ r2.2)

/-- Number of references to observer `s` taken in a trace. -/
def gets (tr : List Effect) (s : dnet_net_state) : Nat :=
  tr.count (Effect.state_get s)

/-- Number of references to observer `s` released in a trace. -/
def puts (tr : List Effect) (s : dnet_net_state) : Nat :=
  tr.count (Effect.state_put s)

/-- Number of entries linked in some bucket whose observer is `s`. -/
def linked (n : dnet_node) (s : dnet_net_state) : Nat :=
  n.notify_hash.flatten.countP (fun e => e.state = s)

/-- The effect is a notification or reply sent to observer `s`. -/
def sent_to (s : dnet_net_state) : Effect → Bool
  | Effect.send_reply st _ _ _ _ _ => st = s
  | _ => false

/-- The call is a publish for identifier `id`. -/
def publish_on (id : List Nat) : Op → Bool
  | Op.publish _ cmd _ _ _ => cmd.id = id
  | _ => false

/-- Shape of a registry: at least one bucket, as many buckets as
`notify_hash_size` says, and every entry in the bucket of its identifier. -/
def registry_ok (n : dnet_node) : Prop :=
  0 < n.notify_hash_size ∧ n.notify_hash.length = n.notify_hash_size ∧
    ∀ i < n.notify_hash.length, ∀ e ∈ n.notify_hash.getD i [],
      dnet_notify_hash e.cmd.id n.notify_hash_size = i

instance (n : dnet_node) : Decidable (registry_ok n) := by
  unfold registry_ok; infer_instance

/-- The notification that `dnet_update_notify` sends to entry `nt`. -/
def notify_event (x : Externals) (n : dnet_node) (st : dnet_net_state)
    (io : dnet_io_attr) (h : dnet_history_entry) (nt : dnet_notify_entry) : Effect :=
  Effect.send_reply nt.state nt.cmd { cmd := DNET_CMD_NOTIFY, size := 0, flags := 0 }
    (some { build_notification x n io h with
      addr := { (build_notification x n io h).addr with addr := st.addr } })
    x.sizeof_dnet_io_notification 1

end Elliptics

namespace Elliptics

/-- The bookkeeping kept by every call: the bucket array matches the bucket
count, and each observer has as many outstanding references as linked
entries. -/
def refs_ok (n : dnet_node) (tr : List Effect) : Prop :=
  0 < n.notify_hash_size ∧ n.notify_hash.length = n.notify_hash_size ∧
    ∀ s, puts tr s + linked n s = gets tr s

/-! ## Concrete inputs used in examples -/

/-- Sizes of a 64-bit build and a transport that always succeeds. -/
def ex_externals : Externals where
  sizeof_dnet_io_attr := 152
  sizeof_dnet_history_entry := 96
  sizeof_dnet_io_notification := 192
  dnet_convert_io_attr := fun a => a
  dnet_send_reply := fun _ _ => 0

/-- The same build with a transport whose sends fail with `-ENOMEM`. -/
def ex_externals_failing : Externals :=
  { ex_externals with dnet_send_reply := fun _ _ => -ENOMEM }

/-- The all-zero identifier. -/
def ex_id : List Nat := List.replicate 64 0

/-- A command carrying `ex_id`. -/
def ex_cmd : dnet_cmd := { id := ex_id, flags := 1, status := 0, trans := 5, size := 0 }

/-- First observer. -/
def ex_stA : dnet_net_state := { handle := 1, addr := 101 }

/-- Second observer. -/
def ex_stB : dnet_net_state := { handle := 2, addr := 102 }

/-- A registry with one bucket holding a subscription of each observer on
`ex_id`, the one of `ex_stA` first. -/
def ex_node : dnet_node :=
  { notify_hash_size := 1,
    notify_hash := [[{ cmd := ex_cmd, state := ex_stA }, { cmd := ex_cmd, state := ex_stB }]],
    sock_type := 1, family := 2, proto := 6 }

/-- An empty registry with four buckets. -/
def ex_node_empty : dnet_node :=
  { notify_hash_size := 4, notify_hash := [[], [], [], []],
    sock_type := 1, family := 2, proto := 6 }

/-- An I/O header announcing eight bytes of data. -/
def ex_io : dnet_io_attr := { origin := ex_id, id := ex_id, offset := 0, size := 8, flags := 0 }

/-- A history entry. -/
def ex_history : dnet_history_entry := { id := ex_id, offset := 0, size := 8 }

end Elliptics

namespace Elliptics

/-! ### The hash in closed form, and `dnet_notify_init` with its failure paths -/

/-- The 32-bit words of an identifier as the specification speaks of them:
the bytes of the identifier taken four at a time, each group of four read as
one number, least significant byte first (the byte order of the machines the
code is built for). The definition works on the bytes themselves and does not
go through `int_id`. -/
def notify_hash_words : List Nat → List Nat
  | a :: b :: c :: d :: rest => (a + 256 * (b + 256 * (c + 256 * d))) :: notify_hash_words rest
  | _ => []

/-- The hash as the specification words it: the seed XOR-ed with every word of
the identifier, reduced modulo the number of buckets. -/
def notify_hash_xor (id : List Nat) (N : Nat) : Nat :=
  (notify_hash_words id).foldl (fun acc w => acc ^^^ w) 0xbb40e64d % N

/-- An identifier of `DNET_ID_SIZE` bytes: every element is the value of an
`unsigned char`. -/
def is_id (id : List Nat) : Prop :=
  id.length = DNET_ID_SIZE ∧ ∀ b ∈ id, b < 256

instance (id : List Nat) : Decidable (is_id id) := by
  unfold is_id; infer_instance

/-- An identifier whose first word is `0x04030201` and whose last byte is
`0x80`. -/
def ex_id_mixed : List Nat := [1, 2, 3, 4] ++ List.replicate 59 0 ++ [128]

/-- A command carrying `ex_id_mixed`. -/
def ex_cmd_mixed : dnet_cmd :=
  { id := ex_id_mixed, flags := 0, status := 0, trans := 6, size := 0 }

/-- The function `dnet_notify_init(n)` with its two failure paths.
`malloc_ok` tells whether the bucket array can be allocated and
`rwlock_init i` is the value `pthread_rwlock_init` returns for bucket `i`.
On a lock failure at bucket `i` the code stores `i` in `notify_hash_size`,
destroys the locks made so far and frees the array. -/
def dnet_notify_init_full (n : dnet_node) ( malloc_ok : Bool) (rwlock_init : Nat → Int) :
    Int × dnet_node :=
  if !malloc_ok then
    (-ENOMEM, { n with notify_hash := [] })
  else
    match (List.range n.notify_hash_size).find? (fun i => rwlock_init i ≠ 0) with
    | some i => (-(rwlock_init i), { n with notify_hash_size := i, notify_hash := [] })
    | none => (0, { n with notify_hash := List.replicate n.notify_hash_size [] })

/-- A lock initialiser that fails with `EINVAL` at bucket 2. -/
def ex_rwlock_fails_at_2 : Nat → Int := fun i => if i = 2 then 22 else 0

/-- Three calls used as an example: a subscription, a publish and a removal. -/
def ex_ops : List Op :=
  [Op.add ex_stA ex_cmd true,
   Op.publish ex_stB ex_cmd { size := 1000, cmd := 0, flags := 0 } ex_io ex_history,
   Op.remove ex_stA ex_cmd { size := 0, cmd := 0, flags := 0 }]

end Elliptics

namespace Elliptics

/-! ### Requests for notifications (`dnet_request_notification`, `dnet_drop_notification`) -/

/-- The fields of `struct dnet_trans_control` that `notify.c` fills in after
clearing the structure; `complete` and `priv` are the callback and its
argument, by handle, with `none` for `NULL`. -/
structure dnet_trans_control where
  id : List Nat
  cmd : Nat
  complete : Option Nat
  priv : Option Nat
  aflags : Nat
  cflags : Nat
deriving DecidableEq, Repr

/-- What the request functions use and `notify.c` does not define: the flag
`DNET_FLAGS_NEED_ACK` and the value `dnet_trans_alloc_send(n, &ctl)`
returns. -/
structure TransExternals where
  DNET_FLAGS_NEED_ACK : Nat
  dnet_trans_alloc_send : dnet_trans_control → Int

/-- The function `dnet_request_notification_raw(n, id, drop, complete, priv)`:
the return value and the transaction controls handed to
`dnet_trans_alloc_send`, in program order. -/
def dnet_request_notification_raw (x : TransExternals) (id : List Nat) (drop : Nat)
    (complete priv : Option Nat) : Int × List dnet_trans_control :=
  let ctl : dnet_trans_control :=
    { id := id.take DNET_ID_SIZE, cmd := DNET_CMD_NOTIFY, complete := complete, priv := priv,
      aflags := drop, cflags := x.DNET_FLAGS_NEED_ACK }
  (x.dnet_trans_alloc_send ctl, [ctl])

/-- The function `dnet_request_notification(n, id, complete, priv)`; `id` and
`complete` are `none` for `NULL`. -/
def dnet_request_notification (x : TransExternals) (id : Option (List Nat))
    (complete priv : Option Nat) : Int × List dnet_trans_control :=
  match complete, id with
  | some c, some i => dnet_request_notification_raw x i 0 (some c) priv
  | _, _ => (-EINVAL, [])

/-- The function `dnet_drop_notification(n, id)`. -/
def dnet_drop_notification (x : TransExternals) (id : Option (List Nat)) :
    Int × List dnet_trans_control :=
  match id with
  | none => (-EINVAL, [])
  | some i => dnet_request_notification_raw x i 1 none none

/-- A build in which `DNET_FLAGS_NEED_ACK` is bit 0 and every transaction is
sent. -/
def ex_trans_externals : TransExternals where
  DNET_FLAGS_NEED_ACK := 1
  dnet_trans_alloc_send := fun _ => 0

end Elliptics
namespace Elliptics

/-! ### The calls on the bucket locks

The three functions of the registry that work on a bucket are embedded a
second time, now as the sequence of what they do in program order: the calls
on `notify_lock` of a bucket, the changes of the list of a bucket, and the
effects on the outside. -/

/-- A call on a readers-writer lock: `pthread_rwlock_rdlock`,
`pthread_rwlock_wrlock` or `pthread_rwlock_unlock`. -/
inductive LockCall where
  | rdlock
  | wrlock
  | unlock
deriving DecidableEq, Repr

/-- One step of a registry function. `lock c i` is the call `c` on
`n->notify_hash[i].notify_lock`; `list_add_tail i e` and `list_del i e` link
and unlink entry `e` in the list of bucket `i`; `effect` is a call that
leaves the registry. -/
inductive Event where
  | lock (call : LockCall) (bucket : Nat)
  | list_add_tail (bucket : Nat) (e : dnet_notify_entry)
  | list_del (bucket : Nat) (e : dnet_notify_entry)
  | effect (e : Effect)
deriving DecidableEq, Repr

/-- The function `dnet_update_notify` with its steps: the size guard returns
before any lock is touched; otherwise the bucket is scanned between
`pthread_rwlock_rdlock` and `pthread_rwlock_unlock`. -/
def dnet_update_notify_events (x : Externals) (n : dnet_node) (st : dnet_net_state)
    (cmd : dnet_cmd) (attr : dnet_attr) (io : dnet_io_attr) (h : dnet_history_entry) :
    Int × List Event :=
  let hash := dnet_notify_hash cmd.id n.notify_hash_size
  let b := n.notify_hash.getD hash []
  if attr.size ≤ x.sizeof_dnet_io_attr then
    (0, [])
  else
    let notif := build_notification x n io h
    let a : dnet_attr := { cmd := DNET_CMD_NOTIFY, size := 0, flags := 0 }
    (0, Event.lock LockCall.rdlock hash
          :: (dnet_update_notify_scan x st cmd a notif b).map Event.effect
          ++ [Event.lock LockCall.unlock hash])

/-- The function `dnet_notify_add` with its steps: a failed allocation
returns before any lock is touched; otherwise the reference is taken, and the
entry is linked between `pthread_rwlock_wrlock` and `pthread_rwlock_unlock`. -/
def dnet_notify_add_events (n : dnet_node) (st : dnet_net_state) (cmd : dnet_cmd)
    ( malloc_ok : Bool) : Int × dnet_node × List Event :=
  let hash := dnet_notify_hash cmd.id n.notify_hash_size
  let b := n.notify_hash.getD hash []
  if !malloc_ok then
    (-ENOMEM, n, [])
  else
    let e : dnet_notify_entry := { state := st, cmd := cmd }
    (0, { n with notify_hash := n.notify_hash.set hash (b ++ [e]) },
      [Event.effect (Effect.state_get st), Event.lock LockCall.wrlock hash,
       Event.list_add_tail hash e, Event.lock LockCall.unlock hash])

/-- The loop of `dnet_notify_remove` over the bucket `hash` with its steps:
for the first matching entry the reply is sent, the entry is unlinked and
destroyed, and `break` leaves the loop. -/
def dnet_notify_remove_scan_events (x : Externals) (cmd : dnet_cmd) (attr : dnet_attr)
    (hash : Nat) (err : Int) :
    List dnet_notify_entry → Int × List dnet_notify_entry × List Event
  | [] => (err, [], [])
  | e :: rest =>
    if dnet_id_cmp e.cmd.id cmd.id ≠ 0 then
      let r := dnet_notify_remove_scan_events x cmd attr hash err rest
      (r.1, e :: r.2.1, r.2.2)
    else
      let ecmd : dnet_cmd := { e.cmd with flags := 0 }
      (x.dnet_send_reply e.state ecmd, rest,
        Event.effect (Effect.send_reply e.state ecmd attr none 0 0)
          :: Event.list_del hash { e with cmd := ecmd }
          :: (dnet_notify_entry_destroy { e with cmd := ecmd }).map Event.effect)

/-- The function `dnet_notify_remove` with its steps: the loop runs between
`pthread_rwlock_wrlock` and `pthread_rwlock_unlock`, which is reached from
the `break` as well as from the end of the list. -/
def dnet_notify_remove_events (x : Externals) (n : dnet_node) (_st : dnet_net_state)
    (cmd : dnet_cmd) (attr : dnet_attr) : Int × dnet_node × List Event :=
  let hash := dnet_notify_hash cmd.id n.notify_hash_size
  let b := n.notify_hash.getD hash []
  let r := dnet_notify_remove_scan_events x cmd attr hash (-ENOENT) b
  (r.1, { n with notify_hash := n.notify_hash.set hash r.2.1 },
    Event.lock LockCall.wrlock hash :: r.2.2 ++ [Event.lock LockCall.unlock hash])

/-- The calls on bucket locks among the steps, in order, each with the index
of its bucket. -/
def lock_calls : List Event → List (LockCall × Nat)
  | [] => []
  | Event.lock c i :: rest => (c, i) :: lock_calls rest
  | _ :: rest => lock_calls rest

/-- The effects on the outside among the steps, in order. -/
def effects_of : List Event → List Effect
  | [] => []
  | Event.effect e :: rest => e :: effects_of rest
  | _ :: rest => effects_of rest

/-- The step is not a call on a lock. -/
def no_lock_step : Event → Bool
  | Event.lock _ _ => false
  | _ => true

/-- The exclusion rule of a readers-writer lock (`pthread_rwlock` of POSIX):
while a thread holds the lock that it took by the call `held`, a thread that
makes the call `wanted` is let in only when both took it for reading. -/
def rwlock_admits (held wanted : LockCall) : Bool :=
  match held, wanted with
  | LockCall.rdlock, LockCall.rdlock => true
  | _, _ => false

end Elliptics

namespace Elliptics

/-! ## Part 2. `library/contrib/bsd/merge.c`

The sort works on two buffers of `nmemb` records each: `list1` (at first the
caller's array `base`) and `list2` (at first the caller's scratch memory).
A pointer into a buffer is modelled by the index of the record it points to,
and a count of bytes that is a whole number of records by that number.
The run list that the C code threads through the buffer that is not being read
(`*DNET_EVAL(p) = q`) is kept in a table from record index to record index
next to the records of that buffer; how the pointer bytes share the memory of
the records is not part of the model. Records are exchanged and copied whole;
the one place where the C code can fail to copy a whole record, the `int`-wise
copy macros, is modelled with the record size. A result `none` means that the
call does not return. The sizes are those of a 64-bit build, and the byte size
of a record is taken to fit the `int` variables that `setup` and
`insertionsort` keep it in. -/

/-- Best choice for natural merge cut-off (`DNET_THRESHOLD`). -/
def DNET_THRESHOLD : Int := 16

/-- Value of `sizeof(int)` (`DNET_ISIZE`). -/
def DNET_ISIZE : Nat := 4

/-- Value of `sizeof(u_char *)` on a 64-bit build (`DNET_PSIZE`). -/
def DNET_PSIZE : Nat := 8

/-- Number of values of `size_t` on a 64-bit build. -/
def SIZE_T_MOD : Nat := 2 ^ 64

/-- A value of C type `int` after an arithmetic step, wrapped into 32 bits. -/
def wrap_int (v : Int) : Int := (v + 2 ^ 31) % 2 ^ 32 - 2 ^ 31

/-- One buffer: its records and the run links stored in it. -/
structure Buf (α : Type) where
  data : List α
  link : Nat → Nat

/-- Reads the link stored at the head of the run that starts at record `p`,
`*DNET_EVAL(p)`. -/
def Buf.next {α : Type} (b : Buf α) (p : Nat) : Nat := b.link p

/-- Stores a link at the head of the run that starts at record `p`,
`*DNET_EVAL(p) = q`. -/
def Buf.set_next {α : Type} (b : Buf α) (p q : Nat) : Buf α :=
  { b with link := fun k => if k = p then q else b.link k }

/-- The record at index `i`. -/
def rd {α : Type} [Inhabited α] (l : List α) (i : Nat) : α := l.getD i default

/-- The macro `swap(a, b)`: exchanges the records at `a` and `b` byte by
byte. -/
def swap {α : Type} [Inhabited α] (l : List α) (a b : Nat) : List α :=
  (l.set a (rd l b)).set b (rd l a)

/-- The loop of the macro `reverse(bot, top)`: exchanges the records at `bot`
and `s`, moves `bot` up and `s` down one record, and repeats while
`bot < s`. -/
def reverse_loop {α : Type} [Inhabited α] : Nat → List α → Nat → Nat → List α
  | 0, l, _, _ => l
  | fuel + 1, l, bot, s =>
    let l1 := swap l bot s
    if bot + 1 < s + 1 - 2 then reverse_loop fuel l1 (bot + 1) (s + 1 - 2) else l1

/-- The macro `reverse(bot, top)`. -/
def reverse {α : Type} [Inhabited α] (l : List α) (bot top : Nat) : List α :=
  reverse_loop (top - bot + 1) l bot top

/-- The inner loop of `insertionsort`,
`for (t = ai; t > a; t -= size)`, entered with `t = a + k`. -/
def insertionsort_inner {α : Type} [Inhabited α] (cmp : α → α → Int) (a : Nat) :
    Nat → List α → List α
  | 0, l => l
  | k + 1, l =>
    let t := a + (k + 1)
    let u := t - 1
    if cmp (rd l u) (rd l t) ≤ 0 then l
    else insertionsort_inner cmp a k (swap l u t)

/-- The outer loop of `insertionsort`,
`for (ai = a+size; --n >= 1; ai += size)`, with `m` iterations left. -/
def insertionsort_outer {α : Type} [Inhabited α] (cmp : α → α → Int) (a : Nat) :
    Nat → Nat → List α → List α
  | 0, _, l => l
  | m + 1, ai, l => insertionsort_outer cmp a m (ai + 1) (insertionsort_inner cmp a (ai - a) l)

/-- The function `insertionsort(a, n, size, cmp)` on the `n >= 1` records that
start at index `a`. -/
def insertionsort {α : Type} [Inhabited α] (cmp : α → α → Int) (l : List α) (a n : Nat) :
    List α :=
  insertionsort_outer cmp a (n - 1) (a + 1) l

/-- State of the first pass: the records of `list1`, the links of `list2`,
and the variables `f1`, `p2` and `sense`. -/
structure SetupState (α : Type) where
  list1 : List α
  list2 : Buf α
  f1 : Nat
  p2 : Nat
  sense : Bool

/-- The loop `for (f2 = f1 + size2; f2 < last; f2 += size2)` of `setup` that
finds pairs with the same sense: the final `f2` and `length`. -/
def setup_pairs {α : Type} [Inhabited α] (cmp : α → α → Int) (l : List α) (last : Nat)
    (sense : Bool) : Nat → Nat → Int → Nat × Int
  | 0, f2, length => (f2, length)
  | fuel + 1, f2, length =>
    if f2 < last then
      if (decide (cmp (rd l f2) (rd l (f2 + 1)) > 0)) != sense then (f2, length)
      else setup_pairs cmp l last sense fuel (f2 + 2) (wrap_int (length + 2))
    else (f2, length)

/-- The pairwise branch of `setup`,
`do { p2 = *EVAL(p2) = f1 + size2 ...; if (sense > 0) swap(f1, f1 + size); }
while ((f1 += size2) < f2)`. -/
def setup_pairwise {α : Type} [Inhabited α] (f2 : Nat) :
    Nat → SetupState α → SetupState α
  | 0, s => s
  | fuel + 1, s =>
    let list2 := s.list2.set_next s.p2 (s.f1 + 2)
    let list1 := if s.sense then swap s.list1 s.f1 (s.f1 + 1) else s.list1
    let s1 : SetupState α :=
      { s with list1 := list1, list2 := list2, p2 := s.f1 + 2, f1 := s.f1 + 2 }
    if s1.f1 < f2 then setup_pairwise f2 fuel s1 else s1

/-- The loop `for (f2 = f1 + size2; f2 < l2; f2 += size2)` of the natural
branch of `setup`: closes a run wherever two neighbouring pairs do not continue
in the current sense. Returns the state and the final `f2`. -/
def setup_natural {α : Type} [Inhabited α] (cmp : α → α → Int) (l2 : Nat) :
    Nat → Nat → SetupState α → SetupState α × Nat
  | 0, f2, s => (s, f2)
  | fuel + 1, f2, s =>
    if f2 < l2 then
      if (decide (cmp (rd s.list1 (f2 - 1)) (rd s.list1 f2) > 0)) != s.sense then
        let list2 := s.list2.set_next s.p2 f2
        let list1 := if s.sense then reverse s.list1 s.f1 (f2 - 1) else s.list1
        setup_natural cmp l2 fuel (f2 + 2)
          { s with list1 := list1, list2 := list2, p2 := f2, f1 := f2 }
      else setup_natural cmp l2 fuel (f2 + 2) s
    else (s, f2)

/-- The natural branch of `setup` (`else { l2 = f2; ... }`): the runs between
`f1` and `l2` are closed where the sense breaks, the last of them is closed at
`l2`, or joined with the sorted tail when it ends at `last` and the tail
continues it. -/
def setup_natural_branch {α : Type} [Inhabited α] (cmp : α → α → Int) (n last : Nat)
    (s : SetupState α) (l2 : Nat) : SetupState α :=
  let r2 := setup_natural cmp l2 (l2 - s.f1) (s.f1 + 2) s
  let s2 := r2.1
  let f2 := r2.2
  let list1 := if s2.sense then reverse s2.list1 s2.f1 (f2 - 1) else s2.list1
  if f2 < last ∨ cmp (rd list1 (f2 - 1)) (rd list1 f2) > 0 then
    { s2 with list1 := list1, f1 := f2, list2 := s2.list2.set_next s2.p2 f2, p2 := f2 }
  else
    { s2 with list1 := list1, f1 := f2, list2 := s2.list2.set_next s2.p2 n, p2 := n }

/-- One round of the main loop of `setup`, with the `sense = !sense` that
ends it. -/
def setup_round {α : Type} [Inhabited α] (cmp : α → α → Int) (n last : Nat)
    (s : SetupState α) : SetupState α :=
  let r := setup_pairs cmp s.list1 last s.sense (last - s.f1) (s.f1 + 2) 2
  let f2 := r.1
  let length := r.2
  let s1 : SetupState α :=
    if length < DNET_THRESHOLD then setup_pairwise f2 (f2 - s.f1) s
    else setup_natural_branch cmp n last s f2
  { s1 with sense := !s1.sense }

/-- The main loop of `setup`, `for (; f1 < last; sense = !sense)`, for `n`
records of which the last `n - last` have been sorted by insertion. -/
def setup_loop {α : Type} [Inhabited α] (cmp : α → α → Int) (n last : Nat) :
    Nat → SetupState α → SetupState α
  | 0, s => s
  | fuel + 1, s =>
    if s.f1 < last then setup_loop cmp n last fuel (setup_round cmp n last s) else s

/-- The function `setup(list1, list2, n, size, cmp)`, the optional hybrid
natural first pass: the records of `list1` and the buffer `list2`
afterwards. -/
def setup {α : Type} [Inhabited α] (cmp : α → α → Int) (list1 : List α) (list2 : Buf α)
    (n : Nat) : List α × Buf α :=
  if n ≤ 5 then
    (insertionsort cmp list1 0 n, list2.set_next 0 n)
  else
    let i := 4 + n % 2
    let list1 := insertionsort cmp list1 (n - i) i
    let last := n - i
    let list2 := list2.set_next last n
    let s := setup_loop cmp n last last
      { list1 := list1, list2 := list2, f1 := 0, p2 := 0,
        sense := decide (cmp (rd list1 0) (rd list1 1) > 0) }
    (s.list1, s.list2)

/-- The macro `DNET_ICOPY_LIST(src, dst, last)`: copies `int`s from `src` to
the output until `src` reaches `last`. The records `src .. last - 1` are
appended to the output when their bytes are a whole number of `int`s.
Otherwise the last `int` copied runs over `last`, which a model by whole
records cannot follow; the result is then `none`, as for the
`DNET_ICOPY_ELT` of the same record size that every pass with such a copy has
to execute. Returns the output and the new `src`. -/
def DNET_ICOPY_LIST {α : Type} [Inhabited α] (size : Nat) (l : List α) (src last : Nat)
    (out : List α) : Option (List α × Nat) :=
  if ((last - src) * size) % DNET_ISIZE = 0 then
    some (out ++ (l.drop src).take (last - src), last)
  else none

/-- The macro `DNET_ICOPY_ELT(src, dst, i)` entered with `i = size`: copies one
`int` and subtracts `DNET_ISIZE` from the `size_t` counter `i` until `i` is 0.
When `size` is a positive multiple of `DNET_ISIZE` exactly one record is
copied; otherwise `i` never becomes 0 (the number of values of `size_t` is a
multiple of `DNET_ISIZE`) and the loop does not end. Returns the output and the
new `src`. -/
def DNET_ICOPY_ELT {α : Type} [Inhabited α] (size : Nat) (l : List α) (src : Nat)
    (out : List α) : Option (List α × Nat) :=
  if size % DNET_ISIZE = 0 ∧ 0 < size then some (out ++ [rd l src], src + 1) else none

/-- Value of the `size_t` counter `i` of `DNET_ICOPY_ELT` after `k` rounds of
`i -= DNET_ISIZE`, when the macro is entered with `i = size`. -/
def icopy_elt_counter (size k : Nat) : Nat :=
  (size + k * (SIZE_T_MOD - DNET_ISIZE)) % SIZE_T_MOD

/-- The loop `while (t > b+size)` of `dnet_mergesort` (binary search), followed
by `COPY: b = t`. -/
def binary_search {α : Type} [Inhabited α] (cmp : α → α → Int) (l : List α) (q : α)
    (sense : Int) : Nat → Nat → Nat → Nat
  | 0, _, t => t
  | fuel + 1, b, t =>
    if t > b + 1 then
      let i := (t - b) / 2
      let p := b + i
      if cmp q (rd l p) ≤ sense then binary_search cmp l q sense fuel b p
      else binary_search cmp l q sense fuel p t
    else t

/-- The loop `FASTCASE: while (i > size)` of `dnet_mergesort`, followed by
`COPY: b = t`; `i` is counted in records. -/
def fastcase {α : Type} [Inhabited α] (cmp : α → α → Int) (l : List α) (q : α)
    (sense : Int) : Nat → Nat → Nat → Nat → Nat
  | 0, _, t, _ => t
  | fuel + 1, b, t, i =>
    if i > 1 then
      let i := i / 2
      let p := b + i
      if cmp q (rd l p) ≤ sense then fastcase cmp l q sense fuel b p i
      else fastcase cmp l q sense fuel p t i
    else t

/-- The loop `EXPONENTIAL: for (i = size; ; i <<= 1)` of `dnet_mergesort` with
the searches it leads to; `i` is counted in records. Returns the final `b` and
`big`. -/
def exponential_search {α : Type} [Inhabited α] (cmp : α → α → Int) (l : List α) (q : α)
    (sense : Int) : Nat → Nat → Nat → Nat → Bool → Nat × Bool
  | 0, _, t, _, big => (t, big)
  | fuel + 1, b, t, i, big =>
    let p := b + i
    if p ≥ t then
      let p := t - 1
      if p > b ∧ cmp q (rd l p) ≤ sense then (binary_search cmp l q sense (p - b) b p, big)
      else (binary_search cmp l q sense (t - p) p t, big)
    else if cmp q (rd l p) ≤ sense then
      (fastcase cmp l q sense i b p i, if i = 1 then false else big)
    else exponential_search cmp l q sense fuel p t (i * 2) big

/-- The loop `while ((b += size) < t && cmp(q, b) > sense)` of `dnet_mergesort`
with its counter `i`: the final `b`, and whether the sixth success made it
jump to `EXPONENTIAL`. -/
def linear_search {α : Type} [Inhabited α] (cmp : α → α → Int) (l : List α) (q : α)
    (sense : Int) (t : Nat) : Nat → Nat → Nat → Nat × Bool
  | 0, b, _ => (b, false)
  | fuel + 1, b, i =>
    if b + 1 < t ∧ cmp q (rd l (b + 1)) > sense then
      if i + 1 = 6 then (b + 1, true)
      else linear_search cmp l q sense t fuel (b + 1) (i + 1)
    else (b + 1, false)

/-- The search between `if (!big)` and `COPY` of `dnet_mergesort`: the final
`b` and `big`. On entry `i = 0`, as the copy of the previous record left
it. -/
def search {α : Type} [Inhabited α] (cmp : α → α → Int) (l : List α) (q : α)
    (sense : Int) (b t : Nat) (big : Bool) : Nat × Bool :=
  if !big then
    let r := linear_search cmp l q sense t (t - b) b 0
    if r.2 then exponential_search cmp l q sense (t - r.1 + 1) r.1 t 1 true
    else (r.1, big)
  else exponential_search cmp l q sense (t - b + 1) b t 1 big

/-- State of the merge of two neighbouring runs: the read positions `f1` and
`f2`, the flag `big` and the records written to `list2` so far. -/
structure MergeState (α : Type) where
  f1 : Nat
  f2 : Nat
  big : Bool
  out : List α

/-- The loop `while (f1 < l1 && f2 < l2)` of `dnet_mergesort`. -/
def merge_loop {α : Type} [Inhabited α] (cmp : α → α → Int) (size : Nat) (l : List α)
    (l1 l2 : Nat) : Nat → MergeState α → Option (MergeState α)
  | 0, s => if s.f1 < l1 ∧ s.f2 < l2 then none else some s
  | fuel + 1, s =>
    if s.f1 < l1 ∧ s.f2 < l2 then
      if cmp (rd l s.f1) (rd l s.f2) ≤ 0 then
        let r := search cmp l (rd l s.f2) (-1) s.f1 l1 s.big
        match DNET_ICOPY_LIST size l s.f1 r.1 s.out with
        | none => none
        | some c1 =>
          match DNET_ICOPY_ELT size l s.f2 c1.1 with
          | none => none
          | some c2 =>
            merge_loop cmp size l l1 l2 fuel { f1 := c1.2, f2 := c2.2, big := r.2, out := c2.1 }
      else
        let r := search cmp l (rd l s.f1) 0 s.f2 l2 s.big
        match DNET_ICOPY_LIST size l s.f2 r.1 s.out with
        | none => none
        | some c1 =>
          match DNET_ICOPY_ELT size l s.f1 c1.1 with
          | none => none
          | some c2 =>
            merge_loop cmp size l l1 l2 fuel { f1 := c2.2, f2 := c1.2, big := r.2, out := c2.1 }
    else some s

/-- The copy of what is left of one run after the merge loop,
`if (f2 < l2) ... else if (f1 < l1) ...`. -/
def merge_rest {α : Type} [Inhabited α] (size : Nat) (l : List α) (l1 l2 : Nat)
    (s : MergeState α) : Option (List α) :=
  if s.f2 < l2 then (DNET_ICOPY_LIST size l s.f2 l2 s.out).map (fun c => c.1)
  else if s.f1 < l1 then (DNET_ICOPY_LIST size l s.f1 l1 s.out).map (fun c => c.1)
  else some s.out

/-- State of one pass over the run list: the cursor `p2` in the links of
`list2`, the end `l2` of the last pair, the place `p1` of the next link in
`list1`, the flag `big`, the records written to `list2`, and `list1`. -/
structure PassState (α : Type) where
  p2 : Nat
  l2 : Nat
  p1 : Nat
  big : Bool
  out : List α
  list1 : Buf α

/-- One round of the loop `for (tp2 = p2 = list2; p2 != last; p1 = EVAL(l2))`
of `dnet_mergesort`: the next two runs of `list1` (or the last one alone) are
merged into `list2`, and the link of the merged run is stored in `list1`. -/
def pass_round {α : Type} [Inhabited α] (cmp : α → α → Int) (size : Nat) (list2 : Buf α)
    (last : Nat) (s : PassState α) : Option (PassState α) :=
  let p2 := list2.next s.p2
  let f1 := s.l2
  let l1 := p2
  let f2 := l1
  let p2 := if p2 ≠ last then list2.next p2 else p2
  let l2 := p2
  match merge_loop cmp size s.list1.data l1 l2 ((l1 - f1) + (l2 - f2))
      { f1 := f1, f2 := f2, big := s.big, out := s.out } with
  | none => none
  | some m =>
    match merge_rest size s.list1.data l1 l2 m with
    | none => none
    | some out =>
      some { p2 := p2, l2 := l2, p1 := l2, big := m.big, out := out,
             list1 := s.list1.set_next s.p1 l2 }

/-- The loop `for (tp2 = p2 = list2; p2 != last; p1 = EVAL(l2))` of
`dnet_mergesort`: merges the runs of `list1` two by two into `list2`. -/
def pass_loop {α : Type} [Inhabited α] (cmp : α → α → Int) (size : Nat) (list2 : Buf α)
    (last : Nat) : Nat → PassState α → Option (PassState α)
  | 0, s => if s.p2 ≠ last then none else some s
  | fuel + 1, s =>
    if s.p2 ≠ last then
      match pass_round cmp size list2 last s with
      | none => none
      | some s1 => pass_loop cmp size list2 last fuel s1
    else some s

/-- State of the sort between passes: the two buffers, whether `list1` is the
caller's array `base`, and the flag `big`. -/
structure SortState (α : Type) where
  list1 : Buf α
  list2 : Buf α
  list1_is_base : Bool
  big : Bool

/-- The loop `while (*DNET_EVAL(list2) != last)` of `dnet_mergesort`: one pass,
then `list1` and `list2` change roles. -/
def sort_loop {α : Type} [Inhabited α] (cmp : α → α → Int) (size nmemb : Nat) :
    Nat → SortState α → Option (SortState α)
  | 0, s => if s.list2.next 0 ≠ nmemb then none else some s
  | fuel + 1, s =>
    if s.list2.next 0 ≠ nmemb then
      match pass_loop cmp size s.list2 nmemb nmemb
          { p2 := 0, l2 := 0, p1 := 0, big := s.big, out := [], list1 := s.list1 } with
      | none => none
      | some p =>
        sort_loop cmp size nmemb fuel
          { list1 := { s.list2 with data := p.out }, list2 := p.list1,
            list1_is_base := !s.list1_is_base, big := p.big }
    else some s

/-- The function `dnet_mergesort(base, nmemb, size, cmp, list2, list2_sz)` for
an array `base` of `nmemb = base.length` records of `size` bytes: the return
value and the records of `base` afterwards, or `none` when the call does not
return. The scratch memory is not read before it is written, so its contents
on entry are not an argument. -/
def dnet_mergesort {α : Type} [Inhabited α] (base : List α) (size : Nat)
    (cmp : α → α → Int) (list2_sz : Nat) : Option (Int × List α) :=
  let nmemb := base.length
  if size < DNET_PSIZE / 2 then some (-EINVAL, base)
  else if nmemb = 0 then some (0, base)
  else if list2_sz < (nmemb * size + DNET_PSIZE) % SIZE_T_MOD then some (-EINVAL, base)
  else
    let r := setup cmp base { data := [], link := fun _ => 0 } nmemb
    match sort_loop cmp size nmemb nmemb
        { list1 := { data := r.1, link := fun _ => 0 }, list2 := r.2,
          list1_is_base := true, big := false } with
    | none => none
    | some s =>
      if !s.list1_is_base then some (0, s.list1.data) else some (0, s.list1.data)

end Elliptics

namespace Elliptics

/-! ## Vocabulary of the sort's specification -/

/-- The comparator is a total preorder, in the form `qsort` asks for: the sign
of `cmp b a` is the opposite of the sign of `cmp a b`, and `cmp a b <= 0` is
transitive. -/
structure TotalPreorder {α : Type} (cmp : α → α → Int) : Prop where
  sign_symm : ∀ a b, cmp a b < 0 ↔ 0 < cmp b a
  le_trans : ∀ a b c, cmp a b ≤ 0 → cmp b c ≤ 0 → cmp a c ≤ 0

/-- The order test `cmp a b <= 0` as a boolean. -/
def cmp_le {α : Type} (cmp : α → α → Int) (a b : α) : Bool := decide (cmp a b ≤ 0)

/-- Sorted output: `cmp(out[i], out[j]) <= 0` for all `i < j`. -/
def SortedBy {α : Type} (cmp : α → α → Int) (l : List α) : Prop :=
  l.Pairwise (fun a b => cmp a b ≤ 0)

/-- The records of `out` that compare equal to `a` are those of `inp`, in the
same order: records that compare equal keep their relative order. -/
def StableBy {α : Type} (cmp : α → α → Int) (inp out : List α) : Prop :=
  ∀ a, out.filter (fun x => decide (cmp a x = 0)) = inp.filter (fun x => decide (cmp a x = 0))

/-- A rearrangement that keeps records which compare equal in their order. -/
def StablePerm {α : Type} (cmp : α → α → Int) (inp out : List α) : Prop :=
  out.Perm inp ∧ StableBy cmp inp out

/-- The records `i .. j - 1` of a buffer. -/
def seg {α : Type} (l : List α) (i j : Nat) : List α := (l.drop i).take (j - i)

/-- The links in `link`, followed from record `start`, delimit the runs `rs`
one after the other and end at record `fin`; no run is empty. -/
def RunChain {α : Type} (link : Nat → Nat) : Nat → List (List α) → Nat → Prop
  | start, [], fin => start = fin
  | start, r :: rs, fin =>
    r ≠ [] ∧ link start = start + r.length ∧ RunChain link (start + r.length) rs fin

/-- The runs after one pass: neighbouring runs merged two by two, a last odd
run kept. -/
def merged_runs {α : Type} (cmp : α → α → Int) : List (List α) → List (List α)
  | r1 :: r2 :: rest => List.merge r1 r2 (cmp_le cmp) :: merged_runs cmp rest
  | [r] => [r]
  | [] => []

/-- The run list of a buffer is in order: the links delimit runs that make up
the records `data`, and every run is sorted. -/
def RunsOK {α : Type} (cmp : α → α → Int) (link : Nat → Nat) (data : List α) : Prop :=
  ∃ R : List (List α), RunChain link 0 R data.length ∧ R.flatten = data ∧
    ∀ r ∈ R, SortedBy cmp r

/-- Invariant of the main loop of `setup` while runs are still being closed:
`rs` are the runs closed so far, which cover the records in front of `f1`; the
records from `f1` on are still those of `l0`, the array after the insertion
sort of its tail. -/
structure SetupInv {α : Type} (cmp : α → α → Int) (l0 : List α) (last : Nat)
    (s : SetupState α) (rs : List (List α)) : Prop where
  data : s.list1 = rs.flatten ++ seg l0 s.f1 l0.length
  len : rs.flatten.length = s.f1
  sorted : ∀ r ∈ rs, SortedBy cmp r
  chain : RunChain s.list2.link 0 rs s.f1
  p2 : s.p2 = s.f1
  tail : s.list2.link last = l0.length
  bound : s.f1 ≤ last
  even : (last - s.f1) % 2 = 0
  stable : StablePerm cmp l0 s.list1

/-- What `setup` has achieved when its main loop ends. -/
def SetupDone {α : Type} (cmp : α → α → Int) (l0 : List α) (s : SetupState α) : Prop :=
  RunsOK cmp s.list2.link s.list1 ∧ StablePerm cmp l0 s.list1

/-- Comparison of records `(key, tag)` by key. -/
def ex_cmp (a b : Nat × Nat) : Int := (a.1 : Int) - (b.1 : Int)

/-- Eight records, some with equal keys; the tag is the position. -/
def ex_records : List (Nat × Nat) :=
  [(3, 0), (1, 1), (2, 2), (1, 3), (3, 4), (0, 5), (2, 6), (1, 7)]

/-- Six records. -/
def ex_records6 : List (Nat × Nat) :=
  [(3, 0), (1, 1), (2, 2), (1, 3), (3, 4), (0, 5)]

end Elliptics

namespace Elliptics

/-- Sixteen records in ascending order of their keys. -/
def ex_records16 : List (Nat × Nat) :=
  [(0, 0), (1, 1), (2, 2), (3, 3), (4, 4), (5, 5), (6, 6), (7, 7),
   (8, 8), (9, 9), (10, 10), (11, 11), (12, 12), (13, 13), (14, 14), (15, 15)]

/-- The buffers of `dnet_mergesort` on `ex_records16` when `setup` has
returned: the state in which the merge passes start. -/
def ex_after_setup16 : SortState (Nat × Nat) :=
  { list1 := { data := (setup ex_cmp ex_records16 { data := [], link := fun _ => 0 } 16).1,
               link := fun _ => 0 },
    list2 := (setup ex_cmp ex_records16 { data := [], link := fun _ => 0 } 16).2,
    list1_is_base := true, big := false }

end Elliptics

namespace Elliptics

/-! ## Part 3. `cocaine/plugins/service.cpp`: completion of a bulk read

The types `key_name_map`, `sync_read_result` and `error_info` are declared
outside this file. A `key_name_map` is used only through `find`, so it is
taken as the function that `find` computes; a result entry is the pair of the
identifier in its command and the bytes of its file; an `error_info` that
tests true is its code and message. A `std::map<std::string, std::string>` is
represented by its lookup function. -/

/-- What the completion handler reads of one entry of a `sync_read_result`:
`entry.command()->id` and `entry.file().to_string()`. -/
structure read_result_entry where
  id : List Nat
  file : List Nat
deriving DecidableEq, Repr

/-- A `std::map<std::string, std::string>` seen through its lookup. -/
abbrev string_map : Type := String → Option (List Nat)

/-- The empty map. -/
def string_map_empty : string_map := fun _ => none

/-- The assignment `m[k] = v` of `std::map`: the value stored under `k`
becomes `v`, whether or not `k` was present. -/
def string_map_assign (m : string_map) (k : String) (v : List Nat) : string_map :=
  fun k2 => if k2 = k then some v else m k2

/-- What a handler does with its promise. -/
inductive PromiseEvent where
  | abort (code : Int) (message : String)
  | write (read_result : string_map)

/-- The loop of `on_bulk_read_completed` over the result entries, from index
0 upwards, started with the map built so far. -/
def bulk_read_loop (keys : List Nat → Option String) :
    List read_result_entry → string_map → string_map
  | [], read_result => read_result
  | entry :: rest, read_result =>
    match keys entry.id with
    | none => bulk_read_loop keys rest read_result
    | some name => bulk_read_loop keys rest (string_map_assign read_result name entry.file)

/-- The function `elliptics_service_t::on_bulk_read_completed(promise, keys,
result, error)`; `error` is `none` when the `error_info` tests false. -/
def on_bulk_read_completed (keys : List Nat → Option String)
    (result : List read_result_entry) (error : Option (Int × String)) : PromiseEvent :=
  match error with
  | some e => PromiseEvent.abort (-e.1) e.2
  | none => PromiseEvent.write (bulk_read_loop keys result string_map_empty)

/-- The bytes delivered under `name` by a handler: those of the map it wrote,
nothing when it aborted. -/
def PromiseEvent.lookup : PromiseEvent → String → Option (List Nat)
  | PromiseEvent.write m, name => m name
  | PromiseEvent.abort _ _, _ => none

/-- The bytes of the last entry of `result` whose identifier `keys` sends to
`name`, if there is one. -/
def last_bytes_for (keys : List Nat → Option String) (result : List read_result_entry)
    (name : String) : Option (List Nat) :=
  ((result.filter (fun e => keys e.id = some name)).getLast?).map (fun e => e.file)

/-- A second identifier: all bytes 1. -/
def ex_id1 : List Nat := List.replicate 64 1

/-- A map with two identifiers, named `a` and `b`. -/
def ex_keys : List Nat → Option String := fun id =>
  if id = ex_id then some "a" else if id = ex_id1 then some "b" else none

/-- Two entries for the same identifier with different bytes, and one entry
whose identifier is not in `ex_keys`. -/
def ex_result : List read_result_entry :=
  [{ id := ex_id, file := [1] }, { id := ex_id, file := [2] }, { id := [], file := [3] }]

/-- Entries with pairwise different identifiers, one of them not in `ex_keys`. -/
def ex_result_distinct : List read_result_entry :=
  [{ id := ex_id, file := [1] }, { id := ex_id1, file := [2] }, { id := [], file := [3] }]

end Elliptics

namespace Elliptics

/-! ## Part 4. `example/config.c`: the configuration reader

A C string is the list of its characters before the terminating NUL. The
read buffer is a list of characters in which the parser overwrites positions
with NUL; the string at a position of the buffer is read with `c_str`.
Functions of the C library and of other files of the project are fields of
`CfgExternals`. The file-scope variables of `config.c` are the fields of
`CfgGlobals`, which also carries the list of the callbacks invoked so far. -/

/-- The macro `DNET_CONF_COMMENT`. -/
def DNET_CONF_COMMENT : Char := '#'

/-- The macro `DNET_CONF_DELIMITER`. -/
def DNET_CONF_DELIMITER : Char := '='

/-- The NUL character. -/
def NUL : Char := Char.ofNat 0

/-- The predicate `isspace` of the C locale: space, `\t`, `\n`, `\v`, `\f`, `\r`. -/
def isspace (c : Char) : Bool :=
  c == ' ' || c == '\t' || c == '\n' || c == Char.ofNat 11 || c == Char.ofNat 12 || c == '\r'

/-- The C string that starts at the beginning of a buffer. -/
def c_str (buf : List Char) : List Char :=
  buf.takeWhile (fun c => c != NUL)

/-- The function `dnet_skip_line(line)`: `none` is `NULL`, `some s` is the
string at the address returned. -/
def dnet_skip_line : List Char → Option (List Char)
  | [] => none
  | c :: rest =>
    if c = DNET_CONF_COMMENT then none
    else if isspace c then dnet_skip_line rest
    else some (c :: rest)

/-- The two terminator checks of `dnet_parse_config` on the string `ptr`:
the buffer afterwards and the value of `len`. -/
def strip_terminator (ptr : List Char) : List Char × Nat :=
  let len := ptr.length
  let r1 : List Char × Nat :=
    if 1 < len ∧ (ptr.getD (len - 1) NUL = '\r' ∨ ptr.getD (len - 1) NUL = '\n') then
      (ptr.set (len - 1) NUL, len - 1)
    else (ptr, len)
  if 2 < r1.2 ∧ (r1.1.getD (r1.2 - 2) NUL = '\r' ∨ r1.1.getD (r1.2 - 2) NUL = '\n') then
    (r1.1.set (r1.2 - 2) NUL, r1.2 - 1)
  else r1

/-- The variables of the tokenizer loop: the buffer at `ptr`, and `key` and
`value` as offsets from `ptr` (`none` is `NULL`). -/
structure Tok where
  buf : List Char
  key : Option Nat
  value : Option Nat
deriving DecidableEq, Repr

/-- The loop `for (i=0; i<len; ++i)` of the tokenizer; the first argument is
`len - i`. The statements after the `if (!value) ... else ...` are never
reached and have no counterpart here. -/
def tokenize_loop : Nat → Nat → Tok → Tok
  | 0, _, t => t
  | k + 1, i, t =>
    if isspace (t.buf.getD i NUL) then
      tokenize_loop k (i + 1) (if t.key.isSome then { t with buf := t.buf.set i NUL } else t)
    else if t.key.isNone then
      tokenize_loop k (i + 1) { t with key := some i }
    else if t.value.isNone then
      if t.buf.getD i NUL = DNET_CONF_DELIMITER then
        tokenize_loop k (i + 1) { t with value := some 0, buf := t.buf.set i NUL }
      else if t.buf.getD i NUL = DNET_CONF_COMMENT then
        { t with key := none, value := none }
      else
        tokenize_loop k (i + 1) t
    else
      { t with value := some i }

/-- From the string returned by `dnet_skip_line` to the test
`if (!key || !value) continue;`: the key and value strings handed to the
lookup, or `none` when the line is passed over. -/
def tokenize (ptr : List Char) : Option (List Char × List Char) :=
  let s := strip_terminator ptr
  let t := tokenize_loop s.2 0 { buf := s.1, key := none, value := none }
  match t.key, t.value with
  | some k, some v => some (c_str (t.buf.drop k), c_str (t.buf.drop v))
  | _, _ => none

end Elliptics

namespace Elliptics

/-- The fields of `struct dnet_config` that `config.c` writes itself;
`addr` stands for what `dnet_parse_addr` stores, `log_private` is the log
file that was opened (by its path) and `log_is_common` tells that the `log`
callback is `dnet_common_log`. The structure is declared in
`elliptics/interface.h`, which is not among these files, so the types of its
numeric fields are not known here: a numeric field holds what
`CfgExternals.dnet_config_field` makes of the `unsigned long` assigned to
it. -/
structure dnet_config where
  max_pending : Nat
  io_thread_num : Nat
  log_mask : Nat
  wait_timeout : Nat
  resend_timeout_sec : Nat
  join : Nat
  id : List Nat
  addr : List Char
  log_private : Option (List Char)
  log_is_common : Bool
deriving DecidableEq, Repr

/-- A callback of a backend key table: from the private data of the backend,
the key and the value to the return value and the private data afterwards. -/
abbrev BackendCallback : Type := List Nat → List Char → List Char → Int × List Nat

/-- A registered backend (`struct dnet_config_backend`): `ent` is its key
table with `num` entries, `data` its private area of `size` bytes, and
`init` the value its `init` callback returns. -/
structure dnet_config_backend where
  name : String
  ent : List (String × BackendCallback)
  size : Nat
  data : List Nat
  init : List Nat → Int

/-- The callbacks of the root-level table: the static functions of `config.c`. -/
inductive RootCallback where
  | dnet_simple_set
  | dnet_set_id
  | dnet_set_addr
  | dnet_set_remote_addrs
  | dnet_set_transform_functions
  | dnet_set_backend
  | dnet_set_log
deriving DecidableEq, Repr

/-- The table `dnet_cfg_entries`. -/
def dnet_cfg_entries : List (String × RootCallback) :=
  [("max_pending_requests", RootCallback.dnet_simple_set),
   ("io_thread_num", RootCallback.dnet_simple_set),
   ("log_mask", RootCallback.dnet_simple_set),
   ("wait_timeout", RootCallback.dnet_simple_set),
   ("resend_timeout", RootCallback.dnet_simple_set),
   ("id", RootCallback.dnet_set_id),
   ("addr", RootCallback.dnet_set_addr),
   ("remote", RootCallback.dnet_set_remote_addrs),
   ("join", RootCallback.dnet_simple_set),
   ("transform", RootCallback.dnet_set_transform_functions),
   ("backend", RootCallback.dnet_set_backend),
   ("daemon", RootCallback.dnet_simple_set),
   ("log", RootCallback.dnet_set_log)]

/-- One invocation of a callback by the lookup loop: the backend that was
current (`none` at root level), the index of the entry in the current table,
the key and value strings passed, and the value returned. -/
structure CfgCall where
  backend : Option Nat
  entry : Nat
  key : List Char
  value : List Char
  err : Int
deriving DecidableEq, Repr

/-- The file-scope variables of `config.c`. `dnet_cur_cfg_entries` is `none`
while it points to `dnet_cfg_entries` and `some j` when it points to the key
table of registered backend `j`; `dnet_cfg_current_backend` is `none` for
`NULL`. `dnet_cfg_remotes` and `dnet_cfg_transform` are `none` for `NULL` and
otherwise the string in the block they point to; `remotes_freed` and
`transform_freed` tell that this block has been passed to `free` (the
pointer itself keeps its value). `dnet_daemon_mode` is an `int`. `calls`
lists the callbacks invoked so far. -/
structure CfgGlobals where
  dnet_cfg_state : dnet_config
  dnet_cfg_remotes : Option (List Char)
  remotes_freed : Bool
  dnet_cfg_transform : Option (List Char)
  transform_freed : Bool
  dnet_daemon_mode : Int
  dnet_cur_cfg_entries : Option Nat
  dnet_cfg_current_backend : Option Nat
  dnet_cfg_backend : List dnet_config_backend
  calls : List CfgCall

/-- Functions that `config.c` calls and does not define. `strtoul str` is
the `unsigned long` that `strtoul(str, NULL, 0)` returns;
`dnet_config_field f v` is the value that the member `f` of
`struct dnet_config` holds once the `unsigned long` `v` has been assigned to
it (the conversion to the type of the member). `fopen_errno path` is 0 when
`fopen(path, "a")` succeeds and the value of `errno` otherwise; `strdup_ok`
and `malloc_ok` tell whether an allocation succeeds. The last five describe
the steps of `dnet_parse_config` after the backend has been initialised. -/
structure CfgExternals where
  strtoul : List Char → Nat
  dnet_config_field : String → Nat → Nat
  dnet_parse_numeric_id : List Char → List Nat → Int × List Nat
  dnet_parse_addr : List Char → dnet_config → Int × dnet_config
  strdup_ok : List Char → Bool
  malloc_ok : Nat → Bool
  fopen_errno : List Char → Int
  dnet_node_create_ok : dnet_config → Bool
  dnet_common_add_remote_addr : dnet_config → Option (List Char) → Int
  dnet_common_add_transform : Option (List Char) → Int
  dnet_join : dnet_config → Int
  DNET_JOIN_NETWORK : Nat

/-- The value of an `int` after the assignment of the `unsigned long` `v`:
the low 32 bits of `v` read as a number in two's complement (what the
compilers the code is built with do with a value that does not fit). -/
def int_of_ulong (v : Nat) : Int :=
  if v % 2 ^ 32 < 2 ^ 31 then ((v % 2 ^ 32 : Nat) : Int)
  else ((v % 2 ^ 32 : Nat) : Int) - 2 ^ 32

/-- The function `dnet_simple_set(b, key, str)`. -/
def dnet_simple_set (x : CfgExternals) (g : CfgGlobals) (key str : List Char) :
    Int × CfgGlobals :=
  let value := x.strtoul str
  if key = "max_pending_requests".toList then
    (0, { g with dnet_cfg_state :=
            { g.dnet_cfg_state with max_pending := x.dnet_config_field "max_pending" value } })
  else if key = "io_thread_num".toList then
    (0, { g with dnet_cfg_state :=
            { g.dnet_cfg_state with
              io_thread_num := x.dnet_config_field "io_thread_num" value } })
  else if key = "log_mask".toList then
    (0, { g with dnet_cfg_state :=
            { g.dnet_cfg_state with log_mask := x.dnet_config_field "log_mask" value } })
  else if key = "wait_timeout".toList then
    (0, { g with dnet_cfg_state :=
            { g.dnet_cfg_state with
              wait_timeout := x.dnet_config_field "wait_timeout" value } })
  else if key = "resend_timeout".toList then
    (0, { g with dnet_cfg_state :=
            { g.dnet_cfg_state with
              resend_timeout_sec := x.dnet_config_field "resend_timeout.tv_sec" value } })
  else if key = "join".toList then
    (0, { g with dnet_cfg_state :=
            { g.dnet_cfg_state with join := x.dnet_config_field "join" value } })
  else if key = "daemon".toList then
    (0, { g with dnet_daemon_mode := int_of_ulong value })
  else
    (-1, g)

/-- The function `dnet_set_id`. -/
def dnet_set_id (x : CfgExternals) (g : CfgGlobals) (value : List Char) : Int × CfgGlobals :=
  let r := x.dnet_parse_numeric_id value g.dnet_cfg_state.id
  (r.1, { g with dnet_cfg_state := { g.dnet_cfg_state with id := r.2 } })

/-- The function `dnet_set_addr`. -/
def dnet_set_addr (x : CfgExternals) (g : CfgGlobals) (value : List Char) : Int × CfgGlobals :=
  let r := x.dnet_parse_addr value g.dnet_cfg_state
  (r.1, { g with dnet_cfg_state := r.2 })

/-- The function `dnet_set_remote_addrs`: the pointer is overwritten with
the result of `strdup`, a fresh block or `NULL`. -/
def dnet_set_remote_addrs (x : CfgExternals) (g : CfgGlobals) (value : List Char) :
    Int × CfgGlobals :=
  if x.strdup_ok value then
    (0, { g with dnet_cfg_remotes := some value, remotes_freed := false })
  else (-ENOMEM, { g with dnet_cfg_remotes := none, remotes_freed := false })

/-- The function `dnet_set_transform_functions`: the pointer is overwritten
with the result of `strdup`, a fresh block or `NULL`. -/
def dnet_set_transform_functions (x : CfgExternals) (g : CfgGlobals) (value : List Char) :
    Int × CfgGlobals :=
  if x.strdup_ok value then
    (0, { g with dnet_cfg_transform := some value, transform_freed := false })
  else (-ENOMEM, { g with dnet_cfg_transform := none, transform_freed := false })

/-- The function `dnet_set_log`. -/
def dnet_set_log (x : CfgExternals) (g : CfgGlobals) (value : List Char) : Int × CfgGlobals :=
  if x.fopen_errno value ≠ 0 then
    (-(x.fopen_errno value), g)
  else
    (0, { g with dnet_cfg_state :=
            { g.dnet_cfg_state with log_private := some value, log_is_common := true } })

/-- The loop of `dnet_set_backend` from index `i` over the backends that
remain. -/
def dnet_set_backend_loop (x : CfgExternals) (g : CfgGlobals) (value : List Char) :
    Nat → List dnet_config_backend → Int × CfgGlobals
  | _, [] => (-ENOENT, g)
  | i, b :: rest =>
    if value = b.name.toList then
      if b.size ≠ 0 ∧ x.malloc_ok b.size = false then
        (-ENOMEM,
          { g with dnet_cfg_backend := g.dnet_cfg_backend.set i { b with data := [] } })
      else
        (0, { g with
                dnet_cfg_backend := g.dnet_cfg_backend.set i
                  { b with data := if b.size ≠ 0 then List.replicate b.size 0 else b.data },
                dnet_cur_cfg_entries := some i,
                dnet_cfg_current_backend := some i })
    else
      dnet_set_backend_loop x g value (i + 1) rest

/-- The function `dnet_set_backend(current_backend, key, value)`. -/
def dnet_set_backend (x : CfgExternals) (g : CfgGlobals) (value : List Char) :
    Int × CfgGlobals :=
  dnet_set_backend_loop x g value 0 g.dnet_cfg_backend

end Elliptics

namespace Elliptics

/-- A call of a root-level callback with the current key and value. -/
def root_callback (x : CfgExternals) (g : CfgGlobals) (key value : List Char) :
    RootCallback → Int × CfgGlobals
  | RootCallback.dnet_simple_set => dnet_simple_set x g key value
  | RootCallback.dnet_set_id => dnet_set_id x g value
  | RootCallback.dnet_set_addr => dnet_set_addr x g value
  | RootCallback.dnet_set_remote_addrs => dnet_set_remote_addrs x g value
  | RootCallback.dnet_set_transform_functions => dnet_set_transform_functions x g value
  | RootCallback.dnet_set_backend => dnet_set_backend x g value
  | RootCallback.dnet_set_log => dnet_set_log x g value

/-- A call of a callback of backend `j` with the current key and value: the
callback works on the private data of that backend. -/
def backend_callback (g : CfgGlobals) (j : Nat) (key value : List Char)
    (cb : BackendCallback) : Int × CfgGlobals :=
  match g.dnet_cfg_backend.get? j with
  | none => ((cb [] key value).1, g)
  | some b =>
    let r := cb b.data key value
    (r.1, { g with dnet_cfg_backend := g.dnet_cfg_backend.set j { b with data := r.2 } })

/-- The search of the lookup loop: the index and callback of the first entry
at or after index `i` whose key equals `key`. -/
def find_entry {κ : Type} (key : List Char) : Nat → List (String × κ) → Option (Nat × κ)
  | _, [] => none
  | i, e :: rest => if key = e.1.toList then some (i, e.2) else find_entry key (i + 1) rest

/-- The lookup loop of `dnet_parse_config` for one key and value: the value
of `err` afterwards (0 when no entry matches) and the variables afterwards.
The callback found is recorded in `calls`. -/
def dispatch (x : CfgExternals) (g : CfgGlobals) (key value : List Char) : Int × CfgGlobals :=
  match g.dnet_cur_cfg_entries with
  | none =>
    match find_entry key 0 dnet_cfg_entries with
    | none => (0, g)
    | some (i, cb) =>
      let r := root_callback x g key value cb
      (r.1, { r.2 with calls := r.2.calls ++
        [{ backend := g.dnet_cfg_current_backend, entry := i, key := key, value := value,
           err := r.1 }] })
  | some j =>
    match find_entry key 0 ((g.dnet_cfg_backend.get? j).elim [] (fun b => b.ent)) with
    | none => (0, g)
    | some (i, cb) =>
      let r := backend_callback g (g.dnet_cfg_current_backend.getD j) key value cb
      (r.1, { r.2 with calls := r.2.calls ++
        [{ backend := g.dnet_cfg_current_backend, entry := i, key := key, value := value,
           err := r.1 }] })

/-- The body of the `while (1)` loop of `dnet_parse_config` for one buffer
returned by `fgets`: the value of `err` and the variables afterwards. A value
other than 0 makes the parser leave through `err_out_free`. -/
def dnet_parse_line (x : CfgExternals) (g : CfgGlobals) (buf : List Char) : Int × CfgGlobals :=
  match dnet_skip_line (c_str buf) with
  | none => (0, g)
  | some ptr =>
    match tokenize ptr with
    | none => (0, g)
    | some kv => dispatch x g kv.1 kv.2

/-- What `fgets` stores for a buffer with room for `n` characters, and the
input that remains: characters up to and including the first newline, `n` at
most. -/
def fgets_take : Nat → List Char → List Char × List Char
  | 0, input => ([], input)
  | _ + 1, [] => ([], [])
  | n + 1, c :: rest =>
    if c = '\n' then ([c], rest)
    else (c :: (fgets_take n rest).1, (fgets_take n rest).2)

/-- The call `fgets(buf, size, f)` on a stream with `input` left to read:
`none` at end of file. Read errors are not modelled. -/
def fgets (size : Nat) (input : List Char) : Option (List Char × List Char) :=
  if input = [] then none else some (fgets_take (size - 1) input)

/-- The `while (1)` loop of `dnet_parse_config`; the first argument bounds
the number of iterations and is never exhausted when it exceeds the length
of the input. -/
def parse_loop (x : CfgExternals) : Nat → List Char → CfgGlobals → Int × CfgGlobals
  | 0, _, g => (0, g)
  | fuel + 1, input, g =>
    match fgets 4096 input with
    | none => (0, g)
    | some r =>
      let s := dnet_parse_line x g r.1
      if s.1 ≠ 0 then s else parse_loop x fuel r.2 s.2

/-- Outcome of a `dnet_parse_config` that returns: `node` is the
configuration the node returned was created from (`none` for `NULL`), `err`
the last value of `err`, `initialised` the backend whose `init` was called,
and `globals` the file-scope variables when the parser left. -/
structure ParseResult where
  node : Option dnet_config
  err : Int
  initialised : Option Nat
  globals : CfgGlobals

/-- The variables once the blocks that `dnet_cfg_transform` and
`dnet_cfg_remotes` point to have been freed; a `NULL` pointer has no block. -/
def mark_freed (g : CfgGlobals) : CfgGlobals :=
  { g with transform_freed := g.dnet_cfg_transform.isSome,
           remotes_freed := g.dnet_cfg_remotes.isSome }

/-- The two statements at the label `err_out_free`,
`free(dnet_cfg_transform); free(dnet_cfg_remotes);`, which leave the
pointers as they are. `free(NULL)` does nothing. The result is `none` when
one of the pointers points to a block that an earlier pass through this
label has freed: freeing a block a second time has no defined behaviour (the
C library aborts the process). -/
def err_out_free (g : CfgGlobals) : Option CfgGlobals :=
  if (g.dnet_cfg_transform.isSome ∧ g.transform_freed = true)
      ∨ (g.dnet_cfg_remotes.isSome ∧ g.remotes_freed = true) then none
  else some (mark_freed g)

/-- The way out of `dnet_parse_config` through `err_out_free` with the value
`err`: `NULL` is returned once the two strings have been freed. -/
def parse_failure (err : Int) (initialised : Option Nat) (g : CfgGlobals) :
    Option ParseResult :=
  (err_out_free g).map
    (fun g2 => { node := none, err := err, initialised := initialised, globals := g2 })

/-- The function `dnet_parse_config(file)`, started with the file-scope
variables `g` as they are once the built-in backends have registered
themselves. `file` is the content of the file, `none` when it cannot be
opened (`open_errno` is then the value of `errno`). Every failure after the
file has been opened leaves through `err_out_free`. The result is `none`
when the call has no defined behaviour: a string is freed for the second
time at `err_out_free`, or `dnet_common_add_remote_addr` or
`dnet_common_add_transform` is handed a string that has been freed. The
final `dnet_background()` of daemon mode is left out. -/
def dnet_parse_config (x : CfgExternals) (open_errno : Int) (file : Option (List Char))
    (g : CfgGlobals) : Option ParseResult :=
  match file with
  | none => some { node := none, err := -open_errno, initialised := none, globals := g }
  | some input =>
    let g1 : CfgGlobals :=
      { g with dnet_cfg_state := { g.dnet_cfg_state with log_is_common := true } }
    let s := parse_loop x (input.length + 1) input g1
    if s.1 ≠ 0 then
      parse_failure s.1 none s.2
    else
      match s.2.dnet_cfg_current_backend with
      | none => parse_failure (-EINVAL) none s.2
      | some j =>
        let b_init : Int := (s.2.dnet_cfg_backend.get? j).elim 0 (fun b => b.init b.data)
        if b_init ≠ 0 then
          parse_failure b_init (some j) s.2
        else if x.dnet_node_create_ok s.2.dnet_cfg_state = false then
          parse_failure 0 (some j) s.2
        else if s.2.dnet_cfg_remotes.isSome ∧ s.2.remotes_freed = true then
          none
        else if x.dnet_common_add_remote_addr s.2.dnet_cfg_state s.2.dnet_cfg_remotes ≠ 0 then
          parse_failure
            (x.dnet_common_add_remote_addr s.2.dnet_cfg_state s.2.dnet_cfg_remotes)
            (some j) s.2
        else if s.2.dnet_cfg_transform.isSome ∧ s.2.transform_freed = true then
          none
        else if x.dnet_common_add_transform s.2.dnet_cfg_transform ≠ 0 then
          parse_failure (x.dnet_common_add_transform s.2.dnet_cfg_transform) (some j) s.2
        else if s.2.dnet_cfg_state.join &&& x.DNET_JOIN_NETWORK ≠ 0
            ∧ x.dnet_join s.2.dnet_cfg_state ≠ 0 then
          parse_failure (x.dnet_join s.2.dnet_cfg_state) (some j) s.2
        else
          some { node := some s.2.dnet_cfg_state, err := 0, initialised := some j,
                 globals := s.2 }

end Elliptics

namespace Elliptics

/-! ### Vocabulary for the statements about the configuration reader -/

/-- The line that `config_data_writer::write` of the test suite emits for an
entry: the key, ` = `, the value, and the newline of `std::endl`. -/
def config_data_writer_line (key value : List Char) : List Char :=
  key ++ [' ', '=', ' '] ++ value ++ ['\n']

/-- A key as the tokenizer can return it: not empty, and free of whitespace,
of the delimiter, of the comment character and of NUL. -/
def plain_key (key : List Char) : Prop :=
  key ≠ [] ∧ ∀ c ∈ key, isspace c = false ∧ c ≠ DNET_CONF_DELIMITER ∧ c ≠ DNET_CONF_COMMENT
    ∧ c ≠ NUL

instance (key : List Char) : Decidable (plain_key key) := by
  unfold plain_key; infer_instance

/-- The string starts with a character that is not whitespace. -/
def starts_plain : List Char → Bool
  | [] => false
  | c :: _ => !isspace c

/-- A value as the tokenizer can return it: it starts with a character that
is not whitespace and contains no CR, LF or NUL. -/
def plain_value (value : List Char) : Prop :=
  starts_plain value = true ∧ ∀ c ∈ value, c ≠ '\r' ∧ c ≠ '\n' ∧ c ≠ NUL

instance (value : List Char) : Decidable (plain_value value) := by
  unfold plain_value; infer_instance

/-- Index of the first occurrence of `key` in a list of keys (the length of
the list when there is none). -/
def first_index (key : List Char) : List (List Char) → Nat
  | [] => 0
  | k :: rest => if key = k then 0 else first_index key rest + 1

/-- The keys of the table that `dnet_cur_cfg_entries` points to, in table
order. -/
def current_keys (g : CfgGlobals) : List (List Char) :=
  match g.dnet_cur_cfg_entries with
  | none => dnet_cfg_entries.map (fun e => e.1.toList)
  | some j => ((g.dnet_cfg_backend.get? j).elim [] (fun b => b.ent)).map (fun e => e.1.toList)

/-- The string is empty, all whitespace, or has `#` as its first character
that is not whitespace. -/
def blank_or_comment (line : List Char) : Prop :=
  match line.dropWhile isspace with
  | [] => True
  | c :: _ => c = DNET_CONF_COMMENT

instance (line : List Char) : Decidable (blank_or_comment line) := by
  unfold blank_or_comment; split <;> infer_instance

/-- The parser works in the key table of registered backend `j`, which is
`b` up to its private data. -/
def backend_mode (g : CfgGlobals) (j : Nat) (b : dnet_config_backend) : Prop :=
  g.dnet_cur_cfg_entries = some j ∧ g.dnet_cfg_current_backend = some j ∧
    ∃ b2, g.dnet_cfg_backend.get? j = some b2 ∧ b2.name = b.name ∧ b2.ent = b.ent ∧
      b2.size = b.size ∧ b2.init = b.init

/-- The file-scope variables when the read loop of `dnet_parse_config`,
entered with the variables `g`, has consumed the input `pre`. -/
def state_after (x : CfgExternals) (g : CfgGlobals) (pre : List Char) : CfgGlobals :=
  (parse_loop x (pre.length + 1) pre
    { g with dnet_cfg_state := { g.dnet_cfg_state with log_is_common := true } }).2

/-- The input `pre` is made of whole lines and the read loop, entered with
the variables `g`, consumes it without an error. -/
def read_without_error (x : CfgExternals) (g : CfgGlobals) (pre : List Char) : Prop :=
  (pre = [] ∨ pre.getLast? = some '\n') ∧
    (parse_loop x (pre.length + 1) pre
      { g with dnet_cfg_state := { g.dnet_cfg_state with log_is_common := true } }).1 = 0

instance (x : CfgExternals) (g : CfgGlobals) (pre : List Char) :
    Decidable (read_without_error x g pre) := by
  unfold read_without_error; infer_instance

/-- Neither `dnet_cfg_remotes` nor `dnet_cfg_transform` points to a block
that has been freed, as at program start and after every call that returned a
node. -/
def not_freed (g : CfgGlobals) : Prop :=
  g.remotes_freed = false ∧ g.transform_freed = false

instance (g : CfgGlobals) : Decidable (not_freed g) := by
  unfold not_freed; infer_instance

/-- The keys of the root-level list of the specification that
`dnet_cfg_entries` contains. -/
def root_keys_present : List String :=
  ["log", "join", "addr", "remote", "wait_timeout", "io_thread_num", "daemon"]

/-- The keys of the root-level list of the specification that
`dnet_cfg_entries` does not contain. -/
def root_keys_absent : List String :=
  ["log_level", "flags", "group", "check_timeout", "nonblocking_io_thread_num",
   "net_thread_num", "history", "auth_cookie", "bg_ionice_class", "bg_ionice_prio",
   "server_net_prio", "client_net_prio", "cache_size"]

/-- A build of the external functions in which every call succeeds;
`strtoul` is represented by the length of its argument. -/
def ex_cfg_externals : CfgExternals where
  strtoul := fun s => s.length
  dnet_config_field := fun _ v => v
  dnet_parse_numeric_id := fun _ id => (0, id)
  dnet_parse_addr := fun v c => (0, { c with addr := v })
  strdup_ok := fun _ => true
  malloc_ok := fun _ => true
  fopen_errno := fun _ => 0
  dnet_node_create_ok := fun _ => true
  dnet_common_add_remote_addr := fun _ _ => 0
  dnet_common_add_transform := fun _ => 0
  dnet_join := fun _ => 0
  DNET_JOIN_NETWORK := 1

/-- The same build with a `strtoul` that returns 2^32 for every string. -/
def ex_cfg_externals_big : CfgExternals :=
  { ex_cfg_externals with strtoul := fun _ => 4294967296 }

/-- A backend callback that stores the length of the value in the first byte
of the private data. -/
def ex_backend_callback : BackendCallback := fun data _ value => (0, data.set 0 value.length)

/-- A backend named `blob` with the keys `data` and `sync` and eight bytes of
private data. -/
def ex_blob : dnet_config_backend where
  name := "blob"
  ent := [("data", ex_backend_callback), ("sync", ex_backend_callback)]
  size := 8
  data := []
  init := fun _ => 0

/-- A backend callback that fails with `-EINVAL`. -/
def ex_backend_callback_failing : BackendCallback := fun data _ _ => (-EINVAL, data)

/-- The backend `blob` with a callback for `sync` that fails. -/
def ex_blob_failing : dnet_config_backend :=
  { ex_blob with ent := [("data", ex_backend_callback), ("sync", ex_backend_callback_failing)] }

/-- A backend named `file` with the key `root` and no private data. -/
def ex_file : dnet_config_backend where
  name := "file"
  ent := [("root", ex_backend_callback)]
  size := 0
  data := []
  init := fun _ => 0

/-- An all-zero configuration. -/
def ex_config : dnet_config where
  max_pending := 0
  io_thread_num := 0
  log_mask := 0
  wait_timeout := 0
  resend_timeout_sec := 0
  join := 0
  id := []
  addr := []
  log_private := none
  log_is_common := false

/-- The file-scope variables at program start, with the backends `file` and
`blob` registered. -/
def ex_globals : CfgGlobals where
  dnet_cfg_state := ex_config
  dnet_cfg_remotes := none
  remotes_freed := false
  dnet_cfg_transform := none
  transform_freed := false
  dnet_daemon_mode := 0
  dnet_cur_cfg_entries := none
  dnet_cfg_current_backend := none
  dnet_cfg_backend := [ex_file, ex_blob]
  calls := []

/-- The variables at program start with the backends `file` and the `blob`
whose `sync` callback fails. -/
def ex_globals_failing : CfgGlobals :=
  { ex_globals with dnet_cfg_backend := [ex_file, ex_blob_failing] }

end Elliptics

namespace Elliptics

/-! ## Part 5. The session layer and the backend, modelled from the specification

The client library (`session`), the transport and the storage backends are
not among the source files; only the test suite `bindings/cpp/test.cpp` that
drives them is. This part models them from sections 3, 4.3, 4.5 and 7 of the
specification. An ID is represented by the number that its 64 bytes denote,
most significant byte first, so that the order of IDs by unsigned byte
comparison is the order of the numbers; `transform` is a parameter. A cluster
gives every group number the state of the backend of that group, or nothing
when no group of that number can be reached. The write of `write_data` can
fail in a group with an `IoError`, which a parameter of `write_data` decides
group by group; every other request that reaches a backend is executed by
it, and time-outs are not modelled, so that the other errors are `NoRoute`,
`NotFound`, `CasMismatch` and `InvalidArgument`. -/

/-- Modelled from the spec: the code of `NoRoute` on the wire is `-ENXIO`;
this is the value of `ENXIO` in errno.h. -/
def ENXIO : Int := 6

/-- Modelled from the spec: the code of `CasMismatch` on the wire is of the
class of `-EBADFD`; this is the value of `EBADFD` in errno.h. -/
def EBADFD : Int := 77

/-- Modelled from the spec: a Record of the Backend (section 3), the tuple of
ID, bytes and `parent_checksum`; the other fields of the IoAttr play no part
in the operations modelled. -/
structure StoredRecord where
  id : Nat
  data : List Nat
  parent : Nat
deriving DecidableEq, Repr

/-- Modelled from the spec: the reservation that `prepare` makes for an ID
(section 4.3): the size reserved and the bytes written into it so far, which
`read` does not see. -/
structure Reservation where
  id : Nat
  reserve : Nat
  written : List Nat
deriving DecidableEq, Repr

/-- Modelled from the spec: the state of one Backend, its committed records
(in no particular order) and its reservations. -/
structure BackendState where
  committed : List StoredRecord
  prepared : List Reservation
deriving DecidableEq, Repr

/-- Modelled from the spec: `lookup(id)` of the Backend interface, the
committed record of an ID if there is one. -/
def backend_lookup (b : BackendState) (id : Nat) : Option StoredRecord :=
  b.committed.find? (fun r => r.id = id)

/-- Modelled from the spec: the bytes that a read of `size` bytes at `offset`
returns from a record; a `size` of 0 asks for everything from `offset` on, as
`read_data(key, 0, 0)` and `read_data(key, 3, 0)` of the test suite do. -/
def slice (data : List Nat) (offset size : Nat) : List Nat :=
  if size = 0 then data.drop offset else (data.drop offset).take size

/-- Modelled from the spec: `read(id, offset, size)` of the Backend interface:
the bytes and the `parent_checksum` of the committed record, `none` for
`NotFound`. -/
def backend_read (b : BackendState) (id offset size : Nat) : Option (List Nat × Nat) :=
  (backend_lookup b id).map (fun r => (slice r.data offset size, r.parent))

/-- Modelled from the spec: bytes extended to `n` bytes with zeros (a record
is treated as sparse and zero-padded). -/
def zero_pad (data : List Nat) (n : Nat) : List Nat :=
  data ++ List.replicate (n - data.length) 0

/-- Modelled from the spec: the committed records with the record of `r.id`
replaced by `r`. -/
def store_put (st : List StoredRecord) (r : StoredRecord) : List StoredRecord :=
  r :: st.filter (fun x => x.id ≠ r.id)

/-- Modelled from the spec: `write(id, io_attr, bytes)` of the Backend
interface for a plain write at `offset`: the record becomes what it held
before `offset` (zero-padded when it was shorter) followed by the bytes
written, so that a write at offset 0 replaces a longer value, as the test
suite requires of `write_data`; `parent_checksum` becomes the hash of the
bytes of this write. -/
def backend_write (transform : List Nat → Nat) (b : BackendState) (id offset : Nat)
    (bytes : List Nat) : BackendState :=
  let old := ((backend_lookup b id).map (fun r => r.data)).getD []
  let r : StoredRecord :=
    { id := id, data := (zero_pad old offset).take offset ++ bytes, parent := transform bytes }
  { b with committed := store_put b.committed r }

/-- Modelled from the spec: the write of `write_cas` on the Backend: the write
is made when `parent_checksum` of the record equals `expected`, and
`CasMismatch` is returned otherwise (also when there is no record to compare
with). -/
def backend_cas (transform : List Nat → Nat) (b : BackendState) (id offset : Nat)
    (bytes : List Nat) (expected : Nat) : Int × BackendState :=
  match backend_lookup b id with
  | some r =>
    if r.parent = expected then (0, backend_write transform b id offset bytes)
    else (-EBADFD, b)
  | none => (-EBADFD, b)

/-- Modelled from the spec: `remove(id)` of the Backend interface: `Ok`, or
`NotFound` when the ID has no record. -/
def backend_remove (b : BackendState) (id : Nat) : Int × BackendState :=
  match backend_lookup b id with
  | some _ => (0, { b with committed := b.committed.filter (fun x => x.id ≠ id) })
  | none => (-ENOENT, b)

end Elliptics

namespace Elliptics

/-- Modelled from the spec: bytes written at `offset` into an area: the area
is zero-padded up to `offset`, the bytes replace what was there, and what lay
beyond them stays. -/
def overlay (data : List Nat) (offset : Nat) (bytes : List Nat) : List Nat :=
  (zero_pad data offset).take offset ++ bytes ++ data.drop (offset + bytes.length)

/-- Modelled from the spec: the bytes written so far into the reservation of
an ID, none when the ID has no reservation. -/
def pending (b : BackendState) (id : Nat) : List Nat :=
  ((b.prepared.find? (fun p => p.id = id)).map (fun p => p.written)).getD []

/-- Modelled from the spec: the size reserved for an ID, 0 when the ID has no
reservation. -/
def reserved (b : BackendState) (id : Nat) : Nat :=
  ((b.prepared.find? (fun p => p.id = id)).map (fun p => p.reserve)).getD 0

/-- Modelled from the spec: `prepare(id, reserve_size)` of the Backend
interface together with the first chunk of `write_prepare`: a new reservation
of `reserve` bytes holding the chunk at `offset`; the committed records are
not touched. -/
def backend_prepare (b : BackendState) (id offset : Nat) (bytes : List Nat) (reserve : Nat) :
    BackendState :=
  let p : Reservation := { id := id, reserve := reserve, written := overlay [] offset bytes }
  { b with prepared := p :: b.prepared.filter (fun x => x.id ≠ id) }

/-- Modelled from the spec: `plain_write(id, offset, bytes)` of the Backend
interface: the bytes go into the reservation; the committed records are not
touched. -/
def backend_plain (b : BackendState) (id offset : Nat) (bytes : List Nat) : BackendState :=
  let p : Reservation :=
    { id := id, reserve := reserved b id, written := overlay (pending b id) offset bytes }
  { b with prepared := p :: b.prepared.filter (fun x => x.id ≠ id) }

/-- Modelled from the spec: `commit(id, final_size)` of the Backend interface
together with the last chunk of `write_commit`: the chunk goes into the
reservation; a `final_total` below the highest written offset (the end of
the bytes written) is an error, `InvalidArgument`, and changes nothing;
otherwise the bytes written, zero-padded to `final_total`, become the
committed record and the reservation ends. -/
def backend_commit (transform : List Nat → Nat) (b : BackendState) (id offset : Nat)
    (bytes : List Nat) (final_total : Nat) : Int × BackendState :=
  let w := overlay (pending b id) offset bytes
  if final_total < w.length then (-EINVAL, b)
  else
    let r : StoredRecord :=
      { id := id, data := zero_pad w final_total, parent := transform bytes }
    (0, { committed := store_put b.committed r,
          prepared := b.prepared.filter (fun x => x.id ≠ id) })

/-- Modelled from the spec: the ID lies in the range `[begin_id, end_id)`. -/
def in_range (begin_id end_id : Nat) (r : StoredRecord) : Bool :=
  decide (begin_id ≤ r.id) && decide (r.id < end_id)

/-- Modelled from the spec: `iterate(range)` of the Backend interface: the
committed records of the range in ID order (the records are kept in no
particular order, so they are sorted for the range). -/
def backend_iterate (b : BackendState) (begin_id end_id : Nat) : List StoredRecord :=
  (b.committed.filter (in_range begin_id end_id)).insertionSort (fun x y => x.id ≤ y.id)

/-- Modelled from the spec: the state of the cluster: for a group number the
backend of the group, or `none` when no such group can be reached. -/
abbrev Cluster : Type := Nat → Option BackendState

/-- Modelled from the spec: the cluster with the backend of group `g`
replaced. -/
def cluster_set (cl : Cluster) (g : Nat) (b : BackendState) : Cluster :=
  fun h => if h = g then some b else cl h

/-- Modelled from the spec: a response frame of a write as the session hands
it to the caller: the group it came from, its status, and whether it is the
intermediate ack instead of the final response. -/
structure WriteResponse where
  group : Nat
  status : Int
  is_ack : Bool
deriving DecidableEq, Repr

/-- Modelled from the spec: the fan-out of a write-like request over the
groups of the session, in order: a group that cannot be reached answers
`NoRoute`; the backend of any other group executes `op` and answers with an
intermediate ack (when `acks` says that acks are delivered as responses of
their own) and with its final status. -/
def fan_out (acks : Bool) (op : BackendState → Int × BackendState) :
    List Nat → Cluster → List WriteResponse × Cluster
  | [], cl => ([], cl)
  | g :: rest, cl =>
    match cl g with
    | none =>
      ({ group := g, status := - ENXIO, is_ack := false } :: (fan_out acks op rest cl).1,
        (fan_out acks op rest cl).2)
    | some b =>
      ((if acks then [{ group := g, status := 0, is_ack := true }] else [])
          ++ { group := g, status := (op b).1, is_ack := false }
            :: (fan_out acks op rest (cluster_set cl g (op b).2)).1,
        (fan_out acks op rest (cluster_set cl g (op b).2)).2)

/-- Modelled from the spec: a result is valid iff its status is 0 and it is
final; the aggregate of a write succeeds if at least one group succeeded. -/
def succeeded (rs : List WriteResponse) : Bool :=
  rs.any (fun r => decide (r.status = 0) && !r.is_ack)

/-- Modelled from the spec: the representative error of a call in which no
group succeeded (section 7): the first error that is neither `NoRoute` nor
`NotFound` if there is one, else `NotFound` if any group reported it, else
`NoRoute`. -/
def representative_error (codes : List Int) : Int :=
  match codes.find? (fun c => c ≠ - ENXIO ∧ c ≠ -ENOENT) with
  | some c => c
  | none => if -ENOENT ∈ codes then -ENOENT else - ENXIO

/-- Modelled from the spec: the error of a write whose aggregate failed, the
representative of the statuses of its final responses. -/
def write_error (rs : List WriteResponse) : Int :=
  representative_error ((rs.filter (fun r => !r.is_ack)).map (fun r => r.status))

end Elliptics

namespace Elliptics

/-- Modelled from the spec: `write_data(key, bytes, offset)` of the Session
for the ID of the key: a `WRITE` to every group of the group list, in order;
the responses and the cluster afterwards. A group that cannot be reached
answers `NoRoute`. In a group that is reached the backend either performs the
write and answers 0, or fails with an `IoError` and leaves its records as
they were: `io g` is 0 in the first case and the error code that group `g`
reports in the second. The intermediate ack, when acks are delivered,
precedes the final response in both cases. -/
def write_data (transform : List Nat → Nat) (acks : Bool) (io : Nat → Int) (cl : Cluster)
    (groups : List Nat) (id : Nat) (bytes : List Nat) (offset : Nat) :
    List WriteResponse × Cluster :=
  match groups with
  | [] => ([], cl)
  | g :: rest =>
    match cl g with
    | none =>
      ({ group := g, status := - ENXIO, is_ack := false }
          :: (write_data transform acks io cl rest id bytes offset).1,
        (write_data transform acks io cl rest id bytes offset).2)
    | some b =>
      ((if acks then [{ group := g, status := 0, is_ack := true }] else [])
          ++ { group := g, status := io g, is_ack := false }
            :: (write_data transform acks io
                  (if io g = 0 then
                    cluster_set cl g (backend_write transform b id offset bytes)
                  else cl) rest id bytes offset).1,
        (write_data transform acks io
          (if io g = 0 then cluster_set cl g (backend_write transform b id offset bytes)
           else cl) rest id bytes offset).2)

/-- Modelled from the spec: a `write_data` in which no backend fails. -/
def no_io_error : Nat → Int := fun _ => 0

/-- Modelled from the spec: `write_prepare(key, bytes, offset, reserve_total)`
of the Session. -/
def write_prepare (acks : Bool) (cl : Cluster) (groups : List Nat) (id : Nat)
    (bytes : List Nat) (offset reserve_total : Nat) : List WriteResponse × Cluster :=
  fan_out acks (fun b => (0, backend_prepare b id offset bytes reserve_total)) groups cl

/-- Modelled from the spec: `write_plain(key, bytes, offset)` of the
Session. -/
def write_plain (acks : Bool) (cl : Cluster) (groups : List Nat) (id : Nat)
    (bytes : List Nat) (offset : Nat) : List WriteResponse × Cluster :=
  fan_out acks (fun b => (0, backend_plain b id offset bytes)) groups cl

/-- Modelled from the spec: `write_commit(key, bytes, offset, final_total)` of
the Session. -/
def write_commit (transform : List Nat → Nat) (acks : Bool) (cl : Cluster)
    (groups : List Nat) (id : Nat) (bytes : List Nat) (offset final_total : Nat) :
    List WriteResponse × Cluster :=
  fan_out acks (fun b => backend_commit transform b id offset bytes final_total) groups cl

/-- Modelled from the spec: `remove(key)` of the Session, sent to every group
of the group list. -/
def remove_data (acks : Bool) (cl : Cluster) (groups : List Nat) (id : Nat) :
    List WriteResponse × Cluster :=
  fan_out acks (fun b => backend_remove b id) groups cl

/-- Modelled from the spec: the outcome of `read_data`: the record read, with
the group it was read from, its bytes and its `parent_checksum`, or the error
code of the call. -/
inductive ReadResult where
  | found (group : Nat) (data : List Nat) (parent : Nat)
  | failed (code : Int)
deriving DecidableEq, Repr

/-- Modelled from the spec: the reads of `read_data`, issued to the groups in
order: the first successful response is returned and the groups after it are
not used; `codes` are the errors of the groups tried so far, and when every
group has failed the representative error is returned. -/
def read_loop (cl : Cluster) (id offset size : Nat) : List Nat → List Int → ReadResult
  | [], codes => ReadResult.failed (representative_error codes)
  | g :: rest, codes =>
    match cl g with
    | none => read_loop cl id offset size rest (codes ++ [- ENXIO])
    | some b =>
      match backend_read b id offset size with
      | some v => ReadResult.found g v.1 v.2
      | none => read_loop cl id offset size rest (codes ++ [-ENOENT])

/-- Modelled from the spec: `read_data(key, offset, size)` of the Session over
a group list (the list of the session or `groups_override`). -/
def read_data (cl : Cluster) (groups : List Nat) (id offset size : Nat) : ReadResult :=
  read_loop cl id offset size groups []

/-- Modelled from the spec: the batched request of `bulk_write` on the backend
of one group `g`: every item, an ID with its blob, is written at offset 0 in
the order of the batch and produces an ack (when acks are delivered) and a
final response. -/
def bulk_group (transform : List Nat → Nat) (acks : Bool) (g : Nat) :
    List (Nat × List Nat) → BackendState → List WriteResponse × BackendState
  | [], b => ([], b)
  | item :: rest, b =>
    ((if acks then [{ group := g, status := 0, is_ack := true }] else [])
        ++ { group := g, status := 0, is_ack := false }
          :: (bulk_group transform acks g rest (backend_write transform b item.1 0 item.2)).1,
      (bulk_group transform acks g rest (backend_write transform b item.1 0 item.2)).2)

/-- Modelled from the spec: `bulk_write(ios, blobs)` of the Session: one
batched request per group of the group list; a group that cannot be reached
answers `NoRoute` for every item. -/
def bulk_write (transform : List Nat → Nat) (acks : Bool) :
    List Nat → Cluster → List (Nat × List Nat) → List WriteResponse × Cluster
  | [], cl, _ => ([], cl)
  | g :: rest, cl, items =>
    match cl g with
    | none =>
      (items.map (fun _ => { group := g, status := - ENXIO, is_ack := false })
          ++ (bulk_write transform acks rest cl items).1,
        (bulk_write transform acks rest cl items).2)
    | some b =>
      ((bulk_group transform acks g items b).1
          ++ (bulk_write transform acks rest
                (cluster_set cl g (bulk_group transform acks g items b).2) items).1,
        (bulk_write transform acks rest
          (cluster_set cl g (bulk_group transform acks g items b).2) items).2)

/-- Modelled from the spec: the count that the test suite takes of the
responses of a write: those with status 0 that are not acks. -/
def success_count (rs : List WriteResponse) : Nat :=
  rs.countP (fun r => decide (r.status = 0) && !r.is_ack)

/-- Modelled from the spec: `read_data_range(range_io, group)` of the Session:
the single group iterates its records of `[begin_id, end_id)` in ID order,
skips `start` of them and returns up to `limit`; the status is `NoRoute` when
the group cannot be reached. -/
def read_data_range (cl : Cluster) (group begin_id end_id start limit : Nat) :
    Int × List StoredRecord :=
  match cl group with
  | none => (- ENXIO, [])
  | some b => (0, ((backend_iterate b begin_id end_id).drop start).take limit)

/-- Modelled from the spec: `remove_data_range(range_io, group)` of the
Session: the records of the range are deleted on the group; the status, the
`num` (count actually removed) of each response, and the cluster afterwards. -/
def remove_data_range (cl : Cluster) (group begin_id end_id : Nat) :
    (Int × List Nat) × Cluster :=
  match cl group with
  | none => ((- ENXIO, []), cl)
  | some b =>
    ((0, [(b.committed.filter (in_range begin_id end_id)).length]),
      cluster_set cl group
        { b with committed := b.committed.filter (fun r => !in_range begin_id end_id r) })

end Elliptics

namespace Elliptics

/-! ### Vocabulary and examples for the session layer -/

/-- No two committed records of the backend have the same ID. -/
def store_ok (b : BackendState) : Prop :=
  (b.committed.map (fun r => r.id)).Nodup

instance (b : BackendState) : Decidable (store_ok b) := by
  unfold store_ok; infer_instance

/-- Group `g` can be reached in the cluster. -/
def reachable (cl : Cluster) (g : Nat) : Bool := (cl g).isSome

/-- Group `g` can be reached and holds a record for `id`. -/
def holds (cl : Cluster) (g id : Nat) : Bool :=
  match cl g with
  | none => false
  | some b => (backend_lookup b id).isSome

/-- The chunks of a multi-phase write laid end to end from offset 0: the
offset at which each chunk is written, with the chunk. -/
def consecutive_chunks : Nat → List (List Nat) → List (Nat × List Nat)
  | _, [] => []
  | offset, c :: rest => (offset, c) :: consecutive_chunks (offset + c.length) rest

/-- The session calls `write_plain` for chunks at the given offsets, one
after the other. -/
def write_plain_all (acks : Bool) (groups : List Nat) (id : Nat) :
    List (Nat × List Nat) → Cluster → Cluster
  | [], cl => cl
  | c :: rest, cl => write_plain_all acks groups id rest (write_plain acks cl groups id c.2 c.1).2

/-- A stand-in for the hash `transform`: a polynomial checksum of the bytes. -/
def ex_transform (bytes : List Nat) : Nat :=
  bytes.foldl (fun acc c => (acc * 257 + c + 1) % 1000003) 7

/-- A backend without records. -/
def ex_backend_empty : BackendState := { committed := [], prepared := [] }

/-- The cluster of the test suite: the groups 1 and 2, both empty. -/
def ex_cluster : Cluster := fun g => if g = 1 ∨ g = 2 then some ex_backend_empty else none

/-- A `write_data` in which the backend of group 1 fails with an I/O error
(code -5) and every other backend performs the write. -/
def ex_io_group1_fails : Nat → Int := fun g => if g = 1 then -5 else 0

/-- The bytes of a short text, for examples. -/
def ex_bytes (s : String) : List Nat := s.toList.map (fun c => c.toNat)

/-- A cluster in which group 1 holds an older value for the ID 5 and group 2
holds nothing. -/
def ex_cluster_stale : Cluster :=
  (write_data ex_transform true no_io_error ex_cluster [1] 5 (ex_bytes "an older value") 0).2

/-- The sixteen records of the range test: IDs 1300 to 1315, each with the
number of the record as its only byte. -/
def ex_range_items : List (Nat × List Nat) :=
  (List.range 16).map (fun i => (1300 + i, [i]))

end Elliptics

namespace Elliptics

/-! ### `cocaine/plugins/service.cpp`: the methods of the service

A method creates a promise, hands the request to the storage `m_elliptics`
and connects a completion handler, or settles the promise itself. What a
method has done when it returns is the list of its calls on `m_elliptics` and
what it did with the promise. -/

/-- Value of `ENOTSUP` in errno.h (Linux). -/
def ENOTSUP : Int := 95

/-- A call that a method of the service makes on the storage `m_elliptics`. -/
inductive StorageCall where
  | async_read (collection key : String)
  | async_write (collection key : String) (blob : List Nat) (tags : List String)
  | async_find (collection : String) (tags : List String)
  | async_remove (collection key : String)
  | async_cache_read (collection key : String)
  | async_cache_write (collection key : String) (blob : List Nat) (timeout : Int)
  | async_bulk_read (collection : String) (keys : List String)
deriving DecidableEq, Repr

/-- What a method of the service has done when it returns: its calls on
`m_elliptics`, in order, and what it did with the promise it returns (`none`
when the promise is left to the completion handler it connected). -/
structure MethodTrace where
  storage : List StorageCall
  promise : Option PromiseEvent

/-- The method `elliptics_service_t::read(collection, key)`. -/
def elliptics_service_t.read (collection key : String) : MethodTrace :=
  { storage := [StorageCall.async_read collection key], promise := none }

/-- The method `elliptics_service_t::write(collection, key, blob, tags)`. -/
def elliptics_service_t.write (collection key : String) (blob : List Nat)
    (tags : List String) : MethodTrace :=
  { storage := [StorageCall.async_write collection key blob tags], promise := none }

/-- The method `elliptics_service_t::find(collection, tags)`. -/
def elliptics_service_t.find (collection : String) (tags : List String) : MethodTrace :=
  { storage := [StorageCall.async_find collection tags], promise := none }

/-- The method `elliptics_service_t::remove(collection, key)`. -/
def elliptics_service_t.remove (collection key : String) : MethodTrace :=
  { storage := [StorageCall.async_remove collection key], promise := none }

/-- The method `elliptics_service_t::cache_read(collection, key)`. -/
def elliptics_service_t.cache_read (collection key : String) : MethodTrace :=
  { storage := [StorageCall.async_cache_read collection key], promise := none }

/-- The method `elliptics_service_t::cache_write(collection, key, blob,
timeout)`. -/
def elliptics_service_t.cache_write (collection key : String) (blob : List Nat)
    (timeout : Int) : MethodTrace :=
  { storage := [StorageCall.async_cache_write collection key blob timeout], promise := none }

/-- The method `elliptics_service_t::bulk_read(collection, keys)`. -/
def elliptics_service_t.bulk_read (collection : String) (keys : List String) : MethodTrace :=
  { storage := [StorageCall.async_bulk_read collection keys], promise := none }

/-- The method `elliptics_service_t::bulk_write(collection, keys, blobs)`: the
three arguments are cast to `void`, the promise is aborted and returned. -/
def elliptics_service_t.bulk_write (_collection : String) (_keys : List String)
    (_blobs : List (List Nat)) : MethodTrace :=
  { storage := [], promise := some (PromiseEvent.abort ENOTSUP "Not supported yet") }

end Elliptics

namespace Elliptics

/-- The function `dnet_mergesort(base, nmemb, size, cmp, list2, list2_sz)` with
the scratch memory `list2` among the arguments and the results: the return
value, the records of `base` and the buffer at `list2` afterwards, or `none`
when the call does not return. The two checks come before the first
statement that writes, the call of `setup`. When the sort ends with the
records in the scratch memory they are moved to `base`. -/
def dnet_mergesort_scratch {α : Type} [Inhabited α] (base : List α) (size : Nat)
    (cmp : α → α → Int) (list2 : Buf α) (list2_sz : Nat) : Option (Int × List α × Buf α) :=
  let nmemb := base.length
  if size < DNET_PSIZE / 2 then some (-EINVAL, base, list2)
  else if nmemb = 0 then some (0, base, list2)
  else if list2_sz < (nmemb * size + DNET_PSIZE) % SIZE_T_MOD then some (-EINVAL, base, list2)
  else
    let r := setup cmp base list2 nmemb
    match sort_loop cmp size nmemb nmemb
        { list1 := { data := r.1, link := fun _ => 0 }, list2 := r.2,
          list1_is_base := true, big := false } with
    | none => none
    | some s =>
      if !s.list1_is_base then some (0, s.list1.data, s.list1)
      else some (0, s.list1.data, s.list2)

/-- A scratch buffer as the caller may hand it over: three stale records and
stale links. -/
def ex_scratch : Buf (Nat × Nat) :=
  { data := [(9, 9), (8, 8), (7, 7)], link := fun k => k + 3 }

end Elliptics

namespace Elliptics

/-- The links stored so far by the main loop of `setup` delimit, from record 0
to `f1`, runs of at least two records each; `p2` stands at `f1`, which is an
even number of records in front of `last`, and the link of the sorted tail is
in place. -/
def LinksInv {α : Type} (n last : Nat) (s : SetupState α) : Prop :=
  ∃ rs : List (List α), RunChain s.list2.link 0 rs s.f1 ∧ (∀ r ∈ rs, 2 ≤ r.length) ∧
    s.p2 = s.f1 ∧ s.f1 ≤ last ∧ (last - s.f1) % 2 = 0 ∧ s.list2.link last = n

/-- The links delimit, from record 0 to record `n`, runs of at least two
records each. -/
def LinksDone (α : Type) (n : Nat) (link : Nat → Nat) : Prop :=
  ∃ rs : List (List α), RunChain link 0 rs n ∧ ∀ r ∈ rs, 2 ≤ r.length

end Elliptics

namespace Elliptics

/-! ## Lemmas on the registry -/

theorem dnet_id_cmp_eq_zero (a b : List Nat) : dnet_id_cmp a b = 0 ↔ a = b := by
  induction a generalizing b with
  | nil => cases b <;> simp [dnet_id_cmp]
  | cons x xs ih =>
    cases b with
    | nil => simp [dnet_id_cmp]
    | cons y ys =>
      simp only [dnet_id_cmp]
      by_cases h1 : x < y
      · simp [h1]; intro h; omega
      · by_cases h2 : y < x
        · simp [h1, h2]; intro h; omega
        · have : x = y := by omega
          simp [h1, h2, ih, this]

theorem dnet_notify_hash_lt (id : List Nat) (N : Nat) (h : 0 < N) :
    dnet_notify_hash id N < N :=
  Nat.mod_lt _ h

theorem update_notify_scan_eq (x : Externals) (n : dnet_node) (st : dnet_net_state)
    (cmd : dnet_cmd) (io : dnet_io_attr) (h : dnet_history_entry)
    (b : List dnet_notify_entry) :
    dnet_update_notify_scan x st cmd { cmd := DNET_CMD_NOTIFY, size := 0, flags := 0 }
        (build_notification x n io h) b
      = (b.filter (fun e => e.cmd.id = cmd.id)).map (notify_event x n st io h) := by
  induction b with
  | nil => simp [dnet_update_notify_scan]
  | cons e rest ih =>
    simp only [dnet_update_notify_scan, ne_eq, dnet_id_cmp_eq_zero, ih]
    by_cases hc : cmd.id = e.cmd.id
    · simp [hc, List.filter_cons, notify_event]
    · have hc2 : ¬ e.cmd.id = cmd.id := fun h => hc h.symm
      simp [hc, hc2, List.filter_cons]

theorem remove_scan_nomatch (x : Externals) (cmd : dnet_cmd) (attr : dnet_attr) (err : Int)
    (b : List dnet_notify_entry) (hb : ∀ e ∈ b, e.cmd.id ≠ cmd.id) :
    dnet_notify_remove_scan x cmd attr err b = (err, b, []) := by
  induction b with
  | nil => simp [dnet_notify_remove_scan]
  | cons e rest ih =>
    have h1 : e.cmd.id ≠ cmd.id := hb e (by simp)
    have h2 := ih (fun e he => hb e (by simp [he]))
    simp [dnet_notify_remove_scan, dnet_id_cmp_eq_zero, h1, h2]

theorem remove_scan_match (x : Externals) (cmd : dnet_cmd) (attr : dnet_attr) (err : Int)
    (pre post : List dnet_notify_entry) (e : dnet_notify_entry)
    (hpre : ∀ e' ∈ pre, e'.cmd.id ≠ cmd.id) (he : e.cmd.id = cmd.id) :
    dnet_notify_remove_scan x cmd attr err (pre ++ e :: post)
      = (x.dnet_send_reply e.state { e.cmd with flags := 0 }, pre ++ post,
          [Effect.send_reply e.state { e.cmd with flags := 0 } attr none 0 0,
           Effect.state_put e.state]) := by
  induction pre with
  | nil =>
    simp [dnet_notify_remove_scan, dnet_id_cmp_eq_zero, he, dnet_notify_entry_destroy]
  | cons p rest ih =>
    have h1 : p.cmd.id ≠ cmd.id := hpre p (by simp)
    have h2 := ih (fun e he => hpre e (by simp [he]))
    simp [dnet_notify_remove_scan, dnet_id_cmp_eq_zero, h1, h2]

/-- Every bucket either has no entry for the identifier or splits at its first
entry for it. -/
theorem bucket_split (id : List Nat) (b : List dnet_notify_entry) :
    (∀ e ∈ b, e.cmd.id ≠ id) ∨
      ∃ pre e post, b = pre ++ e :: post ∧ e.cmd.id = id ∧ ∀ e' ∈ pre, e'.cmd.id ≠ id := by
  induction b with
  | nil => left; simp
  | cons a rest ih =>
    by_cases ha : a.cmd.id = id
    · right; exact ⟨[], a, rest, by simp, ha, by simp⟩
    · rcases ih with h | ⟨pre, e, post, h1, h2, h3⟩
      · left; intro e he
        rcases List.mem_cons.mp he with h0 | h0
        · rw [h0]; exact ha
        · exact h e h0
      · right
        refine ⟨a :: pre, e, post, by simp [h1], h2, ?_⟩
        intro e' he'
        rcases List.mem_cons.mp he' with h0 | h0
        · rw [h0]; exact ha
        · exact h3 e' h0

end Elliptics

namespace Elliptics

/-! ## Theorems on the registry -/

theorem getD_set_self {α : Type} (l : List α) (i : Nat) (v d : α) (h : i < l.length) :
    (l.set i v).getD i d = v := by
  simp [List.getD, h]

theorem getD_set_other {α : Type} (l : List α) (i j : Nat) (v d : α) (h : j ≠ i) :
    (l.set i v).getD j d = l.getD j d := by
  simp [List.getD, List.getElem?_set_ne (Ne.symm h)]

theorem set_getD_self {α : Type} (l : List α) (i : Nat) (d : α) :
    l.set i (l.getD i d) = l := by
  by_cases h : i < l.length
  · apply List.ext_getElem (by simp)
    intro j h1 h2
    by_cases hj : i = j
    · subst hj; simp [List.getD, h]
    · simp [List.getElem_set_ne hj]
  · exact List.set_eq_of_length_le (by omega)

/-- In a well-shaped registry the entries for an identifier are those of its
bucket. -/
theorem flatten_filter_bucket (n : dnet_node) (id : List Nat) (hok : registry_ok n) :
    n.notify_hash.flatten.filter (fun e => e.cmd.id = id)
      = (n.notify_hash.getD (dnet_notify_hash id n.notify_hash_size) []).filter
          (fun e => e.cmd.id = id) := by
  obtain ⟨hpos, hlen, hbk⟩ := hok
  have key : ∀ (bs : List (List dnet_notify_entry)) (k : Nat),
      (∀ i < bs.length, ∀ e ∈ bs.getD i [],
        dnet_notify_hash e.cmd.id n.notify_hash_size = k + i) →
      bs.flatten.filter (fun e => e.cmd.id = id)
        = (bs.getD (dnet_notify_hash id n.notify_hash_size - k) []).filter
            (fun e => e.cmd.id = id) ∧
        (dnet_notify_hash id n.notify_hash_size < k →
          bs.flatten.filter (fun e => e.cmd.id = id) = []) := by
    intro bs
    induction bs with
    | nil => intro k _; simp
    | cons b rest ih =>
      intro k hk
      have hrest := ih (k + 1) (by
        intro i hi e he
        have := hk (i + 1) (by simp; omega) e (by simpa [List.getD] using he)
        omega)
      have hb : ∀ e ∈ b, dnet_notify_hash e.cmd.id n.notify_hash_size = k := by
        intro e he
        have := hk 0 (by simp) e (by simpa [List.getD] using he)
        simpa using this
      have hbne : dnet_notify_hash id n.notify_hash_size ≠ k →
          b.filter (fun e => e.cmd.id = id) = [] := by
        intro hne
        rw [List.filter_eq_nil_iff]
        intro e he
        simp only [decide_eq_true_eq]
        intro heq
        apply hne
        rw [← heq]; exact hb e he
      constructor
      · rcases Nat.lt_trichotomy (dnet_notify_hash id n.notify_hash_size) k with h | h | h
        · have h1 := hrest.2 (by omega)
          have h0 : dnet_notify_hash id n.notify_hash_size - k = 0 := by omega
          simp [List.flatten, List.filter_append, h1, h0, List.getD]
        · have h1 := hrest.2 (by omega)
          have h0 : dnet_notify_hash id n.notify_hash_size - k = 0 := by omega
          simp [List.flatten, List.filter_append, h1, h0, List.getD]
        · have h1 := hrest.1
          have h0 : dnet_notify_hash id n.notify_hash_size - k
              = (dnet_notify_hash id n.notify_hash_size - (k + 1)) + 1 := by omega
          rw [h0]
          simp only [List.flatten, List.filter_append, hbne (by omega), List.nil_append]
          simpa [List.getD] using h1
      · intro hlt
        have h1 := hrest.2 (by omega)
        simp [List.flatten, List.filter_append, h1, hbne (by omega)]
  have := (key n.notify_hash 0 (by simpa using hbk)).1
  simpa using this

/-- What a publish sends, in a well-shaped registry. -/
theorem publish_filter (x : Externals) (n : dnet_node) (st : dnet_net_state)
    (cmd : dnet_cmd) (attr : dnet_attr) (io : dnet_io_attr) (h : dnet_history_entry)
    (hok : registry_ok n) :
    dnet_update_notify x n st cmd attr io h
      = (0, if attr.size ≤ x.sizeof_dnet_io_attr then []
            else (n.notify_hash.flatten.filter (fun e => e.cmd.id = cmd.id)).map
              (notify_event x n st io h)) := by
  unfold dnet_update_notify
  by_cases hsz : attr.size ≤ x.sizeof_dnet_io_attr
  · simp [hsz]
  · simp only [hsz, if_false]
    rw [update_notify_scan_eq, flatten_filter_bucket n cmd.id hok]

end Elliptics

namespace Elliptics

/-- C5 (as stated, refuted): a write whose attribute carries no more than the
I/O header (`attr->size <= sizeof(struct dnet_io_attr)`) is published to nobody,
although two subscriptions on the written identifier are registered. -/
theorem C5_publish_guard_counterexample :
    registry_ok ex_node ∧
    (ex_node.notify_hash.flatten.filter (fun e => e.cmd.id = ex_cmd.id)).length = 2 ∧
    (dnet_update_notify ex_externals ex_node ex_stA ex_cmd
        { size := 152, cmd := 1, flags := 0 } ex_io ex_history).2 = [] := by
  decide

/-- C5 (amended): in a well-shaped registry `dnet_update_notify` returns 0 and,
when the attribute is larger than the I/O header, sends exactly one
notification to every subscription of the registry whose identifier equals
`cmd->id`, in bucket order, and nothing to any other subscription; when the
attribute is not larger than the I/O header it sends nothing. -/
theorem C5_publish_one_per_subscription (x : Externals) (n : dnet_node) (st : dnet_net_state)
    (cmd : dnet_cmd) (attr : dnet_attr) (io : dnet_io_attr) (h : dnet_history_entry)
    (hok : registry_ok n) :
    dnet_update_notify x n st cmd attr io h
      = (0, if attr.size ≤ x.sizeof_dnet_io_attr then []
            else (n.notify_hash.flatten.filter (fun e => e.cmd.id = cmd.id)).map
              (notify_event x n st io h)) := by
  exact publish_filter x n st cmd attr io h hok

theorem C5_publish_one_per_subscription_witness :
    registry_ok ex_node ∧
    dnet_update_notify ex_externals ex_node ex_stA ex_cmd
        { size := 160, cmd := 1, flags := 0 } ex_io ex_history
      = (0, if 160 ≤ ex_externals.sizeof_dnet_io_attr then []
            else (ex_node.notify_hash.flatten.filter (fun e => e.cmd.id = ex_cmd.id)).map
              (notify_event ex_externals ex_node ex_stA ex_io ex_history)) :=
  ⟨by decide, C5_publish_one_per_subscription ex_externals ex_node ex_stA ex_cmd
      { size := 160, cmd := 1, flags := 0 } ex_io ex_history (by decide)⟩

/-- C6: `dnet_notify_remove` changes nothing but bucket `h(id)`; when no entry
of that bucket has the identifier the node is unchanged, and otherwise the
bucket loses exactly its first entry with that identifier while all its other
entries, later ones for the same identifier included, keep their order. -/
theorem C6_remove_unlinks_first_match (x : Externals) (n : dnet_node) (st : dnet_net_state)
    (cmd : dnet_cmd) (attr : dnet_attr)
    (hpos : 0 < n.notify_hash_size) (hlen : n.notify_hash.length = n.notify_hash_size) :
    (dnet_notify_remove x n st cmd attr).2.1.notify_hash_size = n.notify_hash_size ∧
    (dnet_notify_remove x n st cmd attr).2.1.notify_hash.length = n.notify_hash.length ∧
    (∀ j, j ≠ dnet_notify_hash cmd.id n.notify_hash_size →
      (dnet_notify_remove x n st cmd attr).2.1.notify_hash.getD j []
        = n.notify_hash.getD j []) ∧
    ((∀ e ∈ n.notify_hash.getD (dnet_notify_hash cmd.id n.notify_hash_size) [],
        e.cmd.id ≠ cmd.id) →
      (dnet_notify_remove x n st cmd attr).2.1 = n) ∧
    (∀ pre e post,
      n.notify_hash.getD (dnet_notify_hash cmd.id n.notify_hash_size) [] = pre ++ e :: post →
      e.cmd.id = cmd.id → (∀ e' ∈ pre, e'.cmd.id ≠ cmd.id) →
      (dnet_notify_remove x n st cmd attr).2.1.notify_hash.getD
        (dnet_notify_hash cmd.id n.notify_hash_size) [] = pre ++ post) := by
  have hlt : dnet_notify_hash cmd.id n.notify_hash_size < n.notify_hash.length := by
    rw [hlen]; exact dnet_notify_hash_lt _ _ hpos
  refine ⟨rfl, by simp [dnet_notify_remove], ?_, ?_, ?_⟩
  · intro j hj
    simp only [dnet_notify_remove]
    exact getD_set_other _ _ _ _ _ hj
  · intro hno
    simp only [dnet_notify_remove]
    rw [remove_scan_nomatch x cmd attr _ _ hno]
    simp only [set_getD_self]
  · intro pre e post hb he hpre
    simp only [dnet_notify_remove]
    rw [hb, remove_scan_match x cmd attr _ pre post e hpre he]
    exact getD_set_self _ _ _ _ hlt

theorem C6_remove_unlinks_first_match_witness :
    0 < ex_node.notify_hash_size ∧ ex_node.notify_hash.length = ex_node.notify_hash_size ∧
    (dnet_notify_remove ex_externals ex_node ex_stB ex_cmd
        { size := 0, cmd := 7, flags := 1 }).2.1.notify_hash.getD
        (dnet_notify_hash ex_cmd.id ex_node.notify_hash_size) []
      = [] ++ [{ cmd := ex_cmd, state := ex_stB }] :=
  ⟨by decide, by decide,
    (C6_remove_unlinks_first_match ex_externals ex_node ex_stB ex_cmd
      { size := 0, cmd := 7, flags := 1 } (by decide) (by decide)).2.2.2.2
      [] { cmd := ex_cmd, state := ex_stA } [{ cmd := ex_cmd, state := ex_stB }]
      (by decide) (by decide) (by simp)⟩

/-- C7 (as stated, refuted): with a transport whose send fails, a remove that
finds and unlinks a matching subscription returns the error of the send
(`-ENOMEM` here) and not 0. -/
theorem C7_remove_result_counterexample :
    (∃ e ∈ ex_node.notify_hash.getD (dnet_notify_hash ex_cmd.id ex_node.notify_hash_size) [],
      e.cmd.id = ex_cmd.id) ∧
    (dnet_notify_remove ex_externals_failing ex_node ex_stA ex_cmd
        { size := 0, cmd := 7, flags := 1 }).1 = -ENOMEM ∧
    (dnet_notify_remove ex_externals_failing ex_node ex_stA ex_cmd
        { size := 0, cmd := 7, flags := 1 }).1 ≠ 0 := by
  decide

/-- C7 (amended): on a registry with at least one bucket (and as many buckets
as `notify_hash_size` says) the bucket `h(id)` exists, and
`dnet_notify_remove` returns `-ENOENT` when no entry of that bucket has an
equal identifier; when one has, it returns the value of the terminating
`dnet_send_reply` to the first such entry (its stored command with the flags
cleared), which is 0 when that send succeeds. -/
theorem C7_remove_result (x : Externals) (n : dnet_node) (st : dnet_net_state)
    (cmd : dnet_cmd) (attr : dnet_attr)
    (hpos : 0 < n.notify_hash_size) (hlen : n.notify_hash.length = n.notify_hash_size) :
    dnet_notify_hash cmd.id n.notify_hash_size < n.notify_hash.length ∧
    ((∀ e ∈ n.notify_hash.getD (dnet_notify_hash cmd.id n.notify_hash_size) [],
        e.cmd.id ≠ cmd.id) →
      (dnet_notify_remove x n st cmd attr).1 = -ENOENT) ∧
    (∀ pre e post,
      n.notify_hash.getD (dnet_notify_hash cmd.id n.notify_hash_size) [] = pre ++ e :: post →
      e.cmd.id = cmd.id → (∀ e' ∈ pre, e'.cmd.id ≠ cmd.id) →
      (dnet_notify_remove x n st cmd attr).1
        = x.dnet_send_reply e.state { e.cmd with flags := 0 }) := by
  refine ⟨by rw [hlen]; exact dnet_notify_hash_lt _ _ hpos, ?_, ?_⟩
  · intro hno
    simp only [dnet_notify_remove]
    rw [remove_scan_nomatch x cmd attr _ _ hno]
  · intro pre e post hb he hpre
    simp only [dnet_notify_remove]
    rw [hb, remove_scan_match x cmd attr _ pre post e hpre he]

/-- C10: a `dnet_notify_add` whose allocation succeeds returns 0, appends the
new entry `(cmd, st)` behind the previous entries of bucket `h(id) mod N` and
leaves the bucket count and every other bucket as they were. -/
theorem C10_add_appends_at_tail (n : dnet_node) (st : dnet_net_state) (cmd : dnet_cmd)
    (hpos : 0 < n.notify_hash_size) (hlen : n.notify_hash.length = n.notify_hash_size) :
    (dnet_notify_add n st cmd true).1 = 0 ∧
    (dnet_notify_add n st cmd true).2.1.notify_hash.getD
        (dnet_notify_hash cmd.id n.notify_hash_size) []
      = n.notify_hash.getD (dnet_notify_hash cmd.id n.notify_hash_size) []
          ++ [{ cmd := cmd, state := st }] ∧
    (∀ j, j ≠ dnet_notify_hash cmd.id n.notify_hash_size →
      (dnet_notify_add n st cmd true).2.1.notify_hash.getD j [] = n.notify_hash.getD j []) ∧
    (dnet_notify_add n st cmd true).2.1.notify_hash.length = n.notify_hash.length ∧
    (dnet_notify_add n st cmd true).2.1.notify_hash_size = n.notify_hash_size ∧
    dnet_notify_hash cmd.id n.notify_hash_size < n.notify_hash_size := by
  have hlt : dnet_notify_hash cmd.id n.notify_hash_size < n.notify_hash.length := by
    rw [hlen]; exact dnet_notify_hash_lt _ _ hpos
  refine ⟨by simp [dnet_notify_add], ?_, ?_, by simp [dnet_notify_add],
    by simp [dnet_notify_add], dnet_notify_hash_lt _ _ hpos⟩
  · simp only [dnet_notify_add, Bool.not_true, Bool.false_eq_true, if_false]
    exact getD_set_self _ _ _ _ hlt
  · intro j hj
    simp only [dnet_notify_add, Bool.not_true, Bool.false_eq_true, if_false]
    exact getD_set_other _ _ _ _ _ hj

theorem C10_add_appends_at_tail_witness :
    0 < ex_node.notify_hash_size ∧ ex_node.notify_hash.length = ex_node.notify_hash_size ∧
    (dnet_notify_add ex_node ex_stA ex_cmd true).2.1.notify_hash.getD
        (dnet_notify_hash ex_cmd.id ex_node.notify_hash_size) []
      = ex_node.notify_hash.getD (dnet_notify_hash ex_cmd.id ex_node.notify_hash_size) []
          ++ [{ cmd := ex_cmd, state := ex_stA }] :=
  ⟨by decide, by decide,
    (C10_add_appends_at_tail ex_node ex_stA ex_cmd (by decide) (by decide)).2.1⟩

end Elliptics

namespace Elliptics

set_option maxRecDepth 100000 in
theorem C7_remove_result_witness :
    0 < ex_node.notify_hash_size ∧ ex_node.notify_hash.length = ex_node.notify_hash_size ∧
      (dnet_notify_remove ex_externals_failing ex_node ex_stB ex_cmd
          { size := 0, cmd := 7, flags := 1 }).1
        = ex_externals_failing.dnet_send_reply ex_stA { ex_cmd with flags := 0 } ∧
      (dnet_notify_remove ex_externals ex_node ex_stB ex_cmd
          { size := 0, cmd := 7, flags := 1 }).1 = 0 ∧
      (dnet_notify_remove ex_externals ex_node ex_stA ex_cmd_mixed
          { size := 0, cmd := 7, flags := 1 }).1 = -ENOENT :=
  ⟨by decide, by decide,
    (C7_remove_result ex_externals_failing ex_node ex_stB ex_cmd
      { size := 0, cmd := 7, flags := 1 } (by decide) (by decide)).2.2
      [] { cmd := ex_cmd, state := ex_stA } [{ cmd := ex_cmd, state := ex_stB }]
      (by decide) (by decide) (by simp),
    (C7_remove_result ex_externals ex_node ex_stB ex_cmd
      { size := 0, cmd := 7, flags := 1 } (by decide) (by decide)).2.2
      [] { cmd := ex_cmd, state := ex_stA } [{ cmd := ex_cmd, state := ex_stB }]
      (by decide) (by decide) (by simp),
    (C7_remove_result ex_externals ex_node ex_stA ex_cmd_mixed
      { size := 0, cmd := 7, flags := 1 } (by decide) (by decide)).2.1 (by decide)⟩

/-! ### Reference counting -/

theorem countP_flatten_set (p : dnet_notify_entry → Bool)
    (l : List (List dnet_notify_entry)) (i : Nat) (b : List dnet_notify_entry)
    (h : i < l.length) :
    (l.set i b).flatten.countP p + (l.getD i []).countP p
      = l.flatten.countP p + b.countP p := by
  induction l generalizing i with
  | nil => simp at h
  | cons a rest ih =>
    cases i with
    | zero => simp [List.getD, List.countP_append]; omega
    | succ k =>
      have := ih k (by simpa using h)
      have hg : (a :: rest).getD (k + 1) [] = rest.getD k [] := by simp [List.getD]
      rw [hg]
      simp only [List.set_cons_succ, List.flatten_cons, List.countP_append]
      omega

theorem update_notify_scan_gets (x : Externals) (st : dnet_net_state) (cmd : dnet_cmd)
    (a : dnet_attr) (notif : dnet_io_notification) (b : List dnet_notify_entry)
    (s : dnet_net_state) :
    gets (dnet_update_notify_scan x st cmd a notif b) s = 0 ∧
    puts (dnet_update_notify_scan x st cmd a notif b) s = 0 := by
  induction b with
  | nil => simp [dnet_update_notify_scan, gets, puts]
  | cons e rest ih =>
    simp only [dnet_update_notify_scan]
    split
    · exact ih
    · simp only [gets, puts] at ih ⊢
      simp [List.count_cons, ih.1, ih.2]

theorem update_notify_gets (x : Externals) (n : dnet_node) (st : dnet_net_state)
    (cmd : dnet_cmd) (attr : dnet_attr) (io : dnet_io_attr) (h : dnet_history_entry)
    (s : dnet_net_state) :
    gets (dnet_update_notify x n st cmd attr io h).2 s = 0 ∧
    puts (dnet_update_notify x n st cmd attr io h).2 s = 0 := by
  unfold dnet_update_notify
  by_cases hsz : attr.size ≤ x.sizeof_dnet_io_attr
  · simp [hsz, gets, puts]
  · simp only [hsz, if_false]
    exact update_notify_scan_gets _ _ _ _ _ _ _

theorem gets_append (a b : List Effect) (s : dnet_net_state) :
    gets (a ++ b) s = gets a s + gets b s := by
  simp [gets, List.count_append]

theorem puts_append (a b : List Effect) (s : dnet_net_state) :
    puts (a ++ b) s = puts a s + puts b s := by
  simp [puts, List.count_append]

theorem step_refs_ok (x : Externals) (n : dnet_node) (tr : List Effect) (op : Op)
    (h : refs_ok n tr) : refs_ok (step x n op).1 (tr ++ (step x n op).2) := by
  obtain ⟨hpos, hlen, hcnt⟩ := h
  cases op with
  | add st cmd ok =>
    cases ok with
    | false => simpa [step, dnet_notify_add, refs_ok] using ⟨hpos, hlen, hcnt⟩
    | true =>
      have hlt : dnet_notify_hash cmd.id n.notify_hash_size < n.notify_hash.length := by
        rw [hlen]; exact dnet_notify_hash_lt _ _ hpos
      refine ⟨hpos, by simpa [step, dnet_notify_add] using hlen, ?_⟩
      intro s
      have hc := countP_flatten_set (fun e => e.state = s) n.notify_hash _
        (n.notify_hash.getD (dnet_notify_hash cmd.id n.notify_hash_size) []
          ++ [{ cmd := cmd, state := st }]) hlt
      have hs := hcnt s
      simp only [step, dnet_notify_add, Bool.not_true, Bool.false_eq_true, if_false, linked,
        gets_append, puts_append] at hc hs ⊢
      simp only [List.countP_append, List.countP_cons, List.countP_nil] at hc
      by_cases hst : st = s
      · simp [gets, puts, hst] at hc hs ⊢; omega
      · have hst2 : ¬ (Effect.state_get st = Effect.state_get s) := by
          intro hh; injection hh with hh; exact hst hh
        simp [gets, puts, hst, List.count_cons, hst2] at hc hs ⊢; omega
  | remove st cmd attr =>
    have hlt : dnet_notify_hash cmd.id n.notify_hash_size < n.notify_hash.length := by
      rw [hlen]; exact dnet_notify_hash_lt _ _ hpos
    refine ⟨hpos, by simpa [step, dnet_notify_remove] using hlen, ?_⟩
    intro s
    rcases bucket_split cmd.id
        (n.notify_hash.getD (dnet_notify_hash cmd.id n.notify_hash_size) []) with
      hno | ⟨pre, e, post, hb, he, hpre⟩
    · have hs := hcnt s
      simp only [step, dnet_notify_remove, linked, gets_append, puts_append]
      rw [remove_scan_nomatch x cmd attr _ _ hno]
      simp only [set_getD_self]
      simpa [gets, puts, linked] using hs
    · have hc := countP_flatten_set (fun e => e.state = s) n.notify_hash _ (pre ++ post) hlt
      have hs := hcnt s
      simp only [step, dnet_notify_remove, linked, gets_append, puts_append] at hc hs ⊢
      rw [hb, remove_scan_match x cmd attr _ pre post e hpre he]
      rw [hb] at hc
      simp only [List.countP_append, List.countP_cons] at hc
      by_cases hst : e.state = s
      · simp [gets, puts, hst, List.count_cons] at hc hs ⊢; omega
      · have hst2 : ¬ (Effect.state_put e.state = Effect.state_put s) := by
          intro hh; injection hh with hh; exact hst hh
        simp [gets, puts, hst, List.count_cons, hst2] at hc hs ⊢; omega
  | publish st cmd attr io h =>
    refine ⟨hpos, hlen, ?_⟩
    intro s
    have hg := update_notify_gets x n st cmd attr io h s
    have hs := hcnt s
    simp only [step, gets_append, puts_append, hg.1, hg.2]
    simpa using hs

theorem run_refs_ok (x : Externals) (ops : List Op) (n : dnet_node) (tr : List Effect)
    (h : refs_ok n tr) : refs_ok (run x n ops).1 (tr ++ (run x n ops).2) := by
  induction ops generalizing n tr with
  | nil => simpa [run] using h
  | cons op rest ih =>
    have h1 := step_refs_ok x n tr op h
    have h2 := ih _ _ h1
    simpa [run, List.append_assoc] using h2

theorem exit_bucket_counts (b : List dnet_notify_entry) (s : dnet_net_state) :
    puts (dnet_notify_exit_bucket b) s = b.countP (fun e => e.state = s) ∧
    gets (dnet_notify_exit_bucket b) s = 0 := by
  induction b with
  | nil => simp [dnet_notify_exit_bucket, puts, gets]
  | cons e rest ih =>
    simp only [dnet_notify_exit_bucket, dnet_notify_entry_destroy, puts_append, gets_append,
      ih.1, ih.2, List.countP_cons]
    by_cases hst : e.state = s
    · simp [puts, gets, hst]; omega
    · have hst2 : ¬ (Effect.state_put e.state = Effect.state_put s) := by
        intro hh; injection hh with hh; exact hst hh
      simp [puts, gets, hst, List.count_cons, hst2]

theorem exit_counts (bs : List (List dnet_notify_entry)) (s : dnet_net_state) :
    puts (bs.map dnet_notify_exit_bucket).flatten s = bs.flatten.countP (fun e => e.state = s) ∧
    gets (bs.map dnet_notify_exit_bucket).flatten s = 0 := by
  induction bs with
  | nil => simp [puts, gets]
  | cons b rest ih =>
    have hb := exit_bucket_counts b s
    simp only [List.map_cons, List.flatten_cons, puts_append, gets_append, List.countP_append,
      ih.1, ih.2, hb.1, hb.2]
    simp

end Elliptics

namespace Elliptics

/-- C9: start from a freshly initialised registry and run any sequence of add,
remove and publish calls. At the end of the sequence (hence after each of its
initial segments) every observer has exactly as many references taken and not
yet released as it has entries linked in the buckets, so no reference is
released twice or while its entry is linked; after `dnet_notify_exit` every
reference taken has been released exactly once and every bucket is empty. -/
theorem C9_references_released_once (x : Externals) (n0 : dnet_node) (ops : List Op)
    (hpos : 0 < n0.notify_hash_size) :
    (∀ s, puts (run x (dnet_notify_init n0).2 ops).2 s
          + linked (run x (dnet_notify_init n0).2 ops).1 s
        = gets (run x (dnet_notify_init n0).2 ops).2 s) ∧
    (∀ s, puts ((run x (dnet_notify_init n0).2 ops).2
            ++ (dnet_notify_exit (run x (dnet_notify_init n0).2 ops).1).2) s
        = gets ((run x (dnet_notify_init n0).2 ops).2
            ++ (dnet_notify_exit (run x (dnet_notify_init n0).2 ops).1).2) s) ∧
    (∀ b ∈ (dnet_notify_exit (run x (dnet_notify_init n0).2 ops).1).1.notify_hash, b = []) ∧
    (dnet_notify_exit (run x (dnet_notify_init n0).2 ops).1).1.notify_hash.length
      = n0.notify_hash_size := by
  have h0 : refs_ok (dnet_notify_init n0).2 [] := by
    refine ⟨hpos, by simp [dnet_notify_init], ?_⟩
    intro s
    simp [puts, gets, linked, dnet_notify_init, List.countP_eq_zero]
  have h1 := run_refs_ok x ops _ _ h0
  simp only [List.nil_append] at h1
  obtain ⟨hp, hl, hc⟩ := h1
  have hsz : (run x (dnet_notify_init n0).2 ops).1.notify_hash_size = n0.notify_hash_size := by
    clear hp hl hc h0
    generalize hn : (dnet_notify_init n0).2 = n1
    have hn1 : n1.notify_hash_size = n0.notify_hash_size := by
      rw [← hn]; rfl
    clear hn
    induction ops generalizing n1 with
    | nil => simpa [run] using hn1
    | cons op rest ih =>
      simp only [run]
      apply ih
      cases op with
      | add st cmd ok => cases ok <;> simpa [step, dnet_notify_add] using hn1
      | remove st cmd attr => simpa [step, dnet_notify_remove] using hn1
      | publish st cmd attr io h => simpa [step] using hn1
  have htake : (run x (dnet_notify_init n0).2 ops).1.notify_hash.take
      (run x (dnet_notify_init n0).2 ops).1.notify_hash_size
        = (run x (dnet_notify_init n0).2 ops).1.notify_hash :=
    List.take_of_length_le (by omega)
  have hdrop : (run x (dnet_notify_init n0).2 ops).1.notify_hash.drop
      (run x (dnet_notify_init n0).2 ops).1.notify_hash_size = [] :=
    List.drop_of_length_le (by omega)
  refine ⟨hc, ?_, ?_, ?_⟩
  · intro s
    have he := exit_counts (run x (dnet_notify_init n0).2 ops).1.notify_hash s
    have hs := hc s
    simp only [dnet_notify_exit, htake, puts_append, gets_append, he.1, he.2]
    simpa [linked] using hs
  · intro b hb
    simp only [dnet_notify_exit, htake, hdrop, List.append_nil, List.mem_map] at hb
    obtain ⟨_, _, h⟩ := hb
    exact h.symm
  · simp only [dnet_notify_exit, htake, hdrop, List.append_nil, List.length_map]
    omega

theorem C9_references_released_once_witness :
    0 < ex_node_empty.notify_hash_size ∧
    (∀ b ∈ (dnet_notify_exit (run ex_externals (dnet_notify_init ex_node_empty).2
        [Op.add ex_stA ex_cmd true, Op.add ex_stB ex_cmd true,
         Op.remove ex_stB ex_cmd { size := 0, cmd := 7, flags := 1 }]).1).1.notify_hash,
      b = []) :=
  ⟨by decide, (C9_references_released_once ex_externals ex_node_empty
    [Op.add ex_stA ex_cmd true, Op.add ex_stB ex_cmd true,
     Op.remove ex_stB ex_cmd { size := 0, cmd := 7, flags := 1 }] (by decide)).2.2.1⟩

/-! ### Delivery after a remove -/

theorem registry_ok_set (n : dnet_node) (i : Nat) (b : List dnet_notify_entry)
    (hok : registry_ok n)
    (hb : ∀ e ∈ b, dnet_notify_hash e.cmd.id n.notify_hash_size = i) :
    registry_ok { n with notify_hash := n.notify_hash.set i b } := by
  obtain ⟨hpos, hlen, hbk⟩ := hok
  refine ⟨hpos, by simpa using hlen, ?_⟩
  intro j hj e he
  simp only [List.length_set] at hj
  by_cases hji : j = i
  · subst hji
    rw [getD_set_self _ _ _ _ hj] at he
    exact hb e he
  · rw [getD_set_other _ _ _ _ _ hji] at he
    exact hbk j hj e he

theorem run_publishes (x : Externals) (id : List Nat) (ops : List Op) (n : dnet_node)
    (hops : ∀ op ∈ ops, publish_on id op = true) (P : Effect → Prop)
    (hP : ∀ st cmd attr io h, cmd.id = id →
      ∀ eff ∈ (dnet_update_notify x n st cmd attr io h).2, P eff) :
    (run x n ops).1 = n ∧ ∀ eff ∈ (run x n ops).2, P eff := by
  induction ops with
  | nil => simp [run]
  | cons op rest ih =>
    have hrest := ih (fun op h => hops op (by simp [h]))
    have hop := hops op (by simp)
    cases op with
    | add st cmd ok => simp [publish_on] at hop
    | remove st cmd attr => simp [publish_on] at hop
    | publish st cmd attr io h =>
      simp only [publish_on, decide_eq_true_eq] at hop
      simp only [run, step]
      refine ⟨hrest.1, ?_⟩
      intro eff heff
      rcases List.mem_append.mp heff with h1 | h1
      · exact hP st cmd attr io h hop eff h1
      · exact hrest.2 eff h1

/-- C8 (as stated, refuted): both observers subscribe to the identifier, the
entry of `ex_stA` being first in the bucket. After `ex_stB` has called remove,
its own entry is still linked and the next publish is delivered to it. -/
theorem C8_remove_other_subscriber_counterexample :
    (∃ e ∈ ex_node.notify_hash.getD (dnet_notify_hash ex_cmd.id ex_node.notify_hash_size) [],
      e.cmd.id = ex_cmd.id ∧ e.state = ex_stB) ∧
    ∃ eff ∈ (run ex_externals
        (dnet_notify_remove ex_externals ex_node ex_stB ex_cmd
          { size := 0, cmd := 7, flags := 1 }).2.1
        [Op.publish ex_stA ex_cmd { size := 160, cmd := 1, flags := 0 } ex_io ex_history]).2,
      sent_to ex_stB eff = true := by
  decide

/-- C8 (amended): in a well-shaped registry, let the first entry for `id` in
bucket `h(id)` belong to the subscriber that calls remove, and let that
subscriber hold no further entry for `id` behind it. Then after the remove no
publish on `id`, in any sequence of publishes on `id`, sends anything to that
subscriber, and the registry stays as the remove left it. -/
theorem C8_no_delivery_after_remove (x : Externals) (n : dnet_node) (st : dnet_net_state)
    (cmd : dnet_cmd) (attr : dnet_attr) (pre post : List dnet_notify_entry)
    (e : dnet_notify_entry) (ops : List Op)
    (hok : registry_ok n)
    (hb : n.notify_hash.getD (dnet_notify_hash cmd.id n.notify_hash_size) []
      = pre ++ e :: post)
    (he : e.cmd.id = cmd.id) (_hst : e.state = st)
    (hpre : ∀ e' ∈ pre, e'.cmd.id ≠ cmd.id)
    (hpost : ∀ e' ∈ post, e'.cmd.id = cmd.id → e'.state ≠ st)
    (hops : ∀ op ∈ ops, publish_on cmd.id op = true) :
    (run x (dnet_notify_remove x n st cmd attr).2.1 ops).1
        = (dnet_notify_remove x n st cmd attr).2.1 ∧
    ∀ eff ∈ (run x (dnet_notify_remove x n st cmd attr).2.1 ops).2, sent_to st eff = false := by
  have hlt : dnet_notify_hash cmd.id n.notify_hash_size < n.notify_hash.length := by
    rw [hok.2.1]; exact dnet_notify_hash_lt _ _ hok.1
  have hn' : (dnet_notify_remove x n st cmd attr).2.1
      = { n with notify_hash :=
            n.notify_hash.set (dnet_notify_hash cmd.id n.notify_hash_size) (pre ++ post) } := by
    simp only [dnet_notify_remove]
    rw [hb, remove_scan_match x cmd attr _ pre post e hpre he]
  have hmem : ∀ e' ∈ pre ++ post,
      e' ∈ n.notify_hash.getD (dnet_notify_hash cmd.id n.notify_hash_size) [] := by
    intro e' he'
    rw [hb]
    rcases List.mem_append.mp he' with h | h
    · exact List.mem_append_left _ h
    · exact List.mem_append_right _ (List.mem_cons_of_mem _ h)
  have hok' : registry_ok (dnet_notify_remove x n st cmd attr).2.1 := by
    rw [hn']
    apply registry_ok_set n _ _ hok
    intro e' he'
    exact hok.2.2 _ hlt e' (hmem e' he')
  apply run_publishes x cmd.id ops _ hops
  intro st' cmd' attr' io h hid eff heff
  rw [publish_filter x _ st' cmd' attr' io h hok'] at heff
  simp only at heff
  split at heff
  · simp at heff
  · rw [flatten_filter_bucket _ _ hok', hid, hn'] at heff
    simp only [] at heff
    rw [getD_set_self _ _ _ _ hlt] at heff
    obtain ⟨nt, hnt, rfl⟩ := List.mem_map.mp heff
    obtain ⟨hnt1, hnt2⟩ := List.mem_filter.mp hnt
    simp only [decide_eq_true_eq] at hnt2
    simp only [notify_event, sent_to, decide_eq_false_iff_not]
    rcases List.mem_append.mp hnt1 with h | h
    · exact absurd hnt2 (hpre nt h)
    · exact hpost nt h hnt2

theorem C8_no_delivery_after_remove_witness :
    registry_ok ex_node ∧
    ∀ eff ∈ (run ex_externals
        (dnet_notify_remove ex_externals ex_node ex_stA ex_cmd
          { size := 0, cmd := 7, flags := 1 }).2.1
        [Op.publish ex_stB ex_cmd { size := 160, cmd := 1, flags := 0 } ex_io ex_history]).2,
      sent_to ex_stA eff = false :=
  ⟨by decide, (C8_no_delivery_after_remove ex_externals ex_node ex_stA ex_cmd
    { size := 0, cmd := 7, flags := 1 } [] [{ cmd := ex_cmd, state := ex_stB }]
    { cmd := ex_cmd, state := ex_stA }
    [Op.publish ex_stB ex_cmd { size := 160, cmd := 1, flags := 0 } ex_io ex_history]
    (by decide) (by decide) (by decide) (by decide) (by simp) (by decide) (by decide)).2⟩

end Elliptics

namespace Elliptics

/-! ### Every registry that the calls can produce is well shaped -/

theorem init_registry_ok (n : dnet_node) (h : 0 < n.notify_hash_size) :
    registry_ok (dnet_notify_init n).2 := by
  refine ⟨h, by simp [dnet_notify_init], ?_⟩
  intro i hi e he
  simp only [dnet_notify_init, List.length_replicate] at hi he
  rw [List.getD_eq_getElem _ _ (by simpa using hi)] at he
  simp at he

theorem step_registry_ok (x : Externals) (n : dnet_node) (op : Op) (h : registry_ok n) :
    registry_ok (step x n op).1 := by
  have hlt : ∀ id, dnet_notify_hash id n.notify_hash_size < n.notify_hash.length := by
    intro id; rw [h.2.1]; exact dnet_notify_hash_lt _ _ h.1
  cases op with
  | add st cmd ok =>
    cases ok with
    | false => simpa [step, dnet_notify_add] using h
    | true =>
      simp only [step, dnet_notify_add, Bool.not_true, Bool.false_eq_true, if_false]
      apply registry_ok_set n _ _ h
      intro e he
      rcases List.mem_append.mp he with h1 | h1
      · exact h.2.2 _ (hlt cmd.id) e h1
      · simp only [List.mem_singleton] at h1
        rw [h1]
  | remove st cmd attr =>
    rcases bucket_split cmd.id
        (n.notify_hash.getD (dnet_notify_hash cmd.id n.notify_hash_size) []) with
      hno | ⟨pre, e, post, hb, he, hpre⟩
    · simp only [step, dnet_notify_remove]
      rw [remove_scan_nomatch x cmd attr _ _ hno]
      simp only [set_getD_self]
      exact h
    · simp only [step, dnet_notify_remove]
      rw [hb, remove_scan_match x cmd attr _ pre post e hpre he]
      apply registry_ok_set n _ _ h
      intro e' he'
      apply h.2.2 _ (hlt cmd.id) e'
      rw [hb]
      rcases List.mem_append.mp he' with h1 | h1
      · exact List.mem_append_left _ h1
      · exact List.mem_append_right _ (List.mem_cons_of_mem _ h1)
  | publish st cmd attr io hh => exact h

/-- Every registry reached from a fresh one by add, remove and publish calls
is well shaped. -/
theorem run_registry_ok (x : Externals) (ops : List Op) (n : dnet_node) (h : registry_ok n) :
    registry_ok (run x n ops).1 := by
  induction ops generalizing n with
  | nil => exact h
  | cons op rest ih => exact ih _ (step_registry_ok x n op h)

end Elliptics

namespace Elliptics

/-! ## Subscribe and unsubscribe -/

/-- C33: in a registry with at least one bucket that holds no subscription for
the identifier of `cmd`, a `dnet_notify_add` of `cmd` for the observer `st`
that gets its memory, followed by a `dnet_notify_remove` for the same
identifier, leaves the node exactly as it was before the two calls (every
bucket with the same entries in the same order). The two calls together send
exactly one reply to the observer: the one of the remove, for the stored
command with `flags` cleared, without data and with `more` 0; the remove
returns what `dnet_send_reply` returned for it, and the reference taken by the
add is released. -/
theorem C33_add_then_remove_restores (x : Externals) (n : dnet_node)
    (st st2 : dnet_net_state) (cmd cmd2 : dnet_cmd) (attr : dnet_attr)
    (hN : 0 < n.notify_hash_size) (hlen : n.notify_hash.length = n.notify_hash_size)
    (hid : cmd2.id = cmd.id)
    (hno : ∀ b ∈ n.notify_hash, ∀ e ∈ b, e.cmd.id ≠ cmd.id) :
    (dnet_notify_add n st cmd true).1 = 0
      ∧ (dnet_notify_remove x (dnet_notify_add n st cmd true).2.1 st2 cmd2 attr).2.1 = n
      ∧ (dnet_notify_remove x (dnet_notify_add n st cmd true).2.1 st2 cmd2 attr).1
        = x.dnet_send_reply st { cmd with flags := 0 }
      ∧ (dnet_notify_add n st cmd true).2.2
          ++ (dnet_notify_remove x (dnet_notify_add n st cmd true).2.1 st2 cmd2 attr).2.2
        = [Effect.state_get st,
           Effect.send_reply st { cmd with flags := 0 } attr none 0 0,
           Effect.state_put st]
      ∧ ((dnet_notify_add n st cmd true).2.2
          ++ (dnet_notify_remove x (dnet_notify_add n st cmd true).2.1 st2 cmd2
            attr).2.2).filter (sent_to st)
        = [Effect.send_reply st { cmd with flags := 0 } attr none 0 0] := by
  have hh : dnet_notify_hash cmd.id n.notify_hash_size < n.notify_hash.length := by
    rw [hlen]; exact dnet_notify_hash_lt cmd.id n.notify_hash_size hN
  have hb : ∀ e ∈ n.notify_hash.getD (dnet_notify_hash cmd.id n.notify_hash_size) [],
      e.cmd.id ≠ cmd2.id := by
    intro e he
    rw [hid]
    refine hno _ ?_ e he
    rw [List.getD_eq_getElem _ _ hh]
    exact List.getElem_mem _
  have hadd1 : (dnet_notify_add n st cmd true).1 = 0 := rfl
  have hadd2 : (dnet_notify_add n st cmd true).2.2 = [Effect.state_get st] := rfl
  have hscan := remove_scan_match x cmd2 attr (-ENOENT)
    (n.notify_hash.getD (dnet_notify_hash cmd.id n.notify_hash_size) []) []
    { state := st, cmd := cmd } hb hid.symm
  have hrem : dnet_notify_remove x (dnet_notify_add n st cmd true).2.1 st2 cmd2 attr
      = (x.dnet_send_reply st { cmd with flags := 0 }, n,
          [Effect.send_reply st { cmd with flags := 0 } attr none 0 0,
           Effect.state_put st]) := by
    simp only [dnet_notify_add, dnet_notify_remove, hid, Bool.not_true, Bool.false_eq_true,
      if_false]
    rw [getD_set_self _ _ _ _ hh, hscan]
    simp only [List.append_nil, List.set_set]
    rw [set_getD_self]
  rw [hrem, hadd1, hadd2]
  refine ⟨rfl, rfl, rfl, rfl, ?_⟩
  simp [sent_to]

theorem C33_add_then_remove_restores_witness :
    0 < ex_node_empty.notify_hash_size
      ∧ ex_node_empty.notify_hash.length = ex_node_empty.notify_hash_size
      ∧ (dnet_notify_remove ex_externals (dnet_notify_add ex_node_empty ex_stA ex_cmd true).2.1
          ex_stB ex_cmd { size := 0, cmd := DNET_CMD_NOTIFY, flags := 1 }).2.1 = ex_node_empty :=
  ⟨by decide, by decide,
    (C33_add_then_remove_restores ex_externals ex_node_empty ex_stA ex_stB ex_cmd ex_cmd
      { size := 0, cmd := DNET_CMD_NOTIFY, flags := 1 } (by decide) (by decide) rfl
      (by decide)).2.1⟩

end Elliptics

namespace Elliptics

/-! ## The bulk write of the service -/

/-- C37: for every collection, key list and blob list the method
`elliptics_service_t::bulk_write` makes no call on the storage and returns a
promise that it has aborted with the code `ENOTSUP` and the message
`Not supported yet`, so that the promise delivers nothing under any name. -/
theorem C37_bulk_write_not_supported (collection : String) (keys : List String)
    (blobs : List (List Nat)) :
    (elliptics_service_t.bulk_write collection keys blobs).storage = []
      ∧ (elliptics_service_t.bulk_write collection keys blobs).promise
        = some (PromiseEvent.abort ENOTSUP "Not supported yet")
      ∧ ∀ name, ((elliptics_service_t.bulk_write collection keys blobs).promise.map
          (fun p => p.lookup name)) = some none :=
  ⟨rfl, rfl, fun _ => rfl⟩

end Elliptics
namespace Elliptics

/-! ## The lock calls of the registry functions -/

theorem lock_calls_append (a b : List Event) :
    lock_calls (a ++ b) = lock_calls a ++ lock_calls b := by
  induction a with
  | nil => rfl
  | cons ev rest ih => cases ev <;> simp [lock_calls, ih]

theorem effects_of_append (a b : List Event) :
    effects_of (a ++ b) = effects_of a ++ effects_of b := by
  induction a with
  | nil => rfl
  | cons ev rest ih => cases ev <;> simp [effects_of, ih]

theorem effects_of_lock (c : LockCall) (i : Nat) (l : List Event) :
    effects_of (Event.lock c i :: l) = effects_of l := rfl

theorem lock_calls_lock (c : LockCall) (i : Nat) (l : List Event) :
    lock_calls (Event.lock c i :: l) = (c, i) :: lock_calls l := rfl

theorem lock_calls_of_no_lock (l : List Event) (h : ∀ ev ∈ l, no_lock_step ev = true) :
    lock_calls l = [] := by
  induction l with
  | nil => rfl
  | cons ev rest ih =>
    have hr := ih (fun e he => h e (by simp [he]))
    have h0 := h ev (by simp)
    cases ev <;> simp_all [lock_calls, no_lock_step]

theorem no_lock_map_effect (l : List Effect) :
    ∀ ev ∈ l.map Event.effect, no_lock_step ev = true := by
  intro ev hev
  rw [List.mem_map] at hev
  obtain ⟨e, _, rfl⟩ := hev
  rfl

theorem effects_of_map_effect (l : List Effect) : effects_of (l.map Event.effect) = l := by
  induction l with
  | nil => rfl
  | cons e rest ih => simp [effects_of, ih]

theorem remove_scan_events_agree (x : Externals) (cmd : dnet_cmd) (attr : dnet_attr)
    (hash : Nat) (err : Int) (b : List dnet_notify_entry) :
    (dnet_notify_remove_scan_events x cmd attr hash err b).1
        = (dnet_notify_remove_scan x cmd attr err b).1 ∧
      (dnet_notify_remove_scan_events x cmd attr hash err b).2.1
        = (dnet_notify_remove_scan x cmd attr err b).2.1 ∧
      effects_of (dnet_notify_remove_scan_events x cmd attr hash err b).2.2
        = (dnet_notify_remove_scan x cmd attr err b).2.2 := by
  induction b with
  | nil => exact ⟨rfl, rfl, rfl⟩
  | cons e rest ih =>
    simp only [dnet_notify_remove_scan_events, dnet_notify_remove_scan]
    by_cases hc : dnet_id_cmp e.cmd.id cmd.id ≠ 0
    · rw [if_pos hc, if_pos hc]
      exact ⟨ih.1, by rw [ih.2.1], ih.2.2⟩
    · rw [if_neg hc, if_neg hc]
      exact ⟨rfl, rfl, rfl⟩

theorem remove_scan_events_no_lock (x : Externals) (cmd : dnet_cmd) (attr : dnet_attr)
    (hash : Nat) (err : Int) (b : List dnet_notify_entry) :
    ∀ ev ∈ (dnet_notify_remove_scan_events x cmd attr hash err b).2.2,
      no_lock_step ev = true := by
  induction b with
  | nil => intro ev hev; simp [dnet_notify_remove_scan_events] at hev
  | cons e rest ih =>
    simp only [dnet_notify_remove_scan_events]
    by_cases hc : dnet_id_cmp e.cmd.id cmd.id ≠ 0
    · rw [if_pos hc]
      exact ih
    · rw [if_neg hc]
      intro ev hev
      simp only [dnet_notify_entry_destroy, List.map_cons, List.map_nil, List.mem_cons,
        List.mem_singleton, List.not_mem_nil, or_false] at hev
      rcases hev with rfl | rfl | rfl <;> rfl

/-- The second embedding of `dnet_notify_add` does what the first does. -/
theorem add_events_agree (n : dnet_node) (st : dnet_net_state) (cmd : dnet_cmd) (ok : Bool) :
    (dnet_notify_add_events n st cmd ok).1 = (dnet_notify_add n st cmd ok).1 ∧
      (dnet_notify_add_events n st cmd ok).2.1 = (dnet_notify_add n st cmd ok).2.1 ∧
      effects_of (dnet_notify_add_events n st cmd ok).2.2
        = (dnet_notify_add n st cmd ok).2.2 := by
  cases ok <;> exact ⟨rfl, rfl, rfl⟩

/-- The second embedding of `dnet_notify_remove` does what the first does. -/
theorem remove_events_agree (x : Externals) (n : dnet_node) (st : dnet_net_state)
    (cmd : dnet_cmd) (attr : dnet_attr) :
    (dnet_notify_remove_events x n st cmd attr).1 = (dnet_notify_remove x n st cmd attr).1 ∧
      (dnet_notify_remove_events x n st cmd attr).2.1
        = (dnet_notify_remove x n st cmd attr).2.1 ∧
      effects_of (dnet_notify_remove_events x n st cmd attr).2.2
        = (dnet_notify_remove x n st cmd attr).2.2 := by
  have h := remove_scan_events_agree x cmd attr
    (dnet_notify_hash cmd.id n.notify_hash_size) (-ENOENT)
    (n.notify_hash.getD (dnet_notify_hash cmd.id n.notify_hash_size) [])
  simp only [dnet_notify_remove_events, dnet_notify_remove]
  refine ⟨h.1, by rw [h.2.1], ?_⟩
  rw [List.cons_append, effects_of_lock, effects_of_append, h.2.2, effects_of_lock]
  exact List.append_nil _

/-- The second embedding of `dnet_update_notify` does what the first does. -/
theorem update_notify_events_agree (x : Externals) (n : dnet_node) (st : dnet_net_state)
    (cmd : dnet_cmd) (attr : dnet_attr) (io : dnet_io_attr) (h : dnet_history_entry) :
    (dnet_update_notify_events x n st cmd attr io h).1
        = (dnet_update_notify x n st cmd attr io h).1 ∧
      effects_of (dnet_update_notify_events x n st cmd attr io h).2
        = (dnet_update_notify x n st cmd attr io h).2 := by
  simp only [dnet_update_notify_events, dnet_update_notify]
  by_cases hg : attr.size ≤ x.sizeof_dnet_io_attr
  · rw [if_pos hg, if_pos hg]
    exact ⟨rfl, rfl⟩
  · rw [if_neg hg, if_neg hg]
    refine ⟨rfl, ?_⟩
    simp only
    rw [List.cons_append, effects_of_lock, effects_of_append, effects_of_map_effect,
      effects_of_lock]
    exact List.append_nil _

end Elliptics
namespace Elliptics

/-- C28 (as stated, refuted): two paths return without taking, and so without
releasing, any lock: `dnet_notify_add` when the entry cannot be allocated
(`-ENOMEM`), and `dnet_update_notify` when `attr->size` does not exceed
`sizeof(struct dnet_io_attr)` (152 here). On both the number of
`pthread_rwlock_unlock` calls is 0, not 1. -/
theorem C28_no_lock_paths_counterexample :
    (dnet_notify_add_events ex_node ex_stA ex_cmd false).1 = -ENOMEM
      ∧ lock_calls (dnet_notify_add_events ex_node ex_stA ex_cmd false).2.2 = []
      ∧ (lock_calls (dnet_notify_add_events ex_node ex_stA ex_cmd false).2.2).count
          (LockCall.unlock, dnet_notify_hash ex_cmd.id ex_node.notify_hash_size) = 0
      ∧ (dnet_update_notify_events ex_externals ex_node ex_stA ex_cmd
          { size := 152, cmd := 0, flags := 0 } ex_io ex_history).1 = 0
      ∧ lock_calls (dnet_update_notify_events ex_externals ex_node ex_stA ex_cmd
          { size := 152, cmd := 0, flags := 0 } ex_io ex_history).2 = []
      ∧ (lock_calls (dnet_update_notify_events ex_externals ex_node ex_stA ex_cmd
          { size := 152, cmd := 0, flags := 0 } ex_io ex_history).2).count
          (LockCall.unlock, dnet_notify_hash ex_cmd.id ex_node.notify_hash_size) = 0 := by
  decide

/-- C28 (amended): on a registry with at least one bucket, write `i` for the
bucket index `h(id)`, which is below the bucket count. Add, remove and
publish call no lock other than that of bucket `i`. An add whose allocation
succeeds takes the reference, then calls `wrlock`, links the entry and calls
`unlock`; an add whose allocation fails touches no lock. A remove calls
`wrlock`, then scans (sending the reply, unlinking and releasing the first
match, if any) without a further lock call, then calls `unlock`, whether or
not an entry matched. A publish past the size guard calls `rdlock`, sends its
notifications and calls `unlock`; a publish stopped by the guard touches no
lock. So every lock taken is released exactly once, by the last step before
the return. By the rule of a readers-writer lock, a publish is let in while
another publish holds the lock, and nothing is let in while an add or a
remove holds it, nor an add or a remove while anything holds it. -/
theorem C28_lock_discipline (x : Externals) (n : dnet_node) (st : dnet_net_state)
    (cmd : dnet_cmd) (attr : dnet_attr) (io : dnet_io_attr) (h : dnet_history_entry)
    (hpos : 0 < n.notify_hash_size) (hlen : n.notify_hash.length = n.notify_hash_size) :
    dnet_notify_hash cmd.id n.notify_hash_size < n.notify_hash.length
      ∧ (dnet_notify_add_events n st cmd true).2.2
          = [Event.effect (Effect.state_get st),
             Event.lock LockCall.wrlock (dnet_notify_hash cmd.id n.notify_hash_size),
             Event.list_add_tail (dnet_notify_hash cmd.id n.notify_hash_size)
               { cmd := cmd, state := st },
             Event.lock LockCall.unlock (dnet_notify_hash cmd.id n.notify_hash_size)]
      ∧ lock_calls (dnet_notify_add_events n st cmd true).2.2
          = [(LockCall.wrlock, dnet_notify_hash cmd.id n.notify_hash_size),
             (LockCall.unlock, dnet_notify_hash cmd.id n.notify_hash_size)]
      ∧ (dnet_notify_add_events n st cmd false).2.2 = []
      ∧ (∃ mid, (dnet_notify_remove_events x n st cmd attr).2.2
            = Event.lock LockCall.wrlock (dnet_notify_hash cmd.id n.notify_hash_size)
                :: mid
                ++ [Event.lock LockCall.unlock (dnet_notify_hash cmd.id n.notify_hash_size)]
          ∧ (∀ ev ∈ mid, no_lock_step ev = true)
          ∧ effects_of mid = (dnet_notify_remove x n st cmd attr).2.2)
      ∧ lock_calls (dnet_notify_remove_events x n st cmd attr).2.2
          = [(LockCall.wrlock, dnet_notify_hash cmd.id n.notify_hash_size),
             (LockCall.unlock, dnet_notify_hash cmd.id n.notify_hash_size)]
      ∧ (x.sizeof_dnet_io_attr < attr.size →
          (dnet_update_notify_events x n st cmd attr io h).2
              = Event.lock LockCall.rdlock (dnet_notify_hash cmd.id n.notify_hash_size)
                  :: (dnet_update_notify x n st cmd attr io h).2.map Event.effect
                  ++ [Event.lock LockCall.unlock
                        (dnet_notify_hash cmd.id n.notify_hash_size)]
            ∧ lock_calls (dnet_update_notify_events x n st cmd attr io h).2
              = [(LockCall.rdlock, dnet_notify_hash cmd.id n.notify_hash_size),
                 (LockCall.unlock, dnet_notify_hash cmd.id n.notify_hash_size)])
      ∧ (attr.size ≤ x.sizeof_dnet_io_attr →
          (dnet_update_notify_events x n st cmd attr io h).2 = [])
      ∧ rwlock_admits LockCall.rdlock LockCall.rdlock = true
      ∧ (∀ c, rwlock_admits LockCall.wrlock c = false
          ∧ rwlock_admits c LockCall.wrlock = false) := by
  have hscan := remove_scan_events_agree x cmd attr
    (dnet_notify_hash cmd.id n.notify_hash_size) (-ENOENT)
    (n.notify_hash.getD (dnet_notify_hash cmd.id n.notify_hash_size) [])
  have hnl := remove_scan_events_no_lock x cmd attr
    (dnet_notify_hash cmd.id n.notify_hash_size) (-ENOENT)
    (n.notify_hash.getD (dnet_notify_hash cmd.id n.notify_hash_size) [])
  refine ⟨by rw [hlen]; exact dnet_notify_hash_lt _ _ hpos, rfl, rfl, rfl,
    ⟨_, rfl, hnl, ?_⟩, ?_, ?_, ?_, rfl, ?_⟩
  · rw [hscan.2.2]
    rfl
  · simp only [dnet_notify_remove_events]
    rw [List.cons_append, lock_calls_lock, lock_calls_append, lock_calls_of_no_lock _ hnl]
    rfl
  · intro hsz
    have hg : ¬ attr.size ≤ x.sizeof_dnet_io_attr := Nat.not_le.mpr hsz
    simp only [dnet_update_notify_events, dnet_update_notify]
    rw [if_neg hg, if_neg hg]
    refine ⟨rfl, ?_⟩
    simp only
    rw [List.cons_append, lock_calls_lock, lock_calls_append,
      lock_calls_of_no_lock _ (no_lock_map_effect _)]
    rfl
  · intro hg
    simp only [dnet_update_notify_events]
    rw [if_pos hg]
  · intro c
    cases c <;> exact ⟨rfl, rfl⟩

set_option maxRecDepth 100000 in
theorem C28_lock_discipline_witness :
    0 < ex_node.notify_hash_size ∧ ex_node.notify_hash.length = ex_node.notify_hash_size
      ∧ lock_calls (dnet_notify_remove_events ex_externals ex_node ex_stB ex_cmd
          { size := 0, cmd := 7, flags := 1 }).2.2
        = [(LockCall.wrlock, dnet_notify_hash ex_cmd.id ex_node.notify_hash_size),
           (LockCall.unlock, dnet_notify_hash ex_cmd.id ex_node.notify_hash_size)]
      ∧ (dnet_notify_remove_events ex_externals ex_node ex_stB ex_cmd
          { size := 0, cmd := 7, flags := 1 }).2.2
        = [Event.lock LockCall.wrlock 0,
           Event.effect (Effect.send_reply ex_stA { ex_cmd with flags := 0 }
             { size := 0, cmd := 7, flags := 1 } none 0 0),
           Event.list_del 0 { cmd := { ex_cmd with flags := 0 }, state := ex_stA },
           Event.effect (Effect.state_put ex_stA),
           Event.lock LockCall.unlock 0]
      ∧ lock_calls (dnet_update_notify_events ex_externals ex_node ex_stA ex_cmd
          { size := 1000, cmd := 0, flags := 0 } ex_io ex_history).2
        = [(LockCall.rdlock, dnet_notify_hash ex_cmd.id ex_node.notify_hash_size),
           (LockCall.unlock, dnet_notify_hash ex_cmd.id ex_node.notify_hash_size)] :=
  ⟨by decide, by decide,
    (C28_lock_discipline ex_externals ex_node ex_stB ex_cmd
      { size := 0, cmd := 7, flags := 1 } ex_io ex_history (by decide) (by decide)).2.2.2.2.2.1,
    by decide,
    ((C28_lock_discipline ex_externals ex_node ex_stA ex_cmd
      { size := 1000, cmd := 0, flags := 0 } ex_io ex_history (by decide)
      (by decide)).2.2.2.2.2.2.1 (by decide)).2⟩

end Elliptics

namespace Elliptics

/-! ## The counter of `DNET_ICOPY_ELT` -/

/-- For a record size that is not a multiple of `sizeof(int)` the counter of
`DNET_ICOPY_ELT` is never 0, so the loop `while (i -= DNET_ISIZE)` does not
end. -/
theorem icopy_elt_counter_ne_zero (size k : Nat) (h : size % DNET_ISIZE ≠ 0) :
    icopy_elt_counter size k ≠ 0 := by
  unfold icopy_elt_counter SIZE_T_MOD
  unfold DNET_ISIZE at h ⊢
  omega

end Elliptics

namespace Elliptics

/-! ## Lemmas on comparators and stable rearrangements -/

section Cmp
variable {α : Type} {cmp : α → α → Int}

theorem TotalPreorder.cmp_self (h : TotalPreorder cmp) (a : α) : cmp a a = 0 := by
  have h1 := h.sign_symm a a
  omega

theorem TotalPreorder.le_of_ge (h : TotalPreorder cmp) {a b : α} (hab : 0 ≤ cmp a b) :
    cmp b a ≤ 0 := by
  have h1 := h.sign_symm b a
  have h2 := h.sign_symm a b
  omega

theorem TotalPreorder.ge_of_le (h : TotalPreorder cmp) {a b : α} (hab : cmp a b ≤ 0) :
    0 ≤ cmp b a := by
  have h1 := h.sign_symm b a
  have h2 := h.sign_symm a b
  omega

theorem TotalPreorder.lt_of_gt (h : TotalPreorder cmp) {a b : α} (hab : 0 < cmp a b) :
    cmp b a < 0 := (h.sign_symm b a).mpr hab

theorem TotalPreorder.gt_of_lt (h : TotalPreorder cmp) {a b : α} (hab : cmp a b < 0) :
    0 < cmp b a := (h.sign_symm a b).mp hab

theorem TotalPreorder.eq_symm (h : TotalPreorder cmp) {a b : α} (hab : cmp a b = 0) :
    cmp b a = 0 := by
  have h1 := h.sign_symm a b
  have h2 := h.sign_symm b a
  omega

/-- From `a <= b < c` follows `a < c`. -/
theorem TotalPreorder.lt_of_le_of_lt (h : TotalPreorder cmp) {a b c : α}
    (hab : cmp a b ≤ 0) (hbc : cmp b c < 0) : cmp a c < 0 := by
  by_contra hc
  have h1 : cmp c a ≤ 0 := h.le_of_ge (by omega)
  have h2 : cmp c b ≤ 0 := h.le_trans c a b h1 hab
  have h3 := h.gt_of_lt hbc
  omega

/-- From `a < b <= c` follows `a < c`. -/
theorem TotalPreorder.lt_of_lt_of_le (h : TotalPreorder cmp) {a b c : α}
    (hab : cmp a b < 0) (hbc : cmp b c ≤ 0) : cmp a c < 0 := by
  by_contra hc
  have h1 : cmp c a ≤ 0 := h.le_of_ge (by omega)
  have h2 : cmp b a ≤ 0 := h.le_trans b c a hbc h1
  have h3 := h.gt_of_lt hab
  omega

/-- Records that compare equal compare alike with every other record. -/
theorem TotalPreorder.eq_trans (h : TotalPreorder cmp) {a b c : α}
    (hab : cmp a b = 0) (hbc : cmp b c = 0) : cmp a c = 0 := by
  have h1 := h.le_trans a b c (by omega) (by omega)
  have h2 := h.le_trans c b a (by have := h.eq_symm hbc; omega) (by have := h.eq_symm hab; omega)
  have h3 := h.ge_of_le h2
  omega

theorem cmp_le_iff (a b : α) : cmp_le cmp a b = true ↔ cmp a b ≤ 0 := by
  simp [cmp_le]

end Cmp

section Stable
variable {α : Type} {cmp : α → α → Int}

theorem StablePerm.refl (l : List α) : StablePerm cmp l l :=
  ⟨List.Perm.refl _, fun _ => rfl⟩

theorem StablePerm.trans {a b c : List α} (h1 : StablePerm cmp a b) (h2 : StablePerm cmp b c) :
    StablePerm cmp a c :=
  ⟨h2.1.trans h1.1, fun x => (h2.2 x).trans (h1.2 x)⟩

theorem StablePerm.append {a a' b b' : List α} (h1 : StablePerm cmp a a')
    (h2 : StablePerm cmp b b') : StablePerm cmp (a ++ b) (a' ++ b') :=
  ⟨h1.1.append h2.1, fun x => by simp [List.filter_append, h1.2 x, h2.2 x]⟩

theorem StablePerm.mem_iff {a b : List α} (h : StablePerm cmp a b) (x : α) : x ∈ b ↔ x ∈ a :=
  h.1.mem_iff

theorem StablePerm.length_eq {a b : List α} (h : StablePerm cmp a b) : b.length = a.length :=
  h.1.length_eq

/-- Two neighbours in strictly descending order may change places. -/
theorem StablePerm.swap_pair (hc : TotalPreorder cmp) {u x : α} (h : 0 < cmp u x) :
    StablePerm cmp [u, x] [x, u] := by
  refine ⟨List.Perm.swap _ _ _, fun a => ?_⟩
  by_cases h1 : cmp a x = 0
  · have h2 : cmp a u ≠ 0 := by
      intro h2
      have := hc.eq_trans (hc.eq_symm h2) h1
      omega
    simp [List.filter_cons, h1, h2]
  · simp [List.filter_cons, h1]

/-- A block all of whose records are strictly above `x` may move behind `x`. -/
theorem StablePerm.move_left (hc : TotalPreorder cmp) (x : α) (l : List α)
    (h : ∀ y ∈ l, 0 < cmp y x) : StablePerm cmp (l ++ [x]) (x :: l) := by
  refine ⟨(List.perm_append_singleton x l).symm, fun a => ?_⟩
  by_cases h1 : cmp a x = 0
  · have h2 : l.filter (fun y => decide (cmp a y = 0)) = [] := by
      rw [List.filter_eq_nil_iff]
      intro y hy
      simp only [decide_eq_true_eq]
      intro h3
      have := hc.eq_trans (hc.eq_symm h3) h1
      have := h y hy
      omega
    simp [List.filter_append, List.filter_cons, h1, h2]
  · simp [List.filter_append, List.filter_cons, h1]

/-- A strictly descending run may be reversed. -/
theorem StablePerm.reverse_desc (hc : TotalPreorder cmp) (l : List α)
    (h : l.Pairwise (fun a b => 0 < cmp a b)) : StablePerm cmp l l.reverse := by
  induction l with
  | nil => exact StablePerm.refl _
  | cons x rest ih =>
    rw [List.pairwise_cons] at h
    have h1 := ih h.2
    have h2 : StablePerm cmp ([x] ++ rest) ([x] ++ rest.reverse) :=
      StablePerm.append (StablePerm.refl _) h1
    have h3 : StablePerm cmp ([x] ++ rest.reverse) (rest.reverse ++ [x]) := by
      refine ⟨List.perm_append_singleton x _, fun a => ?_⟩
      by_cases h4 : cmp a x = 0
      · have h5 : rest.reverse.filter (fun y => decide (cmp a y = 0)) = [] := by
          rw [List.filter_eq_nil_iff]
          intro y hy
          simp only [decide_eq_true_eq]
          intro h6
          have h7 := h.1 y (List.mem_reverse.mp hy)
          have := hc.eq_trans (hc.eq_symm h4) h6
          omega
        simp [List.filter_append, List.filter_cons, h4, h5]
      · simp [List.filter_append, List.filter_cons, h4]
    simpa using h2.trans h3

end Stable

end Elliptics

namespace Elliptics

/-! ## Lemmas on records, exchanges and segments -/


theorem set_append_len {α : Type} (M : List α) (y x : α) (Q : List α) (m : Nat) (h : M.length = m) :
    (M ++ y :: Q).set m x = M ++ x :: Q := by
  subst h
  induction M with
  | nil => simp
  | cons a M ih => simp [ih]

theorem rd_append_len {α : Type} [Inhabited α] (M : List α) (y : α) (Q : List α) (m : Nat) (h : M.length = m) :
    rd (M ++ y :: Q) m = y := by
  subst h
  induction M with
  | nil => simp [rd, List.getD]
  | cons a M ih => simpa [rd, List.getD] using ih

theorem rd_append_right {α : Type} [Inhabited α] (M L : List α) (i : Nat) (h : M.length ≤ i) :
    rd (M ++ L) i = rd L (i - M.length) := by
  simp [rd, List.getD, List.getElem?_append_right h]

theorem rd_append_left {α : Type} [Inhabited α] (M L : List α) (i : Nat) (h : i < M.length) :
    rd (M ++ L) i = rd M i := by
  simp [rd, List.getD, List.getElem?_append_left h]

theorem rd_eq_getElem {α : Type} [Inhabited α] (l : List α) (i : Nat) (h : i < l.length) : rd l i = l[i] := by
  simp [rd, List.getD, h]

/-- The exchange of two records at a distance. -/
theorem swap_far {α : Type} [Inhabited α] (P M Q : List α) (x y : α) (a m : Nat) (ha : P.length = a)
    (hm : M.length = m) :
    swap (P ++ x :: (M ++ y :: Q)) a (a + m + 1) = P ++ y :: (M ++ x :: Q) := by
  have h1 : rd (P ++ x :: (M ++ y :: Q)) a = x := rd_append_len P x _ a ha
  have h2 : rd (P ++ x :: (M ++ y :: Q)) (a + m + 1) = y := by
    have := rd_append_len (P ++ x :: M) y Q (a + m + 1) (by simp [ha, hm]; omega)
    simpa using this
  unfold swap
  rw [h1, h2, set_append_len P x _ _ a ha]
  have := set_append_len (P ++ y :: M) y x Q (a + m + 1) (by simp [ha, hm]; omega)
  simpa using this

/-- The exchange of two neighbours. -/
theorem swap_adjacent {α : Type} [Inhabited α] (P Q : List α) (x y : α) (a : Nat) (ha : P.length = a) :
    swap (P ++ x :: y :: Q) a (a + 1) = P ++ y :: x :: Q := by
  simpa using swap_far P [] Q x y a 0 ha rfl

theorem swap_same {α : Type} [Inhabited α] (l : List α) (a : Nat) : swap l a a = l := by
  unfold swap rd
  by_cases h : a < l.length
  · apply List.ext_getElem (by simp)
    intro j h1 h2
    by_cases hj : a = j
    · subst hj; simp [List.getD, h]
    · simp [List.getElem_set_ne hj]
  · rw [List.set_eq_of_length_le (l := l) (by omega), List.set_eq_of_length_le (by omega)]

theorem seg_length {α : Type} (l : List α) (i j : Nat) (h : j ≤ l.length) : (seg l i j).length = j - i := by
  simp [seg]; omega

theorem seg_self {α : Type} (l : List α) (i : Nat) : seg l i i = [] := by
  simp [seg]

theorem seg_full {α : Type} (l : List α) : seg l 0 l.length = l := by
  simp [seg]

theorem seg_append {α : Type} (l : List α) (i j k : Nat) (h1 : i ≤ j) (h2 : j ≤ k) :
    seg l i k = seg l i j ++ seg l j k := by
  unfold seg
  have h3 : k - i = (j - i) + (k - j) := by omega
  rw [h3, List.take_add, List.drop_drop]
  congr 3
  omega

theorem seg_succ {α : Type} [Inhabited α] (l : List α) (i : Nat) (h : i < l.length) : seg l i (i + 1) = [rd l i] := by
  unfold seg
  have : i + 1 - i = 1 := by omega
  rw [this, List.drop_eq_getElem_cons h, rd_eq_getElem l i h]
  rfl

theorem seg_cons {α : Type} [Inhabited α] (l : List α) (i j : Nat) (h : i < j) (hj : j ≤ l.length) :
    seg l i j = rd l i :: seg l (i + 1) j := by
  rw [seg_append l i (i + 1) j (by omega) (by omega), seg_succ l i (by omega)]
  rfl

theorem seg_snoc {α : Type} [Inhabited α] (l : List α) (i j : Nat) (h : i ≤ j) (hj : j < l.length) :
    seg l i (j + 1) = seg l i j ++ [rd l j] := by
  rw [seg_append l i j (j + 1) h (by omega), seg_succ l j hj]

theorem take_eq_seg {α : Type} (l : List α) (i : Nat) : l.take i = seg l 0 i := by
  simp [seg]

theorem drop_eq_seg {α : Type} (l : List α) (i : Nat) : l.drop i = seg l i l.length := by
  simp [seg]
  
/-- A buffer is what lies in front of a segment, the segment, and what lies
behind it. -/
theorem split_seg {α : Type} [Inhabited α] (l : List α) (i j : Nat) (h1 : i ≤ j) (h2 : j ≤ l.length) :
    l = seg l 0 i ++ (seg l i j ++ seg l j l.length) := by
  rw [← seg_append l i j l.length h1 h2, ← seg_append l 0 i l.length (by omega) (by omega),
    seg_full]

theorem seg_getElem {α : Type} [Inhabited α] (l : List α) (i j k : Nat) (hj : j ≤ l.length) (hk : k < (seg l i j).length) :
    (seg l i j)[k] = rd l (i + k) := by
  have hlen := seg_length l i j hj
  have h1 : i + k < l.length := by omega
  rw [rd_eq_getElem l _ h1]
  simp [seg]

theorem mem_seg {α : Type} [Inhabited α] (l : List α) (i j : Nat) (hj : j ≤ l.length) (x : α) (hx : x ∈ seg l i j) :
    ∃ k, i ≤ k ∧ k < j ∧ x = rd l k := by
  obtain ⟨k, hk, rfl⟩ := List.mem_iff_getElem.mp hx
  have hlen := seg_length l i j hj
  exact ⟨i + k, by omega, by omega, seg_getElem l i j k hj hk⟩

theorem rd_mem_seg {α : Type} [Inhabited α] (l : List α) (i j k : Nat) (hj : j ≤ l.length) (h1 : i ≤ k) (h2 : k < j) :
    rd l k ∈ seg l i j := by
  have hlen := seg_length l i j hj
  rw [List.mem_iff_getElem]
  refine ⟨k - i, by omega, ?_⟩
  rw [seg_getElem l i j (k - i) hj (by omega)]
  congr 1
  omega

/-- Segments of an append. -/
theorem seg_of_append {α : Type} (P L Q : List α) (a b : Nat) (ha : P.length = a) (hb : a + L.length = b) :
    seg (P ++ (L ++ Q)) a b = L := by
  subst ha hb
  simp [seg]

theorem seg_of_append_left {α : Type} (P Q : List α) (a : Nat) (ha : P.length = a) :
    seg (P ++ Q) 0 a = P := by
  subst ha
  simp [seg]

theorem seg_of_append_right {α : Type} (P Q : List α) (a b : Nat) (ha : P.length = a)
    (hb : b = (P ++ Q).length) : seg (P ++ Q) a b = Q := by
  subst ha hb
  simp [seg]

end Elliptics

namespace Elliptics

/-! ## Insertion sort -/

theorem sorted_snoc {α : Type} {cmp : α → α → Int} (S : List α) (u : α)
    (h1 : SortedBy cmp S) (h2 : ∀ y ∈ S, cmp y u ≤ 0) : SortedBy cmp (S ++ [u]) := by
  unfold SortedBy at *
  rw [List.pairwise_append]
  refine ⟨h1, by simp, ?_⟩
  intro a ha b hb
  simp only [List.mem_singleton] at hb
  subst hb
  exact h2 a ha

theorem insertionsort_inner_spec {α : Type} [Inhabited α] {cmp : α → α → Int}
    (hc : TotalPreorder cmp) (a : Nat) :
    ∀ (k : Nat) (P A : List α) (x : α) (R : List α), P.length = a → A.length = k →
      SortedBy cmp A →
      ∃ S, insertionsort_inner cmp a k (P ++ (A ++ x :: R)) = P ++ (S ++ R) ∧
        SortedBy cmp S ∧ StablePerm cmp (A ++ [x]) S := by
  intro k
  induction k with
  | zero =>
    intro P A x R _ hA _
    have : A = [] := List.length_eq_zero.mp hA
    subst this
    exact ⟨[x], by simp [insertionsort_inner], by simp [SortedBy], StablePerm.refl _⟩
  | succ k ih =>
    intro P A x R hP hA hs
    rcases List.eq_nil_or_concat A with h | ⟨A', u, h⟩
    · simp [h] at hA
    have h' : A = A' ++ [u] := by simpa using h
    clear h
    subst h'
    have hA' : A'.length = k := by simpa using hA
    have hu : rd (P ++ ((A' ++ [u]) ++ x :: R)) (a + k) = u := by
      have := rd_append_len (P ++ A') u (x :: R) (a + k) (by simp [hP, hA'])
      simpa using this
    have hx : rd (P ++ ((A' ++ [u]) ++ x :: R)) (a + (k + 1)) = x := by
      have := rd_append_len (P ++ (A' ++ [u])) x R (a + (k + 1)) (by simp [hP, hA']; try omega)
      simpa using this
    have hsA' : SortedBy cmp A' := by
      unfold SortedBy at hs ⊢
      exact (List.pairwise_append.mp hs).1
    have hA'u : ∀ y ∈ A', cmp y u ≤ 0 := by
      intro y hy
      unfold SortedBy at hs
      exact (List.pairwise_append.mp hs).2.2 y hy u (by simp)
    simp only [insertionsort_inner]
    have e1 : a + (k + 1) - 1 = a + k := by omega
    rw [e1, hu, hx]
    by_cases hcmp : cmp u x ≤ 0
    · simp only [hcmp, if_true]
      refine ⟨(A' ++ [u]) ++ [x], by simp, ?_, StablePerm.refl _⟩
      apply sorted_snoc _ _ hs
      intro y hy
      rcases List.mem_append.mp hy with h | h
      · exact hc.le_trans _ _ _ (hA'u y h) hcmp
      · simp only [List.mem_singleton] at h
        subst h; exact hcmp
    · simp only [hcmp, if_false]
      have hsw : swap (P ++ ((A' ++ [u]) ++ x :: R)) (a + k) (a + (k + 1))
          = P ++ (A' ++ x :: (u :: R)) := by
        have := swap_adjacent (P ++ A') R u x (a + k) (by simp [hP, hA'])
        simpa [Nat.add_assoc] using this
      rw [hsw]
      obtain ⟨S', h1, h2, h3⟩ := ih P A' x (u :: R) hP hA' hsA'
      refine ⟨S' ++ [u], by simp [h1], ?_, ?_⟩
      · apply sorted_snoc _ _ h2
        intro y hy
        rcases List.mem_append.mp ((h3.mem_iff y).mp hy) with h | h
        · exact hA'u y h
        · simp only [List.mem_singleton] at h
          subst h
          have := hc.lt_of_gt (show 0 < cmp u y by omega)
          omega
      · have s1 : StablePerm cmp (A' ++ [u, x]) (A' ++ [x, u]) :=
          StablePerm.append (StablePerm.refl _) (StablePerm.swap_pair hc (by omega))
        have s2 : StablePerm cmp ((A' ++ [x]) ++ [u]) (S' ++ [u]) :=
          StablePerm.append h3 (StablePerm.refl _)
        have := s1.trans (by simpa using s2)
        simpa using this

theorem insertionsort_outer_spec {α : Type} [Inhabited α] {cmp : α → α → Int}
    (hc : TotalPreorder cmp) (a : Nat) :
    ∀ (m : Nat) (P S R Q : List α) (ai : Nat), P.length = a → ai = a + S.length →
      R.length = m → SortedBy cmp S →
      ∃ S', insertionsort_outer cmp a m ai (P ++ (S ++ (R ++ Q))) = P ++ (S' ++ Q) ∧
        SortedBy cmp S' ∧ StablePerm cmp (S ++ R) S' := by
  intro m
  induction m with
  | zero =>
    intro P S R Q ai _ _ hR hs
    have : R = [] := List.length_eq_zero.mp hR
    subst this
    exact ⟨S, by simp [insertionsort_outer], hs, by simpa using StablePerm.refl S⟩
  | succ m ih =>
    intro P S R Q ai hP hai hR hs
    cases R with
    | nil => simp at hR
    | cons x R' =>
      have hR' : R'.length = m := by simpa using hR
      simp only [insertionsort_outer]
      have e1 : ai - a = S.length := by omega
      rw [e1]
      obtain ⟨S1, h1, h2, h3⟩ :=
        insertionsort_inner_spec hc a S.length P S x (R' ++ Q) hP rfl hs
      have h1' : insertionsort_inner cmp a S.length (P ++ (S ++ (x :: R' ++ Q)))
          = P ++ (S1 ++ (R' ++ Q)) := by simpa using h1
      rw [h1']
      have hlen : S1.length = S.length + 1 := by simpa using h3.length_eq
      obtain ⟨S', g1, g2, g3⟩ := ih P S1 R' Q (ai + 1) hP (by omega) hR' h2
      refine ⟨S', g1, g2, ?_⟩
      have s1 : StablePerm cmp ((S ++ [x]) ++ R') (S1 ++ R') :=
        StablePerm.append h3 (StablePerm.refl _)
      have := s1.trans g3
      simpa using this

/-- Insertion sort of the `n` records from index `a` on: the records in front
and behind stay, the segment becomes sorted, equal records keep their order. -/
theorem insertionsort_spec {α : Type} [Inhabited α] {cmp : α → α → Int}
    (hc : TotalPreorder cmp) (l : List α) (a n : Nat) (hn : 1 ≤ n) (h : a + n ≤ l.length) :
    ∃ S, insertionsort cmp l a n = seg l 0 a ++ (S ++ seg l (a + n) l.length) ∧
      SortedBy cmp S ∧ StablePerm cmp (seg l a (a + n)) S := by
  have hl : l = seg l 0 a ++ ([rd l a] ++ (seg l (a + 1) (a + n) ++ seg l (a + n) l.length)) := by
    have h1 := split_seg l a (a + n) (by omega) h
    rw [seg_cons l a (a + n) (by omega) h] at h1
    simpa using h1
  obtain ⟨S', g1, g2, g3⟩ := insertionsort_outer_spec hc a (n - 1) (seg l 0 a) [rd l a]
    (seg l (a + 1) (a + n)) (seg l (a + n) l.length) (a + 1)
    (by rw [seg_length l 0 a (by omega)]; omega) (by simp)
    (by rw [seg_length l (a + 1) (a + n) h]; omega) (by simp [SortedBy])
  refine ⟨S', ?_, g2, ?_⟩
  · unfold insertionsort
    rw [← g1, ← hl]
  · rw [seg_cons l a (a + n) (by omega) h]
    simpa using g3

end Elliptics

namespace Elliptics

/-! ## Reversal of a run -/

theorem reverse_loop_spec {α : Type} [Inhabited α] :
    ∀ (fuel : Nat) (P R Q : List α) (bot : Nat), P.length = bot → R ≠ [] →
      R.length ≤ 2 * fuel →
      reverse_loop fuel (P ++ (R ++ Q)) bot (bot + R.length - 1) = P ++ (R.reverse ++ Q) := by
  intro fuel
  induction fuel with
  | zero =>
    intro P R Q bot _ hR hlen
    have : R = [] := List.length_eq_zero.mp (by omega)
    exact absurd this hR
  | succ fuel ih =>
    intro P R Q bot hP hR hlen
    cases R with
    | nil => exact absurd rfl hR
    | cons x R' =>
      rcases List.eq_nil_or_concat R' with h | ⟨M, y, h⟩
      · subst h
        simp only [reverse_loop, List.length_singleton, Nat.add_sub_cancel, swap_same]
        have : ¬ (bot + 1 < bot + 1 - 2) := by omega
        simp only [this, if_false]
        simp
      · have h' : R' = M ++ [y] := by simpa using h
        clear h
        subst h'
        have e1 : bot + (x :: (M ++ [y])).length - 1 = bot + M.length + 1 := by
          simp; omega
        have hsw : swap (P ++ (x :: (M ++ [y]) ++ Q)) bot (bot + M.length + 1)
            = P ++ y :: (M ++ x :: Q) := by
          have := swap_far P M Q x y bot M.length hP rfl
          simpa using this
        simp only [reverse_loop]
        rw [e1, hsw]
        by_cases hM : bot + 1 < bot + M.length + 1 + 1 - 2
        · simp only [hM, if_true]
          have hMne : M ≠ [] := by
            intro h0; subst h0; simp at hM
          have e2 : bot + M.length + 1 + 1 - 2 = (bot + 1) + M.length - 1 := by omega
          have e3 : P ++ y :: (M ++ x :: Q) = (P ++ [y]) ++ (M ++ (x :: Q)) := by simp
          rw [e2, e3, ih (P ++ [y]) M (x :: Q) (bot + 1) (by simp [hP]) hMne
            (by simp at hlen; omega)]
          simp
        · simp only [hM, if_false]
          have hM1 : M.length ≤ 1 := by omega
          have hrev : M.reverse = M := by
            match M, hM1 with
            | [], _ => rfl
            | [_], _ => rfl
          simp [hrev]

/-- The macro `reverse(bot, top)` reverses the records `bot .. top` and leaves
the others. -/
theorem reverse_spec {α : Type} [Inhabited α] (l : List α) (bot top : Nat) (h1 : bot ≤ top)
    (h2 : top < l.length) :
    reverse l bot top
      = seg l 0 bot ++ ((seg l bot (top + 1)).reverse ++ seg l (top + 1) l.length) := by
  have hl := split_seg l bot (top + 1) (by omega) (by omega)
  have hlen := seg_length l bot (top + 1) (by omega)
  have hne : seg l bot (top + 1) ≠ [] := by
    intro h0
    rw [h0] at hlen
    simp at hlen
    omega
  have := reverse_loop_spec (top - bot + 1) (seg l 0 bot) (seg l bot (top + 1))
    (seg l (top + 1) l.length) bot (by rw [seg_length l 0 bot (by omega)]; omega) hne
    (by omega)
  rw [← hl, hlen] at this
  unfold reverse
  have e : bot + (top + 1 - bot) - 1 = top := by omega
  rw [e] at this
  exact this

/-! ## From neighbours to all pairs -/

/-- Records in non-descending order from neighbour to neighbour are sorted. -/
theorem sorted_of_adjacent {α : Type} [Inhabited α] {cmp : α → α → Int}
    (hc : TotalPreorder cmp) (l : List α) (i : Nat) :
    ∀ (j : Nat), j ≤ l.length →
      (∀ k, i ≤ k → k + 1 < j → cmp (rd l k) (rd l (k + 1)) ≤ 0) → SortedBy cmp (seg l i j) := by
  intro j
  induction j with
  | zero => intro _ _; simp [seg, SortedBy]
  | succ j ih =>
    intro hj hadj
    by_cases hij : i ≤ j
    · rw [seg_snoc l i j hij (by omega)]
      have hs := ih (by omega) (fun k h1 h2 => hadj k h1 (by omega))
      apply sorted_snoc _ _ hs
      intro y hy
      obtain ⟨k, hk1, hk2, rfl⟩ := mem_seg l i j (by omega) y hy
      by_cases hkj : k + 1 = j
      · subst hkj; exact hadj k hk1 (by omega)
      · have hlast := hadj (j - 1) (by omega) (by omega)
        have e : j - 1 + 1 = j := by omega
        rw [e] at hlast
        have hmem : rd l k ∈ seg l i j := rd_mem_seg l i j k (by omega) hk1 hk2
        have hy2 : cmp (rd l k) (rd l (j - 1)) ≤ 0 := by
          have hrw : seg l i j = seg l i (j - 1) ++ [rd l (j - 1)] := by
            have := seg_snoc l i (j - 1) (by omega) (by omega)
            rwa [e] at this
          unfold SortedBy at hs
          rw [hrw] at hs
          exact (List.pairwise_append.mp hs).2.2 _
            (rd_mem_seg l i (j - 1) k (by omega) hk1 (by omega)) _ (by simp)
        exact hc.le_trans _ _ _ hy2 hlast
    · have : seg l i (j + 1) = [] := by
        unfold seg
        have : j + 1 - i = 0 := by omega
        simp [this]
      rw [this]; simp [SortedBy]

/-- Records in strictly descending order from neighbour to neighbour are
strictly descending throughout. -/
theorem desc_of_adjacent {α : Type} [Inhabited α] {cmp : α → α → Int}
    (hc : TotalPreorder cmp) (l : List α) (i : Nat) :
    ∀ (j : Nat), j ≤ l.length →
      (∀ k, i ≤ k → k + 1 < j → 0 < cmp (rd l k) (rd l (k + 1))) →
      (seg l i j).Pairwise (fun a b => 0 < cmp a b) := by
  intro j
  induction j with
  | zero => intro _ _; simp [seg]
  | succ j ih =>
    intro hj hadj
    by_cases hij : i ≤ j
    · rw [seg_snoc l i j hij (by omega)]
      have hs := ih (by omega) (fun k h1 h2 => hadj k h1 (by omega))
      rw [List.pairwise_append]
      refine ⟨hs, by simp, ?_⟩
      intro y hy b hb
      simp only [List.mem_singleton] at hb
      subst hb
      obtain ⟨k, hk1, hk2, rfl⟩ := mem_seg l i j (by omega) y hy
      by_cases hkj : k + 1 = j
      · subst hkj; exact hadj k hk1 (by omega)
      · have hlast := hadj (j - 1) (by omega) (by omega)
        have e : j - 1 + 1 = j := by omega
        rw [e] at hlast
        have hy2 : 0 < cmp (rd l k) (rd l (j - 1)) := by
          have hrw : seg l i j = seg l i (j - 1) ++ [rd l (j - 1)] := by
            have := seg_snoc l i (j - 1) (by omega) (by omega)
            rwa [e] at this
          rw [hrw] at hs
          exact (List.pairwise_append.mp hs).2.2 _
            (rd_mem_seg l i (j - 1) k (by omega) hk1 (by omega)) _ (by simp)
        have h1 := hc.lt_of_gt hlast
        have h2 := hc.lt_of_gt hy2
        have h3 := hc.lt_of_lt_of_le h1 (by omega : cmp (rd l (j - 1)) (rd l k) ≤ 0)
        exact hc.gt_of_lt h3
    · have : seg l i (j + 1) = [] := by
        unfold seg
        have : j + 1 - i = 0 := by omega
        simp [this]
      rw [this]; simp

/-- The reverse of a strictly descending run is sorted. -/
theorem sorted_reverse_of_desc {α : Type} {cmp : α → α → Int}
    (hc : TotalPreorder cmp) (l : List α) (h : l.Pairwise (fun a b => 0 < cmp a b)) :
    SortedBy cmp l.reverse := by
  unfold SortedBy
  rw [List.pairwise_reverse]
  exact h.imp (fun hab => by have := hc.lt_of_gt hab; omega)

end Elliptics

namespace Elliptics

/-! ## Run lists -/

theorem RunChain.le {α : Type} {link : Nat → Nat} :
    ∀ (rs : List (List α)) (a b : Nat), RunChain link a rs b → a ≤ b := by
  intro rs
  induction rs with
  | nil => intro a b h; simp [RunChain] at h; omega
  | cons r rs ih =>
    intro a b h
    have := ih _ _ h.2.2
    omega

theorem RunChain.flatten_length {α : Type} {link : Nat → Nat} :
    ∀ (rs : List (List α)) (a b : Nat), RunChain link a rs b → a + rs.flatten.length = b := by
  intro rs
  induction rs with
  | nil => intro a b h; simp [RunChain] at h; simpa using h
  | cons r rs ih =>
    intro a b h
    have := ih _ _ h.2.2
    simp only [List.flatten_cons, List.length_append]
    omega

/-- Only the links at the heads of the runs matter. -/
theorem RunChain.frame {α : Type} {link link' : Nat → Nat} :
    ∀ (rs : List (List α)) (a b : Nat), (∀ k, a ≤ k → k < b → link' k = link k) →
      RunChain link a rs b → RunChain link' a rs b := by
  intro rs
  induction rs with
  | nil => intro a b _ h; exact h
  | cons r rs ih =>
    intro a b hk h
    have hle := RunChain.le rs _ _ h.2.2
    have hpos : 0 < r.length := List.length_pos.mpr h.1
    refine ⟨h.1, ?_, ih _ _ (fun k h1 h2 => hk k (by omega) h2) h.2.2⟩
    rw [hk a (by omega) (by omega)]
    exact h.2.1

theorem RunChain.snoc {α : Type} {link : Nat → Nat} :
    ∀ (rs : List (List α)) (a b : Nat) (r : List α), RunChain link a rs b → r ≠ [] →
      link b = b + r.length → RunChain link a (rs ++ [r]) (b + r.length) := by
  intro rs
  induction rs with
  | nil =>
    intro a b r h hr hl
    simp only [RunChain] at h
    subst h
    exact ⟨hr, hl, rfl⟩
  | cons r0 rs ih =>
    intro a b r h hr hl
    exact ⟨h.1, h.2.1, ih _ _ r h.2.2 hr hl⟩

/-- Closing one more run at `f1`. -/
theorem RunChain.push_run {α : Type} (list2 : Buf α) (rs : List (List α)) (f f' : Nat)
    (r : List α) (h : RunChain list2.link 0 rs f) (hr : r.length = f' - f) (hf : f < f') :
    RunChain (list2.set_next f f').link 0 (rs ++ [r]) f' := by
  have hne : r ≠ [] := by
    intro h0; subst h0; simp at hr; omega
  have h1 : RunChain (list2.set_next f f').link 0 rs f :=
    RunChain.frame rs 0 f (fun k _ hk => by simp [Buf.set_next]; intro h; omega) h
  have h2 := RunChain.snoc rs 0 f r h1 hne (by simp [Buf.set_next]; omega)
  have e : f + r.length = f' := by omega
  rwa [e] at h2

theorem SetupInv.push {α : Type} {cmp : α → α → Int} {l0 : List α} {last : Nat}
    {s : SetupState α} {rs : List (List α)} (hinv : SetupInv cmp l0 last s rs)
    (hlast : last ≤ l0.length) (f' : Nat) (r : List α) (hf : s.f1 < f') (hf' : f' ≤ last)
    (heven : (last - f') % 2 = 0) (hr : SortedBy cmp r)
    (hsp : StablePerm cmp (seg l0 s.f1 f') r) (list1' : List α)
    (h1 : list1' = rs.flatten ++ (r ++ seg l0 f' l0.length)) (sense' : Bool) :
    SetupInv cmp l0 last
      { list1 := list1', list2 := s.list2.set_next s.p2 f', f1 := f', p2 := f',
        sense := sense' } (rs ++ [r]) := by
  have hrlen : r.length = f' - s.f1 := by
    rw [hsp.length_eq, seg_length l0 _ _ (by omega)]
  refine ⟨by simp [h1], ?_, ?_, ?_, rfl, ?_, hf', heven, ?_⟩
  · simp only [List.flatten_append, List.length_append, hinv.len]
    simp [hrlen]; omega
  · intro r' hr'
    rcases List.mem_append.mp hr' with h | h
    · exact hinv.sorted r' h
    · simp only [List.mem_singleton] at h
      subst h; exact hr
  · rw [hinv.p2]
    exact RunChain.push_run s.list2 rs s.f1 f' r hinv.chain hrlen hf
  · have := hinv.tail
    have hb := hinv.bound
    simp only [Buf.set_next, hinv.p2]
    rw [if_neg (by omega)]
    exact this
  · have h2 : StablePerm cmp (rs.flatten ++ (seg l0 s.f1 f' ++ seg l0 f' l0.length))
        (rs.flatten ++ (r ++ seg l0 f' l0.length)) :=
      StablePerm.append (StablePerm.refl _) (StablePerm.append hsp (StablePerm.refl _))
    rw [← seg_append l0 s.f1 f' l0.length (by omega) (by omega), ← hinv.data] at h2
    rw [h1]
    exact hinv.stable.trans h2

/-- The records from `f1` on are still those of `l0`. -/
theorem SetupInv.rd_eq {α : Type} [Inhabited α] {cmp : α → α → Int} {l0 : List α} {last : Nat}
    {s : SetupState α} {rs : List (List α)} (hinv : SetupInv cmp l0 last s rs)
    (k : Nat) (hk : s.f1 ≤ k) (hk2 : k < l0.length) : rd s.list1 k = rd l0 k := by
  rw [hinv.data, rd_append_right _ _ _ (by rw [hinv.len]; exact hk), hinv.len]
  have hlen := seg_length l0 s.f1 l0.length (Nat.le_refl _)
  rw [rd_eq_getElem _ _ (by omega), seg_getElem l0 s.f1 l0.length (k - s.f1) (Nat.le_refl _)
    (by omega)]
  congr 1
  omega

end Elliptics

namespace Elliptics

/-! ## The first pass: pair scan and pairwise runs -/

theorem setup_pairs_spec {α : Type} [Inhabited α] (cmp : α → α → Int) (l : List α)
    (last : Nat) (sense : Bool) :
    ∀ (fuel f2 : Nat) (length : Int), (last - f2) % 2 = 0 → f2 ≤ last → last - f2 ≤ 2 * fuel →
      f2 ≤ (setup_pairs cmp l last sense fuel f2 length).1 ∧
      (setup_pairs cmp l last sense fuel f2 length).1 ≤ last ∧
      ((setup_pairs cmp l last sense fuel f2 length).1 - f2) % 2 = 0 ∧
      (∀ k, f2 ≤ k → k < (setup_pairs cmp l last sense fuel f2 length).1 → (k - f2) % 2 = 0 →
        decide (cmp (rd l k) (rd l (k + 1)) > 0) = sense) ∧
      ((setup_pairs cmp l last sense fuel f2 length).1 < last →
        decide (cmp (rd l (setup_pairs cmp l last sense fuel f2 length).1)
          (rd l ((setup_pairs cmp l last sense fuel f2 length).1 + 1)) > 0) ≠ sense) := by
  intro fuel
  induction fuel with
  | zero =>
    intro f2 length _ h2 h3
    have : f2 = last := by omega
    subst this
    simp only [setup_pairs]
    exact ⟨Nat.le_refl _, Nat.le_refl _, by simp, fun k h4 h5 => by omega,
      fun h => by omega⟩
  | succ fuel ih =>
    intro f2 length h1 h2 h3
    by_cases hlt : f2 < last
    · by_cases hs : (decide (cmp (rd l f2) (rd l (f2 + 1)) > 0) != sense) = true
      · have e : setup_pairs cmp l last sense (fuel + 1) f2 length = (f2, length) := by
          simp only [setup_pairs, hlt, if_true]
          rw [if_pos hs]
        rw [e]
        refine ⟨Nat.le_refl _, h2, by simp, fun k h4 h5 => by omega, fun _ => ?_⟩
        simpa using hs
      · have e : setup_pairs cmp l last sense (fuel + 1) f2 length
            = setup_pairs cmp l last sense fuel (f2 + 2) (wrap_int (length + 2)) := by
          simp only [setup_pairs, hlt, if_true]
          rw [if_neg hs]
        rw [e]
        have hs' : decide (cmp (rd l f2) (rd l (f2 + 1)) > 0) = sense := by
          simpa using hs
        obtain ⟨g1, g2, g3, g4, g5⟩ := ih (f2 + 2) (wrap_int (length + 2)) (by omega) (by omega)
          (by omega)
        refine ⟨by omega, g2, by omega, ?_, g5⟩
        intro k h4 h5 h6
        by_cases hk : k = f2
        · subst hk; exact hs'
        · exact g4 k (by omega) h5 (by omega)
    · have e : setup_pairs cmp l last sense (fuel + 1) f2 length = (f2, length) := by
        simp only [setup_pairs]
        rw [if_neg hlt]
      rw [e]
      exact ⟨Nat.le_refl _, h2, by simp, fun k h4 h5 => by omega, fun h => absurd h hlt⟩

/-- The first two records of what is left of `l0` from `f1` on. -/
theorem seg_two {α : Type} [Inhabited α] (l : List α) (i : Nat) (h : i + 2 ≤ l.length) :
    seg l i l.length = rd l i :: rd l (i + 1) :: seg l (i + 2) l.length := by
  rw [seg_cons l i l.length (by omega) (Nat.le_refl _),
    seg_cons l (i + 1) l.length (by omega) (Nat.le_refl _)]

theorem seg_pair {α : Type} [Inhabited α] (l : List α) (i : Nat) (h : i + 2 ≤ l.length) :
    seg l i (i + 2) = [rd l i, rd l (i + 1)] := by
  rw [seg_cons l i (i + 2) (by omega) h, seg_cons l (i + 1) (i + 2) (by omega) h, seg_self]

theorem setup_pairwise_spec {α : Type} [Inhabited α] {cmp : α → α → Int}
    (hc : TotalPreorder cmp) (l0 : List α) (last f2 : Nat) (hlast : last ≤ l0.length)
    (hf2 : f2 ≤ last) (hev2 : (last - f2) % 2 = 0) :
    ∀ (fuel : Nat) (s : SetupState α) (rs : List (List α)), SetupInv cmp l0 last s rs →
      s.f1 < f2 →
      (∀ k, s.f1 ≤ k → k < f2 → (k - s.f1) % 2 = 0 →
        decide (cmp (rd l0 k) (rd l0 (k + 1)) > 0) = s.sense) →
      f2 - s.f1 ≤ 2 * fuel →
      ∃ rs', SetupInv cmp l0 last (setup_pairwise f2 fuel s) rs' ∧
        (setup_pairwise f2 fuel s).f1 = f2 ∧ (setup_pairwise f2 fuel s).sense = s.sense := by
  intro fuel
  induction fuel with
  | zero => intro s rs _ h1 _ h3; omega
  | succ fuel ih =>
    intro s rs hinv h1 h2 h3
    have hev := hinv.even
    have hb2 : s.f1 + 2 ≤ f2 := by omega
    have hseg := seg_two l0 s.f1 (by omega)
    have hpair := h2 s.f1 (Nat.le_refl _) h1 (by simp)
    have hdata := hinv.data
    rw [hseg] at hdata
    -- the state after one round of the loop
    have hinv1 : SetupInv cmp l0 last
        { list1 := if s.sense then swap s.list1 s.f1 (s.f1 + 1) else s.list1,
          list2 := s.list2.set_next s.p2 (s.f1 + 2), f1 := s.f1 + 2, p2 := s.f1 + 2,
          sense := s.sense }
        (rs ++ [if s.sense then [rd l0 (s.f1 + 1), rd l0 s.f1]
                else [rd l0 s.f1, rd l0 (s.f1 + 1)]]) := by
      apply SetupInv.push hinv hlast (s.f1 + 2) _ (by omega) (by omega) (by omega)
      · cases hsense : s.sense with
        | true =>
          rw [hsense] at hpair
          have hgt : cmp (rd l0 s.f1) (rd l0 (s.f1 + 1)) > 0 := by simpa using hpair
          have := hc.lt_of_gt hgt
          simp [SortedBy]; omega
        | false =>
          rw [hsense] at hpair
          have hle : ¬ cmp (rd l0 s.f1) (rd l0 (s.f1 + 1)) > 0 := by simpa using hpair
          simp [SortedBy]; omega
      · rw [seg_pair l0 s.f1 (by omega)]
        cases hsense : s.sense with
        | true =>
          rw [hsense] at hpair
          have hgt : cmp (rd l0 s.f1) (rd l0 (s.f1 + 1)) > 0 := by simpa using hpair
          simpa using StablePerm.swap_pair hc hgt
        | false => simpa using StablePerm.refl _
      · cases hsense : s.sense with
        | true =>
          simp only [if_true]
          rw [hdata, swap_adjacent _ _ _ _ _ hinv.len]
          simp
        | false =>
          simp only [Bool.false_eq_true, if_false]
          rw [hdata]
          simp
    simp only [setup_pairwise]
    by_cases hlt : s.f1 + 2 < f2
    · simp only [hlt, if_true]
      obtain ⟨rs', g1, g2, g3⟩ := ih _ _ hinv1 hlt (by
        intro k hk1 hk2 hk3
        exact h2 k (by simp at hk1; omega) hk2 (by simp at hk1 hk3; omega)) (by simp; omega)
      exact ⟨rs', g1, g2, g3⟩
    · simp only [hlt, if_false]
      exact ⟨_, hinv1, by show s.f1 + 2 = f2; omega, trivial⟩

end Elliptics

namespace Elliptics

/-! ## The first pass: natural runs -/

theorem reverse_decomp {α : Type} [Inhabited α] (P R Q : List α) (bot top : Nat)
    (hP : P.length = bot) (hR : R ≠ []) (htop : top = bot + R.length - 1) :
    reverse (P ++ (R ++ Q)) bot top = P ++ (R.reverse ++ Q) := by
  have hpos : 0 < R.length := List.length_pos.mpr hR
  unfold reverse
  rw [htop]
  exact reverse_loop_spec _ P R Q bot hP hR (by omega)

/-- The run `f1 .. f2 - 1` of `l0`, all of whose neighbours compare in the
sense `sense`, put in order: as it is, or reversed when it descends. -/
theorem natural_run {α : Type} [Inhabited α] {cmp : α → α → Int} (hc : TotalPreorder cmp)
    (l0 : List α) (f1 f2 : Nat) (sense : Bool) (hf : f1 < f2) (hf2 : f2 ≤ l0.length)
    (hmono : ∀ k, f1 ≤ k → k + 1 < f2 →
      decide (cmp (rd l0 k) (rd l0 (k + 1)) > 0) = sense)
    (P : List α) (hP : P.length = f1) :
    (if sense then reverse (P ++ seg l0 f1 l0.length) f1 (f2 - 1)
      else P ++ seg l0 f1 l0.length)
        = P ++ ((if sense then (seg l0 f1 f2).reverse else seg l0 f1 f2)
            ++ seg l0 f2 l0.length) ∧
    SortedBy cmp (if sense then (seg l0 f1 f2).reverse else seg l0 f1 f2) ∧
    StablePerm cmp (seg l0 f1 f2) (if sense then (seg l0 f1 f2).reverse else seg l0 f1 f2) := by
  have hsplit := seg_append l0 f1 f2 l0.length (by omega) hf2
  have hlen := seg_length l0 f1 f2 hf2
  have hne : seg l0 f1 f2 ≠ [] := by
    intro h0; rw [h0] at hlen; simp at hlen; omega
  cases sense with
  | true =>
    have hdesc := desc_of_adjacent hc l0 f1 f2 hf2 (fun k h1 h2 => by
      have := hmono k h1 h2
      simpa using this)
    refine ⟨?_, sorted_reverse_of_desc hc _ hdesc, StablePerm.reverse_desc hc _ hdesc⟩
    simp only [if_true]
    rw [hsplit]
    exact reverse_decomp P _ _ f1 (f2 - 1) hP hne (by omega)
  | false =>
    have hasc := sorted_of_adjacent hc l0 f1 f2 hf2 (fun k h1 h2 => by
      have := hmono k h1 h2
      simp only [decide_eq_false_iff_not] at this
      omega)
    refine ⟨?_, hasc, StablePerm.refl _⟩
    simp only [Bool.false_eq_true, if_false]
    rw [hsplit]

theorem setup_natural_spec {α : Type} [Inhabited α] {cmp : α → α → Int}
    (hc : TotalPreorder cmp) (l0 : List α) (last l2 F1 : Nat) (sense : Bool)
    (hlast : last ≤ l0.length) (hl2 : l2 ≤ last) (hev2 : (last - l2) % 2 = 0)
    (hpairs : ∀ k, F1 ≤ k → k < l2 → (k - F1) % 2 = 0 →
      decide (cmp (rd l0 k) (rd l0 (k + 1)) > 0) = sense) :
    ∀ (fuel f2 : Nat) (s : SetupState α) (rs : List (List α)), SetupInv cmp l0 last s rs →
      s.sense = sense → F1 ≤ s.f1 → (s.f1 - F1) % 2 = 0 → s.f1 < f2 → f2 ≤ l2 →
      (f2 - s.f1) % 2 = 0 →
      (∀ k, s.f1 ≤ k → k + 1 < f2 → decide (cmp (rd l0 k) (rd l0 (k + 1)) > 0) = sense) →
      l2 - f2 ≤ 2 * fuel →
      ∃ rs', SetupInv cmp l0 last (setup_natural cmp l2 fuel f2 s).1 rs' ∧
        (setup_natural cmp l2 fuel f2 s).2 = l2 ∧
        (setup_natural cmp l2 fuel f2 s).1.sense = sense ∧
        (setup_natural cmp l2 fuel f2 s).1.f1 < l2 ∧
        (l2 - (setup_natural cmp l2 fuel f2 s).1.f1) % 2 = 0 ∧
        (∀ k, (setup_natural cmp l2 fuel f2 s).1.f1 ≤ k → k + 1 < l2 →
          decide (cmp (rd l0 k) (rd l0 (k + 1)) > 0) = sense) := by
  intro fuel
  induction fuel with
  | zero =>
    intro f2 s rs hinv hs h1 h2 h3 h4 h5 h6 h7
    have : f2 = l2 := by omega
    subst this
    exact ⟨rs, by simpa [setup_natural] using hinv, by simp [setup_natural],
      by simpa [setup_natural] using hs, by simpa [setup_natural] using h3,
      by simp only [setup_natural]; omega, by simpa [setup_natural] using h6⟩
  | succ fuel ih =>
    intro f2 s rs hinv hs h1 h2 h3 h4 h5 h6 h7
    by_cases hlt : f2 < l2
    · have hb := hinv.bound
      have hev := hinv.even
      have hr1 : rd s.list1 (f2 - 1) = rd l0 (f2 - 1) := hinv.rd_eq _ (by omega) (by omega)
      have hr2 : rd s.list1 f2 = rd l0 f2 := hinv.rd_eq _ (by omega) (by omega)
      have hpair := hpairs f2 (by omega) hlt (by omega)
      by_cases hbr : (decide (cmp (rd l0 (f2 - 1)) (rd l0 f2) > 0) != s.sense) = true
      · -- the run ends in front of `f2`
        have e : setup_natural cmp l2 (fuel + 1) f2 s
            = setup_natural cmp l2 fuel (f2 + 2)
                { s with
                  list1 := if s.sense then reverse s.list1 s.f1 (f2 - 1) else s.list1,
                  list2 := s.list2.set_next s.p2 f2, p2 := f2, f1 := f2 } := by
          simp only [setup_natural, hlt, if_true, hr1, hr2]
          rw [if_pos hbr]
        rw [e]
        obtain ⟨g1, g2, g3⟩ := natural_run hc l0 s.f1 f2 s.sense h3 (by omega)
          (by rw [hs]; exact h6) rs.flatten hinv.len
        rw [← hinv.data] at g1
        have hinv1 := SetupInv.push hinv hlast f2 _ h3 (by omega) (by omega) g2 g3 _ g1 s.sense
        apply ih (f2 + 2) _ _ hinv1 hs (by show F1 ≤ f2; omega) (by show (f2 - F1) % 2 = 0; omega)
          (by show f2 < f2 + 2; omega) (by omega) (by show (f2 + 2 - f2) % 2 = 0; omega) ?_
          (by omega)
        intro k hk1 hk2
        have hk1' : f2 ≤ k := hk1
        have : k = f2 := by omega
        subst this
        exact hpair
      · have e : setup_natural cmp l2 (fuel + 1) f2 s
            = setup_natural cmp l2 fuel (f2 + 2) s := by
          simp only [setup_natural, hlt, if_true, hr1, hr2]
          rw [if_neg hbr]
        rw [e]
        have hbr' : decide (cmp (rd l0 (f2 - 1)) (rd l0 f2) > 0) = sense := by
          rw [← hs]; simpa using hbr
        apply ih (f2 + 2) s rs hinv hs h1 h2 (by omega) (by omega) (by omega) ?_ (by omega)
        intro k hk1 hk2
        by_cases hk : k + 1 < f2
        · exact h6 k hk1 hk
        · by_cases hk' : k = f2
          · subst hk'; exact hpair
          · have : k = f2 - 1 := by omega
            subst this
            have e2 : f2 - 1 + 1 = f2 := by omega
            rw [e2]; exact hbr'
    · have e : setup_natural cmp l2 (fuel + 1) f2 s = (s, f2) := by
        simp only [setup_natural]
        rw [if_neg hlt]
      rw [e]
      have : f2 = l2 := by omega
      subst this
      exact ⟨rs, hinv, rfl, hs, h3, h5, h6⟩

end Elliptics

namespace Elliptics

/-! ## The first pass: the main loop -/

theorem SetupInv.with_sense {α : Type} {cmp : α → α → Int} {l0 : List α} {last : Nat}
    {s : SetupState α} {rs : List (List α)} (h : SetupInv cmp l0 last s rs) (b : Bool) :
    SetupInv cmp l0 last { s with sense := b } rs :=
  ⟨h.data, h.len, h.sorted, h.chain, h.p2, h.tail, h.bound, h.even, h.stable⟩

theorem sorted_le_last {α : Type} {cmp : α → α → Int} (hc : TotalPreorder cmp)
    (r : List α) (z : α) (h : SortedBy cmp (r ++ [z])) : ∀ x ∈ r ++ [z], cmp x z ≤ 0 := by
  intro x hx
  rcases List.mem_append.mp hx with h1 | h1
  · exact (List.pairwise_append.mp h).2.2 x h1 z (by simp)
  · simp only [List.mem_singleton] at h1
    subst h1
    have := hc.cmp_self x
    omega

theorem sorted_head_le {α : Type} {cmp : α → α → Int} (hc : TotalPreorder cmp)
    (t : α) (T : List α) (h : SortedBy cmp (t :: T)) : ∀ y ∈ t :: T, cmp t y ≤ 0 := by
  intro y hy
  rcases List.mem_cons.mp hy with h1 | h1
  · subst h1
    have := hc.cmp_self y
    omega
  · exact (List.pairwise_cons.mp h).1 y h1

/-- Two sorted runs of which the first ends below the head of the second make
one sorted run. -/
theorem sorted_join {α : Type} {cmp : α → α → Int} (hc : TotalPreorder cmp)
    (r : List α) (z t : α) (T : List α) (h1 : SortedBy cmp (r ++ [z]))
    (h2 : SortedBy cmp (t :: T)) (h3 : cmp z t ≤ 0) : SortedBy cmp ((r ++ [z]) ++ (t :: T)) := by
  unfold SortedBy
  rw [List.pairwise_append]
  refine ⟨h1, h2, ?_⟩
  intro x hx y hy
  exact hc.le_trans _ _ _ (hc.le_trans _ _ _ (sorted_le_last hc r z h1 x hx) h3)
    (sorted_head_le hc t T h2 y hy)

theorem setup_natural_branch_spec {α : Type} [Inhabited α] {cmp : α → α → Int}
    (hc : TotalPreorder cmp) (l0 : List α) (last l2 : Nat)
    (hlast : last < l0.length) (hT : SortedBy cmp (seg l0 last l0.length))
    (hl2 : l2 ≤ last) (hev2 : (last - l2) % 2 = 0)
    (s : SetupState α) (rs : List (List α)) (hinv : SetupInv cmp l0 last s rs)
    (hf : s.f1 < l2)
    (hpairs : ∀ k, s.f1 ≤ k → k < l2 → (k - s.f1) % 2 = 0 →
      decide (cmp (rd l0 k) (rd l0 (k + 1)) > 0) = s.sense) :
    (setup_natural_branch cmp l0.length last s l2).f1 = l2 ∧
    (setup_natural_branch cmp l0.length last s l2).sense = s.sense ∧
    ((∃ rs', SetupInv cmp l0 last (setup_natural_branch cmp l0.length last s l2) rs') ∨
      (l2 = last ∧ SetupDone cmp l0 (setup_natural_branch cmp l0.length last s l2))) := by
  have hev := hinv.even
  obtain ⟨rs', g1, g2, g3, g4, g5, g6⟩ := setup_natural_spec hc l0 last l2 s.f1 s.sense
    (by omega) hl2 hev2 hpairs (l2 - s.f1) (s.f1 + 2) s rs hinv rfl (Nat.le_refl _) (by simp)
    (by omega) (by omega) (by omega)
    (fun k h1 h2 => by
      have : k = s.f1 := by omega
      subst this
      exact hpairs _ (Nat.le_refl _) (by omega) (by simp)) (by omega)
  unfold setup_natural_branch
  simp only []
  generalize setup_natural cmp l2 (l2 - s.f1) (s.f1 + 2) s = r2 at g1 g2 g3 g4 g5 g6 ⊢
  obtain ⟨s2, f2⟩ := r2
  simp only at g1 g2 g3 g4 g5 g6 ⊢
  subst g2
  obtain ⟨e1, e2, e3⟩ := natural_run hc l0 s2.f1 f2 s2.sense g4 (by omega)
    (by rw [g3]; exact g6) rs'.flatten g1.len
  rw [← g1.data] at e1
  rw [e1]
  generalize hr : (if s2.sense = true then (seg l0 s2.f1 f2).reverse else seg l0 s2.f1 f2)
    = r at e1 e2 e3 ⊢
  have hrlen : r.length = f2 - s2.f1 := by
    rw [e3.length_eq, seg_length l0 _ _ (by omega)]
  -- the last record of the run and the first of the tail
  obtain ⟨r', z, hz⟩ : ∃ r' z, r = r' ++ [z] := by
    rcases List.eq_nil_or_concat r with h | ⟨r', z, h⟩
    · rw [h] at hrlen; simp at hrlen; omega
    · exact ⟨r', z, by simpa using h⟩
  have hz1 : rd (rs'.flatten ++ (r ++ seg l0 f2 l0.length)) (f2 - 1) = z := by
    rw [hz]
    have := rd_append_len (rs'.flatten ++ r') z (seg l0 f2 l0.length) (f2 - 1) (by
      rw [hz] at hrlen
      simp only [List.length_append, g1.len, List.length_singleton] at hrlen ⊢
      omega)
    simpa using this
  have ht1 : rd (rs'.flatten ++ (r ++ seg l0 f2 l0.length)) f2 = rd l0 f2 := by
    have h1 : (rs'.flatten ++ r).length = f2 := by
      simp only [List.length_append, g1.len, hrlen]; omega
    rw [seg_cons l0 f2 l0.length (by omega) (Nat.le_refl _)]
    have := rd_append_len (rs'.flatten ++ r) (rd l0 f2) (seg l0 (f2 + 1) l0.length) f2 h1
    simpa using this
  rw [ht1, hz1]
  by_cases hcond : f2 < last ∨ cmp z (rd l0 f2) > 0
  · rw [if_pos hcond]
    refine ⟨rfl, g3, Or.inl ⟨rs' ++ [r], ?_⟩⟩
    exact SetupInv.push g1 (by omega) f2 r g4 hl2 hev2 e2 e3 _ rfl s2.sense
  · rw [if_neg hcond]
    have hf2 : f2 = last := by omega
    have hzt : cmp z (rd l0 f2) ≤ 0 := by omega
    refine ⟨rfl, g3, Or.inr ⟨hf2, ?_, ?_⟩⟩
    · -- the last run is joined with the sorted tail
      refine ⟨rs' ++ [r ++ seg l0 f2 l0.length], ?_, by simp, ?_⟩
      · have hlen : (rs'.flatten ++ (r ++ seg l0 f2 l0.length)).length = l0.length := by
          simp only [List.length_append, g1.len, hrlen,
            seg_length l0 f2 l0.length (Nat.le_refl _)]
          omega
        show RunChain (s2.list2.set_next s2.p2 l0.length).link 0 _ _
        rw [hlen, g1.p2]
        apply RunChain.push_run s2.list2 rs' s2.f1 l0.length _ g1.chain _ (by omega)
        simp only [List.length_append, hrlen, seg_length l0 f2 l0.length (Nat.le_refl _)]
        omega
      · intro r0 hr0
        rcases List.mem_append.mp hr0 with h | h
        · exact g1.sorted r0 h
        · simp only [List.mem_singleton] at h
          subst h
          rw [hz, seg_cons l0 f2 l0.length (by omega) (Nat.le_refl _)]
          rw [hf2] at hzt ⊢
          apply sorted_join hc r' z _ _ (by rw [← hz]; exact e2) ?_ hzt
          rw [← seg_cons l0 last l0.length (by omega) (Nat.le_refl _)]
          exact hT
    · show StablePerm cmp l0 (rs'.flatten ++ (r ++ seg l0 f2 l0.length))
      have h2 : StablePerm cmp (rs'.flatten ++ (seg l0 s2.f1 f2 ++ seg l0 f2 l0.length))
          (rs'.flatten ++ (r ++ seg l0 f2 l0.length)) :=
        StablePerm.append (StablePerm.refl _) (StablePerm.append e3 (StablePerm.refl _))
      rw [← seg_append l0 s2.f1 f2 l0.length (by omega) (by omega), ← g1.data] at h2
      exact g1.stable.trans h2

end Elliptics

namespace Elliptics

theorem setup_round_spec {α : Type} [Inhabited α] {cmp : α → α → Int}
    (hc : TotalPreorder cmp) (l0 : List α) (last : Nat)
    (hlast : last < l0.length) (hT : SortedBy cmp (seg l0 last l0.length))
    (s : SetupState α) (rs : List (List α)) (hinv : SetupInv cmp l0 last s rs)
    (hf : s.f1 < last)
    (hsense : s.sense = decide (cmp (rd l0 s.f1) (rd l0 (s.f1 + 1)) > 0)) :
    s.f1 + 2 ≤ (setup_round cmp l0.length last s).f1 ∧
    (setup_round cmp l0.length last s).f1 ≤ last ∧
    ((∃ rs', SetupInv cmp l0 last (setup_round cmp l0.length last s) rs' ∧
        ((setup_round cmp l0.length last s).f1 < last →
          (setup_round cmp l0.length last s).sense
            = decide (cmp (rd l0 (setup_round cmp l0.length last s).f1)
                (rd l0 ((setup_round cmp l0.length last s).f1 + 1)) > 0))) ∨
      ((setup_round cmp l0.length last s).f1 = last ∧
        SetupDone cmp l0 (setup_round cmp l0.length last s))) := by
  have hev := hinv.even
  obtain ⟨p1, p2, p3, p4, p5⟩ := setup_pairs_spec cmp s.list1 last s.sense (last - s.f1)
    (s.f1 + 2) 2 (by omega) (by omega) (by omega)
  unfold setup_round
  simp only []
  generalize setup_pairs cmp s.list1 last s.sense (last - s.f1) (s.f1 + 2) 2 = r
    at p1 p2 p3 p4 p5 ⊢
  obtain ⟨f2, length⟩ := r
  simp only at p1 p2 p3 p4 p5 ⊢
  have hpairs : ∀ k, s.f1 ≤ k → k < f2 → (k - s.f1) % 2 = 0 →
      decide (cmp (rd l0 k) (rd l0 (k + 1)) > 0) = s.sense := by
    intro k h1 h2 h3
    by_cases hk : k = s.f1
    · subst hk; exact hsense.symm
    · have := p4 k (by omega) h2 (by omega)
      rwa [hinv.rd_eq k (by omega) (by omega), hinv.rd_eq (k + 1) (by omega) (by omega)] at this
  have hnext : f2 < last → (!s.sense) = decide (cmp (rd l0 f2) (rd l0 (f2 + 1)) > 0) := by
    intro h
    have := p5 h
    rw [hinv.rd_eq f2 (by omega) (by omega), hinv.rd_eq (f2 + 1) (by omega) (by omega)] at this
    cases hs : s.sense <;> rw [hs] at this <;> simpa using this
  by_cases hlen : length < DNET_THRESHOLD
  · simp only [if_pos hlen]
    obtain ⟨rs', g1, g2, g3⟩ := setup_pairwise_spec hc l0 last f2 (by omega) p2 (by omega)
      (f2 - s.f1) s rs hinv (by omega) hpairs (by omega)
    refine ⟨by show s.f1 + 2 ≤ (setup_pairwise f2 (f2 - s.f1) s).f1; omega,
      by show (setup_pairwise f2 (f2 - s.f1) s).f1 ≤ last; omega,
      Or.inl ⟨rs', g1.with_sense _, ?_⟩⟩
    show (setup_pairwise f2 (f2 - s.f1) s).f1 < last →
      (!(setup_pairwise f2 (f2 - s.f1) s).sense)
        = decide (cmp (rd l0 (setup_pairwise f2 (f2 - s.f1) s).f1)
            (rd l0 ((setup_pairwise f2 (f2 - s.f1) s).f1 + 1)) > 0)
    rw [g2, g3]
    exact hnext
  · simp only [if_neg hlen]
    obtain ⟨g1, g2, g3⟩ := setup_natural_branch_spec hc l0 last f2 hlast hT p2 (by omega)
      s rs hinv (by omega) hpairs
    refine ⟨by show s.f1 + 2 ≤ (setup_natural_branch cmp l0.length last s f2).f1; omega,
      by show (setup_natural_branch cmp l0.length last s f2).f1 ≤ last; omega, ?_⟩
    rcases g3 with ⟨rs', h⟩ | ⟨h1, h2⟩
    · refine Or.inl ⟨rs', h.with_sense _, ?_⟩
      show (setup_natural_branch cmp l0.length last s f2).f1 < last →
        (!(setup_natural_branch cmp l0.length last s f2).sense)
          = decide (cmp (rd l0 (setup_natural_branch cmp l0.length last s f2).f1)
              (rd l0 ((setup_natural_branch cmp l0.length last s f2).f1 + 1)) > 0)
      rw [g1, g2]
      exact hnext
    · refine Or.inr ⟨?_, h2⟩
      show (setup_natural_branch cmp l0.length last s f2).f1 = last
      omega

/-- When the loop has reached `last` with runs still open, the sorted tail is
the last run. -/
theorem SetupInv.done {α : Type} {cmp : α → α → Int} {l0 : List α} {last : Nat}
    {s : SetupState α} {rs : List (List α)} (hinv : SetupInv cmp l0 last s rs)
    (hlast : last < l0.length) (hT : SortedBy cmp (seg l0 last l0.length))
    (hf : s.f1 = last) : SetupDone cmp l0 s := by
  have hTlen := seg_length l0 last l0.length (Nat.le_refl _)
  have hTne : seg l0 last l0.length ≠ [] := by
    intro h0; rw [h0] at hTlen; simp at hTlen; omega
  refine ⟨⟨rs ++ [seg l0 last l0.length], ?_, ?_, ?_⟩, hinv.stable⟩
  · have hlen : s.list1.length = l0.length := hinv.stable.length_eq
    rw [hlen]
    have h1 := hinv.chain
    rw [hf] at h1
    have := RunChain.snoc rs 0 last _ h1 hTne (by rw [hinv.tail, hTlen]; omega)
    rw [hTlen] at this
    have e : last + (l0.length - last) = l0.length := by omega
    rwa [e] at this
  · rw [hinv.data, hf]; simp
  · intro r hr
    rcases List.mem_append.mp hr with h | h
    · exact hinv.sorted r h
    · simp only [List.mem_singleton] at h
      subst h; exact hT

theorem setup_loop_spec {α : Type} [Inhabited α] {cmp : α → α → Int}
    (hc : TotalPreorder cmp) (l0 : List α) (last : Nat)
    (hlast : last < l0.length) (hT : SortedBy cmp (seg l0 last l0.length)) :
    ∀ (fuel : Nat) (s : SetupState α), last - s.f1 ≤ 2 * fuel →
      ((∃ rs, SetupInv cmp l0 last s rs ∧
          (s.f1 < last → s.sense = decide (cmp (rd l0 s.f1) (rd l0 (s.f1 + 1)) > 0))) ∨
        (s.f1 = last ∧ SetupDone cmp l0 s)) →
      SetupDone cmp l0 (setup_loop cmp l0.length last fuel s) := by
  intro fuel
  induction fuel with
  | zero =>
    intro s hfuel h
    simp only [setup_loop]
    rcases h with ⟨rs, h1, _⟩ | ⟨_, h2⟩
    · exact h1.done hlast hT (by have := h1.bound; omega)
    · exact h2
  | succ fuel ih =>
    intro s hfuel h
    simp only [setup_loop]
    by_cases hlt : s.f1 < last
    · rw [if_pos hlt]
      rcases h with ⟨rs, h1, h2⟩ | ⟨h3, _⟩
      · obtain ⟨g1, g2, g3⟩ := setup_round_spec hc l0 last hlast hT s rs h1 hlt (h2 hlt)
        exact ih _ (by omega) g3
      · omega
    · rw [if_neg hlt]
      rcases h with ⟨rs, h1, _⟩ | ⟨_, h2⟩
      · exact h1.done hlast hT (by have := h1.bound; omega)
      · exact h2

/-- The first pass leaves a list of sorted runs that covers the array, and has
only moved records past records they do not compare equal to. -/
theorem setup_spec {α : Type} [Inhabited α] {cmp : α → α → Int}
    (hc : TotalPreorder cmp) (base : List α) (list2 : Buf α) (hn : 0 < base.length) :
    RunsOK cmp (setup cmp base list2 base.length).2.link (setup cmp base list2 base.length).1 ∧
    StablePerm cmp base (setup cmp base list2 base.length).1 := by
  unfold setup
  by_cases h5 : base.length ≤ 5
  · rw [if_pos h5]
    obtain ⟨S, g1, g2, g3⟩ := insertionsort_spec hc base 0 base.length hn (by omega)
    have e1 : seg base 0 0 = [] := seg_self _ _
    have e2 : seg base (0 + base.length) base.length = [] := by
      rw [Nat.zero_add]; exact seg_self _ _
    rw [e1, e2] at g1
    simp only [List.nil_append, List.append_nil] at g1
    rw [Nat.zero_add, seg_full] at g3
    simp only [g1]
    have hSlen : S.length = base.length := g3.length_eq
    have hSne : S ≠ [] := by
      intro h0; rw [h0] at hSlen; simp at hSlen; omega
    refine ⟨⟨[S], ?_, by simp, by simpa using g2⟩, g3⟩
    exact ⟨hSne, by simp [Buf.set_next, hSlen], by simp [RunChain, hSlen]⟩
  · rw [if_neg h5]
    simp only []
    have hi : 4 + base.length % 2 ≤ base.length := by omega
    obtain ⟨S, g1, g2, g3⟩ := insertionsort_spec hc base (base.length - (4 + base.length % 2))
      (4 + base.length % 2) (by omega) (by omega)
    have e0 : base.length - (4 + base.length % 2) + (4 + base.length % 2) = base.length := by
      omega
    rw [e0, seg_self, List.append_nil] at g1
    rw [e0] at g3
    generalize hl0 : insertionsort cmp base (base.length - (4 + base.length % 2))
      (4 + base.length % 2) = l0 at g1 ⊢
    have hSlen : S.length = 4 + base.length % 2 := by
      rw [g3.length_eq, seg_length base _ _ (Nat.le_refl _)]; omega
    have hstab : StablePerm cmp base l0 := by
      have h1 : StablePerm cmp
          (seg base 0 (base.length - (4 + base.length % 2))
            ++ seg base (base.length - (4 + base.length % 2)) base.length)
          (seg base 0 (base.length - (4 + base.length % 2)) ++ S) :=
        StablePerm.append (StablePerm.refl _) g3
      rw [← seg_append base 0 _ base.length (by omega) (by omega), seg_full, ← g1] at h1
      exact h1
    have hlen : l0.length = base.length := hstab.length_eq
    have hplen : (seg base 0 (base.length - (4 + base.length % 2))).length
        = base.length - (4 + base.length % 2) := by
      rw [seg_length base _ _ (by omega)]; omega
    have hT : SortedBy cmp (seg l0 (base.length - (4 + base.length % 2)) l0.length) := by
      rw [g1, seg_of_append_right _ _ _ _ hplen rfl]
      exact g2
    rw [← hlen]
    have hdone := setup_loop_spec hc l0 (base.length - (4 + base.length % 2)) (by omega) hT
      (base.length - (4 + base.length % 2))
      { list1 := l0,
        list2 := list2.set_next (base.length - (4 + base.length % 2)) l0.length,
        f1 := 0, p2 := 0, sense := decide (cmp (rd l0 0) (rd l0 1) > 0) }
      (by simp; omega)
      (Or.inl ⟨[], ⟨by simp [seg_full], rfl, by simp, rfl, rfl, by simp [Buf.set_next],
        Nat.zero_le _, by simp; omega, StablePerm.refl _⟩, fun _ => rfl⟩)
    rw [hlen] at hdone ⊢
    exact ⟨hdone.1, hstab.trans hdone.2⟩

end Elliptics

namespace Elliptics

/-! ## The searches of the merge

All of them look, in the records `b0 + 1 .. t0 - 1`, for the first record `r`
that fails the test `cmp(q, r) > sense`, given that no record passes the test
behind one that fails it. -/

theorem binary_search_spec {α : Type} [Inhabited α] (cmp : α → α → Int) (l : List α) (q : α)
    (sense : Int) (b0 t0 : Nat)
    (hmono : ∀ j k, b0 < j → j ≤ k → k < t0 → cmp q (rd l k) > sense → cmp q (rd l j) > sense) :
    ∀ (fuel b t : Nat), b0 ≤ b → b < t → t ≤ t0 → t - b ≤ fuel →
      (∀ j, b0 < j → j ≤ b → cmp q (rd l j) > sense) →
      (t < t0 → ¬ cmp q (rd l t) > sense) →
      b0 < binary_search cmp l q sense fuel b t ∧
      binary_search cmp l q sense fuel b t ≤ t0 ∧
      (∀ j, b0 < j → j < binary_search cmp l q sense fuel b t → cmp q (rd l j) > sense) ∧
      (binary_search cmp l q sense fuel b t < t0 →
        ¬ cmp q (rd l (binary_search cmp l q sense fuel b t)) > sense) := by
  intro fuel
  induction fuel with
  | zero => intro b t _ h2 _ h4; omega
  | succ fuel ih =>
    intro b t h1 h2 h3 h4 h5 h6
    simp only [binary_search]
    by_cases hgt : t > b + 1
    · simp only [hgt, if_true]
      have hp1 : b < b + (t - b) / 2 := by omega
      have hp2 : b + (t - b) / 2 < t := by omega
      by_cases hc : cmp q (rd l (b + (t - b) / 2)) ≤ sense
      · simp only [hc, if_true]
        exact ih b _ h1 hp1 (by omega) (by omega) h5 (fun _ => by omega)
      · simp only [hc, if_false]
        refine ih _ t (by omega) hp2 h3 (by omega) ?_ h6
        intro j hj1 hj2
        exact hmono j _ hj1 hj2 (by omega) (by omega)
    · simp only [hgt, if_false]
      exact ⟨by omega, h3, fun j hj1 hj2 => h5 j hj1 (by omega), h6⟩

theorem fastcase_spec {α : Type} [Inhabited α] (cmp : α → α → Int) (l : List α) (q : α)
    (sense : Int) (b0 t0 : Nat)
    (hmono : ∀ j k, b0 < j → j ≤ k → k < t0 → cmp q (rd l k) > sense → cmp q (rd l j) > sense) :
    ∀ (e fuel b t : Nat), b0 ≤ b → t = b + 2 ^ e → t ≤ t0 → e + 1 ≤ fuel →
      (∀ j, b0 < j → j ≤ b → cmp q (rd l j) > sense) →
      (t < t0 → ¬ cmp q (rd l t) > sense) →
      b0 < fastcase cmp l q sense fuel b t (2 ^ e) ∧
      fastcase cmp l q sense fuel b t (2 ^ e) ≤ t0 ∧
      (∀ j, b0 < j → j < fastcase cmp l q sense fuel b t (2 ^ e) → cmp q (rd l j) > sense) ∧
      (fastcase cmp l q sense fuel b t (2 ^ e) < t0 →
        ¬ cmp q (rd l (fastcase cmp l q sense fuel b t (2 ^ e))) > sense) := by
  intro e
  induction e with
  | zero =>
    intro fuel b t h1 h2 h3 h4 h5 h6
    cases fuel with
    | zero => omega
    | succ fuel =>
      simp only [fastcase, pow_zero, gt_iff_lt, Nat.lt_irrefl, if_false]
      simp only [pow_zero] at h2
      exact ⟨by omega, h3, fun j hj1 hj2 => h5 j hj1 (by omega), h6⟩
  | succ e ih =>
    intro fuel b t h1 h2 h3 h4 h5 h6
    cases fuel with
    | zero => omega
    | succ fuel =>
      have hpow : 2 ^ (e + 1) = 2 * 2 ^ e := by rw [pow_succ]; omega
      have hpos : 0 < 2 ^ e := Nat.two_pow_pos e
      have hgt : 2 ^ (e + 1) > 1 := by omega
      have hhalf : 2 ^ (e + 1) / 2 = 2 ^ e := by omega
      simp only [fastcase, hgt, if_true, hhalf]
      by_cases hc : cmp q (rd l (b + 2 ^ e)) ≤ sense
      · simp only [hc, if_true]
        exact ih fuel b _ h1 rfl (by omega) (by omega) h5 (fun _ => by omega)
      · simp only [hc, if_false]
        refine ih fuel _ t (by omega) (by omega) h3 (by omega) ?_ h6
        intro j hj1 hj2
        exact hmono j _ hj1 hj2 (by omega) (by omega)

theorem exponential_search_spec {α : Type} [Inhabited α] (cmp : α → α → Int) (l : List α)
    (q : α) (sense : Int) (b0 t0 : Nat)
    (hmono : ∀ j k, b0 < j → j ≤ k → k < t0 → cmp q (rd l k) > sense → cmp q (rd l j) > sense) :
    ∀ (fuel e b : Nat) (big : Bool), b0 ≤ b → b < t0 → t0 - b + 1 ≤ fuel →
      (∀ j, b0 < j → j ≤ b → cmp q (rd l j) > sense) →
      b0 < (exponential_search cmp l q sense fuel b t0 (2 ^ e) big).1 ∧
      (exponential_search cmp l q sense fuel b t0 (2 ^ e) big).1 ≤ t0 ∧
      (∀ j, b0 < j → j < (exponential_search cmp l q sense fuel b t0 (2 ^ e) big).1 →
        cmp q (rd l j) > sense) ∧
      ((exponential_search cmp l q sense fuel b t0 (2 ^ e) big).1 < t0 →
        ¬ cmp q (rd l (exponential_search cmp l q sense fuel b t0 (2 ^ e) big).1) > sense) := by
  intro fuel
  induction fuel with
  | zero => intro e b big _ _ h3; omega
  | succ fuel ih =>
    intro e b big h1 h2 h3 h5
    have hpos : 0 < 2 ^ e := Nat.two_pow_pos e
    simp only [exponential_search]
    by_cases hge : b + 2 ^ e ≥ t0
    · simp only [hge, if_true]
      by_cases hc : t0 - 1 > b ∧ cmp q (rd l (t0 - 1)) ≤ sense
      · simp only [hc, and_self, if_true]
        exact binary_search_spec cmp l q sense b0 t0 hmono _ b (t0 - 1) h1 hc.1 (by omega)
          (by omega) h5 (fun _ => by omega)
      · rw [if_neg hc]
        refine binary_search_spec cmp l q sense b0 t0 hmono _ (t0 - 1) t0 (by omega) (by omega)
          (Nat.le_refl _) (by omega) ?_ (fun h => by omega)
        intro j hj1 hj2
        by_cases hb : t0 - 1 > b
        · have hP : cmp q (rd l (t0 - 1)) > sense := by
            by_contra h0
            exact hc ⟨hb, by omega⟩
          exact hmono j _ hj1 hj2 (by omega) hP
        · exact h5 j hj1 (by omega)
    · simp only [hge, if_false]
      by_cases hc : cmp q (rd l (b + 2 ^ e)) ≤ sense
      · simp only [hc, if_true]
        have hfuel : e + 1 ≤ 2 ^ e := by
          have := Nat.lt_two_pow e
          omega
        exact fastcase_spec cmp l q sense b0 t0 hmono e _ b _ h1 rfl (by omega) hfuel h5
          (fun _ => by omega)
      · simp only [hc, if_false]
        have hpow : 2 ^ e * 2 = 2 ^ (e + 1) := by rw [pow_succ]
        rw [hpow]
        refine ih (e + 1) _ big (by omega) (by omega) (by omega) ?_
        intro j hj1 hj2
        exact hmono j _ hj1 hj2 (by omega) (by omega)

theorem linear_search_spec {α : Type} [Inhabited α] (cmp : α → α → Int) (l : List α)
    (q : α) (sense : Int) (b0 t0 : Nat) :
    ∀ (fuel b i : Nat), b0 ≤ b → b < t0 → t0 - b ≤ fuel →
      (∀ j, b0 < j → j ≤ b → cmp q (rd l j) > sense) →
      b0 < (linear_search cmp l q sense t0 fuel b i).1 ∧
      (∀ j, b0 < j → j < (linear_search cmp l q sense t0 fuel b i).1 → cmp q (rd l j) > sense) ∧
      ((linear_search cmp l q sense t0 fuel b i).2 = true →
        (linear_search cmp l q sense t0 fuel b i).1 < t0 ∧
        cmp q (rd l (linear_search cmp l q sense t0 fuel b i).1) > sense) ∧
      ((linear_search cmp l q sense t0 fuel b i).2 = false →
        (linear_search cmp l q sense t0 fuel b i).1 ≤ t0 ∧
        ((linear_search cmp l q sense t0 fuel b i).1 < t0 →
          ¬ cmp q (rd l (linear_search cmp l q sense t0 fuel b i).1) > sense)) := by
  intro fuel
  induction fuel with
  | zero => intro b i _ h2 h3; omega
  | succ fuel ih =>
    intro b i h1 h2 h3 h5
    simp only [linear_search]
    by_cases hc : b + 1 < t0 ∧ cmp q (rd l (b + 1)) > sense
    · rw [if_pos hc]
      have h5' : ∀ j, b0 < j → j ≤ b + 1 → cmp q (rd l j) > sense := by
        intro j hj1 hj2
        by_cases hj : j = b + 1
        · subst hj; exact hc.2
        · exact h5 j hj1 (by omega)
      by_cases h6 : i + 1 = 6
      · rw [if_pos h6]
        exact ⟨by simp; omega, fun j hj1 hj2 => h5' j hj1 (by simp at hj2; omega),
          fun _ => ⟨hc.1, hc.2⟩, fun h => by simp at h⟩
      · rw [if_neg h6]
        exact ih (b + 1) (i + 1) (by omega) hc.1 (by omega) h5'
    · rw [if_neg hc]
      refine ⟨by simp; omega, fun j hj1 hj2 => h5 j hj1 (by simp at hj2; omega),
        fun h => by simp at h, fun _ => ⟨by simp; omega, fun h => ?_⟩⟩
      intro hP
      exact hc ⟨by simpa using h, hP⟩

/-- The search of one merge step returns the first record behind `b` that fails
the test, or `t` when there is none, whatever `big` is. -/
theorem search_spec {α : Type} [Inhabited α] (cmp : α → α → Int) (l : List α)
    (q : α) (sense : Int) (b t : Nat) (big : Bool) (hbt : b < t)
    (hmono : ∀ j k, b < j → j ≤ k → k < t → cmp q (rd l k) > sense → cmp q (rd l j) > sense) :
    b < (search cmp l q sense b t big).1 ∧ (search cmp l q sense b t big).1 ≤ t ∧
    (∀ j, b < j → j < (search cmp l q sense b t big).1 → cmp q (rd l j) > sense) ∧
    ((search cmp l q sense b t big).1 < t →
      ¬ cmp q (rd l (search cmp l q sense b t big).1) > sense) := by
  unfold search
  cases big with
  | false =>
    simp only [Bool.not_false, if_true]
    obtain ⟨g1, g2, g3, g4⟩ := linear_search_spec cmp l q sense b t (t - b) b 0 (Nat.le_refl _)
      hbt (Nat.le_refl _) (fun j h1 h2 => by omega)
    generalize linear_search cmp l q sense t (t - b) b 0 = r at g1 g2 g3 g4 ⊢
    obtain ⟨r1, r2⟩ := r
    cases r2 with
    | true =>
      simp only [if_true]
      have h := g3 rfl
      simp only at h g1 g2
      have := exponential_search_spec cmp l q sense b t hmono (t - r1 + 1) 0 r1 true (by omega)
        h.1 (Nat.le_refl _) (fun j hj1 hj2 => by
          by_cases hj : j = r1
          · subst hj; exact h.2
          · exact g2 j hj1 (by omega))
      simpa using this
    | false =>
      simp only [Bool.false_eq_true, if_false]
      have h := g4 rfl
      exact ⟨g1, h.1, g2, h.2⟩
  | true =>
    simp only [Bool.not_true, Bool.false_eq_true, if_false]
    have := exponential_search_spec cmp l q sense b t hmono (t - b + 1) 0 b true (Nat.le_refl _)
      hbt (Nat.le_refl _) (fun j h1 h2 => by omega)
    simpa using this

end Elliptics

namespace Elliptics

/-! ## The merge of two runs -/

theorem sorted_seg_idx {α : Type} [Inhabited α] {cmp : α → α → Int} (l : List α) (i j : Nat)
    (hj : j ≤ l.length) (h : SortedBy cmp (seg l i j)) :
    ∀ a b, i ≤ a → a < b → b < j → cmp (rd l a) (rd l b) ≤ 0 := by
  intro a b h1 h2 h3
  have hlen := seg_length l i j hj
  have := List.pairwise_iff_getElem.mp h (a - i) (b - i) (by omega) (by omega) (by omega)
  rw [seg_getElem l i j _ hj (by omega), seg_getElem l i j _ hj (by omega)] at this
  have e1 : i + (a - i) = a := by omega
  have e2 : i + (b - i) = b := by omega
  rwa [e1, e2] at this

theorem sorted_seg_suffix {α : Type} {cmp : α → α → Int} (l : List α) (i r j : Nat)
    (h1 : i ≤ r) (h2 : r ≤ j) (h : SortedBy cmp (seg l i j)) : SortedBy cmp (seg l r j) := by
  unfold SortedBy at *
  rw [seg_append l i r j h1 h2] at h
  exact (List.pairwise_append.mp h).2.1

theorem merge_take_left {α : Type} (le : α → α → Bool) (y : α) (B' : List α) :
    ∀ (X A' : List α), (∀ x ∈ X, le x y = true) →
      (∀ a A'', A' = a :: A'' → le a y = false) →
      List.merge (X ++ A') (y :: B') le = X ++ y :: List.merge A' B' le := by
  intro X
  induction X with
  | nil =>
    intro A' _ h2
    cases A' with
    | nil => simp [List.merge]
    | cons a A'' =>
      have := h2 a A'' rfl
      simp [List.cons_merge_cons, this]
  | cons x X ih =>
    intro A' h1 h2
    have hx := h1 x (by simp)
    simp only [List.cons_append, List.cons_merge_cons, hx, if_true]
    rw [ih A' (fun x' hx' => h1 x' (by simp [hx'])) h2]

theorem merge_take_right {α : Type} (le : α → α → Bool) (x : α) (A' : List α) :
    ∀ (Y B' : List α), (∀ y ∈ Y, le x y = false) →
      (∀ b B'', B' = b :: B'' → le x b = true) →
      List.merge (x :: A') (Y ++ B') le = Y ++ x :: List.merge A' B' le := by
  intro Y
  induction Y with
  | nil =>
    intro B' _ h2
    cases B' with
    | nil => simp [List.merge]
    | cons b B'' =>
      have := h2 b B'' rfl
      simp [List.cons_merge_cons, this]
  | cons y Y ih =>
    intro B' h1 h2
    have hy := h1 y (by simp)
    simp only [List.cons_append, List.cons_merge_cons, hy, Bool.false_eq_true, if_false]
    rw [ih B' (fun y' hy' => h1 y' (by simp [hy'])) h2]

theorem icopy_list_ok {α : Type} [Inhabited α] (size : Nat) (hsz : size % DNET_ISIZE = 0)
    (l : List α) (src last : Nat) (out : List α) :
    DNET_ICOPY_LIST size l src last out = some (out ++ seg l src last, last) := by
  unfold DNET_ICOPY_LIST
  have : ((last - src) * size) % DNET_ISIZE = 0 := by
    rw [Nat.mul_mod, hsz]; simp
  rw [if_pos this]
  rfl

theorem icopy_elt_ok {α : Type} [Inhabited α] (size : Nat)
    (hsz : size % DNET_ISIZE = 0 ∧ 0 < size) (l : List α) (src : Nat) (out : List α) :
    DNET_ICOPY_ELT size l src out = some (out ++ [rd l src], src + 1) := by
  unfold DNET_ICOPY_ELT
  rw [if_pos hsz]

theorem merge_loop_spec {α : Type} [Inhabited α] {cmp : α → α → Int}
    (hc : TotalPreorder cmp) (size : Nat) (hsz : size % DNET_ISIZE = 0 ∧ 0 < size)
    (l : List α) (l1 l2 : Nat) (hl1 : l1 ≤ l.length) (hl2 : l2 ≤ l.length) :
    ∀ (fuel : Nat) (s : MergeState α), s.f1 ≤ l1 → s.f2 ≤ l2 →
      SortedBy cmp (seg l s.f1 l1) → SortedBy cmp (seg l s.f2 l2) →
      (l1 - s.f1) + (l2 - s.f2) ≤ fuel →
      ∃ s', merge_loop cmp size l l1 l2 fuel s = some s' ∧
        merge_rest size l l1 l2 s'
          = some (s.out ++ List.merge (seg l s.f1 l1) (seg l s.f2 l2) (cmp_le cmp)) := by
  have hrest : ∀ (s : MergeState α), s.f1 ≤ l1 → s.f2 ≤ l2 → ¬ (s.f1 < l1 ∧ s.f2 < l2) →
      merge_rest size l l1 l2 s
        = some (s.out ++ List.merge (seg l s.f1 l1) (seg l s.f2 l2) (cmp_le cmp)) := by
    intro s h1 h2 h3
    unfold merge_rest
    by_cases hf2 : s.f2 < l2
    · have : s.f1 = l1 := by omega
      rw [if_pos hf2, icopy_list_ok size hsz.1, this, seg_self]
      simp
    · rw [if_neg hf2]
      have e2 : s.f2 = l2 := by omega
      by_cases hf1 : s.f1 < l1
      · rw [if_pos hf1, icopy_list_ok size hsz.1, e2, seg_self]
        simp
      · rw [if_neg hf1]
        have e1 : s.f1 = l1 := by omega
        rw [e1, e2, seg_self, seg_self]
        simp
  intro fuel
  induction fuel with
  | zero =>
    intro s h1 h2 _ _ h5
    have hno : ¬ (s.f1 < l1 ∧ s.f2 < l2) := by omega
    exact ⟨s, by simp only [merge_loop]; rw [if_neg hno], hrest s h1 h2 hno⟩
  | succ fuel ih =>
    intro s h1 h2 h3 h4 h5
    by_cases hlt : s.f1 < l1 ∧ s.f2 < l2
    · have hA := seg_cons l s.f1 l1 hlt.1 hl1
      have hB := seg_cons l s.f2 l2 hlt.2 hl2
      have hidx1 := sorted_seg_idx l s.f1 l1 hl1 h3
      have hidx2 := sorted_seg_idx l s.f2 l2 hl2 h4
      by_cases hcmp : cmp (rd l s.f1) (rd l s.f2) ≤ 0
      · -- records of the first run up to the head of the second
        have hmono : ∀ j k, s.f1 < j → j ≤ k → k < l1 →
            cmp (rd l s.f2) (rd l k) > -1 → cmp (rd l s.f2) (rd l j) > -1 := by
          intro j k hj1 hj2 hk hP
          by_cases hjk : j = k
          · subst hjk; exact hP
          · have h6 := hidx1 j k (by omega) (by omega) hk
            have h7 := hc.le_of_ge (show 0 ≤ cmp (rd l s.f2) (rd l k) by omega)
            have h8 := hc.ge_of_le (hc.le_trans _ _ _ h6 h7)
            omega
        obtain ⟨g1, g2, g3, g4⟩ := search_spec cmp l (rd l s.f2) (-1) s.f1 l1 s.big hlt.1 hmono
        have e : merge_loop cmp size l l1 l2 (fuel + 1) s
            = merge_loop cmp size l l1 l2 fuel
                { f1 := (search cmp l (rd l s.f2) (-1) s.f1 l1 s.big).1, f2 := s.f2 + 1,
                  big := (search cmp l (rd l s.f2) (-1) s.f1 l1 s.big).2,
                  out := s.out ++ seg l s.f1 (search cmp l (rd l s.f2) (-1) s.f1 l1 s.big).1
                    ++ [rd l s.f2] } := by
          simp only [merge_loop]
          rw [if_pos hlt, if_pos hcmp, icopy_list_ok size hsz.1]
          simp only [icopy_elt_ok size hsz]
        rw [e]
        generalize search cmp l (rd l s.f2) (-1) s.f1 l1 s.big = r at g1 g2 g3 g4 ⊢
        obtain ⟨s', k1, k2⟩ := ih
          { f1 := r.1, f2 := s.f2 + 1, big := r.2,
            out := s.out ++ seg l s.f1 r.1 ++ [rd l s.f2] } g2 hlt.2
          (sorted_seg_suffix l s.f1 r.1 l1 (by omega) g2 h3)
          (sorted_seg_suffix l s.f2 (s.f2 + 1) l2 (by omega) hlt.2 h4)
          (by simp only []; omega)
        refine ⟨s', k1, ?_⟩
        rw [k2]
        simp only []
        rw [seg_append l s.f1 r.1 l1 (by omega) g2, hB,
          merge_take_left (cmp_le cmp) (rd l s.f2) _ (seg l s.f1 r.1) (seg l r.1 l1)]
        · simp
        · intro x hx
          obtain ⟨k, hk1, hk2, rfl⟩ := mem_seg l s.f1 r.1 (by omega) x hx
          rw [cmp_le_iff]
          by_cases hk : k = s.f1
          · subst hk; exact hcmp
          · have := g3 k (by omega) hk2
            exact hc.le_of_ge (by omega)
        · intro a A'' ha
          have hr : r.1 < l1 := by
            by_contra h0
            have : r.1 = l1 := by omega
            rw [this, seg_self] at ha
            simp at ha
          rw [seg_cons l r.1 l1 hr hl1] at ha
          have ha' : a = rd l r.1 := by
            simp only [List.cons.injEq] at ha; exact ha.1.symm
          have := g4 hr
          have h9 : ¬ cmp (rd l r.1) (rd l s.f2) ≤ 0 := by
            intro h0
            have := hc.ge_of_le h0
            omega
          rw [ha']
          simpa [cmp_le] using h9
      · -- records of the second run strictly below the head of the first
        have hmono : ∀ j k, s.f2 < j → j ≤ k → k < l2 →
            cmp (rd l s.f1) (rd l k) > 0 → cmp (rd l s.f1) (rd l j) > 0 := by
          intro j k hj1 hj2 hk hP
          by_cases hjk : j = k
          · subst hjk; exact hP
          · have h6 := hidx2 j k (by omega) (by omega) hk
            have h7 := hc.lt_of_gt hP
            have h8 := hc.lt_of_le_of_lt h6 h7
            exact hc.gt_of_lt h8
        obtain ⟨g1, g2, g3, g4⟩ := search_spec cmp l (rd l s.f1) 0 s.f2 l2 s.big hlt.2 hmono
        have e : merge_loop cmp size l l1 l2 (fuel + 1) s
            = merge_loop cmp size l l1 l2 fuel
                { f1 := s.f1 + 1, f2 := (search cmp l (rd l s.f1) 0 s.f2 l2 s.big).1,
                  big := (search cmp l (rd l s.f1) 0 s.f2 l2 s.big).2,
                  out := s.out ++ seg l s.f2 (search cmp l (rd l s.f1) 0 s.f2 l2 s.big).1
                    ++ [rd l s.f1] } := by
          simp only [merge_loop]
          rw [if_pos hlt, if_neg hcmp, icopy_list_ok size hsz.1]
          simp only [icopy_elt_ok size hsz]
        rw [e]
        generalize search cmp l (rd l s.f1) 0 s.f2 l2 s.big = r at g1 g2 g3 g4 ⊢
        obtain ⟨s', k1, k2⟩ := ih
          { f1 := s.f1 + 1, f2 := r.1, big := r.2,
            out := s.out ++ seg l s.f2 r.1 ++ [rd l s.f1] } hlt.1 g2
          (sorted_seg_suffix l s.f1 (s.f1 + 1) l1 (by omega) hlt.1 h3)
          (sorted_seg_suffix l s.f2 r.1 l2 (by omega) g2 h4)
          (by simp only []; omega)
        refine ⟨s', k1, ?_⟩
        rw [k2]
        simp only []
        rw [seg_append l s.f2 r.1 l2 (by omega) g2, hA,
          merge_take_right (cmp_le cmp) (rd l s.f1) _ (seg l s.f2 r.1) (seg l r.1 l2)]
        · simp
        · intro y hy
          obtain ⟨k, hk1, hk2, rfl⟩ := mem_seg l s.f2 r.1 (by omega) y hy
          by_cases hk : k = s.f2
          · subst hk; simpa [cmp_le] using hcmp
          · have := g3 k (by omega) hk2
            simp only [cmp_le, decide_eq_false_iff_not]
            omega
        · intro b B'' hb
          have hr : r.1 < l2 := by
            by_contra h0
            have : r.1 = l2 := by omega
            rw [this, seg_self] at hb
            simp at hb
          rw [seg_cons l r.1 l2 hr hl2] at hb
          have hb' : b = rd l r.1 := by
            simp only [List.cons.injEq] at hb; exact hb.1.symm
          have := g4 hr
          rw [hb', cmp_le_iff]
          omega
    · exact ⟨s, by simp only [merge_loop]; rw [if_neg hlt], hrest s h1 h2 hlt⟩

/-- When the record size is not a positive multiple of `sizeof(int)`, the merge
of two runs that both hold a record does not come to an end. -/
theorem merge_loop_none {α : Type} [Inhabited α] (cmp : α → α → Int) (size : Nat)
    (hsz : ¬ (size % DNET_ISIZE = 0 ∧ 0 < size)) (l : List α) (l1 l2 : Nat) (fuel : Nat)
    (s : MergeState α) (h : s.f1 < l1 ∧ s.f2 < l2) :
    merge_loop cmp size l l1 l2 fuel s = none := by
  have helt : ∀ (src : Nat) (out : List α), DNET_ICOPY_ELT size l src out = none := by
    intro src out
    unfold DNET_ICOPY_ELT
    rw [if_neg hsz]
  cases fuel with
  | zero => simp only [merge_loop]; rw [if_pos h]
  | succ fuel =>
    simp only [merge_loop]
    rw [if_pos h]
    by_cases hcmp : cmp (rd l s.f1) (rd l s.f2) ≤ 0
    · rw [if_pos hcmp]
      cases DNET_ICOPY_LIST size l s.f1 (search cmp l (rd l s.f2) (-1) s.f1 l1 s.big).1 s.out with
      | none => rfl
      | some c1 => simp only [helt]
    · rw [if_neg hcmp]
      cases DNET_ICOPY_LIST size l s.f2 (search cmp l (rd l s.f1) 0 s.f2 l2 s.big).1 s.out with
      | none => rfl
      | some c1 => simp only [helt]

end Elliptics

namespace Elliptics

/-! ## Properties of the merged runs -/

theorem sorted_merge_by {α : Type} {cmp : α → α → Int} (hc : TotalPreorder cmp) :
    ∀ (A B : List α), SortedBy cmp A → SortedBy cmp B →
      SortedBy cmp (List.merge A B (cmp_le cmp)) := by
  intro A
  induction A with
  | nil => intro B _ hB; simpa using hB
  | cons x A ihA =>
    intro B
    induction B with
    | nil => intro hA _; simpa using hA
    | cons y B ihB =>
      intro hA hB
      have hA' := List.pairwise_cons.mp hA
      have hB' := List.pairwise_cons.mp hB
      by_cases hxy : cmp x y ≤ 0
      · have hle : cmp_le cmp x y = true := (cmp_le_iff x y).mpr hxy
        rw [List.cons_merge_cons_pos _ _ _ hle]
        refine List.pairwise_cons.mpr ⟨?_, ihA (y :: B) hA'.2 hB⟩
        intro z hz
        rcases List.mem_merge.mp hz with h | h
        · exact hA'.1 z h
        · rcases List.mem_cons.mp h with h1 | h1
          · rw [h1]; exact hxy
          · exact hc.le_trans _ _ _ hxy (hB'.1 z h1)
      · have hle : ¬ cmp_le cmp x y = true := by rw [cmp_le_iff]; exact hxy
        rw [List.cons_merge_cons_neg _ _ _ hle]
        have hyx : cmp y x ≤ 0 := by
          have := hc.lt_of_gt (show 0 < cmp x y by omega)
          omega
        refine List.pairwise_cons.mpr ⟨?_, ihB hA hB'.2⟩
        intro z hz
        rcases List.mem_merge.mp hz with h | h
        · rcases List.mem_cons.mp h with h1 | h1
          · rw [h1]; exact hyx
          · exact hc.le_trans _ _ _ hyx (hA'.1 z h1)
        · exact hB'.1 z h

/-- The merge of two runs, the first of them sorted, keeps records that compare
equal in the order they have in the first run followed by the second. -/
theorem stable_merge {α : Type} {cmp : α → α → Int} (hc : TotalPreorder cmp) :
    ∀ (A B : List α), SortedBy cmp A →
      StablePerm cmp (A ++ B) (List.merge A B (cmp_le cmp)) := by
  intro A
  induction A with
  | nil => intro B _; simpa using StablePerm.refl B
  | cons x A ihA =>
    intro B
    induction B with
    | nil => intro _; simpa using StablePerm.refl (x :: A)
    | cons y B ihB =>
      intro hA
      have hA' := List.pairwise_cons.mp hA
      by_cases hxy : cmp x y ≤ 0
      · have hle : cmp_le cmp x y = true := (cmp_le_iff x y).mpr hxy
        rw [List.cons_merge_cons_pos _ _ _ hle]
        have := StablePerm.append (StablePerm.refl [x]) (ihA (y :: B) hA'.2)
        simpa using this
      · have hle : ¬ cmp_le cmp x y = true := by rw [cmp_le_iff]; exact hxy
        rw [List.cons_merge_cons_neg _ _ _ hle]
        have hlt : cmp y x < 0 := hc.lt_of_gt (show 0 < cmp x y by omega)
        have hmove : StablePerm cmp ((x :: A) ++ [y]) (y :: (x :: A)) := by
          apply StablePerm.move_left hc
          intro z hz
          rcases List.mem_cons.mp hz with h1 | h1
          · rw [h1]; omega
          · exact hc.gt_of_lt (hc.lt_of_lt_of_le hlt (hA'.1 z h1))
        have h1 : StablePerm cmp (((x :: A) ++ [y]) ++ B) ((y :: (x :: A)) ++ B) :=
          StablePerm.append hmove (StablePerm.refl B)
        have h2 : StablePerm cmp ([y] ++ ((x :: A) ++ B)) ([y] ++ List.merge (x :: A) B (cmp_le cmp)) :=
          StablePerm.append (StablePerm.refl [y]) (ihB hA)
        have := h1.trans (by simpa using h2)
        simpa using this

theorem merged_runs_sorted {α : Type} {cmp : α → α → Int} (hc : TotalPreorder cmp) :
    ∀ (n : Nat) (rs : List (List α)), rs.length ≤ n → (∀ r ∈ rs, SortedBy cmp r) →
      ∀ r ∈ merged_runs cmp rs, SortedBy cmp r := by
  intro n
  induction n with
  | zero =>
    intro rs h _ r hr
    have : rs = [] := List.length_eq_zero.mp (by omega)
    subst this
    simp [merged_runs] at hr
  | succ n ih =>
    intro rs h hs r hr
    match rs, h, hs, hr with
    | [], _, _, hr => simp [merged_runs] at hr
    | [r0], _, hs, hr =>
      simp only [merged_runs, List.mem_singleton] at hr
      subst hr; exact hs _ (by simp)
    | r1 :: r2 :: rest, h, hs, hr =>
      simp only [merged_runs, List.mem_cons] at hr
      rcases hr with h1 | h1
      · rw [h1]
        exact sorted_merge_by hc r1 r2 (hs r1 (by simp)) (hs r2 (by simp))
      · exact ih rest (by simp at h; omega) (fun r' hr' => hs r' (by simp [hr'])) r h1

theorem merged_runs_stable {α : Type} {cmp : α → α → Int} (hc : TotalPreorder cmp) :
    ∀ (n : Nat) (rs : List (List α)), rs.length ≤ n → (∀ r ∈ rs, SortedBy cmp r) →
      StablePerm cmp rs.flatten (merged_runs cmp rs).flatten := by
  intro n
  induction n with
  | zero =>
    intro rs h _
    have : rs = [] := List.length_eq_zero.mp (by omega)
    subst this
    exact StablePerm.refl _
  | succ n ih =>
    intro rs h hs
    match rs, h, hs with
    | [], _, _ => exact StablePerm.refl _
    | [r0], _, _ => exact StablePerm.refl _
    | r1 :: r2 :: rest, h, hs =>
      have h1 := stable_merge hc r1 r2 (hs r1 (by simp))
      have h2 := ih rest (by simp at h; omega) (fun r' hr' => hs r' (by simp [hr']))
      have := StablePerm.append h1 h2
      simpa [merged_runs] using this

theorem merged_runs_length {α : Type} (cmp : α → α → Int) :
    ∀ (n : Nat) (rs : List (List α)), rs.length ≤ n →
      (merged_runs cmp rs).length = (rs.length + 1) / 2 := by
  intro n
  induction n with
  | zero =>
    intro rs h
    have : rs = [] := List.length_eq_zero.mp (by omega)
    subst this
    simp [merged_runs]
  | succ n ih =>
    intro rs h
    match rs, h with
    | [], _ => simp [merged_runs]
    | [r0], _ => simp [merged_runs]
    | r1 :: r2 :: rest, h =>
      have := ih rest (by simp at h; omega)
      simp only [merged_runs, List.length_cons, this]
      omega

end Elliptics

namespace Elliptics

/-! ## One pass over the run list -/

/-- The first run of a run list that covers the records from `p` on is the
segment of its length at `p`. -/
theorem runs_head_seg {α : Type} (l : List α) (p : Nat) (r : List α) (rest : List (List α))
    (hflat : (r :: rest).flatten = seg l p l.length) (hle : p + r.length ≤ l.length) :
    seg l p (p + r.length) = r ∧ rest.flatten = seg l (p + r.length) l.length := by
  rw [seg_append l p (p + r.length) l.length (by omega) hle] at hflat
  simp only [List.flatten_cons] at hflat
  have hlen : r.length = (seg l p (p + r.length)).length := by
    rw [seg_length l p _ hle]; omega
  have := List.append_inj hflat hlen
  exact ⟨this.1.symm, this.2⟩

theorem pass_round_two {α : Type} [Inhabited α] {cmp : α → α → Int}
    (hc : TotalPreorder cmp) (size : Nat) (hsz : size % DNET_ISIZE = 0 ∧ 0 < size)
    (list2 : Buf α) (l : List α) (r1 r2 : List α) (rest : List (List α))
    (s : PassState α) (p : Nat)
    (hch : RunChain list2.link p (r1 :: r2 :: rest) l.length)
    (hflat : (r1 :: r2 :: rest).flatten = seg l p l.length)
    (hs1 : SortedBy cmp r1) (hs2 : SortedBy cmp r2)
    (hp2 : s.p2 = p) (hl2 : s.l2 = p) (hdata : s.list1.data = l) :
    ∃ big, pass_round cmp size list2 l.length s
      = some { p2 := p + r1.length + r2.length, l2 := p + r1.length + r2.length,
               p1 := p + r1.length + r2.length, big := big,
               out := s.out ++ List.merge r1 r2 (cmp_le cmp),
               list1 := s.list1.set_next s.p1 (p + r1.length + r2.length) } := by
  obtain ⟨hne1, hlink1, hne2, hlink2, hrest⟩ := hch
  have hle := RunChain.le rest _ _ hrest
  have hpos1 : 0 < r1.length := List.length_pos.mpr hne1
  have hpos2 : 0 < r2.length := List.length_pos.mpr hne2
  obtain ⟨e1, hflat2⟩ := runs_head_seg l p r1 (r2 :: rest) hflat (by omega)
  obtain ⟨e2, _⟩ := runs_head_seg l (p + r1.length) r2 rest hflat2 (by omega)
  have hnext1 : list2.next p = p + r1.length := hlink1
  have hnext2 : list2.next (p + r1.length) = p + r1.length + r2.length := hlink2
  have hne : p + r1.length ≠ l.length := by omega
  obtain ⟨m, g1, g2⟩ := merge_loop_spec hc size hsz l (p + r1.length)
    (p + r1.length + r2.length) (by omega) (by omega)
    ((p + r1.length - p) + (p + r1.length + r2.length - (p + r1.length)))
    { f1 := p, f2 := p + r1.length, big := s.big, out := s.out }
    (by simp) (by simp) (by simp only []; rw [e1]; exact hs1)
    (by simp only []; rw [e2]; exact hs2) (by simp only []; omega)
  simp only [e1, e2] at g2
  refine ⟨m.big, ?_⟩
  unfold pass_round
  simp only [hp2, hl2, hdata, hnext1, hnext2, if_pos hne, g1, g2, ne_eq, not_false_eq_true]

theorem pass_round_one {α : Type} [Inhabited α] {cmp : α → α → Int}
    (hc : TotalPreorder cmp) (size : Nat) (hsz : size % DNET_ISIZE = 0 ∧ 0 < size)
    (list2 : Buf α) (l : List α) (r1 : List α)
    (s : PassState α) (p : Nat)
    (hch : RunChain list2.link p [r1] l.length)
    (hflat : [r1].flatten = seg l p l.length)
    (hs1 : SortedBy cmp r1)
    (hp2 : s.p2 = p) (hl2 : s.l2 = p) (hdata : s.list1.data = l) :
    ∃ big, pass_round cmp size list2 l.length s
      = some { p2 := l.length, l2 := l.length, p1 := l.length, big := big,
               out := s.out ++ r1,
               list1 := s.list1.set_next s.p1 l.length } := by
  obtain ⟨hne1, hlink1, hend⟩ := hch
  simp only [RunChain] at hend
  have hnext1 : list2.next p = l.length := by rw [← hend]; exact hlink1
  have e1 : seg l p l.length = r1 := by simpa using hflat.symm
  obtain ⟨m, g1, g2⟩ := merge_loop_spec hc size hsz l l.length l.length (Nat.le_refl _)
    (Nat.le_refl _) ((l.length - p) + (l.length - l.length))
    { f1 := p, f2 := l.length, big := s.big, out := s.out }
    (by simp only []; omega) (by simp) (by simp only []; rw [e1]; exact hs1)
    (by simp only []; rw [seg_self]; simp [SortedBy]) (by simp only []; omega)
  simp only [e1, seg_self, List.merge_right] at g2
  refine ⟨m.big, ?_⟩
  unfold pass_round
  simp only [hp2, hl2, hdata, hnext1, g1, g2, ne_eq, not_true_eq_false, if_false]

theorem pass_loop_spec {α : Type} [Inhabited α] {cmp : α → α → Int}
    (hc : TotalPreorder cmp) (size : Nat) (hsz : size % DNET_ISIZE = 0 ∧ 0 < size)
    (list2 : Buf α) (l : List α) :
    ∀ (fuel : Nat) (rs : List (List α)) (s : PassState α) (p : Nat),
      RunChain list2.link p rs l.length → rs.flatten = seg l p l.length →
      (∀ r ∈ rs, SortedBy cmp r) → s.p2 = p → s.l2 = p → s.p1 = p → s.list1.data = l →
      rs.length ≤ fuel →
      ∃ s', pass_loop cmp size list2 l.length fuel s = some s' ∧
        s'.out = s.out ++ (merged_runs cmp rs).flatten ∧
        RunChain s'.list1.link p (merged_runs cmp rs) l.length ∧
        (∀ k, k < p → s'.list1.link k = s.list1.link k) ∧ s'.list1.data = l := by
  have hdone : ∀ (fuel : Nat) (s : PassState α), s.p2 = l.length →
      pass_loop cmp size list2 l.length fuel s = some s := by
    intro fuel s h
    cases fuel <;> simp [pass_loop, h]
  intro fuel
  induction fuel with
  | zero =>
    intro rs s p hch _ _ hp2 _ _ hdata hlen
    have : rs = [] := List.length_eq_zero.mp (by omega)
    subst this
    simp only [RunChain] at hch
    exact ⟨s, hdone 0 s (by omega), by simp [merged_runs], by simpa [merged_runs, RunChain] using hch,
      fun _ _ => rfl, hdata⟩
  | succ fuel ih =>
    intro rs s p hch hflat hsorted hp2 hl2 hp1 hdata hlen
    match rs, hch, hflat, hsorted, hlen with
    | [], hch, _, _, _ =>
      simp only [RunChain] at hch
      exact ⟨s, hdone _ s (by omega), by simp [merged_runs],
        by simpa [merged_runs, RunChain] using hch, fun _ _ => rfl, hdata⟩
    | [r1], hch, hflat, hsorted, _ =>
      obtain ⟨big, hround⟩ := pass_round_one hc size hsz list2 l r1 s p hch hflat
        (hsorted r1 (by simp)) hp2 hl2 hdata
      obtain ⟨hne1, hlink1, hend⟩ := hch
      simp only [RunChain] at hend
      have hpos1 : 0 < r1.length := List.length_pos.mpr hne1
      have hne : s.p2 ≠ l.length := by omega
      refine ⟨{ p2 := l.length, l2 := l.length, p1 := l.length, big := big,
                out := s.out ++ r1, list1 := s.list1.set_next s.p1 l.length },
        ?_, ?_, ?_, ?_, ?_⟩
      · simp only [pass_loop]
        rw [if_pos hne, hround]
        exact hdone fuel _ rfl
      · simp [merged_runs]
      · exact ⟨hne1, by simp [Buf.set_next, hp1]; omega, by simp [RunChain]; omega⟩
      · intro k hk
        simp only [Buf.set_next, hp1]
        rw [if_neg (by omega)]
      · exact hdata
    | r1 :: r2 :: rest, hch, hflat, hsorted, hlen =>
      obtain ⟨big, hround⟩ := pass_round_two hc size hsz list2 l r1 r2 rest s p hch hflat
        (hsorted r1 (by simp)) (hsorted r2 (by simp)) hp2 hl2 hdata
      obtain ⟨hne1, hlink1, hne2, hlink2, hrest⟩ := hch
      have hle := RunChain.le rest _ _ hrest
      have hpos1 : 0 < r1.length := List.length_pos.mpr hne1
      have hpos2 : 0 < r2.length := List.length_pos.mpr hne2
      obtain ⟨_, hflat2⟩ := runs_head_seg l p r1 (r2 :: rest) hflat (by omega)
      obtain ⟨_, hflat3⟩ := runs_head_seg l (p + r1.length) r2 rest hflat2 (by omega)
      have hne : s.p2 ≠ l.length := by omega
      obtain ⟨s', k1, k2, k3, k4, k5⟩ := ih rest
        { p2 := p + r1.length + r2.length, l2 := p + r1.length + r2.length,
          p1 := p + r1.length + r2.length, big := big,
          out := s.out ++ List.merge r1 r2 (cmp_le cmp),
          list1 := s.list1.set_next s.p1 (p + r1.length + r2.length) }
        (p + r1.length + r2.length) hrest hflat3 (fun r hr => hsorted r (by simp [hr]))
        rfl rfl rfl hdata (by simp at hlen; omega)
      refine ⟨s', ?_, ?_, ?_, ?_, k5⟩
      · simp only [pass_loop]
        rw [if_pos hne, hround]
        exact k1
      · rw [k2]; simp [merged_runs]
      · have hlm : (List.merge r1 r2 (cmp_le cmp)).length = r1.length + r2.length :=
          List.length_merge _ _ _
        refine ⟨?_, ?_, ?_⟩
        · intro h0; rw [h0] at hlm; simp at hlm; omega
        · rw [k4 p (by omega), hlm]
          simp only [Buf.set_next, hp1, if_true]
          omega
        · rw [hlm]
          have e : p + (r1.length + r2.length) = p + r1.length + r2.length := by omega
          rw [e]; exact k3
      · intro k hk
        rw [k4 k (by omega)]
        simp only [Buf.set_next, hp1]
        rw [if_neg (by omega)]

end Elliptics

namespace Elliptics

/-! ## The passes and the whole sort -/

theorem RunChain.length_le {α : Type} {link : Nat → Nat} :
    ∀ (rs : List (List α)) (a b : Nat), RunChain link a rs b → a + rs.length ≤ b := by
  intro rs
  induction rs with
  | nil => intro a b h; simp [RunChain] at h; simp; omega
  | cons r rs ih =>
    intro a b h
    have := ih _ _ h.2.2
    have hpos : 0 < r.length := List.length_pos.mpr h.1
    simp only [List.length_cons]
    omega

/-- With two or more runs the link at the head of the buffer does not point to
its end; with one run it does. -/
theorem RunChain.head_link {α : Type} {link : Nat → Nat} (r1 : List α) (rest : List (List α))
    (n : Nat) (h : RunChain link 0 (r1 :: rest) n) : link 0 = n ↔ rest = [] := by
  obtain ⟨_, h2, h3⟩ := h
  constructor
  · intro h4
    cases rest with
    | nil => rfl
    | cons r2 rest =>
      have := RunChain.length_le _ _ _ h3
      simp only [List.length_cons] at this
      omega
  · intro h4
    subst h4
    simp only [RunChain] at h3
    omega

theorem sort_loop_spec {α : Type} [Inhabited α] {cmp : α → α → Int}
    (hc : TotalPreorder cmp) (size : Nat) (hsz : size % DNET_ISIZE = 0 ∧ 0 < size) (n : Nat)
    (hn : 0 < n) :
    ∀ (fuel : Nat) (s : SortState α) (R : List (List α)),
      RunChain s.list2.link 0 R n → R.flatten = s.list1.data → (∀ r ∈ R, SortedBy cmp r) →
      s.list1.data.length = n → R.length ≤ fuel + 1 →
      ∃ s', sort_loop cmp size n fuel s = some s' ∧ SortedBy cmp s'.list1.data ∧
        StablePerm cmp s.list1.data s'.list1.data := by
  intro fuel
  induction fuel with
  | zero =>
    intro s R hch hflat hsorted hlen hR
    match R, hch, hflat, hsorted, hR with
    | [], hch, _, _, _ => simp only [RunChain] at hch; omega
    | [r1], hch, hflat, hsorted, _ =>
      have hlink := (RunChain.head_link r1 [] n hch).mpr rfl
      refine ⟨s, ?_, ?_, StablePerm.refl _⟩
      · simp only [sort_loop, Buf.next, hlink, ne_eq, not_true_eq_false, if_false]
      · rw [← hflat]; simpa using hsorted r1 (by simp)
    | _ :: _ :: _, _, _, _, hR => simp at hR
  | succ fuel ih =>
    intro s R hch hflat hsorted hlen hR
    match R, hch, hflat, hsorted, hR with
    | [], hch, _, _, _ => simp only [RunChain] at hch; omega
    | [r1], hch, hflat, hsorted, _ =>
      have hlink := (RunChain.head_link r1 [] n hch).mpr rfl
      refine ⟨s, ?_, ?_, StablePerm.refl _⟩
      · simp only [sort_loop, Buf.next, hlink, ne_eq, not_true_eq_false, if_false]
      · rw [← hflat]; simpa using hsorted r1 (by simp)
    | r1 :: r2 :: rest, hch, hflat, hsorted, hR =>
      have hlink : s.list2.next 0 ≠ n := by
        intro h0
        have := (RunChain.head_link r1 (r2 :: rest) n hch).mp h0
        simp at this
      have hRn := RunChain.length_le _ _ _ hch
      rw [← hlen] at hch
      obtain ⟨p, k1, k2, k3, k4, k5⟩ := pass_loop_spec hc size hsz s.list2 s.list1.data n
        (r1 :: r2 :: rest)
        { p2 := 0, l2 := 0, p1 := 0, big := s.big, out := [], list1 := s.list1 } 0 hch
        (by rw [hflat, seg_full]) hsorted rfl rfl rfl rfl (by omega)
      rw [hlen] at k1 k3
      simp only [List.nil_append] at k2
      have hstab := merged_runs_stable hc _ (r1 :: r2 :: rest) (Nat.le_refl _) hsorted
      rw [hflat, ← k2] at hstab
      obtain ⟨s', g1, g2, g3⟩ := ih
        { list1 := { s.list2 with data := p.out }, list2 := p.list1,
          list1_is_base := !s.list1_is_base, big := p.big }
        (merged_runs cmp (r1 :: r2 :: rest)) k3 k2.symm
        (merged_runs_sorted hc _ _ (Nat.le_refl _) hsorted)
        (by show p.out.length = n; rw [hstab.length_eq]; exact hlen)
        (by rw [merged_runs_length cmp _ _ (Nat.le_refl _)]; omega)
      refine ⟨s', ?_, g2, hstab.trans g3⟩
      simp only [sort_loop]
      rw [if_pos hlink, k1]
      exact g1

/-- When the record size is not a positive multiple of `sizeof(int)`, a run
list of two or more runs is never merged: the pass does not come to an end. -/
theorem sort_loop_none {α : Type} [Inhabited α] (cmp : α → α → Int) (size : Nat)
    (hsz : ¬ (size % DNET_ISIZE = 0 ∧ 0 < size)) (n : Nat) (hn : 0 < n)
    (fuel : Nat) (s : SortState α) (r1 r2 : List α) (rest : List (List α))
    (hch : RunChain s.list2.link 0 (r1 :: r2 :: rest) n) :
    sort_loop cmp size n fuel s = none := by
  have hlink : s.list2.next 0 ≠ n := by
    intro h0
    have := (RunChain.head_link r1 (r2 :: rest) n hch).mp h0
    simp at this
  have hRn := RunChain.length_le _ _ _ hch
  obtain ⟨hne1, hlink1, hne2, hlink2, hrest⟩ := hch
  have hle := RunChain.le rest _ _ hrest
  have hpos1 : 0 < r1.length := List.length_pos.mpr hne1
  have hpos2 : 0 < r2.length := List.length_pos.mpr hne2
  have hround : ∀ big, pass_round cmp size s.list2 n
      { p2 := 0, l2 := 0, p1 := 0, big := big, out := [], list1 := s.list1 } = none := by
    intro big
    have hnext1 : s.list2.next 0 = r1.length := by
      show s.list2.link 0 = r1.length
      omega
    have hnext2 : s.list2.next r1.length = r1.length + r2.length := by
      show s.list2.link r1.length = r1.length + r2.length
      have := hlink2
      simp only [Nat.zero_add] at this
      exact this
    have hne : r1.length ≠ n := by omega
    unfold pass_round
    simp only [hnext1, hnext2, if_pos hne, ne_eq, not_false_eq_true]
    rw [merge_loop_none cmp size hsz _ _ _ _ _ (by simp only []; omega)]
  have hpass : pass_loop cmp size s.list2 n n
      { p2 := 0, l2 := 0, p1 := 0, big := s.big, out := [], list1 := s.list1 } = none := by
    cases n with
    | zero => omega
    | succ n =>
      simp only [pass_loop]
      rw [if_pos (by simp), hround]
  cases fuel with
  | zero => simp only [sort_loop]; rw [if_pos hlink]
  | succ fuel =>
    simp only [sort_loop]
    rw [if_pos hlink, hpass]

/-- Whatever the record size, a sort loop that comes to an end has sorted the
records and kept records that compare equal in their order. -/
theorem sort_loop_sound {α : Type} [Inhabited α] {cmp : α → α → Int}
    (hc : TotalPreorder cmp) (size n : Nat) (hn : 0 < n)
    (fuel : Nat) (s s' : SortState α) (hrun : RunsOK cmp s.list2.link s.list1.data)
    (hlen : s.list1.data.length = n) (hfuel : n ≤ fuel + 1)
    (h : sort_loop cmp size n fuel s = some s') :
    SortedBy cmp s'.list1.data ∧ StablePerm cmp s.list1.data s'.list1.data := by
  obtain ⟨R, hch, hflat, hsorted⟩ := hrun
  rw [hlen] at hch
  have hRn := RunChain.length_le _ _ _ hch
  by_cases hsz : size % DNET_ISIZE = 0 ∧ 0 < size
  · obtain ⟨s'', g1, g2, g3⟩ := sort_loop_spec hc size hsz n hn fuel s R hch hflat hsorted hlen
      (by omega)
    rw [g1] at h
    have : s'' = s' := by injection h
    subst this
    exact ⟨g2, g3⟩
  · match R, hch, hflat, hsorted with
    | [], hch, _, _ => simp only [RunChain] at hch; omega
    | [r1], hch, hflat, hsorted =>
      have hlink := (RunChain.head_link r1 [] n hch).mpr rfl
      have e : sort_loop cmp size n fuel s = some s := by
        cases fuel <;>
          simp only [sort_loop, Buf.next, hlink, ne_eq, not_true_eq_false, if_false]
      rw [e] at h
      have : s = s' := by injection h
      subst this
      refine ⟨?_, StablePerm.refl _⟩
      rw [← hflat]; simpa using hsorted r1 (by simp)
    | r1 :: r2 :: rest, hch, _, _ =>
      rw [sort_loop_none cmp size hsz n hn fuel s r1 r2 rest hch] at h
      simp at h

end Elliptics

namespace Elliptics

/-! ## Theorems on `dnet_mergesort` -/

theorem ex_cmp_total : TotalPreorder ex_cmp :=
  ⟨fun a b => by unfold ex_cmp; omega, fun a b c => by unfold ex_cmp; omega⟩

/-- Whenever `dnet_mergesort` returns 0, the array is sorted and records that
compare equal have kept their order. -/
theorem mergesort_sound {α : Type} [Inhabited α] {cmp : α → α → Int}
    (hc : TotalPreorder cmp) (base : List α) (size list2_sz : Nat) (out : List α)
    (h : dnet_mergesort base size cmp list2_sz = some (0, out)) :
    SortedBy cmp out ∧ StablePerm cmp base out := by
  unfold dnet_mergesort at h
  simp only [] at h
  by_cases h1 : size < DNET_PSIZE / 2
  · rw [if_pos h1] at h
    simp [EINVAL] at h
  rw [if_neg h1] at h
  by_cases h2 : base.length = 0
  · rw [if_pos h2] at h
    have hb : base = [] := List.length_eq_zero.mp h2
    have ho : out = base := by
      injection h with h; injection h with _ h; exact h.symm
    rw [ho, hb]
    exact ⟨by simp [SortedBy], StablePerm.refl _⟩
  rw [if_neg h2] at h
  by_cases h3 : list2_sz < (base.length * size + DNET_PSIZE) % SIZE_T_MOD
  · rw [if_pos h3] at h
    simp [EINVAL] at h
  rw [if_neg h3] at h
  obtain ⟨g1, g2⟩ := setup_spec hc base { data := [], link := fun _ => 0 } (by omega)
  generalize setup cmp base { data := [], link := fun _ => 0 } base.length = r at h g1 g2
  obtain ⟨s0, hs0⟩ : ∃ s0 : SortState α, s0 =
      { list1 := { data := r.1, link := fun _ => 0 }, list2 := r.2,
        list1_is_base := true, big := false } := ⟨_, rfl⟩
  rw [← hs0] at h
  have hrun : RunsOK cmp s0.list2.link s0.list1.data := by rw [hs0]; exact g1
  have hlen : s0.list1.data.length = base.length := by rw [hs0]; exact g2.length_eq
  have hst : StablePerm cmp base s0.list1.data := by rw [hs0]; exact g2
  cases hsl : sort_loop cmp size base.length base.length s0 with
  | none => rw [hsl] at h; simp at h
  | some s =>
    rw [hsl] at h
    obtain ⟨k1, k2⟩ := sort_loop_sound hc size base.length (by omega) base.length s0 s hrun hlen
      (by omega) hsl
    have ho : out = s.list1.data := by
      simp only [ite_self] at h
      injection h with h; injection h with _ h; exact h.symm
    rw [ho]
    exact ⟨k1, hst.trans k2⟩

/-- The return value `-EINVAL` is given exactly for a record size below the
floor, or for a non-empty array with too little scratch memory (sizes within
the range of `size_t`). -/
theorem mergesort_einval_iff {α : Type} [Inhabited α] (cmp : α → α → Int) (base : List α)
    (size list2_sz : Nat) (hfit : base.length * size + DNET_PSIZE < SIZE_T_MOD) :
    (∃ out, dnet_mergesort base size cmp list2_sz = some (-EINVAL, out)) ↔
      (size < DNET_PSIZE / 2 ∨
        (0 < base.length ∧ list2_sz < base.length * size + DNET_PSIZE)) := by
  unfold dnet_mergesort
  simp only []
  rw [Nat.mod_eq_of_lt hfit]
  by_cases h1 : size < DNET_PSIZE / 2
  · rw [if_pos h1]
    exact ⟨fun _ => Or.inl h1, fun _ => ⟨base, rfl⟩⟩
  rw [if_neg h1]
  by_cases h2 : base.length = 0
  · rw [if_pos h2]
    constructor
    · rintro ⟨out, h⟩
      simp [EINVAL] at h
    · rintro (h | h)
      · exact absurd h h1
      · omega
  rw [if_neg h2]
  by_cases h3 : list2_sz < base.length * size + DNET_PSIZE
  · rw [if_pos h3]
    exact ⟨fun _ => Or.inr ⟨by omega, h3⟩, fun _ => ⟨base, rfl⟩⟩
  rw [if_neg h3]
  constructor
  · rintro ⟨out, h⟩
    cases hsl : sort_loop cmp size base.length base.length
        { list1 := { data := (setup cmp base { data := [], link := fun _ => 0 } base.length).1,
                     link := fun _ => 0 },
          list2 := (setup cmp base { data := [], link := fun _ => 0 } base.length).2,
          list1_is_base := true, big := false } with
    | none => rw [hsl] at h; simp at h
    | some s => rw [hsl] at h; simp [EINVAL] at h
  · rintro (h | h)
    · exact absurd h h1
    · exact absurd h.2 h3

/-- C1 (failing input): six records of six bytes with 44 bytes of scratch
memory meet every condition of the claim (the size is above the floor of four
bytes, the scratch memory holds the array and a pointer, the comparator is a
total preorder), and `dnet_mergesort` does not return: the first merge step
copies a record with `DNET_ICOPY_ELT`, whose counter never reaches 0 for a size
that is not a multiple of `sizeof(int)`. -/
theorem C1_sort_fails_on_six_byte_records :
    TotalPreorder ex_cmp ∧ DNET_PSIZE / 2 ≤ 6 ∧ ex_records6.length * 6 + DNET_PSIZE ≤ 44 ∧
    dnet_mergesort ex_records6 6 ex_cmp 44 = none :=
  ⟨ex_cmp_total, by decide, by decide, by decide⟩

/-- C2: whenever `dnet_mergesort` returns 0 for a comparator that is a total
preorder, the records of `base` afterwards are a permutation of the records
before the call. -/
theorem C2_output_is_permutation {α : Type} [Inhabited α] {cmp : α → α → Int}
    (hc : TotalPreorder cmp) (base : List α) (size list2_sz : Nat) (out : List α)
    (h : dnet_mergesort base size cmp list2_sz = some (0, out)) :
    out.Perm base :=
  (mergesort_sound hc base size list2_sz out h).2.1

set_option maxRecDepth 100000 in
theorem C2_output_is_permutation_witness :
    dnet_mergesort ex_records 8 ex_cmp 72
        = some (0, [(0, 5), (1, 1), (1, 3), (1, 7), (2, 2), (2, 6), (3, 0), (3, 4)]) ∧
    List.Perm [(0, 5), (1, 1), (1, 3), (1, 7), (2, 2), (2, 6), (3, 0), (3, 4)] ex_records :=
  ⟨by decide, C2_output_is_permutation ex_cmp_total ex_records 8 72 _ (by decide)⟩

/-- C3: whenever `dnet_mergesort` returns 0 for a comparator that is a total
preorder, the records that compare equal to any given record appear in the
output in the order they had in the input; in particular two records that
compare equal and stand in the input one before the other stand so in the
output. The first pass alone (insertion sort, exchange of descending pairs,
reversal of descending runs) already has this property. -/
theorem C3_sort_is_stable {α : Type} [Inhabited α] {cmp : α → α → Int}
    (hc : TotalPreorder cmp) (base : List α) (size list2_sz : Nat) (out : List α)
    (h : dnet_mergesort base size cmp list2_sz = some (0, out)) :
    StableBy cmp base out ∧
    (∀ a b, cmp a b = 0 → List.Sublist [a, b] base → List.Sublist [a, b] out) ∧
    (0 < base.length →
      StableBy cmp base (setup cmp base { data := [], link := fun _ => 0 } base.length).1) := by
  have hs := (mergesort_sound hc base size list2_sz out h).2.2
  refine ⟨hs, ?_, fun hn => (setup_spec hc base _ hn).2.2⟩
  intro a b hab hsub
  have h1 : List.Sublist ([a, b].filter (fun x => decide (cmp a x = 0)))
      (base.filter (fun x => decide (cmp a x = 0))) := hsub.filter _
  have h2 : [a, b].filter (fun x => decide (cmp a x = 0)) = [a, b] := by
    simp [List.filter_cons, hc.cmp_self a, hab]
  rw [h2, ← hs a] at h1
  exact h1.trans (List.filter_sublist _)

set_option maxRecDepth 100000 in
theorem C3_sort_is_stable_witness :
    dnet_mergesort ex_records 8 ex_cmp 72
        = some (0, [(0, 5), (1, 1), (1, 3), (1, 7), (2, 2), (2, 6), (3, 0), (3, 4)]) ∧
    StableBy ex_cmp ex_records [(0, 5), (1, 1), (1, 3), (1, 7), (2, 2), (2, 6), (3, 0), (3, 4)] :=
  ⟨by decide, (C3_sort_is_stable ex_cmp_total ex_records 8 72 _ (by decide)).1⟩

/-- C4 (failing input): six records of five bytes with 100 bytes of scratch
memory are in none of the cases for which the claim announces `-EINVAL` (the
size is not below the floor, the scratch memory is large enough), yet
`dnet_mergesort` does not return 0: it does not return at all. -/
theorem C4_no_return_value_for_five_byte_records :
    ¬ (5 < DNET_PSIZE / 2) ∧ ¬ (100 < ex_records6.length * 5 + DNET_PSIZE) ∧
    ∀ r, dnet_mergesort ex_records6 5 ex_cmp 100 ≠ some r := by
  refine ⟨by decide, by decide, ?_⟩
  have h : dnet_mergesort ex_records6 5 ex_cmp 100 = none := by decide
  intro r
  rw [h]
  simp

end Elliptics

namespace Elliptics

/-! ## Termination of the merge passes and of the searches

The search loops are modelled with a bound on their rounds. Each of them ends
on its own test within as many rounds as its interval has records, whatever
the comparator answers: a larger bound gives the same result. -/

end Elliptics

namespace Elliptics

end Elliptics

namespace Elliptics

/-! ## The sort on its error paths -/

theorem mergesort_scratch_agrees {α : Type} [Inhabited α] (base : List α) (size : Nat)
    (cmp : α → α → Int) (list2_sz : Nat) :
    dnet_mergesort base size cmp list2_sz
      = (dnet_mergesort_scratch base size cmp { data := [], link := fun _ => 0 }
          list2_sz).map (fun r => (r.1, r.2.1)) := by
  unfold dnet_mergesort dnet_mergesort_scratch
  simp only []
  by_cases ha : size < DNET_PSIZE / 2
  · rw [if_pos ha, if_pos ha]; rfl
  · rw [if_neg ha, if_neg ha]
    by_cases hb : base.length = 0
    · rw [if_pos hb, if_pos hb]; rfl
    · rw [if_neg hb, if_neg hb]
      by_cases hd : list2_sz < (base.length * size + DNET_PSIZE) % SIZE_T_MOD
      · rw [if_pos hd, if_pos hd]; rfl
      · rw [if_neg hd, if_neg hd]
        cases sort_loop cmp size base.length base.length
            { list1 := { data := (setup cmp base { data := [], link := fun _ => 0 }
                                    base.length).1, link := fun _ => 0 },
              list2 := (setup cmp base { data := [], link := fun _ => 0 } base.length).2,
              list1_is_base := true, big := false } with
        | none => rfl
        | some s =>
          simp only []
          cases hbase : s.list1_is_base <;> simp

/-- C32: whenever `dnet_mergesort` returns `-EINVAL`, the records of `base`
and the scratch buffer, records and links, are what they were on entry; and
it returns `-EINVAL` only through one of its two checks, the record size
below half a pointer or, for a non-empty array, the scratch memory too
small. -/
theorem C32_einval_leaves_buffers {α : Type} [Inhabited α] (cmp : α → α → Int)
    (base : List α) (size list2_sz : Nat) (list2 : Buf α) (r : Int × List α × Buf α)
    (h : dnet_mergesort_scratch base size cmp list2 list2_sz = some r)
    (he : r.1 = -EINVAL) :
    r.2.1 = base ∧ r.2.2 = list2
      ∧ (size < DNET_PSIZE / 2
        ∨ (0 < base.length ∧ list2_sz < (base.length * size + DNET_PSIZE) % SIZE_T_MOD)) := by
  unfold dnet_mergesort_scratch at h
  simp only [] at h
  by_cases ha : size < DNET_PSIZE / 2
  · rw [if_pos ha] at h
    cases h
    exact ⟨rfl, rfl, Or.inl ha⟩
  · rw [if_neg ha] at h
    by_cases hb : base.length = 0
    · rw [if_pos hb] at h
      cases h
      exact absurd he (show (0 : Int) ≠ -EINVAL by decide)
    · rw [if_neg hb] at h
      by_cases hd : list2_sz < (base.length * size + DNET_PSIZE) % SIZE_T_MOD
      · rw [if_pos hd] at h
        cases h
        exact ⟨rfl, rfl, Or.inr ⟨Nat.pos_of_ne_zero hb, hd⟩⟩
      · rw [if_neg hd] at h
        cases hs : sort_loop cmp size base.length base.length
            { list1 := { data := (setup cmp base list2 base.length).1, link := fun _ => 0 },
              list2 := (setup cmp base list2 base.length).2,
              list1_is_base := true, big := false } with
        | none => rw [hs] at h; cases h
        | some s =>
          rw [hs] at h
          simp only [] at h
          cases hbase : s.list1_is_base <;> rw [hbase] at h <;> simp at h <;>
            rw [← h] at he <;> exact absurd he (show (0 : Int) ≠ -EINVAL by decide)

theorem C32_einval_leaves_buffers_witness :
    dnet_mergesort_scratch ex_records 8 ex_cmp ex_scratch 71
        = some (-EINVAL, ex_records, ex_scratch)
      ∧ (-EINVAL, ex_records, ex_scratch).2.1 = ex_records
      ∧ (-EINVAL, ex_records, ex_scratch).2.2 = ex_scratch :=
  ⟨rfl,
    (C32_einval_leaves_buffers ex_cmp ex_records 8 71 ex_scratch
      (-EINVAL, ex_records, ex_scratch) rfl rfl).1,
    (C32_einval_leaves_buffers ex_cmp ex_records 8 71 ex_scratch
      (-EINVAL, ex_records, ex_scratch) rfl rfl).2.1⟩

end Elliptics

namespace Elliptics

/-! ## The run list of the first pass: no run of one record

Which links `setup` stores depends on the comparator only through the places
where it closes a run; these lemmas follow the positions alone. -/

theorem RunChain.lengths_unique {α : Type} {link : Nat → Nat} :
    ∀ (R R2 : List (List α)) (a b : Nat), RunChain link a R b → RunChain link a R2 b →
      R.map List.length = R2.map List.length := by
  intro R
  induction R with
  | nil =>
    intro R2 a b h1 h2
    cases R2 with
    | nil => rfl
    | cons r2 rs2 =>
      have e : a = b := h1
      obtain ⟨hne, _, hrest⟩ := h2
      have hle := RunChain.le rs2 _ _ hrest
      have hpos : 0 < r2.length := List.length_pos.mpr hne
      omega
  | cons r rs ih =>
    intro R2 a b h1 h2
    obtain ⟨hne, hlink, hrest⟩ := h1
    cases R2 with
    | nil =>
      have e : a = b := h2
      have hle := RunChain.le rs _ _ hrest
      have hpos : 0 < r.length := List.length_pos.mpr hne
      omega
    | cons r2 rs2 =>
      obtain ⟨_, hlink2, hrest2⟩ := h2
      have hl : r.length = r2.length := by omega
      rw [← hl] at hrest2
      simp only [List.map_cons, hl, ih rs2 _ _ hrest hrest2]

theorem links_push {α : Type} [Inhabited α] (n last : Nat) (s : SetupState α) (f : Nat)
    (list1 : List α) (sense : Bool) (h : LinksInv n last s) (hf : s.f1 + 2 ≤ f)
    (hfl : f ≤ last) (hev : (last - f) % 2 = 0) :
    LinksInv n last
      { list1 := list1, list2 := s.list2.set_next s.p2 f, f1 := f, p2 := f,
        sense := sense } := by
  obtain ⟨rs, hch, htwo, hp2, hle, _, htail⟩ := h
  refine ⟨rs ++ [List.replicate (f - s.f1) default], ?_, ?_, rfl, hfl, hev, ?_⟩
  · show RunChain (s.list2.set_next s.p2 f).link 0 _ f
    rw [hp2]
    exact RunChain.push_run s.list2 rs s.f1 f _ hch (by simp) (by omega)
  · intro r hr
    rcases List.mem_append.mp hr with h1 | h1
    · exact htwo r h1
    · rw [List.mem_singleton] at h1
      rw [h1, List.length_replicate]
      omega
  · show (s.list2.set_next s.p2 f).link last = n
    simp only [Buf.set_next]
    rw [if_neg (by omega)]
    exact htail

theorem links_pairwise {α : Type} [Inhabited α] (n last f2 : Nat) (hf2 : f2 ≤ last)
    (hev2 : (last - f2) % 2 = 0) :
    ∀ (fuel : Nat) (s : SetupState α), LinksInv n last s → s.f1 < f2 →
      (f2 - s.f1) % 2 = 0 → f2 - s.f1 ≤ 2 * fuel →
      LinksInv n last (setup_pairwise f2 fuel s) ∧ (setup_pairwise f2 fuel s).f1 = f2 := by
  intro fuel
  induction fuel with
  | zero => intro s _ hlt _ hfuel; omega
  | succ k ih =>
    intro s hinv hlt hev hfuel
    have hinv1 := links_push n last s (s.f1 + 2)
      (if s.sense then swap s.list1 s.f1 (s.f1 + 1) else s.list1) s.sense hinv
      (Nat.le_refl _) (by omega) (by omega)
    simp only [setup_pairwise]
    by_cases hc : s.f1 + 2 < f2
    · rw [if_pos hc]
      exact ih _ hinv1 hc (by show (f2 - (s.f1 + 2)) % 2 = 0; omega)
        (by show f2 - (s.f1 + 2) ≤ 2 * k; omega)
    · rw [if_neg hc]
      exact ⟨hinv1, by show s.f1 + 2 = f2; omega⟩

theorem links_natural {α : Type} [Inhabited α] (cmp : α → α → Int) (n last l2 : Nat)
    (hl2 : l2 ≤ last) (hev2 : (last - l2) % 2 = 0) :
    ∀ (fuel f2 : Nat) (s : SetupState α), LinksInv n last s → s.f1 + 2 ≤ f2 →
      (f2 - s.f1) % 2 = 0 → f2 ≤ l2 → (l2 - f2) % 2 = 0 → l2 - f2 ≤ 2 * fuel →
      LinksInv n last (setup_natural cmp l2 fuel f2 s).1 ∧
        (setup_natural cmp l2 fuel f2 s).2 = l2 ∧
        (setup_natural cmp l2 fuel f2 s).1.f1 + 2 ≤ l2 ∧
        (l2 - (setup_natural cmp l2 fuel f2 s).1.f1) % 2 = 0 := by
  intro fuel
  induction fuel with
  | zero =>
    intro f2 s hinv hlt hev hle hev3 hfuel
    simp only [setup_natural]
    have e : f2 = l2 := by omega
    exact ⟨hinv, e, by omega, by omega⟩
  | succ k ih =>
    intro f2 s hinv hlt hev hle hev3 hfuel
    simp only [setup_natural]
    by_cases hc : f2 < l2
    · rw [if_pos hc]
      by_cases hb : (decide (cmp (rd s.list1 (f2 - 1)) (rd s.list1 f2) > 0) != s.sense) = true
      · rw [if_pos hb]
        have hinv1 := links_push n last s f2
          (if s.sense then reverse s.list1 s.f1 (f2 - 1) else s.list1) s.sense hinv hlt
          (by omega) (by omega)
        exact ih (f2 + 2) _ hinv1 (Nat.le_refl _) (by show (f2 + 2 - f2) % 2 = 0; omega)
          (by omega) (by omega) (by omega)
      · rw [if_neg hb]
        exact ih (f2 + 2) s hinv (by omega) (by omega) (by omega) (by omega) (by omega)
    · rw [if_neg hc]
      have e : f2 = l2 := by omega
      refine ⟨hinv, e, ?_, ?_⟩
      · show s.f1 + 2 ≤ l2
        omega
      · show (l2 - s.f1) % 2 = 0
        omega

end Elliptics

namespace Elliptics

theorem links_close {α : Type} [Inhabited α] (n last : Nat) (s : SetupState α)
    (h : LinksInv n last s) (hf : s.f1 = last) (hn : last + 2 ≤ n) :
    LinksDone α n s.list2.link := by
  obtain ⟨rs, hch, htwo, _, _, _, htail⟩ := h
  rw [hf] at hch
  have hsn := RunChain.snoc rs 0 last (List.replicate (n - last) (default : α)) hch
    (by
      intro h0
      have := congrArg List.length h0
      simp at this
      omega)
    (by rw [htail, List.length_replicate]; omega)
  rw [List.length_replicate, show last + (n - last) = n by omega] at hsn
  refine ⟨_, hsn, ?_⟩
  intro r hr
  rcases List.mem_append.mp hr with h1 | h1
  · exact htwo r h1
  · rw [List.mem_singleton] at h1
    rw [h1, List.length_replicate]
    omega

theorem links_natural_branch {α : Type} [Inhabited α] (cmp : α → α → Int) (n last l2 : Nat)
    (s : SetupState α) (hinv : LinksInv n last s) (hlt : s.f1 + 2 ≤ l2)
    (hev : (l2 - s.f1) % 2 = 0) (hl2 : l2 ≤ last) (hev2 : (last - l2) % 2 = 0)
    (hn : last + 2 ≤ n) :
    (setup_natural_branch cmp n last s l2).f1 = l2 ∧
      (LinksInv n last (setup_natural_branch cmp n last s l2) ∨
        (l2 = last ∧ LinksDone α n (setup_natural_branch cmp n last s l2).list2.link)) := by
  obtain ⟨hinv2, hf2, hlt2, _⟩ := links_natural cmp n last l2 hl2 hev2 (l2 - s.f1) (s.f1 + 2) s
    hinv (Nat.le_refl _) (by omega) hlt (by omega) (by omega)
  unfold setup_natural_branch
  simp only []
  generalize setup_natural cmp l2 (l2 - s.f1) (s.f1 + 2) s = r2 at hinv2 hf2 hlt2 ⊢
  obtain ⟨s2, f2⟩ := r2
  simp only [] at hinv2 hf2 hlt2 ⊢
  subst hf2
  by_cases hc : f2 < last ∨
      cmp (rd (if s2.sense then reverse s2.list1 s2.f1 (f2 - 1) else s2.list1) (f2 - 1))
        (rd (if s2.sense then reverse s2.list1 s2.f1 (f2 - 1) else s2.list1) f2) > 0
  · rw [if_pos hc]
    exact ⟨rfl, Or.inl (links_push n last s2 f2 _ s2.sense hinv2 hlt2 hl2 hev2)⟩
  · rw [if_neg hc]
    have hlast : f2 = last := by
      have : ¬ f2 < last := fun h => hc (Or.inl h)
      omega
    refine ⟨rfl, Or.inr ⟨hlast, ?_⟩⟩
    obtain ⟨rs, hch, htwo, hp2, _, _, _⟩ := hinv2
    refine ⟨rs ++ [List.replicate (n - s2.f1) default], ?_, ?_⟩
    · show RunChain (s2.list2.set_next s2.p2 n).link 0 _ n
      rw [hp2]
      exact RunChain.push_run s2.list2 rs s2.f1 n _ hch (by simp) (by omega)
    · intro r hr
      rcases List.mem_append.mp hr with h1 | h1
      · exact htwo r h1
      · rw [List.mem_singleton] at h1
        rw [h1, List.length_replicate]
        omega

theorem links_round {α : Type} [Inhabited α] (cmp : α → α → Int) (n last : Nat)
    (s : SetupState α) (hinv : LinksInv n last s) (hf : s.f1 < last) (hn : last + 2 ≤ n) :
    s.f1 + 2 ≤ (setup_round cmp n last s).f1 ∧ (setup_round cmp n last s).f1 ≤ last ∧
      (LinksInv n last (setup_round cmp n last s) ∨
        ((setup_round cmp n last s).f1 = last ∧
          LinksDone α n (setup_round cmp n last s).list2.link)) := by
  have hev : (last - s.f1) % 2 = 0 := by
    obtain ⟨_, _, _, _, _, h, _⟩ := hinv
    exact h
  obtain ⟨g1, g2, g3, _, _⟩ := setup_pairs_spec cmp s.list1 last s.sense (last - s.f1)
    (s.f1 + 2) 2 (by omega) (by omega) (by omega)
  unfold setup_round
  simp only []
  generalize (setup_pairs cmp s.list1 last s.sense (last - s.f1) (s.f1 + 2) 2).1 = f2
    at g1 g2 g3 ⊢
  by_cases hth : (setup_pairs cmp s.list1 last s.sense (last - s.f1) (s.f1 + 2) 2).2
      < DNET_THRESHOLD
  · rw [if_pos hth]
    obtain ⟨hi, hf1⟩ := links_pairwise n last f2 g2 (by omega) (f2 - s.f1) s hinv (by omega)
      (by omega) (by omega)
    refine ⟨?_, ?_, Or.inl ?_⟩
    · show s.f1 + 2 ≤ (setup_pairwise f2 (f2 - s.f1) s).f1
      omega
    · show (setup_pairwise f2 (f2 - s.f1) s).f1 ≤ last
      omega
    · exact hi
  · rw [if_neg hth]
    obtain ⟨hf1, hi⟩ := links_natural_branch cmp n last f2 s hinv g1 (by omega) g2 (by omega)
      hn
    refine ⟨?_, ?_, ?_⟩
    · show s.f1 + 2 ≤ (setup_natural_branch cmp n last s f2).f1
      omega
    · show (setup_natural_branch cmp n last s f2).f1 ≤ last
      omega
    · rcases hi with hi | ⟨e, hd⟩
      · exact Or.inl hi
      · exact Or.inr ⟨hf1.trans e, hd⟩

theorem links_loop {α : Type} [Inhabited α] (cmp : α → α → Int) (n last : Nat)
    (hn : last + 2 ≤ n) :
    ∀ (fuel : Nat) (s : SetupState α), last - s.f1 ≤ 2 * fuel →
      (LinksInv n last s ∨ (s.f1 = last ∧ LinksDone α n s.list2.link)) →
      LinksDone α n (setup_loop cmp n last fuel s).list2.link := by
  intro fuel
  induction fuel with
  | zero =>
    intro s hfuel h
    simp only [setup_loop]
    rcases h with h | ⟨_, h⟩
    · have hle : s.f1 ≤ last := by
        obtain ⟨_, _, _, _, h4, _, _⟩ := h
        exact h4
      exact links_close n last s h (by omega) hn
    · exact h
  | succ k ih =>
    intro s hfuel h
    simp only [setup_loop]
    by_cases hc : s.f1 < last
    · rw [if_pos hc]
      rcases h with h | ⟨e, _⟩
      · obtain ⟨g1, _, g3⟩ := links_round cmp n last s h hc hn
        exact ih _ (by omega) g3
      · omega
    · rw [if_neg hc]
      rcases h with h | ⟨_, h⟩
      · have hle : s.f1 ≤ last := by
          obtain ⟨_, _, _, _, h4, _, _⟩ := h
          exact h4
        exact links_close n last s h (by omega) hn
      · exact h

theorem links_setup {α : Type} [Inhabited α] (cmp : α → α → Int) (list1 : List α)
    (list2 : Buf α) (n : Nat) (hn : 2 ≤ n) :
    LinksDone α n (setup cmp list1 list2 n).2.link := by
  unfold setup
  by_cases h5 : n ≤ 5
  · rw [if_pos h5]
    refine ⟨[List.replicate n default], ?_, ?_⟩
    · refine ⟨?_, ?_, ?_⟩
      · intro h0
        have := congrArg List.length h0
        simp at this
        omega
      · simp [Buf.set_next]
      · show 0 + (List.replicate n (default : α)).length = n
        simp
    · intro r hr
      rw [List.mem_singleton] at hr
      rw [hr, List.length_replicate]
      exact hn
  · rw [if_neg h5]
    simp only []
    apply links_loop cmp n (n - (4 + n % 2)) (by omega)
    · show n - (4 + n % 2) - 0 ≤ 2 * (n - (4 + n % 2))
      omega
    · refine Or.inl ⟨[], rfl, ?_, rfl, Nat.zero_le _, ?_, ?_⟩
      · intro r hr
        simp at hr
      · show (n - (4 + n % 2) - 0) % 2 = 0
        omega
      · simp [Buf.set_next]

end Elliptics

namespace Elliptics

theorem RunChain.ne_nil {α : Type} {link : Nat → Nat} :
    ∀ (R : List (List α)) (a b : Nat), RunChain link a R b → ∀ r ∈ R, r ≠ [] := by
  intro R
  induction R with
  | nil => intro a b _ r hr; simp at hr
  | cons r0 rs ih =>
    intro a b h r hr
    obtain ⟨hne, _, hrest⟩ := h
    rcases List.mem_cons.mp hr with e | e
    · rw [e]; exact hne
    · exact ih _ _ hrest r e

theorem sort_loop_one_run {α : Type} [Inhabited α] (cmp : α → α → Int) (size n fuel : Nat)
    (s : SortState α) (h : s.list2.next 0 = n) : sort_loop cmp size n fuel s = some s := by
  cases fuel <;> simp [sort_loop, h]

/-- C38: after `setup` on `n >= 1` records with a comparator that is a total
preorder, the links stored in the scratch buffer, followed from record 0,
delimit consecutive runs that end at record `n` and together are the array;
no run is empty, every run is sorted under `cmp`, and when `n >= 2` every run
has at least two records; the array is a rearrangement of the input that
keeps records which compare equal in their order. For `n <= 5` there is one
run, the whole array: the link at record 0 is `n`, so that the loop of merge
passes ends before its first pass. `insertionsort` is called for `n` records
when `n <= 5` and for the last `4 + n % 2` records otherwise, never for
none. -/
theorem C38_first_pass_run_list {α : Type} [Inhabited α] {cmp : α → α → Int}
    (hc : TotalPreorder cmp) (base : List α) (list2 : Buf α) (hn : 1 ≤ base.length) :
    (∃ R : List (List α),
        RunChain (setup cmp base list2 base.length).2.link 0 R base.length
          ∧ R.flatten = (setup cmp base list2 base.length).1
          ∧ (∀ r ∈ R, r ≠ [] ∧ SortedBy cmp r)
          ∧ (2 ≤ base.length → ∀ r ∈ R, 2 ≤ r.length)
          ∧ (base.length ≤ 5 → R = [(setup cmp base list2 base.length).1]))
      ∧ StablePerm cmp base (setup cmp base list2 base.length).1
      ∧ (base.length ≤ 5 →
        (setup cmp base list2 base.length).2.link 0 = base.length
          ∧ ∀ (size fuel : Nat) (big : Bool),
            sort_loop cmp size base.length fuel
                { list1 := { data := (setup cmp base list2 base.length).1, link := fun _ => 0 },
                  list2 := (setup cmp base list2 base.length).2,
                  list1_is_base := true, big := big }
              = some
                { list1 := { data := (setup cmp base list2 base.length).1, link := fun _ => 0 },
                  list2 := (setup cmp base list2 base.length).2,
                  list1_is_base := true, big := big })
      ∧ (base.length ≤ 5 →
        setup cmp base list2 base.length
          = (insertionsort cmp base 0 base.length, list2.set_next 0 base.length))
      ∧ (5 < base.length →
        1 ≤ 4 + base.length % 2 ∧ 4 + base.length % 2 ≤ base.length
          ∧ ∀ l, l = insertionsort cmp base (base.length - (4 + base.length % 2))
                  (4 + base.length % 2) →
            (setup cmp base list2 base.length).1
              = (setup_loop cmp base.length (base.length - (4 + base.length % 2))
                  (base.length - (4 + base.length % 2))
                  { list1 := l,
                    list2 := list2.set_next (base.length - (4 + base.length % 2)) base.length,
                    f1 := 0, p2 := 0, sense := decide (cmp (rd l 0) (rd l 1) > 0) }).list1) := by
  obtain ⟨⟨R, hch0, hflat, hsorted⟩, hstab⟩ := setup_spec hc base list2 hn
  have hch : RunChain (setup cmp base list2 base.length).2.link 0 R base.length := by
    rw [hstab.length_eq] at hch0
    exact hch0
  have hlink5 : base.length ≤ 5 → (setup cmp base list2 base.length).2.link 0 = base.length := by
    intro h5
    unfold setup
    rw [if_pos h5]
    simp [Buf.set_next]
  refine ⟨⟨R, hch, hflat, ?_, ?_, ?_⟩, hstab, ?_, ?_, ?_⟩
  · intro r hr
    exact ⟨RunChain.ne_nil R 0 _ hch r hr, hsorted r hr⟩
  · intro h2 r hr
    obtain ⟨rs, hch2, htwo⟩ := links_setup cmp base list2 base.length h2
    have hlen := RunChain.lengths_unique R rs 0 _ hch hch2
    have hm : r.length ∈ R.map List.length := List.mem_map_of_mem _ hr
    rw [hlen, List.mem_map] at hm
    obtain ⟨r2, hr2, e⟩ := hm
    rw [← e]
    exact htwo r2 hr2
  · intro h5
    cases R with
    | nil =>
      have e : 0 = base.length := hch
      omega
    | cons r1 rest =>
      have hrest := (RunChain.head_link r1 rest base.length hch).mp (hlink5 h5)
      rw [hrest] at hflat ⊢
      simpa using hflat
  · intro h5
    exact ⟨hlink5 h5, fun size fuel big =>
      sort_loop_one_run cmp size base.length fuel _ (hlink5 h5)⟩
  · intro h5
    unfold setup
    rw [if_pos h5]
  · intro h5
    refine ⟨by omega, by omega, ?_⟩
    intro l hl
    unfold setup
    rw [if_neg (by omega)]
    simp only []
    rw [hl]

theorem C38_first_pass_run_list_witness :
    TotalPreorder ex_cmp ∧ 1 ≤ ex_records.length
      ∧ StablePerm ex_cmp ex_records
          (setup ex_cmp ex_records { data := [], link := fun _ => 0 } ex_records.length).1 :=
  ⟨ex_cmp_total, by decide,
    (C38_first_pass_run_list ex_cmp_total ex_records { data := [], link := fun _ => 0 }
      (by decide)).2.1⟩

end Elliptics

namespace Elliptics

/-! ## The hash, publish, add and init of the registry -/

theorem notify_hash_loop_eq_foldl (id : List Nat) (k i acc : Nat) :
    dnet_notify_hash_loop id k i acc
      = ((List.range' i k).map (int_id id)).foldl (fun a w => a ^^^ w) acc := by
  induction k generalizing i acc with
  | zero => simp [dnet_notify_hash_loop]
  | succ k ih => simp [dnet_notify_hash_loop, ih, List.range'_succ]

theorem int_id_lt (id : List Nat) (i : Nat) : int_id id i < 2 ^ 32 :=
  Nat.mod_lt _ (Nat.two_pow_pos 32)

theorem foldl_xor_lt (ws : List Nat) (acc : Nat) (hacc : acc < 2 ^ 32)
    (hws : ∀ w ∈ ws, w < 2 ^ 32) :
    ws.foldl (fun a w => a ^^^ w) acc < 2 ^ 32 := by
  induction ws generalizing acc with
  | nil => simpa using hacc
  | cons w rest ih =>
    simp only [List.foldl_cons]
    exact ih _ (Nat.xor_lt_two_pow hacc (hws w (by simp)))
      (fun v hv => hws v (by simp [hv]))

theorem step_bucket_count (x : Externals) (n : dnet_node) (op : Op) :
    (step x n op).1.notify_hash.length = n.notify_hash.length ∧
      (step x n op).1.notify_hash_size = n.notify_hash_size := by
  cases op with
  | add st cmd ok => cases ok <;> simp [step, dnet_notify_add]
  | remove st cmd attr => simp [step, dnet_notify_remove]
  | publish st cmd attr io h => simp [step]

theorem run_bucket_count (x : Externals) (ops : List Op) (n : dnet_node) :
    (run x n ops).1.notify_hash.length = n.notify_hash.length ∧
      (run x n ops).1.notify_hash_size = n.notify_hash_size := by
  induction ops generalizing n with
  | nil => simp [run]
  | cons op rest ih =>
    simp only [run]
    rw [(ih _).1, (ih _).2]
    exact step_bucket_count x n op

theorem init_full_success (n : dnet_node) (ok : Bool) (locks : Nat → Int)
    (h : (dnet_notify_init_full n ok locks).1 = 0) :
    dnet_notify_init_full n ok locks = dnet_notify_init n := by
  unfold dnet_notify_init_full at h ⊢
  cases ok with
  | false => simp [ENOMEM] at h
  | true =>
    simp only [Bool.not_true, Bool.false_eq_true, if_false] at h ⊢
    split at h
    · rename_i i hf
      have hi := List.find?_some hf
      simp only [ne_eq, decide_not, Bool.not_eq_eq_eq_not, Bool.not_true,
        decide_eq_false_iff_not] at hi
      simp only [neg_eq_zero] at h
      exact absurd h hi
    · rename_i hf
      simp [hf, dnet_notify_init]

theorem getD_skip_word (a b c d : Nat) (rest : List Nat) (n : Nat) :
    (a :: b :: c :: d :: rest).getD (n + 4) 0 = rest.getD n 0 := by
  simp [List.getD]

theorem int_id_skip_word (a b c d : Nat) (rest : List Nat) (i : Nat) :
    int_id (a :: b :: c :: d :: rest) (i + 1) = int_id rest i := by
  unfold int_id
  have e0 : 4 * (i + 1) = 4 * i + 4 := by ring
  have e1 : 4 * i + 4 + 1 = (4 * i + 1) + 4 := by ring
  have e2 : 4 * i + 4 + 2 = (4 * i + 2) + 4 := by ring
  have e3 : 4 * i + 4 + 3 = (4 * i + 3) + 4 := by ring
  rw [e0, e1, e2, e3, getD_skip_word, getD_skip_word, getD_skip_word, getD_skip_word]

theorem int_id_first_word (a b c d : Nat) (rest : List Nat) (ha : a < 256) (hb : b < 256)
    (hc : c < 256) (hd : d < 256) :
    int_id (a :: b :: c :: d :: rest) 0 = a + 256 * (b + 256 * (c + 256 * d)) := by
  unfold int_id
  simp only [Nat.mul_zero, Nat.zero_add, List.getD_cons_zero, List.getD_cons_succ]
  have e : (2 : Nat) ^ 32 = 4294967296 := by norm_num
  rw [e]
  omega

theorem hash_words_eq_int_id (k : Nat) (id : List Nat) (hlen : id.length = 4 * k)
    (hb : ∀ b ∈ id, b < 256) :
    notify_hash_words id = (List.range k).map (int_id id) := by
  induction k generalizing id with
  | zero =>
    have : id = [] := List.length_eq_zero.mp (by simpa using hlen)
    subst this
    rfl
  | succ k ih =>
    match id, hlen, hb with
    | a :: b :: c :: d :: rest, hlen, hb =>
      have hrest : rest.length = 4 * k := by
        simp only [List.length_cons] at hlen
        omega
      have hbr : ∀ v ∈ rest, v < 256 := fun v hv => hb v (by simp [hv])
      rw [List.range_succ_eq_map, List.map_cons, List.map_map]
      have hw : notify_hash_words (a :: b :: c :: d :: rest)
          = (a + 256 * (b + 256 * (c + 256 * d))) :: notify_hash_words rest := rfl
      rw [hw, ih rest hrest hbr,
        int_id_first_word a b c d rest (hb a (by simp)) (hb b (by simp)) (hb c (by simp))
          (hb d (by simp))]
      congr 1
    | [], hlen, _ => simp at hlen
    | [_], hlen, _ => simp only [List.length_cons, List.length_nil] at hlen; omega
    | [_, _], hlen, _ => simp only [List.length_cons, List.length_nil] at hlen; omega
    | [_, _, _], hlen, _ => simp only [List.length_cons, List.length_nil] at hlen; omega

theorem hash_words_byte (k : Nat) (id : List Nat) (hlen : id.length = 4 * k)
    (hb : ∀ b ∈ id, b < 256) (j : Nat) (hj : j < 4 * k) :
    id.getD j 0 = (notify_hash_words id).getD (j / 4) 0 / 256 ^ (j % 4) % 256 := by
  induction k generalizing id j with
  | zero => omega
  | succ k ih =>
    match id, hlen, hb with
    | a :: b :: c :: d :: rest, hlen, hb =>
      have hrest : rest.length = 4 * k := by
        simp only [List.length_cons] at hlen
        omega
      have hbr : ∀ v ∈ rest, v < 256 := fun v hv => hb v (by simp [hv])
      have ha := hb a (by simp)
      have hb2 := hb b (by simp)
      have hc := hb c (by simp)
      have hd := hb d (by simp)
      have hw : notify_hash_words (a :: b :: c :: d :: rest)
          = (a + 256 * (b + 256 * (c + 256 * d))) :: notify_hash_words rest := rfl
      rw [hw]
      by_cases h4 : j < 4
      · interval_cases j
        · simp only [List.getD_cons_zero, Nat.zero_div, Nat.zero_mod, pow_zero, Nat.div_one]
          omega
        · have e1 : 1 / 4 = 0 := by norm_num
          have e2 : 1 % 4 = 1 := by norm_num
          rw [e1, e2]
          simp only [List.getD_cons_zero, List.getD_cons_succ, pow_one]
          omega
        · have e1 : 2 / 4 = 0 := by norm_num
          have e2 : 2 % 4 = 2 := by norm_num
          have e3 : (256 : Nat) ^ 2 = 65536 := by norm_num
          rw [e1, e2, e3]
          simp only [List.getD_cons_zero, List.getD_cons_succ]
          omega
        · have e1 : 3 / 4 = 0 := by norm_num
          have e2 : 3 % 4 = 3 := by norm_num
          have e3 : (256 : Nat) ^ 3 = 16777216 := by norm_num
          rw [e1, e2, e3]
          simp only [List.getD_cons_zero, List.getD_cons_succ]
          omega
      · obtain ⟨i, rfl⟩ : ∃ i, j = i + 4 := ⟨j - 4, by omega⟩
        have e1 : (i + 4) / 4 = i / 4 + 1 := by omega
        have e2 : (i + 4) % 4 = i % 4 := by omega
        rw [getD_skip_word, e1, e2, List.getD_cons_succ]
        exact ih rest hrest hbr i (by omega)
    | [], hlen, _ => simp at hlen
    | [_], hlen, _ => simp only [List.length_cons, List.length_nil] at hlen; omega
    | [_, _], hlen, _ => simp only [List.length_cons, List.length_nil] at hlen; omega
    | [_, _, _], hlen, _ => simp only [List.length_cons, List.length_nil] at hlen; omega

/-- C11: for every identifier (64 bytes) and every bucket count `N > 0` the
hash is the seed `0xbb40e64d` XOR-ed with the `DNET_ID_SIZE / 4 = 16` 32-bit
words of the identifier, taken modulo `N`. The words are those of the bytes
of the identifier, four bytes to a word, and every byte of the identifier can
be read back from them, so the fold is one over the whole identifier; the XOR
stays within 32 bits, and the result is a bucket index below `N`. Being a
function of the identifier and `N` alone, it depends on nothing else. -/
theorem C11_hash_is_xor_fold (id : List Nat) (N : Nat) (hid : is_id id) (h : 0 < N) :
    dnet_notify_hash id N
        = (notify_hash_words id).foldl (fun acc w => acc ^^^ w) 0xbb40e64d % N ∧
      dnet_notify_hash id N = notify_hash_xor id N ∧
      (notify_hash_words id).length = 16 ∧
      (∀ j, j < DNET_ID_SIZE →
        id.getD j 0 = (notify_hash_words id).getD (j / 4) 0 / 256 ^ (j % 4) % 256) ∧
      (notify_hash_words id).foldl (fun acc w => acc ^^^ w) 0xbb40e64d < 2 ^ 32 ∧
      dnet_notify_hash id N < N := by
  have hlen : id.length = 4 * 16 := hid.1
  have hw := hash_words_eq_int_id 16 id hlen hid.2
  have hmain : dnet_notify_hash id N
      = (notify_hash_words id).foldl (fun acc w => acc ^^^ w) 0xbb40e64d % N := by
    unfold dnet_notify_hash
    rw [notify_hash_loop_eq_foldl, hw, List.range_eq_range']
    rfl
  refine ⟨hmain, hmain, by rw [hw]; simp, ?_, ?_, Nat.mod_lt _ h⟩
  · intro j hj
    exact hash_words_byte 16 id hlen hid.2 j hj
  · apply foldl_xor_lt _ _ (by norm_num)
    intro w hwm
    rw [hw] at hwm
    simp only [List.mem_map] at hwm
    obtain ⟨i, _, rfl⟩ := hwm
    exact int_id_lt id i

theorem C11_hash_is_xor_fold_witness :
    is_id ex_id_mixed ∧ 0 < 1000 ∧
      dnet_notify_hash ex_id_mixed 1000
        = (notify_hash_words ex_id_mixed).foldl (fun acc w => acc ^^^ w) 0xbb40e64d % 1000 ∧
      notify_hash_words ex_id_mixed
        = [0x04030201] ++ List.replicate 14 0 ++ [0x80000000] ∧
      dnet_notify_hash ex_id_mixed 1000 = 964 ∧
      dnet_notify_hash ex_id 1000 = 653 :=
  ⟨by decide, by decide,
    (C11_hash_is_xor_fold ex_id_mixed 1000 (by decide) (by decide)).1,
    by decide, by decide, by decide⟩

/-- C12: a publish never fails. On every well-formed registry and for every
input `dnet_update_notify` returns 0; the result and the notifications sent do
not depend on what the transport `dnet_send_reply` returns, so a failed
delivery to one observer changes neither the return value nor the deliveries
to the other matching observers: past the size guard every entry subscribed
to the identifier is sent its notification, in registry order. -/
theorem C12_publish_never_fails (x : Externals) (f : dnet_net_state → dnet_cmd → Int)
    (n : dnet_node) (st : dnet_net_state) (cmd : dnet_cmd) (attr : dnet_attr)
    (io : dnet_io_attr) (h : dnet_history_entry) (hok : registry_ok n) :
    (dnet_update_notify { x with dnet_send_reply := f } n st cmd attr io h).1 = 0 ∧
      dnet_update_notify { x with dnet_send_reply := f } n st cmd attr io h
        = dnet_update_notify x n st cmd attr io h ∧
      (x.sizeof_dnet_io_attr < attr.size →
        (dnet_update_notify { x with dnet_send_reply := f } n st cmd attr io h).2
          = (n.notify_hash.flatten.filter (fun e => e.cmd.id = cmd.id)).map
              (notify_event x n st io h)) := by
  have e1 := publish_filter { x with dnet_send_reply := f } n st cmd attr io h hok
  have e2 := publish_filter x n st cmd attr io h hok
  have e3 : notify_event { x with dnet_send_reply := f } n st io h
      = notify_event x n st io h := rfl
  refine ⟨by rw [e1], ?_, ?_⟩
  · rw [e1, e2, e3]
  · intro hsz
    rw [e1, e3]
    simp [Nat.not_le.mpr hsz]

set_option maxRecDepth 100000 in
theorem C12_publish_never_fails_witness :
    registry_ok ex_node ∧
    (dnet_update_notify ex_externals_failing ex_node ex_stA ex_cmd
        { size := 1000, cmd := 0, flags := 0 } ex_io ex_history).1 = 0 ∧
      (dnet_update_notify ex_externals_failing ex_node ex_stA ex_cmd
        { size := 1000, cmd := 0, flags := 0 } ex_io ex_history).2.length = 2 := by
  have hok : registry_ok ex_node := by decide
  have h := C12_publish_never_fails ex_externals ex_externals_failing.dnet_send_reply
    ex_node ex_stA ex_cmd { size := 1000, cmd := 0, flags := 0 } ex_io ex_history hok
  refine ⟨hok, h.1, ?_⟩
  have h3 := h.2.2 (by decide)
  have e : ({ ex_externals with dnet_send_reply := ex_externals_failing.dnet_send_reply }
      : Externals) = ex_externals_failing := rfl
  rw [e] at h3
  rw [h3]
  decide

/-- C13: on a well-formed registry `dnet_notify_add` returns `-ENOMEM` exactly
when the entry cannot be allocated; it has then left the registry unchanged
and taken no reference. Otherwise it returns 0 (and the registry stays
well formed). -/
theorem C13_add_enomem_iff_no_memory (n : dnet_node) (st : dnet_net_state) (cmd : dnet_cmd)
    (ok : Bool) (hok : registry_ok n) :
    ((dnet_notify_add n st cmd ok).1 = -ENOMEM ↔ ok = false) ∧
      dnet_notify_add n st cmd false = (-ENOMEM, n, []) ∧
      (dnet_notify_add n st cmd true).1 = 0 ∧
      registry_ok (dnet_notify_add n st cmd ok).2.1 := by
  refine ⟨?_, by simp [dnet_notify_add], by simp [dnet_notify_add], ?_⟩
  · cases ok <;> simp [dnet_notify_add, ENOMEM]
  · exact step_registry_ok ex_externals n (Op.add st cmd ok) hok

theorem C13_add_enomem_iff_no_memory_witness :
    registry_ok ex_node ∧
      dnet_notify_add ex_node ex_stA ex_cmd false = (-ENOMEM, ex_node, []) ∧
      (dnet_notify_add ex_node ex_stA ex_cmd true).1 = 0 :=
  have hok : registry_ok ex_node := by decide
  ⟨hok, (C13_add_enomem_iff_no_memory ex_node ex_stA ex_cmd false hok).2.1,
    (C13_add_enomem_iff_no_memory ex_node ex_stA ex_cmd false hok).2.2.1⟩

/-- C14: the bucket count is fixed at initialisation. When `dnet_notify_init`
succeeds (returns 0) the registry has exactly `notify_hash_size` buckets, all
of them empty, and `notify_hash_size` is what it was; when that number is not
0 (with no bucket, no add, remove or publish returns), the number of buckets
and `notify_hash_size` are still the same after any sequence of add, remove
and publish calls, and every call of the sequence found the registry in its
proper shape. -/
theorem C14_bucket_count_fixed (x : Externals) (n0 : dnet_node) (ok : Bool)
    (locks : Nat → Int) (ops : List Op)
    (hinit : (dnet_notify_init_full n0 ok locks).1 = 0) :
    (dnet_notify_init_full n0 ok locks).2.notify_hash
        = List.replicate n0.notify_hash_size [] ∧
      (dnet_notify_init_full n0 ok locks).2.notify_hash_size = n0.notify_hash_size ∧
      (0 < n0.notify_hash_size →
        (run x (dnet_notify_init_full n0 ok locks).2 ops).1.notify_hash.length
          = n0.notify_hash_size ∧
        (run x (dnet_notify_init_full n0 ok locks).2 ops).1.notify_hash_size
          = n0.notify_hash_size ∧
        ∀ k, registry_ok (run x (dnet_notify_init_full n0 ok locks).2 (ops.take k)).1) := by
  rw [init_full_success n0 ok locks hinit]
  refine ⟨rfl, rfl, ?_⟩
  intro hpos
  have h := run_bucket_count x ops (dnet_notify_init n0).2
  refine ⟨?_, ?_, ?_⟩
  · rw [h.1]; simp [dnet_notify_init]
  · rw [h.2]; rfl
  · intro k
    apply run_registry_ok
    refine ⟨hpos, by simp [dnet_notify_init], ?_⟩
    intro i hi e he
    simp only [dnet_notify_init, List.length_replicate] at hi
    have : (List.replicate n0.notify_hash_size ([] : List dnet_notify_entry)).getD i [] = [] := by
      rw [List.getD_eq_getElem?_getD]
      simp [List.getElem?_replicate, hi]
    simp only [dnet_notify_init] at he
    rw [this] at he
    simp at he

set_option maxRecDepth 100000 in
theorem C14_bucket_count_fixed_witness :
    (dnet_notify_init_full ex_node_empty true (fun _ => 0)).1 = 0 ∧
      0 < ex_node_empty.notify_hash_size ∧
      (run ex_externals (dnet_notify_init_full ex_node_empty true (fun _ => 0)).2
        ex_ops).1.notify_hash.length = 4 :=
  have h : (dnet_notify_init_full ex_node_empty true (fun _ => 0)).1 = 0 := by decide
  ⟨h, by decide,
    ((C14_bucket_count_fixed ex_externals ex_node_empty true (fun _ => 0) ex_ops h).2.2
      (by decide)).1⟩

end Elliptics

namespace Elliptics

/-! ## Completion of a bulk read -/

theorem last_bytes_for_cons (keys : List Nat → Option String) (e : read_result_entry)
    (rest : List read_result_entry) (name : String) :
    last_bytes_for keys (e :: rest) name
      = match last_bytes_for keys rest name with
        | some v => some v
        | none => if keys e.id = some name then some e.file else none := by
  unfold last_bytes_for
  by_cases h : keys e.id = some name
  · simp only [List.filter_cons, h, decide_True, if_true]
    generalize List.filter (fun e => decide (keys e.id = some name)) rest = L
    cases L with
    | nil => simp
    | cons a l =>
      rw [List.getLast?_cons_cons]
      obtain ⟨v, hv⟩ : ∃ v, (a :: l).getLast? = some v :=
        ⟨_, List.getLast?_eq_getLast _ (by simp)⟩
      simp [hv]
  · have hf : List.filter (fun e => decide (keys e.id = some name)) (e :: rest)
        = List.filter (fun e => decide (keys e.id = some name)) rest := by
      simp [List.filter_cons, h]
    rw [hf]
    simp only [h, if_false]
    generalize Option.map (fun e => e.file)
      (List.filter (fun e => decide (keys e.id = some name)) rest).getLast? = o
    cases o <;> rfl

theorem bulk_read_loop_lookup (keys : List Nat → Option String)
    (result : List read_result_entry) (m : string_map) (name : String) :
    bulk_read_loop keys result m name
      = match last_bytes_for keys result name with
        | some v => some v
        | none => m name := by
  induction result generalizing m with
  | nil => simp [bulk_read_loop, last_bytes_for]
  | cons e rest ih =>
    rw [last_bytes_for_cons]
    cases hk : keys e.id with
    | none =>
      simp only [bulk_read_loop, hk, ih]
      cases last_bytes_for keys rest name <;> simp
    | some nm =>
      simp only [bulk_read_loop, hk, ih, string_map_assign]
      cases last_bytes_for keys rest name with
      | some v => simp
      | none =>
        by_cases hn : name = nm
        · simp [hn]
        · have hn2 : ¬ nm = name := fun h => hn h.symm
          simp [hn, hn2]

theorem filter_name_length_le_one (keys : List Nat → Option String)
    (result : List read_result_entry) (name : String)
    (hnd : (result.filterMap (fun e => keys e.id)).Nodup) :
    (result.filter (fun e => keys e.id = some name)).length ≤ 1 := by
  have hsub : List.Sublist
      ((result.filter (fun e => keys e.id = some name)).filterMap (fun e => keys e.id))
      (result.filterMap (fun e => keys e.id)) :=
    List.Sublist.filterMap _ (List.filter_sublist _)
  have hrep : (result.filter (fun e => keys e.id = some name)).filterMap (fun e => keys e.id)
      = List.replicate (result.filter (fun e => keys e.id = some name)).length name := by
    generalize hl : result.filter (fun e => keys e.id = some name) = l
    have hall : ∀ e ∈ l, keys e.id = some name := by
      intro e he
      rw [← hl] at he
      simpa using (List.mem_filter.mp he).2
    clear hl hsub
    induction l with
    | nil => simp
    | cons a l ih =>
      have ha := hall a (by simp)
      rw [List.filterMap_cons, ha]
      simp only [List.length_cons, List.replicate_succ]
      rw [ih (fun e he => hall e (by simp [he]))]
  rw [hrep] at hsub
  have := List.Nodup.sublist hsub hnd
  exact List.nodup_replicate.mp this

theorem last_bytes_for_perm (keys : List Nat → Option String)
    (r1 r2 : List read_result_entry) (name : String) (hp : r1.Perm r2)
    (hnd : (r1.filterMap (fun e => keys e.id)).Nodup) :
    last_bytes_for keys r1 name = last_bytes_for keys r2 name := by
  have hpf := List.Perm.filter (fun e => decide (keys e.id = some name)) hp
  have hlen := filter_name_length_le_one keys r1 name hnd
  unfold last_bytes_for
  have heq : r1.filter (fun e => decide (keys e.id = some name))
      = r2.filter (fun e => decide (keys e.id = some name)) := by
    cases h1 : r1.filter (fun e => decide (keys e.id = some name)) with
    | nil =>
      rw [h1] at hpf
      exact (List.nil_perm.mp hpf).symm
    | cons a l =>
      rw [h1] at hpf hlen
      have hl : l = [] := by
        cases l with
        | nil => rfl
        | cons b l2 => simp at hlen
      subst hl
      exact List.singleton_perm.mp hpf
  rw [heq]

theorem last_bytes_for_mem (keys : List Nat → Option String)
    (result : List read_result_entry) (name : String) (v : List Nat)
    (h : last_bytes_for keys result name = some v) :
    ∃ e ∈ result, keys e.id = some name ∧ e.file = v := by
  unfold last_bytes_for at h
  rw [Option.map_eq_some'] at h
  obtain ⟨e, he, hv⟩ := h
  have hm := List.mem_of_getLast?_eq_some he
  rw [List.mem_filter] at hm
  exact ⟨e, hm.1, by simpa using hm.2, hv⟩

/-- C15 (as stated, refuted): the delivered map depends on the order of the
result entries. Two entries of `ex_result` carry the same identifier with
different bytes; in the given order the name `a` is delivered the bytes `[2]`,
in the reversed order the bytes `[1]`. -/
theorem C15_bulk_read_order_counterexample :
    List.Perm ex_result.reverse ex_result ∧
      (on_bulk_read_completed ex_keys ex_result none).lookup "a" = some [2] ∧
      (on_bulk_read_completed ex_keys ex_result.reverse none).lookup "a" = some [1] := by
  refine ⟨List.reverse_perm _, ?_, ?_⟩ <;> decide

/-- C15 (amended): without an error `on_bulk_read_completed` writes a map in
which every name holds the bytes of the last result entry whose identifier the
map `keys` sends to that name. Entries whose identifier is not in `keys` leave
no trace, and a name is present only if `keys` gives it to some result entry.
When no two result entries yield the same name, every entry found in `keys`
is delivered under its name and the map written does not depend on the order
of the result entries. -/
theorem C15_bulk_read_last_entry_wins (keys : List Nat → Option String)
    (result : List read_result_entry) :
    ∃ m, on_bulk_read_completed keys result none = PromiseEvent.write m ∧
      (∀ name, m name = last_bytes_for keys result name) ∧
      m = bulk_read_loop keys (result.filter (fun e => (keys e.id).isSome)) string_map_empty ∧
      (∀ name v, m name = some v → ∃ e ∈ result, keys e.id = some name ∧ e.file = v) ∧
      ((result.filterMap (fun e => keys e.id)).Nodup →
        (∀ e ∈ result, ∀ name, keys e.id = some name → m name = some e.file) ∧
        ∀ result2, result.Perm result2 →
          on_bulk_read_completed keys result2 none = PromiseEvent.write m) := by
  have hlook : ∀ r name, bulk_read_loop keys r string_map_empty name
      = last_bytes_for keys r name := by
    intro r name
    rw [bulk_read_loop_lookup]
    cases last_bytes_for keys r name <;> rfl
  refine ⟨bulk_read_loop keys result string_map_empty, rfl, hlook result, ?_, ?_, ?_⟩
  · funext name
    rw [hlook, hlook]
    unfold last_bytes_for
    rw [List.filter_filter]
    congr 2
    apply List.filter_congr
    intro e _
    by_cases h : keys e.id = some name <;> simp [h]
  · intro name v hv
    rw [hlook] at hv
    exact last_bytes_for_mem keys result name v hv
  · intro hnd
    refine ⟨?_, ?_⟩
    · intro e he name hk
      rw [hlook]
      have hlen := filter_name_length_le_one keys result name hnd
      have hmem : e ∈ result.filter (fun e => keys e.id = some name) :=
        List.mem_filter.mpr ⟨he, by simpa using hk⟩
      unfold last_bytes_for
      cases hf : result.filter (fun e => decide (keys e.id = some name)) with
      | nil => rw [hf] at hmem; simp at hmem
      | cons a l =>
        rw [hf] at hmem hlen
        have hl : l = [] := by
          cases l with
          | nil => rfl
          | cons b l2 => simp at hlen
        subst hl
        simp only [List.mem_singleton] at hmem
        simp [hmem]
    · intro result2 hp
      unfold on_bulk_read_completed
      simp only
      congr 1
      funext name
      rw [hlook, hlook]
      exact (last_bytes_for_perm keys result result2 name hp hnd).symm

set_option maxRecDepth 100000 in
theorem C15_bulk_read_last_entry_wins_witness :
    (ex_result_distinct.filterMap (fun e => ex_keys e.id)).Nodup ∧
      (on_bulk_read_completed ex_keys ex_result_distinct.reverse none).lookup "b"
        = (on_bulk_read_completed ex_keys ex_result_distinct none).lookup "b" := by
  have hnd : (ex_result_distinct.filterMap (fun e => ex_keys e.id)).Nodup := by decide
  obtain ⟨m, hm, _, _, _, h⟩ := C15_bulk_read_last_entry_wins ex_keys ex_result_distinct
  refine ⟨hnd, ?_⟩
  rw [(h hnd).2 _ (List.reverse_perm _).symm, hm]

end Elliptics

namespace Elliptics

/-! ## The tokenizer of the configuration reader -/

theorem getD_append_len {α : Type} (M : List α) (y : α) (Q : List α) (m : Nat) (d : α)
    (h : M.length = m) : (M ++ y :: Q).getD m d = y := by
  subst h
  induction M with
  | nil => rfl
  | cons a M ih => simpa [List.getD] using ih

theorem isspace_comment : isspace DNET_CONF_COMMENT = false := by decide

theorem skip_line_dropWhile (line : List Char) :
    dnet_skip_line line
      = match line.dropWhile isspace with
        | [] => none
        | c :: rest => if c = DNET_CONF_COMMENT then none else some (c :: rest) := by
  induction line with
  | nil => simp [dnet_skip_line]
  | cons c rest ih =>
    unfold dnet_skip_line
    by_cases hc : c = DNET_CONF_COMMENT
    · subst hc
      simp [List.dropWhile, isspace_comment]
    · by_cases hs : isspace c = true
      · simp only [hc, if_false, hs, if_true, List.dropWhile]
        exact ih
      · simp [hc, hs, List.dropWhile]

theorem skip_line_plain (c : Char) (rest : List Char) (hs : isspace c = false)
    (hc : c ≠ DNET_CONF_COMMENT) : dnet_skip_line (c :: rest) = some (c :: rest) := by
  simp [dnet_skip_line, hs, hc]

theorem c_str_append_nul (s rest : List Char) (h : ∀ c ∈ s, c ≠ NUL) :
    c_str (s ++ NUL :: rest) = s := by
  induction s with
  | nil => simp [c_str, List.takeWhile]
  | cons c s ih =>
    have hc : c ≠ NUL := h c (by simp)
    have := ih (fun d hd => h d (by simp [hd]))
    have hb : (c != NUL) = true := by simpa using hc
    simp only [c_str] at this ⊢
    rw [List.cons_append, List.takeWhile_cons, hb, this]
    try rfl

theorem c_str_no_nul (s : List Char) (h : ∀ c ∈ s, c ≠ NUL) : c_str s = s := by
  induction s with
  | nil => simp [c_str]
  | cons c s ih =>
    have hc : c ≠ NUL := h c (by simp)
    have := ih (fun d hd => h d (by simp [hd]))
    have hb : (c != NUL) = true := by simpa using hc
    simp only [c_str] at this ⊢
    simp only [List.cons_append, List.takeWhile, hb, this]

theorem tok_step_first (pre post : List Char) (c : Char) (r : Nat) (v : Option Nat)
    (hs : isspace c = false) :
    tokenize_loop (r + 1) pre.length { buf := pre ++ c :: post, key := none, value := v }
      = tokenize_loop r (pre.length + 1)
          { buf := pre ++ c :: post, key := some pre.length, value := v } := by
  simp only [tokenize_loop, getD_append_len pre c post pre.length NUL rfl, hs]
  simp

theorem tok_step_plain (pre post : List Char) (c : Char) (r k : Nat)
    (hs : isspace c = false) (hd : c ≠ DNET_CONF_DELIMITER) (hc : c ≠ DNET_CONF_COMMENT) :
    tokenize_loop (r + 1) pre.length { buf := pre ++ c :: post, key := some k, value := none }
      = tokenize_loop r (pre.length + 1)
          { buf := pre ++ c :: post, key := some k, value := none } := by
  simp only [tokenize_loop, getD_append_len pre c post pre.length NUL rfl, hs]
  simp [hd, hc]

theorem tok_step_space (pre post : List Char) (c : Char) (r k : Nat) (v : Option Nat)
    (hs : isspace c = true) :
    tokenize_loop (r + 1) pre.length { buf := pre ++ c :: post, key := some k, value := v }
      = tokenize_loop r (pre.length + 1)
          { buf := pre ++ NUL :: post, key := some k, value := v } := by
  simp only [tokenize_loop, getD_append_len pre c post pre.length NUL rfl, hs,
    set_append_len pre c NUL post pre.length rfl]
  simp

theorem tok_step_delimiter (pre post : List Char) (r k : Nat) :
    tokenize_loop (r + 1) pre.length
        { buf := pre ++ DNET_CONF_DELIMITER :: post, key := some k, value := none }
      = tokenize_loop r (pre.length + 1)
          { buf := pre ++ NUL :: post, key := some k, value := some 0 } := by
  have hs : isspace DNET_CONF_DELIMITER = false := by decide
  simp only [tokenize_loop,
    getD_append_len pre DNET_CONF_DELIMITER post pre.length NUL rfl, hs,
    set_append_len pre DNET_CONF_DELIMITER NUL post pre.length rfl]
  simp

theorem tok_step_value (pre post : List Char) (c : Char) (r k v : Nat)
    (hs : isspace c = false) :
    tokenize_loop (r + 1) pre.length
        { buf := pre ++ c :: post, key := some k, value := some v }
      = { buf := pre ++ c :: post, key := some k, value := some pre.length } := by
  simp only [tokenize_loop, getD_append_len pre c post pre.length NUL rfl, hs]
  simp

theorem tok_scan_plain (mid : List Char) (pre post : List Char) (r k : Nat)
    (h : ∀ c ∈ mid, isspace c = false ∧ c ≠ DNET_CONF_DELIMITER ∧ c ≠ DNET_CONF_COMMENT) :
    tokenize_loop (mid.length + r) pre.length
        { buf := pre ++ mid ++ post, key := some k, value := none }
      = tokenize_loop r (pre.length + mid.length)
          { buf := pre ++ mid ++ post, key := some k, value := none } := by
  induction mid generalizing pre with
  | nil => simp
  | cons c mid ih =>
    have hc := h c (by simp)
    have e1 : (c :: mid).length + r = (mid.length + r) + 1 := by simp; omega
    have e2 : pre ++ c :: mid ++ post = pre ++ c :: (mid ++ post) := by simp
    rw [e1, e2, tok_step_plain pre (mid ++ post) c _ k hc.1 hc.2.1 hc.2.2]
    have e3 : pre ++ c :: (mid ++ post) = (pre ++ [c]) ++ mid ++ post := by simp
    have e4 : pre.length + 1 = (pre ++ [c]).length := by simp
    rw [e3, e4, ih (pre ++ [c]) (fun d hd => h d (by simp [hd]))]
    simp only [List.length_append, List.length_cons, List.length_nil]
    congr 1
    omega

theorem strip_terminator_newline (body : List Char) (h1 : 1 ≤ body.length)
    (h2 : body.getD (body.length - 2) NUL ≠ '\r' ∧ body.getD (body.length - 2) NUL ≠ '\n') :
    strip_terminator (body ++ ['\n']) = (body ++ [NUL], body.length) := by
  have e1 : (body ++ ['\n']).length - 1 = body.length := by simp
  have e2 : 1 < (body ++ ['\n']).length := by simp; omega
  have e3 : (body ++ [NUL]).getD (body.length - 2) NUL = body.getD (body.length - 2) NUL := by
    have hi : body.length - 2 < body.length := by omega
    simp [List.getD, List.getElem?_append_left hi]
  unfold strip_terminator
  simp only [e1, e2, true_and, getD_append_len body '\n' [] body.length NUL rfl,
    or_true, if_true, set_append_len body '\n' NUL [] body.length rfl, e3]
  rw [if_neg]
  intro h
  rcases h.2 with h | h
  · exact h2.1 h
  · exact h2.2 h

theorem writer_line_penultimate (key value : List Char) (hv : plain_value value) :
    (key ++ [' ', '=', ' '] ++ value).getD ((key ++ [' ', '=', ' '] ++ value).length - 2) NUL
        ≠ '\r' ∧
    (key ++ [' ', '=', ' '] ++ value).getD ((key ++ [' ', '=', ' '] ++ value).length - 2) NUL
        ≠ '\n' := by
  obtain ⟨hstart, hall⟩ := hv
  have hne : value ≠ [] := by
    intro h; subst h; simp [starts_plain] at hstart
  have hlen : 1 ≤ value.length := List.length_pos.mpr hne
  have e : key ++ [' ', '=', ' '] ++ value = (key ++ [' ', '=']) ++ (' ' :: value) := by simp
  have hmem : (key ++ [' ', '=', ' '] ++ value).getD
      ((key ++ [' ', '=', ' '] ++ value).length - 2) NUL ∈ ' ' :: value := by
    rw [e]
    have hle : (key ++ [' ', '=']).length
        ≤ ((key ++ [' ', '=']) ++ (' ' :: value)).length - 2 := by
      simp only [List.length_append, List.length_cons, List.length_nil]; omega
    have hi : ((key ++ [' ', '=']) ++ (' ' :: value)).length - 2 - (key ++ [' ', '=']).length
        < (' ' :: value).length := by
      simp only [List.length_append, List.length_cons, List.length_nil]; omega
    have hget : ((key ++ [' ', '=']) ++ (' ' :: value)).getD
        (((key ++ [' ', '=']) ++ (' ' :: value)).length - 2) NUL
        = (' ' :: value)[((key ++ [' ', '=']) ++ (' ' :: value)).length - 2
            - (key ++ [' ', '=']).length] := by
      simp only [List.getD_eq_getElem?_getD]
      rw [List.getElem?_append_right hle, List.getElem?_eq_getElem hi]
      rfl
    rw [hget]
    exact List.getElem_mem hi
  rcases List.mem_cons.mp hmem with h | h
  · rw [h]; decide
  · exact ⟨(hall _ h).1, (hall _ h).2.1⟩

theorem tokenize_writer_line (key value : List Char) (hk : plain_key key)
    (hv : plain_value value) :
    tokenize (config_data_writer_line key value) = some (key, value) := by
  obtain ⟨hkne, hkall⟩ := hk
  have hpen := writer_line_penultimate key value hv
  obtain ⟨hstart, hvall⟩ := hv
  obtain ⟨k0, ktail, rfl⟩ := List.exists_cons_of_ne_nil hkne
  cases value with
  | nil => simp [starts_plain] at hstart
  | cons v0 vtail =>
    have hv0 : isspace v0 = false := by simpa [starts_plain] using hstart
    have hk0 := hkall k0 (by simp)
    unfold tokenize config_data_writer_line
    rw [strip_terminator_newline _ (by simp) hpen]
    simp only
    -- the first character starts the key
    have b0 : k0 :: ktail ++ [' ', '=', ' '] ++ v0 :: vtail ++ [NUL]
        = [] ++ k0 :: (ktail ++ ' ' :: '=' :: ' ' :: v0 :: vtail ++ [NUL]) := by simp
    have l0 : (k0 :: ktail ++ [' ', '=', ' '] ++ v0 :: vtail).length
        = (ktail.length + (vtail.length + 4)) + 1 := by
      simp only [List.length_append, List.length_cons, List.length_nil]; omega
    rw [b0, l0]
    have s0 := tok_step_first [] (ktail ++ ' ' :: '=' :: ' ' :: v0 :: vtail ++ [NUL]) k0
      (ktail.length + (vtail.length + 4)) none hk0.1
    simp only [List.length_nil] at s0
    rw [s0]
    -- the rest of the key is passed over
    have b1 : [] ++ k0 :: (ktail ++ ' ' :: '=' :: ' ' :: v0 :: vtail ++ [NUL])
        = [k0] ++ ktail ++ (' ' :: '=' :: ' ' :: v0 :: vtail ++ [NUL]) := by simp
    have s1 := tok_scan_plain ktail [k0] (' ' :: '=' :: ' ' :: v0 :: vtail ++ [NUL])
      (vtail.length + 4) 0
      (fun c hc => ⟨(hkall c (by simp [hc])).1, (hkall c (by simp [hc])).2.1,
        (hkall c (by simp [hc])).2.2.1⟩)
    simp only [List.length_singleton] at s1
    rw [b1, show (0 : Nat) + 1 = 1 from rfl, s1]
    -- blank, delimiter, blank
    have b2 : [k0] ++ ktail ++ (' ' :: '=' :: ' ' :: v0 :: vtail ++ [NUL])
        = (k0 :: ktail) ++ ' ' :: ('=' :: ' ' :: v0 :: vtail ++ [NUL]) := by simp
    have l2 : 1 + ktail.length = (k0 :: ktail).length := by
      simp only [List.length_cons]; omega
    rw [b2, l2, show vtail.length + 4 = (vtail.length + 3) + 1 from rfl,
      tok_step_space (k0 :: ktail) _ ' ' _ 0 none (by decide)]
    have b3 : (k0 :: ktail) ++ NUL :: ('=' :: ' ' :: v0 :: vtail ++ [NUL])
        = (k0 :: ktail ++ [NUL]) ++ DNET_CONF_DELIMITER :: (' ' :: v0 :: vtail ++ [NUL]) := by
      simp [DNET_CONF_DELIMITER]
    have l3 : (k0 :: ktail).length + 1 = (k0 :: ktail ++ [NUL]).length := by simp
    rw [b3, l3, show vtail.length + 3 = (vtail.length + 2) + 1 from rfl,
      tok_step_delimiter (k0 :: ktail ++ [NUL]) _ _ 0]
    have b4 : (k0 :: ktail ++ [NUL]) ++ NUL :: (' ' :: v0 :: vtail ++ [NUL])
        = (k0 :: ktail ++ [NUL, NUL]) ++ ' ' :: (v0 :: vtail ++ [NUL]) := by simp
    have l4 : (k0 :: ktail ++ [NUL]).length + 1 = (k0 :: ktail ++ [NUL, NUL]).length := by simp
    rw [b4, l4, show vtail.length + 2 = (vtail.length + 1) + 1 from rfl,
      tok_step_space (k0 :: ktail ++ [NUL, NUL]) _ ' ' _ 0 (some 0) (by decide)]
    -- the first character of the value ends the loop
    have b5 : (k0 :: ktail ++ [NUL, NUL]) ++ NUL :: (v0 :: vtail ++ [NUL])
        = (k0 :: ktail ++ [NUL, NUL, NUL]) ++ v0 :: (vtail ++ [NUL]) := by simp
    have l5 : (k0 :: ktail ++ [NUL, NUL]).length + 1
        = (k0 :: ktail ++ [NUL, NUL, NUL]).length := by simp
    rw [b5, l5, tok_step_value (k0 :: ktail ++ [NUL, NUL, NUL]) _ v0 _ 0 0 hv0]
    simp only [List.drop_zero, Option.some.injEq, Prod.mk.injEq]
    refine ⟨?_, ?_⟩
    · have e : (k0 :: ktail ++ [NUL, NUL, NUL]) ++ v0 :: (vtail ++ [NUL])
          = (k0 :: ktail) ++ NUL :: ([NUL, NUL] ++ v0 :: (vtail ++ [NUL])) := by simp
      rw [e]
      exact c_str_append_nul _ _ (fun c hc => (hkall c hc).2.2.2)
    · rw [List.drop_left]
      have e : v0 :: (vtail ++ [NUL]) = (v0 :: vtail) ++ NUL :: [] := by simp
      rw [e]
      exact c_str_append_nul _ _ (fun c hc => (hvall c hc).2.2)

end Elliptics

namespace Elliptics

/-! ## Lookup and dispatch -/

theorem set_backend_loop_calls (x : CfgExternals) (g : CfgGlobals) (value : List Char)
    (i : Nat) (bs : List dnet_config_backend) :
    (dnet_set_backend_loop x g value i bs).2.calls = g.calls := by
  induction bs generalizing i with
  | nil => rfl
  | cons b rest ih =>
    unfold dnet_set_backend_loop
    split
    · split <;> rfl
    · exact ih (i + 1)

theorem root_callback_calls (x : CfgExternals) (g : CfgGlobals) (key value : List Char)
    (cb : RootCallback) : (root_callback x g key value cb).2.calls = g.calls := by
  cases cb with
  | dnet_simple_set =>
    simp only [root_callback, dnet_simple_set]
    repeat' split
    all_goals rfl
  | dnet_set_id => rfl
  | dnet_set_addr => rfl
  | dnet_set_remote_addrs => simp only [root_callback, dnet_set_remote_addrs]; split <;> rfl
  | dnet_set_transform_functions =>
    simp only [root_callback, dnet_set_transform_functions]; split <;> rfl
  | dnet_set_backend => exact set_backend_loop_calls x g value 0 g.dnet_cfg_backend
  | dnet_set_log => simp only [root_callback, dnet_set_log]; split <;> rfl

theorem backend_callback_calls (g : CfgGlobals) (j : Nat) (key value : List Char)
    (cb : BackendCallback) : (backend_callback g j key value cb).2.calls = g.calls := by
  unfold backend_callback
  split <;> rfl

theorem find_entry_none {κ : Type} (key : List Char) (i : Nat) (tbl : List (String × κ))
    (h : key ∉ tbl.map (fun e => e.1.toList)) : find_entry key i tbl = none := by
  induction tbl generalizing i with
  | nil => rfl
  | cons e rest ih =>
    simp only [List.map_cons, List.mem_cons, not_or] at h
    simp only [find_entry, h.1, if_false]
    exact ih (i + 1) h.2

theorem find_entry_some {κ : Type} (key : List Char) (i : Nat) (tbl : List (String × κ))
    (h : key ∈ tbl.map (fun e => e.1.toList)) :
    ∃ cb, find_entry key i tbl
        = some (i + first_index key (tbl.map (fun e => e.1.toList)), cb) ∧
      ∃ k, tbl.get? (first_index key (tbl.map (fun e => e.1.toList))) = some (k, cb) ∧
        k.toList = key := by
  induction tbl generalizing i with
  | nil => simp at h
  | cons e rest ih =>
    by_cases he : key = e.1.toList
    · refine ⟨e.2, ?_, e.1, ?_, he.symm⟩
      · simp only [find_entry, he, if_true, List.map_cons, first_index, Nat.add_zero]
      · simp only [List.map_cons, first_index, he, if_true, List.get?_cons_zero]
    · have hr : key ∈ rest.map (fun e => e.1.toList) := by
        simp only [List.map_cons, List.mem_cons] at h
        exact h.resolve_left he
      obtain ⟨cb, h1, k, h2, h3⟩ := ih (i + 1) hr
      refine ⟨cb, ?_, k, ?_, h3⟩
      · simp only [find_entry, he, if_false, h1, List.map_cons, first_index]
        congr 2
        omega
      · simp only [List.map_cons, first_index, he, if_false, List.get?_cons_succ]
        exact h2

theorem dispatch_absent (x : CfgExternals) (g : CfgGlobals) (key value : List Char)
    (h : key ∉ current_keys g) : dispatch x g key value = (0, g) := by
  unfold current_keys at h
  unfold dispatch
  cases hc : g.dnet_cur_cfg_entries with
  | none =>
    rw [hc] at h
    simp only [find_entry_none key 0 _ h]
  | some j =>
    rw [hc] at h
    simp only [find_entry_none key 0 _ h]

theorem dispatch_present (x : CfgExternals) (g : CfgGlobals) (key value : List Char)
    (h : key ∈ current_keys g) :
    (dispatch x g key value).2.calls
      = g.calls ++ [{ backend := g.dnet_cfg_current_backend,
                      entry := first_index key (current_keys g),
                      key := key, value := value, err := (dispatch x g key value).1 }] := by
  unfold current_keys at h ⊢
  unfold dispatch
  cases hc : g.dnet_cur_cfg_entries with
  | none =>
    rw [hc] at h
    obtain ⟨cb, h1, _⟩ := find_entry_some key 0 _ h
    simp only [h1, root_callback_calls, Nat.zero_add]
  | some j =>
    rw [hc] at h
    obtain ⟨cb, h1, _⟩ := find_entry_some key 0 _ h
    simp only [h1, backend_callback_calls, Nat.zero_add]

theorem fgets_take_line (s rest : List Char) (n : Nat) (hs : '\n' ∉ s) (hn : s.length < n) :
    fgets_take n (s ++ '\n' :: rest) = (s ++ ['\n'], rest) := by
  induction s generalizing n with
  | nil =>
    obtain ⟨m, rfl⟩ : ∃ m, n = m + 1 := ⟨n - 1, by simp at hn; omega⟩
    simp [fgets_take]
  | cons c s ih =>
    obtain ⟨m, rfl⟩ : ∃ m, n = m + 1 := ⟨n - 1, by simp at hn; omega⟩
    have hc : c ≠ '\n' := fun h => hs (by simp [h])
    have hs2 : '\n' ∉ s := fun h => hs (by simp [h])
    have hm : s.length < m := by simp at hn; omega
    simp [fgets_take, hc, ih m hs2 hm]

end Elliptics

namespace Elliptics

/-! ## Lines of the configuration file -/

theorem plain_key_not_newline (key : List Char) (hk : plain_key key) : '\n' ∉ key := by
  intro h
  have := (hk.2 _ h).1
  exact absurd this (by decide)

theorem writer_line_c_str (key value : List Char) (hk : plain_key key)
    (hv : plain_value value) :
    c_str (config_data_writer_line key value) = config_data_writer_line key value := by
  apply c_str_no_nul
  intro c hc
  simp only [config_data_writer_line, List.mem_append, List.mem_cons, List.mem_singleton,
    List.not_mem_nil, or_false] at hc
  rcases hc with ((h | h | h | h) | h) | h
  · exact (hk.2 c h).2.2.2
  · rw [h]; decide
  · rw [h]; decide
  · rw [h]; decide
  · exact (hv.2 c h).2.2
  · rw [h]; decide

theorem writer_line_skip (key value : List Char) (hk : plain_key key) :
    dnet_skip_line (config_data_writer_line key value)
      = some (config_data_writer_line key value) := by
  obtain ⟨k0, ktail, rfl⟩ := List.exists_cons_of_ne_nil hk.1
  have h0 := hk.2 k0 (by simp)
  exact skip_line_plain k0 _ h0.1 h0.2.2.1

theorem parse_line_writer_line (x : CfgExternals) (g : CfgGlobals) (key value : List Char)
    (hk : plain_key key) (hv : plain_value value) :
    dnet_parse_line x g (config_data_writer_line key value) = dispatch x g key value := by
  unfold dnet_parse_line
  rw [writer_line_c_str key value hk hv, writer_line_skip key value hk]
  simp only [tokenize_writer_line key value hk hv]

theorem fgets_writer_line (key value rest : List Char) (hk : plain_key key)
    (hv : plain_value value) (hlen : (config_data_writer_line key value).length < 4096) :
    fgets 4096 (config_data_writer_line key value ++ rest)
      = some (config_data_writer_line key value, rest) := by
  have hnl : '\n' ∉ key ++ [' ', '=', ' '] ++ value := by
    simp only [List.mem_append, List.mem_cons, List.mem_singleton, List.not_mem_nil,
      or_false, not_or]
    exact ⟨⟨plain_key_not_newline key hk, by decide, by decide, by decide⟩,
      fun h => (hv.2 _ h).2.1 rfl⟩
  have e : config_data_writer_line key value ++ rest
      = (key ++ [' ', '=', ' '] ++ value) ++ '\n' :: rest := by
    simp [config_data_writer_line]
  have hne : config_data_writer_line key value ++ rest ≠ [] := by
    rw [e]; simp
  unfold fgets
  rw [if_neg hne, e, fgets_take_line _ rest (4096 - 1) hnl]
  · rfl
  · simp only [config_data_writer_line, List.length_append, List.length_cons,
      List.length_nil] at hlen ⊢
    omega

/-- C18: for every line that is empty, all whitespace, or whose first
character that is not whitespace is `#`, `dnet_skip_line` returns `NULL`, and
the parser, given a buffer holding such a line, invokes no handler and leaves
every variable as it was. For every other line `dnet_skip_line` returns the
suffix of the line that starts at its first character that is not
whitespace. -/
theorem C18_blank_and_comment_lines (x : CfgExternals) (g : CfgGlobals)
    (buf line : List Char) :
    (blank_or_comment line → dnet_skip_line line = none) ∧
      (blank_or_comment (c_str buf) → dnet_parse_line x g buf = (0, g)) ∧
      (¬ blank_or_comment line →
        dnet_skip_line line = some (line.dropWhile isspace) ∧
        ∃ c rest, line.dropWhile isspace = c :: rest ∧ isspace c = false ∧
          line = line.takeWhile isspace ++ c :: rest) := by
  have key : ∀ l : List Char, blank_or_comment l → dnet_skip_line l = none := by
    intro l h
    rw [skip_line_dropWhile]
    unfold blank_or_comment at h
    cases hd : l.dropWhile isspace with
    | nil => rfl
    | cons c rest =>
      rw [hd] at h
      simp only at h
      simp [h]
  refine ⟨key line, ?_, ?_⟩
  · intro h
    unfold dnet_parse_line
    rw [key _ h]
  · intro h
    rw [skip_line_dropWhile]
    unfold blank_or_comment at h
    cases hd : line.dropWhile isspace with
    | nil => rw [hd] at h; exact absurd trivial h
    | cons c rest =>
      rw [hd] at h
      simp only at h
      have hsp : isspace c = false := by
        have := List.head_dropWhile_not isspace line (by rw [hd]; simp)
        simpa [hd] using this
      refine ⟨by simp [h], c, rest, rfl, hsp, ?_⟩
      rw [← hd, List.takeWhile_append_dropWhile]

theorem C18_blank_and_comment_lines_witness :
    blank_or_comment "  # join = 1\n".toList ∧
      dnet_skip_line "  # join = 1\n".toList = none ∧
      ¬ blank_or_comment "  join = 1\n".toList ∧
      dnet_skip_line "  join = 1\n".toList = some "join = 1\n".toList := by
  have h1 : blank_or_comment "  # join = 1\n".toList := by decide
  have h2 : ¬ blank_or_comment "  join = 1\n".toList := by decide
  refine ⟨h1, (C18_blank_and_comment_lines ex_cfg_externals ex_globals [] _).1 h1, h2, ?_⟩
  rw [((C18_blank_and_comment_lines ex_cfg_externals ex_globals [] _).2.2 h2).1]
  decide

/-- A line written for the empty string as key, ` = v`, is passed over:
`dnet_skip_line` drops the leading blank, the tokenizer takes `=` for the
key, finds no delimiter after it, and no handler is invoked. The key that the
tokenizer hands to the lookup is never empty, so the empty string names no
option. -/
theorem empty_key_line_passed_over :
    dnet_skip_line (c_str (config_data_writer_line [] ['v'])) = some ['=', ' ', 'v', '\n'] ∧
      tokenize ['=', ' ', 'v', '\n'] = none ∧
      (dnet_parse_line ex_cfg_externals ex_globals (config_data_writer_line [] ['v'])).2.calls
        = [] := by
  refine ⟨by decide, by decide, by decide⟩

end Elliptics

namespace Elliptics

/-! ## The root-level key table -/

theorem dispatch_root (x : CfgExternals) (g : CfgGlobals) (key value : List Char)
    (i : Nat) (cb : RootCallback) (hroot : g.dnet_cur_cfg_entries = none)
    (hf : find_entry key 0 dnet_cfg_entries = some (i, cb)) :
    dispatch x g key value
      = ((root_callback x g key value cb).1,
         { (root_callback x g key value cb).2 with
           calls := (root_callback x g key value cb).2.calls ++
             [{ backend := g.dnet_cfg_current_backend, entry := i, key := key, value := value,
                err := (root_callback x g key value cb).1 }] }) := by
  unfold dispatch
  rw [hroot]
  simp only [hf]

theorem root_keys_present_plain (key : String) (h : key ∈ root_keys_present) :
    plain_key key.toList ∧ key.toList ∈ dnet_cfg_entries.map (fun e => e.1.toList) := by
  simp only [root_keys_present, List.mem_cons, List.mem_singleton, List.not_mem_nil,
    or_false] at h
  rcases h with h | h | h | h | h | h | h <;> subst h <;> decide

theorem root_keys_absent_plain (key : String) (h : key ∈ root_keys_absent) :
    plain_key key.toList ∧ key.toList ∉ dnet_cfg_entries.map (fun e => e.1.toList) := by
  simp only [root_keys_absent, List.mem_cons, List.mem_singleton, List.not_mem_nil,
    or_false] at h
  rcases h with h | h | h | h | h | h | h | h | h | h | h | h | h <;> subst h <;> decide

/-- C16 (as stated, refuted): `log_level` is one of the root-level keys of the
list, yet the line `log_level = 2` read at root level invokes no handler and
records nothing: the table `dnet_cfg_entries` has no entry for it. -/
theorem C16_log_level_counterexample :
    "log_level" ∈ root_keys_absent ∧
      ex_globals.dnet_cur_cfg_entries = none ∧
      (dnet_parse_line ex_cfg_externals ex_globals
          (config_data_writer_line "log_level".toList "2".toList)).1 = 0 ∧
      (dnet_parse_line ex_cfg_externals ex_globals
          (config_data_writer_line "log_level".toList "2".toList)).2.calls = [] ∧
      (dnet_parse_line ex_cfg_externals ex_globals
          (config_data_writer_line "log_level".toList "2".toList)).2.dnet_cfg_state
        = ex_globals.dnet_cfg_state := by
  refine ⟨by decide, rfl, by decide, by decide, by decide⟩

theorem int_of_ulong_small (v : Nat) (h : v < 2 ^ 31) : int_of_ulong v = (v : Int) := by
  unfold int_of_ulong
  have e : v % 2 ^ 32 = v := Nat.mod_eq_of_lt (by omega)
  rw [e, if_pos h]

/-- C16 (amended): of the root-level keys listed, the table `dnet_cfg_entries`
holds `log`, `join`, `addr`, `remote`, `wait_timeout`, `io_thread_num` and
`daemon`. A line `key = value` for one of these, read while the root table is
current, invokes exactly one callback, that of the key, with that value:
`dnet_simple_set` stores `strtoul(value)`, converted to the type of the
destination, in the field of `join`, `wait_timeout` or `io_thread_num` or in
the `int` `dnet_daemon_mode` (which holds `strtoul(value)` itself when that
is below 2^31, and its low 32 bits as a signed number otherwise),
`dnet_set_addr` stores what `dnet_parse_addr` makes of the value,
`dnet_set_remote_addrs` keeps a copy of the value when it can be allocated,
and `dnet_set_log` records the log file when it can be opened. The other keys
listed (`log_level`, `flags`, `group`,
`check_timeout`, `nonblocking_io_thread_num`, `net_thread_num`, `history`,
`auth_cookie`, `bg_ionice_class`, `bg_ionice_prio`, `server_net_prio`,
`client_net_prio`, `cache_size`) are not in the table: their lines invoke no
callback and change nothing. -/
theorem C16_root_keys_of_the_table (x : CfgExternals) (g : CfgGlobals) (key : String)
    (value : List Char) (hroot : g.dnet_cur_cfg_entries = none) (hv : plain_value value) :
    (key ∈ root_keys_present →
      (dnet_parse_line x g (config_data_writer_line key.toList value)).2.calls
        = g.calls ++ [{ backend := g.dnet_cfg_current_backend,
                        entry := first_index key.toList (current_keys g),
                        key := key.toList, value := value,
                        err := (dnet_parse_line x g
                          (config_data_writer_line key.toList value)).1 }]) ∧
      (key ∈ root_keys_absent →
        dnet_parse_line x g (config_data_writer_line key.toList value) = (0, g)) ∧
      (dnet_parse_line x g (config_data_writer_line "join".toList value)).2.dnet_cfg_state.join
        = x.dnet_config_field "join" (x.strtoul value) ∧
      (dnet_parse_line x g
          (config_data_writer_line "wait_timeout".toList value)).2.dnet_cfg_state.wait_timeout
        = x.dnet_config_field "wait_timeout" (x.strtoul value) ∧
      (dnet_parse_line x g
          (config_data_writer_line "io_thread_num".toList value)).2.dnet_cfg_state.io_thread_num
        = x.dnet_config_field "io_thread_num" (x.strtoul value) ∧
      (dnet_parse_line x g (config_data_writer_line "daemon".toList value)).2.dnet_daemon_mode
        = int_of_ulong (x.strtoul value) ∧
      (x.strtoul value < 2 ^ 31 →
        (dnet_parse_line x g (config_data_writer_line "daemon".toList value)).2.dnet_daemon_mode
          = (x.strtoul value : Int)) ∧
      (dnet_parse_line x g (config_data_writer_line "addr".toList value)).2.dnet_cfg_state
        = (x.dnet_parse_addr value g.dnet_cfg_state).2 ∧
      (x.strdup_ok value = true →
        (dnet_parse_line x g (config_data_writer_line "remote".toList value)).2.dnet_cfg_remotes
          = some value ∧
        (dnet_parse_line x g (config_data_writer_line "remote".toList value)).2.remotes_freed
          = false) ∧
      (x.fopen_errno value = 0 →
        (dnet_parse_line x g
            (config_data_writer_line "log".toList value)).2.dnet_cfg_state.log_private
          = some value) := by
  have hkeys : current_keys g = dnet_cfg_entries.map (fun e => e.1.toList) := by
    unfold current_keys; rw [hroot]
  have hdaemon :
      (dnet_parse_line x g (config_data_writer_line "daemon".toList value)).2.dnet_daemon_mode
        = int_of_ulong (x.strtoul value) := by
    rw [parse_line_writer_line x g _ value (by decide) hv,
      dispatch_root x g _ value 11 RootCallback.dnet_simple_set hroot (by decide)]
    rfl
  refine ⟨?_, ?_, ?_, ?_, ?_, hdaemon, ?_, ?_, ?_, ?_⟩
  · intro hin
    obtain ⟨hk, hmem⟩ := root_keys_present_plain key hin
    rw [parse_line_writer_line x g _ value hk hv]
    exact dispatch_present x g _ value (by rw [hkeys]; exact hmem)
  · intro hin
    obtain ⟨hk, hmem⟩ := root_keys_absent_plain key hin
    rw [parse_line_writer_line x g _ value hk hv]
    exact dispatch_absent x g _ value (by rw [hkeys]; exact hmem)
  · rw [parse_line_writer_line x g _ value (by decide) hv,
      dispatch_root x g _ value 8 RootCallback.dnet_simple_set hroot (by decide)]
    rfl
  · rw [parse_line_writer_line x g _ value (by decide) hv,
      dispatch_root x g _ value 3 RootCallback.dnet_simple_set hroot (by decide)]
    rfl
  · rw [parse_line_writer_line x g _ value (by decide) hv,
      dispatch_root x g _ value 1 RootCallback.dnet_simple_set hroot (by decide)]
    rfl
  · intro hsmall
    rw [hdaemon]
    exact int_of_ulong_small _ hsmall
  · rw [parse_line_writer_line x g _ value (by decide) hv,
      dispatch_root x g _ value 6 RootCallback.dnet_set_addr hroot (by decide)]
    rfl
  · intro hdup
    rw [parse_line_writer_line x g _ value (by decide) hv,
      dispatch_root x g _ value 7 RootCallback.dnet_set_remote_addrs hroot (by decide)]
    simp [root_callback, dnet_set_remote_addrs, hdup]
  · intro hopen
    rw [parse_line_writer_line x g _ value (by decide) hv,
      dispatch_root x g _ value 12 RootCallback.dnet_set_log hroot (by decide)]
    simp [root_callback, dnet_set_log, hopen]

set_option maxRecDepth 100000 in
theorem C16_root_keys_of_the_table_witness :
    ex_globals.dnet_cur_cfg_entries = none ∧ plain_value "20".toList ∧
      "wait_timeout" ∈ root_keys_present ∧
      (dnet_parse_line ex_cfg_externals ex_globals
          (config_data_writer_line "wait_timeout".toList "20".toList)).2.calls.length = 1 ∧
      "cache_size" ∈ root_keys_absent ∧
      (dnet_parse_line ex_cfg_externals ex_globals
          (config_data_writer_line "cache_size".toList "20".toList)).2.calls.length = 0 ∧
      (dnet_parse_line ex_cfg_externals ex_globals
          (config_data_writer_line "daemon".toList "20".toList)).2.dnet_daemon_mode = 2 ∧
      ex_cfg_externals_big.strtoul "4294967296".toList = 4294967296 ∧
      (dnet_parse_line ex_cfg_externals_big ex_globals
          (config_data_writer_line "daemon".toList "4294967296".toList)).2.dnet_daemon_mode
        = 0 := by
  have hv : plain_value "20".toList := by decide
  have h := C16_root_keys_of_the_table ex_cfg_externals ex_globals "wait_timeout"
    "20".toList rfl hv
  have h2 := C16_root_keys_of_the_table ex_cfg_externals ex_globals "cache_size"
    "20".toList rfl hv
  have h3 := C16_root_keys_of_the_table ex_cfg_externals_big ex_globals "daemon"
    "4294967296".toList rfl (by decide)
  refine ⟨rfl, hv, by decide, ?_, by decide, ?_, ?_, rfl, ?_⟩
  · rw [h.1 (by decide)]; rfl
  · rw [h2.2.1 (by decide)]; rfl
  · rw [h.2.2.2.2.2.1]; decide
  · rw [h3.2.2.2.2.2.1]; decide

end Elliptics

namespace Elliptics

/-! ## The read loop -/

theorem fgets_take_length (n : Nat) (input : List Char) :
    (fgets_take n input).2.length ≤ input.length ∧
      (0 < n → input ≠ [] → (fgets_take n input).2.length < input.length) := by
  induction input generalizing n with
  | nil => cases n <;> simp [fgets_take]
  | cons c rest ih =>
    cases n with
    | zero => simp [fgets_take]
    | succ m =>
      by_cases hc : c = '\n'
      · simp [fgets_take, hc]
      · have := (ih m).1
        simp only [fgets_take, hc, if_false, List.length_cons]
        exact ⟨by omega, fun _ _ => by omega⟩

theorem parse_loop_unfold (x : CfgExternals) (F : Nat) (input : List Char) (g : CfgGlobals)
    (hnil : input ≠ []) :
    parse_loop x (F + 1) input g
      = if (dnet_parse_line x g (fgets_take (4096 - 1) input).1).1 ≠ 0 then
          dnet_parse_line x g (fgets_take (4096 - 1) input).1
        else parse_loop x F (fgets_take (4096 - 1) input).2
          (dnet_parse_line x g (fgets_take (4096 - 1) input).1).2 := by
  have hfg : fgets 4096 input = some (fgets_take (4096 - 1) input) := by
    simp [fgets, hnil]
  simp only [parse_loop, hfg]

theorem parse_loop_fuel_eq (x : CfgExternals) (F F2 : Nat) (input : List Char)
    (g : CfgGlobals) (hF : input.length < F) (hF2 : input.length < F2) :
    parse_loop x F input g = parse_loop x F2 input g := by
  induction F generalizing input g F2 with
  | zero => omega
  | succ F ih =>
    obtain ⟨G, rfl⟩ : ∃ G, F2 = G + 1 := ⟨F2 - 1, by omega⟩
    by_cases hnil : input = []
    · subst hnil
      simp [parse_loop, fgets]
    · have hlt := (fgets_take_length (4096 - 1) input).2 (by decide) hnil
      rw [parse_loop_unfold x F input g hnil, parse_loop_unfold x G input g hnil,
        ih G _ _ (by omega) (by omega)]

theorem parse_loop_fuel (x : CfgExternals) (F : Nat) (input : List Char) (g : CfgGlobals)
    (hF : input.length + 1 ≤ F) :
    parse_loop x F input g = parse_loop x (input.length + 1) input g :=
  parse_loop_fuel_eq x F _ input g (by omega) (by omega)

theorem parse_loop_step (x : CfgExternals) (input : List Char) (g : CfgGlobals)
    (hnil : input ≠ []) :
    parse_loop x (input.length + 1) input g
      = if (dnet_parse_line x g (fgets_take (4096 - 1) input).1).1 ≠ 0 then
          dnet_parse_line x g (fgets_take (4096 - 1) input).1
        else parse_loop x ((fgets_take (4096 - 1) input).2.length + 1)
          (fgets_take (4096 - 1) input).2
          (dnet_parse_line x g (fgets_take (4096 - 1) input).1).2 := by
  have hlt := (fgets_take_length (4096 - 1) input).2 (by decide) hnil
  have hfg : fgets 4096 input = some (fgets_take (4096 - 1) input) := by
    simp [fgets, hnil]
  have e2 : parse_loop x (input.length + 1) input g
      = if (dnet_parse_line x g (fgets_take (4096 - 1) input).1).1 ≠ 0 then
          dnet_parse_line x g (fgets_take (4096 - 1) input).1
        else parse_loop x input.length (fgets_take (4096 - 1) input).2
          (dnet_parse_line x g (fgets_take (4096 - 1) input).1).2 := by
    simp only [parse_loop, hfg]
  rw [e2, parse_loop_fuel x input.length _ _ (by omega)]

theorem parse_loop_nil (x : CfgExternals) (F : Nat) (g : CfgGlobals) :
    parse_loop x F [] g = (0, g) := by
  cases F <;> simp [parse_loop, fgets]

theorem fgets_take_append (n : Nat) (pre rest : List Char)
    (hpre : pre.getLast? = some '\n') :
    fgets_take n (pre ++ rest) = ((fgets_take n pre).1, (fgets_take n pre).2 ++ rest) ∧
      ((fgets_take n pre).2 = [] ∨ (fgets_take n pre).2.getLast? = some '\n') := by
  induction pre generalizing n with
  | nil => simp at hpre
  | cons c pre2 ih =>
    cases n with
    | zero => exact ⟨by simp [fgets_take], Or.inr (by simpa [fgets_take] using hpre)⟩
    | succ m =>
      by_cases hc : c = '\n'
      · refine ⟨by simp [fgets_take, hc], ?_⟩
        simp only [fgets_take, hc, if_true]
        cases pre2 with
        | nil => exact Or.inl rfl
        | cons d pre3 =>
          right
          rw [List.getLast?_cons_cons] at hpre
          exact hpre
      · have hpre2 : pre2.getLast? = some '\n' := by
          cases pre2 with
          | nil =>
            simp only [List.getLast?_singleton, Option.some.injEq] at hpre
            exact absurd hpre hc
          | cons d pre3 =>
            rw [List.getLast?_cons_cons] at hpre
            exact hpre
        have h := ih m hpre2
        refine ⟨?_, ?_⟩
        · have e : fgets_take (m + 1) (c :: (pre2 ++ rest))
              = (c :: (fgets_take m (pre2 ++ rest)).1, (fgets_take m (pre2 ++ rest)).2) := by
            simp only [fgets_take, hc, if_false]
          rw [List.cons_append, e, h.1]
          simp only [fgets_take, hc, if_false]
        · simp only [fgets_take, hc, if_false]
          exact h.2

theorem parse_loop_append_aux (x : CfgExternals) (rest : List Char) (n : Nat) :
    ∀ (pre : List Char) (g : CfgGlobals), pre.length = n →
      (pre = [] ∨ pre.getLast? = some '\n') →
      (parse_loop x (pre.length + 1) pre g).1 = 0 →
      parse_loop x ((pre ++ rest).length + 1) (pre ++ rest) g
        = parse_loop x (rest.length + 1) rest (parse_loop x (pre.length + 1) pre g).2 := by
  induction n using Nat.strong_induction_on with
  | _ n ih =>
    intro pre g hn hpre hgo
    rcases hpre with hnil | hlast
    · subst hnil
      simp [parse_loop_nil]
    · have hne : pre ≠ [] := by
        intro h; subst h; simp at hlast
      have hne2 : pre ++ rest ≠ [] := by simp [hne]
      have hap := fgets_take_append (4096 - 1) pre rest hlast
      have hlt := (fgets_take_length (4096 - 1) pre).2 (by decide) hne
      rw [parse_loop_step x pre g hne] at hgo ⊢
      rw [parse_loop_step x (pre ++ rest) g hne2, hap.1]
      by_cases herr : (dnet_parse_line x g (fgets_take (4096 - 1) pre).1).1 ≠ 0
      · rw [if_pos herr] at hgo
        exact absurd hgo herr
      · rw [if_neg herr] at hgo ⊢
        rw [if_neg herr]
        exact ih _ (by omega) _ _ rfl hap.2 hgo

theorem parse_loop_append (x : CfgExternals) (pre rest : List Char) (g : CfgGlobals)
    (hpre : pre = [] ∨ pre.getLast? = some '\n')
    (hgo : (parse_loop x (pre.length + 1) pre g).1 = 0) :
    parse_loop x ((pre ++ rest).length + 1) (pre ++ rest) g
      = parse_loop x (rest.length + 1) rest (parse_loop x (pre.length + 1) pre g).2 :=
  parse_loop_append_aux x rest pre.length pre g rfl hpre hgo

end Elliptics

namespace Elliptics

/-! ## Selecting a backend -/

theorem set_backend_loop_missing (x : CfgExternals) (g : CfgGlobals) (value : List Char)
    (i : Nat) (bs : List dnet_config_backend) (h : ∀ p ∈ bs, p.name.toList ≠ value) :
    dnet_set_backend_loop x g value i bs = (-ENOENT, g) := by
  induction bs generalizing i with
  | nil => rfl
  | cons b rest ih =>
    have hb : ¬ value = b.name.toList := fun e => h b (by simp) e.symm
    simp only [dnet_set_backend_loop, hb, if_false]
    exact ih (i + 1) (fun p hp => h p (by simp [hp]))

theorem set_backend_loop_skip (x : CfgExternals) (g : CfgGlobals) (value : List Char)
    (i : Nat) (bpre rest : List dnet_config_backend)
    (h : ∀ p ∈ bpre, p.name.toList ≠ value) :
    dnet_set_backend_loop x g value i (bpre ++ rest)
      = dnet_set_backend_loop x g value (i + bpre.length) rest := by
  induction bpre generalizing i with
  | nil => simp
  | cons b bpre ih =>
    have hb : ¬ value = b.name.toList := fun e => h b (by simp) e.symm
    simp only [List.cons_append, dnet_set_backend_loop, hb, if_false, List.length_cons]
    have e := ih (i + 1) (fun p hp => h p (by simp [hp]))
    rw [show bpre.append rest = bpre ++ rest from rfl, e]
    congr 1
    omega

theorem set_backend_found (x : CfgExternals) (g : CfgGlobals) (value : List Char)
    (bpre bpost : List dnet_config_backend) (b : dnet_config_backend)
    (hg : g.dnet_cfg_backend = bpre ++ b :: bpost)
    (hpre : ∀ p ∈ bpre, p.name.toList ≠ value) (hb : b.name.toList = value) :
    dnet_set_backend x g value
      = if b.size ≠ 0 ∧ x.malloc_ok b.size = false then
          (-ENOMEM, { g with dnet_cfg_backend := bpre ++ { b with data := [] } :: bpost })
        else
          (0, { g with
                  dnet_cfg_backend := bpre ++
                    { b with data := if b.size ≠ 0 then List.replicate b.size 0 else b.data }
                      :: bpost,
                  dnet_cur_cfg_entries := some bpre.length,
                  dnet_cfg_current_backend := some bpre.length }) := by
  unfold dnet_set_backend
  rw [hg, set_backend_loop_skip x g value 0 bpre _ hpre]
  simp only [dnet_set_backend_loop, hb, if_true, Nat.zero_add, hg,
    set_append_len bpre b _ bpost bpre.length rfl]

theorem dispatch_backend (x : CfgExternals) (g : CfgGlobals) (key value : List Char)
    (j i : Nat) (b2 : dnet_config_backend) (cb : BackendCallback)
    (hcur : g.dnet_cur_cfg_entries = some j) (hcb : g.dnet_cfg_current_backend = some j)
    (hget : g.dnet_cfg_backend.get? j = some b2)
    (hf : find_entry key 0 b2.ent = some (i, cb)) :
    dispatch x g key value
      = ((cb b2.data key value).1,
         { g with
           dnet_cfg_backend := g.dnet_cfg_backend.set j
             { b2 with data := (cb b2.data key value).2 },
           calls := g.calls ++
             [{ backend := g.dnet_cfg_current_backend, entry := i, key := key,
                value := value, err := (cb b2.data key value).1 }] }) := by
  have hj : g.dnet_cfg_current_backend.getD j = j := by rw [hcb]; rfl
  unfold dispatch
  rw [hcur]
  simp only [hget, Option.elim, hf, hj, backend_callback]
  simp only [hcur]

theorem parse_line_backend_mode (x : CfgExternals) (g : CfgGlobals) (buf : List Char)
    (j : Nat) (b : dnet_config_backend) (hm : backend_mode g j b) :
    backend_mode (dnet_parse_line x g buf).2 j b ∧
      ∃ later, (dnet_parse_line x g buf).2.calls = g.calls ++ later ∧
        ∀ c ∈ later, c.backend = some j ∧ c.key ∈ b.ent.map (fun e => e.1.toList) := by
  have triv : backend_mode g j b ∧ ∃ later, g.calls = g.calls ++ later ∧
      ∀ c ∈ later, c.backend = some j ∧ c.key ∈ b.ent.map (fun e => e.1.toList) :=
    ⟨hm, [], (List.append_nil _).symm, fun c hc => absurd hc (List.not_mem_nil c)⟩
  unfold dnet_parse_line
  cases dnet_skip_line (c_str buf) with
  | none => exact triv
  | some ptr =>
    dsimp only
    cases tokenize ptr with
    | none => exact triv
    | some kv =>
      obtain ⟨hcur, hcb, b2, hget, hname, hent, hsize, hinit⟩ := hm
      dsimp only
      have hkeys : current_keys g = b.ent.map (fun e => e.1.toList) := by
        unfold current_keys
        rw [hcur]
        simp only [hget, Option.elim, hent]
      by_cases hin : kv.1 ∈ current_keys g
      · rw [hkeys, ← hent] at hin
        obtain ⟨cb, hf, _⟩ := find_entry_some kv.1 0 b2.ent hin
        rw [dispatch_backend x g kv.1 kv.2 j _ b2 cb hcur hcb hget hf]
        have hlt : j < g.dnet_cfg_backend.length := by
          rcases Nat.lt_or_ge j g.dnet_cfg_backend.length with h | h
          · exact h
          · rw [List.get?_eq_none.mpr h] at hget; exact absurd hget (by simp)
        refine ⟨⟨hcur, hcb, { b2 with data := (cb b2.data kv.1 kv.2).2 }, ?_,
          hname, hent, hsize, hinit⟩, _, rfl, ?_⟩
        · simp only [List.get?_eq_getElem?]
          rw [List.getElem?_set_self hlt]
        · intro c hc
          simp only [List.mem_singleton] at hc
          subst hc
          rw [hent] at hin
          exact ⟨hcb, hin⟩
      · rw [dispatch_absent x g kv.1 kv.2 hin]
        exact ⟨⟨hcur, hcb, b2, hget, hname, hent, hsize, hinit⟩, [], (List.append_nil _).symm,
          fun c hc => absurd hc (List.not_mem_nil c)⟩

theorem parse_loop_backend_mode (x : CfgExternals) (F : Nat) (input : List Char)
    (g : CfgGlobals) (j : Nat) (b : dnet_config_backend) (hm : backend_mode g j b) :
    backend_mode (parse_loop x F input g).2 j b ∧
      ∃ later, (parse_loop x F input g).2.calls = g.calls ++ later ∧
        ∀ c ∈ later, c.backend = some j ∧ c.key ∈ b.ent.map (fun e => e.1.toList) := by
  induction F generalizing input g with
  | zero =>
    exact ⟨hm, [], (List.append_nil _).symm, fun c hc => absurd hc (List.not_mem_nil c)⟩
  | succ F ih =>
    by_cases hnil : input = []
    · subst hnil
      rw [parse_loop_nil]
      exact ⟨hm, [], (List.append_nil _).symm, fun c hc => absurd hc (List.not_mem_nil c)⟩
    · rw [parse_loop_unfold x F input g hnil]
      obtain ⟨hm1, l1, hc1, hl1⟩ :=
        parse_line_backend_mode x g (fgets_take (4096 - 1) input).1 j b hm
      split
      · exact ⟨hm1, l1, hc1, hl1⟩
      · obtain ⟨hm2, l2, hc2, hl2⟩ := ih (fgets_take (4096 - 1) input).2 _ hm1
        refine ⟨hm2, l1 ++ l2, ?_, ?_⟩
        · rw [hc2, hc1, List.append_assoc]
        · intro c hc
          rcases List.mem_append.mp hc with h | h
          · exact hl1 c h
          · exact hl2 c h

end Elliptics
namespace Elliptics

/-! ## The outcome of `dnet_parse_config` -/

theorem set_backend_loop_not_freed (x : CfgExternals) (g : CfgGlobals) (value : List Char)
    (i : Nat) (bs : List dnet_config_backend) (h : not_freed g) :
    not_freed (dnet_set_backend_loop x g value i bs).2 := by
  induction bs generalizing i with
  | nil => exact h
  | cons b rest ih =>
    simp only [dnet_set_backend_loop]
    split
    · split
      · exact h
      · exact h
    · exact ih (i + 1)

theorem root_callback_not_freed (x : CfgExternals) (g : CfgGlobals) (key value : List Char)
    (cb : RootCallback) (h : not_freed g) : not_freed (root_callback x g key value cb).2 := by
  cases cb with
  | dnet_simple_set =>
    simp only [root_callback, dnet_simple_set]
    repeat' split
    all_goals exact h
  | dnet_set_id => exact h
  | dnet_set_addr => exact h
  | dnet_set_remote_addrs =>
    simp only [root_callback, dnet_set_remote_addrs]
    split
    · exact ⟨rfl, h.2⟩
    · exact ⟨rfl, h.2⟩
  | dnet_set_transform_functions =>
    simp only [root_callback, dnet_set_transform_functions]
    split
    · exact ⟨h.1, rfl⟩
    · exact ⟨h.1, rfl⟩
  | dnet_set_backend => exact set_backend_loop_not_freed x g value 0 g.dnet_cfg_backend h
  | dnet_set_log =>
    simp only [root_callback, dnet_set_log]
    split
    · exact h
    · exact h

theorem backend_callback_not_freed (g : CfgGlobals) (j : Nat) (key value : List Char)
    (cb : BackendCallback) (h : not_freed g) :
    not_freed (backend_callback g j key value cb).2 := by
  unfold backend_callback
  split
  · exact h
  · exact h

theorem dispatch_not_freed (x : CfgExternals) (g : CfgGlobals) (key value : List Char)
    (h : not_freed g) : not_freed (dispatch x g key value).2 := by
  unfold dispatch
  split
  · split
    · exact h
    · exact root_callback_not_freed x g key value _ h
  · split
    · exact h
    · exact backend_callback_not_freed g _ key value _ h

theorem parse_line_not_freed (x : CfgExternals) (g : CfgGlobals) (buf : List Char)
    (h : not_freed g) : not_freed (dnet_parse_line x g buf).2 := by
  unfold dnet_parse_line
  split
  · exact h
  · split
    · exact h
    · exact dispatch_not_freed x g _ _ h

theorem parse_loop_not_freed (x : CfgExternals) (F : Nat) (input : List Char)
    (g : CfgGlobals) (h : not_freed g) : not_freed (parse_loop x F input g).2 := by
  induction F generalizing input g with
  | zero => exact h
  | succ F ih =>
    by_cases hnil : input = []
    · subst hnil
      rw [parse_loop_nil]
      exact h
    · rw [parse_loop_unfold x F input g hnil]
      split
      · exact parse_line_not_freed x g _ h
      · exact ih _ _ (parse_line_not_freed x g _ h)

theorem state_after_not_freed (x : CfgExternals) (g : CfgGlobals) (input : List Char)
    (h : not_freed g) : not_freed (state_after x g input) :=
  parse_loop_not_freed x _ input _ h

theorem err_out_free_not_freed (g : CfgGlobals) (h : not_freed g) :
    err_out_free g = some (mark_freed g) := by
  unfold err_out_free
  rw [if_neg]
  rw [h.1, h.2]
  simp

theorem parse_failure_not_freed (err : Int) (i : Option Nat) (g : CfgGlobals)
    (h : not_freed g) :
    parse_failure err i g
      = some { node := none, err := err, initialised := i, globals := mark_freed g } := by
  unfold parse_failure
  rw [err_out_free_not_freed g h]
  rfl

/-- What one line adds to the list of callbacks: nothing, or one call whose
value is the value of `err` after the line. -/
theorem parse_line_trace (x : CfgExternals) (g : CfgGlobals) (buf : List Char) :
    ((dnet_parse_line x g buf).1 = 0 ∧ (dnet_parse_line x g buf).2.calls = g.calls) ∨
      ∃ c, (dnet_parse_line x g buf).2.calls = g.calls ++ [c] ∧
        c.err = (dnet_parse_line x g buf).1 := by
  have triv : ((0, g) : Int × CfgGlobals).1 = 0 ∧ ((0, g) : Int × CfgGlobals).2.calls = g.calls :=
    ⟨rfl, rfl⟩
  unfold dnet_parse_line
  cases dnet_skip_line (c_str buf) with
  | none => exact Or.inl triv
  | some ptr =>
    dsimp only
    cases tokenize ptr with
    | none => exact Or.inl triv
    | some kv =>
      dsimp only
      by_cases hin : kv.1 ∈ current_keys g
      · exact Or.inr ⟨_, dispatch_present x g kv.1 kv.2 hin, rfl⟩
      · rw [dispatch_absent x g kv.1 kv.2 hin]
        exact Or.inl triv

/-- The callbacks invoked by the read loop: every one but the last returned 0,
and the value of `err` the loop ends with is 0 when the last one returned 0
too (or none was invoked), and the value the last one returned otherwise. -/
theorem parse_loop_trace (x : CfgExternals) (F : Nat) (input : List Char) (g : CfgGlobals) :
    ∃ later, (parse_loop x F input g).2.calls = g.calls ++ later ∧
      ((parse_loop x F input g).1 = 0 → ∀ c ∈ later, c.err = 0) ∧
      ((parse_loop x F input g).1 ≠ 0 → ∃ pre c, later = pre ++ [c] ∧
        (∀ d ∈ pre, d.err = 0) ∧ c.err = (parse_loop x F input g).1) := by
  induction F generalizing input g with
  | zero =>
    exact ⟨[], (List.append_nil _).symm, fun _ c hc => absurd hc (List.not_mem_nil c),
      fun h => absurd rfl h⟩
  | succ F ih =>
    by_cases hnil : input = []
    · subst hnil
      rw [parse_loop_nil]
      exact ⟨[], (List.append_nil _).symm, fun _ c hc => absurd hc (List.not_mem_nil c),
        fun h => absurd rfl h⟩
    · rw [parse_loop_unfold x F input g hnil]
      by_cases he : (dnet_parse_line x g (fgets_take (4096 - 1) input).1).1 ≠ 0
      · rw [if_pos he]
        rcases parse_line_trace x g (fgets_take (4096 - 1) input).1 with ⟨h0, _⟩ | ⟨c, hc, hce⟩
        · exact absurd h0 he
        · exact ⟨[c], hc, fun h => absurd h he,
            fun _ => ⟨[], c, rfl, fun d hd => absurd hd (List.not_mem_nil d), hce⟩⟩
      · rw [if_neg he]
        have he0 : (dnet_parse_line x g (fgets_take (4096 - 1) input).1).1 = 0 :=
          not_not.mp he
        obtain ⟨l2, hc2, hz2, hn2⟩ := ih (fgets_take (4096 - 1) input).2
          (dnet_parse_line x g (fgets_take (4096 - 1) input).1).2
        have hl1 : ∃ l1, (dnet_parse_line x g (fgets_take (4096 - 1) input).1).2.calls
            = g.calls ++ l1 ∧ ∀ c ∈ l1, c.err = 0 := by
          rcases parse_line_trace x g (fgets_take (4096 - 1) input).1 with
            ⟨_, h1⟩ | ⟨c, hc, hce⟩
          · exact ⟨[], by rw [h1, List.append_nil], fun c hc => absurd hc (List.not_mem_nil c)⟩
          · refine ⟨[c], hc, ?_⟩
            intro d hd
            rw [List.mem_singleton] at hd
            rw [hd, hce, he0]
        obtain ⟨l1, hc1, hz1⟩ := hl1
        refine ⟨l1 ++ l2, by rw [hc2, hc1, List.append_assoc], ?_, ?_⟩
        · intro h c hc
          rcases List.mem_append.mp hc with h1 | h1
          · exact hz1 c h1
          · exact hz2 h c h1
        · intro h
          obtain ⟨pre, c, hl, hpre, hce⟩ := hn2 h
          refine ⟨l1 ++ pre, c, by rw [hl, List.append_assoc], ?_, hce⟩
          intro d hd
          rcases List.mem_append.mp hd with h1 | h1
          · exact hz1 d h1
          · exact hpre d h1

theorem parse_config_error (x : CfgExternals) (e : Int) (input : List Char) (g : CfgGlobals)
    (hfresh : not_freed g)
    (h : (parse_loop x (input.length + 1) input
      { g with dnet_cfg_state := { g.dnet_cfg_state with log_is_common := true } }).1 ≠ 0) :
    dnet_parse_config x e (some input) g
      = some { node := none,
               err := (parse_loop x (input.length + 1) input
                 { g with dnet_cfg_state :=
                     { g.dnet_cfg_state with log_is_common := true } }).1,
               initialised := none,
               globals := mark_freed (state_after x g input) } := by
  unfold dnet_parse_config
  dsimp only
  rw [if_pos h]
  exact parse_failure_not_freed _ _ _ (state_after_not_freed x g input hfresh)

theorem parse_config_no_backend (x : CfgExternals) (e : Int) (input : List Char)
    (g : CfgGlobals) (hfresh : not_freed g)
    (h : (parse_loop x (input.length + 1) input
      { g with dnet_cfg_state := { g.dnet_cfg_state with log_is_common := true } }).1 = 0)
    (hj : (state_after x g input).dnet_cfg_current_backend = none) :
    dnet_parse_config x e (some input) g
      = some { node := none, err := -EINVAL, initialised := none,
               globals := mark_freed (state_after x g input) } := by
  unfold state_after at hj
  unfold dnet_parse_config
  dsimp only
  rw [if_neg (by simp [h]), hj]
  exact parse_failure_not_freed _ _ _ (state_after_not_freed x g input hfresh)

/-- When the read loop ends without an error and a backend is current, the
call returns, the `init` of that backend has been called, and the variables
are those the loop left, up to the strings freed on a failure. -/
theorem parse_config_initialised (x : CfgExternals) (e : Int) (input : List Char)
    (g : CfgGlobals) (j : Nat) (hfresh : not_freed g)
    (h : (parse_loop x (input.length + 1) input
      { g with dnet_cfg_state := { g.dnet_cfg_state with log_is_common := true } }).1 = 0)
    (hj : (state_after x g input).dnet_cfg_current_backend = some j) :
    ∃ r, dnet_parse_config x e (some input) g = some r ∧ r.initialised = some j ∧
      (r.globals = state_after x g input ∨ r.globals = mark_freed (state_after x g input)) := by
  have hnf := state_after_not_freed x g input hfresh
  have hfail : ∀ err, ∃ r, parse_failure err (some j) (state_after x g input) = some r ∧
      r.initialised = some j ∧
      (r.globals = state_after x g input ∨
        r.globals = mark_freed (state_after x g input)) := by
    intro err
    rw [parse_failure_not_freed err (some j) _ hnf]
    exact ⟨_, rfl, rfl, Or.inr rfl⟩
  unfold state_after at hj hnf hfail
  unfold dnet_parse_config state_after
  dsimp only
  rw [if_neg (by simp [h]), hj]
  dsimp only
  have hr : ¬ ((parse_loop x (input.length + 1) input
      { g with dnet_cfg_state := { g.dnet_cfg_state with log_is_common := true } }
      ).2.dnet_cfg_remotes.isSome = true ∧
    (parse_loop x (input.length + 1) input
      { g with dnet_cfg_state := { g.dnet_cfg_state with log_is_common := true } }
      ).2.remotes_freed = true) := by
    rw [hnf.1]; simp
  have ht : ¬ ((parse_loop x (input.length + 1) input
      { g with dnet_cfg_state := { g.dnet_cfg_state with log_is_common := true } }
      ).2.dnet_cfg_transform.isSome = true ∧
    (parse_loop x (input.length + 1) input
      { g with dnet_cfg_state := { g.dnet_cfg_state with log_is_common := true } }
      ).2.transform_freed = true) := by
    rw [hnf.2]; simp
  rw [if_neg hr, if_neg ht]
  repeat' split
  all_goals first
    | exact hfail _
    | exact ⟨_, rfl, rfl, Or.inl rfl⟩

theorem mark_freed_backend_mode (g : CfgGlobals) (j : Nat) (b : dnet_config_backend)
    (h : backend_mode g j b) : backend_mode (mark_freed g) j b := h

theorem fgets_take_writer_line (key value rest : List Char) (hk : plain_key key)
    (hv : plain_value value) (hlen : (config_data_writer_line key value).length < 4096) :
    fgets_take (4096 - 1) (config_data_writer_line key value ++ rest)
      = (config_data_writer_line key value, rest) := by
  have h := fgets_writer_line key value rest hk hv hlen
  have hne : config_data_writer_line key value ++ rest ≠ [] := by
    simp [config_data_writer_line]
  unfold fgets at h
  rw [if_neg hne] at h
  exact Option.some.inj h

end Elliptics

namespace Elliptics

/-! ## The `backend` line -/

theorem parse_line_backend_line (x : CfgExternals) (g : CfgGlobals) (X : List Char)
    (hX : plain_value X) (hroot : g.dnet_cur_cfg_entries = none) :
    dnet_parse_line x g (config_data_writer_line "backend".toList X)
      = ((dnet_set_backend x g X).1,
         { (dnet_set_backend x g X).2 with
           calls := g.calls ++
             [{ backend := g.dnet_cfg_current_backend, entry := 10,
                key := "backend".toList, value := X,
                err := (dnet_set_backend x g X).1 }] }) := by
  rw [parse_line_writer_line x g _ X (by decide) hX,
    dispatch_root x g _ X 10 RootCallback.dnet_set_backend hroot (by decide)]
  have hc : (root_callback x g "backend".toList X RootCallback.dnet_set_backend).2.calls
      = g.calls := root_callback_calls x g _ X _
  rw [hc]
  rfl

theorem parse_file_backend_line (x : CfgExternals) (g : CfgGlobals) (pre post X : List Char)
    (hX : plain_value X) (hlen : (config_data_writer_line "backend".toList X).length < 4096)
    (hpre : read_without_error x g pre)
    (hroot : (state_after x g pre).dnet_cur_cfg_entries = none) :
    parse_loop x ((pre ++ config_data_writer_line "backend".toList X ++ post).length + 1)
        (pre ++ config_data_writer_line "backend".toList X ++ post)
        { g with dnet_cfg_state := { g.dnet_cfg_state with log_is_common := true } }
      = if (dnet_set_backend x (state_after x g pre) X).1 ≠ 0 then
          dnet_parse_line x (state_after x g pre)
            (config_data_writer_line "backend".toList X)
        else
          parse_loop x (post.length + 1) post
            (dnet_parse_line x (state_after x g pre)
              (config_data_writer_line "backend".toList X)).2 := by
  have hne : config_data_writer_line "backend".toList X ++ post ≠ [] := by
    simp [config_data_writer_line]
  rw [List.append_assoc, parse_loop_append x pre _ _ hpre.1 hpre.2,
    parse_loop_step x _ _ hne,
    fgets_take_writer_line _ X post (by decide) hX hlen]
  have e : (dnet_parse_line x (state_after x g pre)
      (config_data_writer_line "backend".toList X)).1
        = (dnet_set_backend x (state_after x g pre) X).1 := by
    rw [parse_line_backend_line x _ X hX hroot]
  unfold state_after at e ⊢
  dsimp only at e ⊢
  rw [e]

/-- C17: the `backend` key switches the key table. Let the line
`backend = X` be read while the root table is current, after whole lines
that were read without an error, in a call that found no string freed by an
earlier one. When no registered backend is named `X`, `dnet_set_backend`
fails with `-ENOENT` and `dnet_parse_config` returns `NULL` without
initialising a backend. When `b`, at index `j`, is the first registered
backend named `X`, then, unless its private data cannot be allocated
(`-ENOMEM`, `NULL` is returned), the table of `b` becomes the current one and
stays so for the rest of the file: every callback invoked for a later line is
one of `b` for a key of the table of `b`, so that root-level keys are no
longer recognised. When every one of these callbacks returns 0, `b` is the
backend whose `init` is called once the file has been read; when one of them
fails, no backend is initialised and `NULL` is returned with the value that
callback returned. -/
theorem C17_backend_line_switches_table (x : CfgExternals) (e : Int) (g : CfgGlobals)
    (pre post X : List Char) (bpre bpost : List dnet_config_backend)
    (b : dnet_config_backend) (hX : plain_value X)
    (hlen : (config_data_writer_line "backend".toList X).length < 4096)
    (hpre : read_without_error x g pre)
    (hroot : (state_after x g pre).dnet_cur_cfg_entries = none)
    (hfresh : not_freed g) :
    ((∀ p ∈ (state_after x g pre).dnet_cfg_backend, p.name.toList ≠ X) →
      ∃ r, dnet_parse_config x e
          (some (pre ++ config_data_writer_line "backend".toList X ++ post)) g = some r ∧
        r.node = none ∧ r.err = -ENOENT ∧ r.initialised = none) ∧
    ((state_after x g pre).dnet_cfg_backend = bpre ++ b :: bpost →
      (∀ p ∈ bpre, p.name.toList ≠ X) → b.name.toList = X →
      (b.size ≠ 0 ∧ x.malloc_ok b.size = false →
        ∃ r, dnet_parse_config x e
            (some (pre ++ config_data_writer_line "backend".toList X ++ post)) g = some r ∧
          r.node = none ∧ r.err = -ENOMEM ∧ r.initialised = none) ∧
      (¬ (b.size ≠ 0 ∧ x.malloc_ok b.size = false) →
        ∃ r later, dnet_parse_config x e
            (some (pre ++ config_data_writer_line "backend".toList X ++ post)) g = some r ∧
          backend_mode r.globals bpre.length b ∧
          r.globals.calls = (state_after x g pre).calls ++
              [{ backend := (state_after x g pre).dnet_cfg_current_backend, entry := 10,
                 key := "backend".toList, value := X, err := 0 }] ++ later ∧
          (∀ c ∈ later, c.backend = some bpre.length ∧
            c.key ∈ b.ent.map (fun en => en.1.toList)) ∧
          ((∀ c ∈ later, c.err = 0) → r.initialised = some bpre.length) ∧
          (∀ c ∈ later, c.err ≠ 0 →
            r.initialised = none ∧ r.node = none ∧ r.err = c.err))) := by
  have hfile := parse_file_backend_line x g pre post X hX hlen hpre hroot
  have hline := parse_line_backend_line x (state_after x g pre) X hX hroot
  refine ⟨?_, ?_⟩
  · intro hmiss
    have hsb : dnet_set_backend x (state_after x g pre) X
        = (-ENOENT, state_after x g pre) :=
      set_backend_loop_missing x _ X 0 _ hmiss
    have hne : (dnet_set_backend x (state_after x g pre) X).1 ≠ 0 := by
      rw [hsb]; show (-ENOENT : Int) ≠ 0; decide
    rw [if_pos hne, hline, hsb] at hfile
    have herr := parse_config_error x e _ g hfresh
      (by rw [hfile]; show (-ENOENT : Int) ≠ 0; decide)
    rw [hfile] at herr
    exact ⟨_, herr, rfl, rfl, rfl⟩
  · intro hreg hbpre hb
    have hsb := set_backend_found x (state_after x g pre) X bpre bpost b hreg hbpre hb
    refine ⟨?_, ?_⟩
    · intro hfail
      rw [if_pos hfail] at hsb
      have hne : (dnet_set_backend x (state_after x g pre) X).1 ≠ 0 := by
        rw [hsb]; show (-ENOMEM : Int) ≠ 0; decide
      rw [if_pos hne, hline, hsb] at hfile
      have herr := parse_config_error x e _ g hfresh
        (by rw [hfile]; show (-ENOMEM : Int) ≠ 0; decide)
      rw [hfile] at herr
      exact ⟨_, herr, rfl, rfl, rfl⟩
    · intro hok
      rw [if_neg hok] at hsb
      have hzero : ¬ (dnet_set_backend x (state_after x g pre) X).1 ≠ 0 := by
        rw [hsb]; simp
      rw [if_neg hzero, hline, hsb] at hfile
      dsimp only at hfile
      have hmode : backend_mode
          { state_after x g pre with
            dnet_cfg_backend := bpre ++
              { b with data := if b.size ≠ 0 then List.replicate b.size 0 else b.data }
                :: bpost,
            dnet_cur_cfg_entries := some bpre.length,
            dnet_cfg_current_backend := some bpre.length,
            calls := (state_after x g pre).calls ++
              [{ backend := (state_after x g pre).dnet_cfg_current_backend, entry := 10,
                 key := "backend".toList, value := X, err := 0 }] }
          bpre.length b := by
        refine ⟨rfl, rfl,
          { b with data := if b.size ≠ 0 then List.replicate b.size 0 else b.data },
          ?_, rfl, rfl, rfl, rfl⟩
        show (bpre ++ _ :: bpost).get? bpre.length = some _
        rw [List.get?_eq_getElem?, List.getElem?_append_right (Nat.le_refl _)]
        simp
      obtain ⟨hm2, later, hcalls, hlater⟩ :=
        parse_loop_backend_mode x (post.length + 1) post _ bpre.length b hmode
      obtain ⟨later2, hcalls2, hz, hnz⟩ := parse_loop_trace x (post.length + 1) post
        { state_after x g pre with
          dnet_cfg_backend := bpre ++
            { b with data := if b.size ≠ 0 then List.replicate b.size 0 else b.data }
              :: bpost,
          dnet_cur_cfg_entries := some bpre.length,
          dnet_cfg_current_backend := some bpre.length,
          calls := (state_after x g pre).calls ++
            [{ backend := (state_after x g pre).dnet_cfg_current_backend, entry := 10,
               key := "backend".toList, value := X, err := 0 }] }
      have hsame : later2 = later := by
        rw [hcalls] at hcalls2
        exact (List.append_cancel_left hcalls2).symm
      subst hsame
      rw [← hfile] at hm2 hcalls hz hnz
      have hst : state_after x g
          (pre ++ config_data_writer_line "backend".toList X ++ post)
          = (parse_loop x
              ((pre ++ config_data_writer_line "backend".toList X ++ post).length + 1)
              (pre ++ config_data_writer_line "backend".toList X ++ post)
              { g with dnet_cfg_state :=
                  { g.dnet_cfg_state with log_is_common := true } }).2 := rfl
      by_cases herr : (parse_loop x
          ((pre ++ config_data_writer_line "backend".toList X ++ post).length + 1)
          (pre ++ config_data_writer_line "backend".toList X ++ post)
          { g with dnet_cfg_state :=
              { g.dnet_cfg_state with log_is_common := true } }).1 = 0
      · obtain ⟨r, hr, hinit, hglob⟩ := parse_config_initialised x e _ g bpre.length hfresh
          herr (by rw [hst]; exact hm2.2.1)
        have hz0 := hz herr
        refine ⟨r, later2, hr, ?_, ?_, hlater, fun _ => hinit, ?_⟩
        · rcases hglob with h | h <;> rw [h, hst]
          · exact hm2
          · exact mark_freed_backend_mode _ _ _ hm2
        · rcases hglob with h | h <;> rw [h, hst]
          · exact hcalls
          · exact hcalls
        · intro c hc hce
          exact absurd (hz0 c hc) hce
      · have h3 := parse_config_error x e _ g hfresh herr
        obtain ⟨pre2, c2, hl, hpre2, hce⟩ := hnz herr
        refine ⟨_, later2, h3, ?_, ?_, hlater, ?_, ?_⟩
        · rw [hst]
          exact mark_freed_backend_mode _ _ _ hm2
        · rw [hst]
          exact hcalls
        · intro hall
          have hc2 : c2 ∈ later2 := by rw [hl]; simp
          have := hall c2 hc2
          rw [hce] at this
          exact absurd this herr
        · intro c hc hcne
          refine ⟨rfl, rfl, ?_⟩
          rw [hl] at hc
          rcases List.mem_append.mp hc with h | h
          · exact absurd (hpre2 c h) hcne
          · rw [List.mem_singleton] at h
            rw [h, hce]

set_option maxRecDepth 100000 in
theorem C17_backend_line_switches_table_witness :
    read_without_error ex_cfg_externals ex_globals "join = 1\n".toList ∧
      not_freed ex_globals ∧
      (∃ r, dnet_parse_config ex_cfg_externals 0
          (some ("join = 1\n".toList ++ config_data_writer_line "backend".toList "blob".toList
            ++ "data = /tmp\njoin = 1\n".toList)) ex_globals = some r ∧
        backend_mode r.globals 1 ex_blob) ∧
      (dnet_parse_config ex_cfg_externals 0
          (some ("join = 1\n".toList ++ config_data_writer_line "backend".toList "blob".toList
            ++ "data = /tmp\njoin = 1\n".toList)) ex_globals).map
          (fun r => (r.initialised, r.node.isSome, r.err)) = some (some 1, true, 0) ∧
      (dnet_parse_config ex_cfg_externals 0
          (some ("join = 1\n".toList ++ config_data_writer_line "backend".toList "blob".toList
            ++ "data = /tmp\njoin = 1\n".toList)) ex_globals).map
          (fun r => r.globals.calls.map (fun c => (c.backend, c.key, c.err)))
        = some [(none, "join".toList, 0), (none, "backend".toList, 0),
                (some 1, "data".toList, 0)] ∧
      (∃ r, dnet_parse_config ex_cfg_externals 0
          (some ("join = 1\n".toList ++ config_data_writer_line "backend".toList "nosuch".toList
            ++ "data = /tmp\njoin = 1\n".toList)) ex_globals = some r ∧
        r.node = none ∧ r.err = -ENOENT ∧ r.initialised = none) ∧
      (dnet_parse_config ex_cfg_externals 0
          (some ("join = 1\n".toList ++ config_data_writer_line "backend".toList "blob".toList
            ++ "data = /tmp\nsync = 1\ndata = /tmp\n".toList)) ex_globals_failing).map
          (fun r => (r.initialised, r.node.isSome, r.err)) = some (none, false, -EINVAL) ∧
      (dnet_parse_config ex_cfg_externals 0
          (some ("join = 1\n".toList ++ config_data_writer_line "backend".toList "blob".toList
            ++ "data = /tmp\nsync = 1\ndata = /tmp\n".toList)) ex_globals_failing).map
          (fun r => r.globals.calls.map (fun c => (c.backend, c.key, c.err)))
        = some [(none, "join".toList, 0), (none, "backend".toList, 0),
                (some 1, "data".toList, 0), (some 1, "sync".toList, -EINVAL)] := by
  have hpre : read_without_error ex_cfg_externals ex_globals "join = 1\n".toList := by decide
  have hroot : (state_after ex_cfg_externals ex_globals
      "join = 1\n".toList).dnet_cur_cfg_entries = none := by decide
  have h1 := C17_backend_line_switches_table ex_cfg_externals 0 ex_globals
    "join = 1\n".toList "data = /tmp\njoin = 1\n".toList "blob".toList [ex_file] [] ex_blob
    (by decide) (by decide) hpre hroot (by decide)
  have h2 := C17_backend_line_switches_table ex_cfg_externals 0 ex_globals
    "join = 1\n".toList "data = /tmp\njoin = 1\n".toList "nosuch".toList [ex_file] [] ex_blob
    (by decide) (by decide) hpre hroot (by decide)
  refine ⟨hpre, by decide, ?_, by decide, by decide, h2.1 (by decide), by decide, by decide⟩
  obtain ⟨r, later, hr, hm, _⟩ := (h1.2 rfl (by decide) (by decide)).2 (by decide)
  exact ⟨r, hr, hm⟩

end Elliptics

namespace Elliptics

/-! ## Record sizes that `dnet_mergesort` accepts -/

end Elliptics

namespace Elliptics

/-! ## Requests for notifications -/

/-- C30: bad parameters are rejected before anything is sent.
`dnet_request_notification` returns `-EINVAL` and hands no transaction to
`dnet_trans_alloc_send` when the completion callback or the ID is `NULL`, and
so does `dnet_drop_notification` when the ID is `NULL`. Otherwise each hands
over exactly one transaction control, for the command `DNET_CMD_NOTIFY`, with
that ID, with `DNET_FLAGS_NEED_ACK` as command flags and with attribute flags
0 for a subscription and 1 for a drop, and returns what
`dnet_trans_alloc_send` returns for it. -/
theorem C30_bad_parameters_rejected (x : TransExternals) (id : List Nat)
    (complete : Nat) (priv : Option Nat) (hid : id.length = DNET_ID_SIZE) :
    (∀ c, dnet_request_notification x none c priv = (-EINVAL, [])) ∧
      (∀ i, dnet_request_notification x i none priv = (-EINVAL, [])) ∧
      dnet_drop_notification x none = (-EINVAL, []) ∧
      (∃ ctl, dnet_request_notification x (some id) (some complete) priv
          = (x.dnet_trans_alloc_send ctl, [ctl]) ∧
        ctl.id = id ∧ ctl.cmd = DNET_CMD_NOTIFY ∧ ctl.cflags = x.DNET_FLAGS_NEED_ACK ∧
        ctl.aflags = 0 ∧ ctl.complete = some complete ∧ ctl.priv = priv) ∧
      (∃ ctl, dnet_drop_notification x (some id)
          = (x.dnet_trans_alloc_send ctl, [ctl]) ∧
        ctl.id = id ∧ ctl.cmd = DNET_CMD_NOTIFY ∧ ctl.cflags = x.DNET_FLAGS_NEED_ACK ∧
        ctl.aflags = 1 ∧ ctl.complete = none) := by
  have htake : id.take DNET_ID_SIZE = id := by
    rw [← hid]; exact List.take_length id
  refine ⟨?_, ?_, rfl, ?_, ?_⟩
  · intro c
    cases c <;> rfl
  · intro i
    cases i <;> rfl
  · exact ⟨_, rfl, htake, rfl, rfl, rfl, rfl, rfl⟩
  · exact ⟨_, rfl, htake, rfl, rfl, rfl, rfl⟩

theorem C30_bad_parameters_rejected_witness :
    ex_id.length = DNET_ID_SIZE ∧
      dnet_request_notification ex_trans_externals (some ex_id) none none = (-EINVAL, []) ∧
      (dnet_drop_notification ex_trans_externals (some ex_id)).2.length = 1 := by
  have hid : ex_id.length = DNET_ID_SIZE := by decide
  have h := C30_bad_parameters_rejected ex_trans_externals ex_id 0 none hid
  refine ⟨hid, h.2.1 (some ex_id), ?_⟩
  obtain ⟨ctl, hc, _⟩ := h.2.2.2.2
  rw [hc]
  rfl

end Elliptics

namespace Elliptics

/-! ## The cut-off `DNET_THRESHOLD` and the exponential search -/

theorem setup_pairwise_links {α : Type} [Inhabited α] (f2 : Nat) :
    ∀ (fuel : Nat) (s : SetupState α), s.f1 < f2 → (f2 - s.f1) % 2 = 0 →
      f2 - s.f1 ≤ 2 * fuel → s.p2 ≤ s.f1 →
      (setup_pairwise f2 fuel s).list2.link s.p2 = s.f1 + 2 ∧
      (∀ m, s.f1 + 2 ≤ m → m < f2 → (m - s.f1) % 2 = 0 →
        (setup_pairwise f2 fuel s).list2.link m = m + 2) ∧
      (∀ m, m ≠ s.p2 → m < s.f1 + 2 →
        (setup_pairwise f2 fuel s).list2.link m = s.list2.link m) := by
  intro fuel
  induction fuel with
  | zero => intro s h1 _ h3; omega
  | succ fuel ih =>
    intro s h1 h2 h3 hp
    simp only [setup_pairwise]
    by_cases hlt : s.f1 + 2 < f2
    · rw [if_pos hlt]
      obtain ⟨a1, a2, a3⟩ := ih
        { s with list1 := if s.sense then swap s.list1 s.f1 (s.f1 + 1) else s.list1,
                 list2 := s.list2.set_next s.p2 (s.f1 + 2), p2 := s.f1 + 2, f1 := s.f1 + 2 }
        hlt (by simp only; omega) (by simp only; omega) (Nat.le_refl _)
      simp only at a1 a2 a3
      refine ⟨?_, ?_, ?_⟩
      · rw [a3 s.p2 (by omega) (by omega)]
        simp [Buf.set_next]
      · intro m h4 h5 h6
        by_cases hm : m = s.f1 + 2
        · rw [hm, a1]
        · exact a2 m (by omega) h5 (by omega)
      · intro m h4 h5
        rw [a3 m (by omega) (by omega)]
        simp [Buf.set_next, h4]
    · rw [if_neg hlt]
      refine ⟨by simp [Buf.set_next], ?_, ?_⟩
      · intro m h4 h5 _; omega
      · intro m h4 _
        simp [Buf.set_next, h4]

theorem linear_search_jump {α : Type} [Inhabited α] (cmp : α → α → Int) (l : List α)
    (q : α) (sense : Int) (t : Nat) :
    ∀ (fuel b i : Nat), i < 6 → t - b ≤ fuel →
      ((linear_search cmp l q sense t fuel b i).2 = true ↔
        (b + (6 - i) < t ∧ ∀ j, 1 ≤ j → j ≤ 6 - i → cmp q (rd l (b + j)) > sense)) := by
  intro fuel
  induction fuel with
  | zero =>
    intro b i h1 h2
    simp only [linear_search, Bool.false_eq_true, false_iff, not_and]
    intro h; omega
  | succ fuel ih =>
    intro b i h1 h2
    simp only [linear_search]
    by_cases hc : b + 1 < t ∧ cmp q (rd l (b + 1)) > sense
    · rw [if_pos hc]
      by_cases h6 : i + 1 = 6
      · rw [if_pos h6]
        have hi : 6 - i = 1 := by omega
        rw [hi]
        simp only [true_iff]
        refine ⟨hc.1, ?_⟩
        intro j hj1 hj2
        have : j = 1 := by omega
        subst this
        exact hc.2
      · rw [if_neg h6, ih (b + 1) (i + 1) (by omega) (by omega)]
        constructor
        · rintro ⟨g1, g2⟩
          refine ⟨by omega, ?_⟩
          intro j hj1 hj2
          by_cases hj : j = 1
          · subst hj; exact hc.2
          · have := g2 (j - 1) (by omega) (by omega)
            have e : b + 1 + (j - 1) = b + j := by omega
            rw [e] at this
            exact this
        · rintro ⟨g1, g2⟩
          refine ⟨by omega, ?_⟩
          intro j hj1 hj2
          have := g2 (j + 1) (by omega) (by omega)
          have e : b + (j + 1) = b + 1 + j := by omega
          rw [e] at this
          exact this
    · rw [if_neg hc]
      simp only [Bool.false_eq_true, false_iff, not_and, not_forall]
      intro hb
      refine ⟨1, by omega, by omega, ?_⟩
      intro h
      exact hc ⟨by omega, h⟩

theorem setup_pairwise_f1 {α : Type} [Inhabited α] (f2 : Nat) :
    ∀ (fuel : Nat) (s : SetupState α), s.f1 < f2 → (f2 - s.f1) % 2 = 0 →
      f2 - s.f1 ≤ 2 * fuel → (setup_pairwise f2 fuel s).f1 = f2 := by
  intro fuel
  induction fuel with
  | zero => intro s h1 _ h3; omega
  | succ fuel ih =>
    intro s h1 h2 h3
    simp only [setup_pairwise]
    by_cases hlt : s.f1 + 2 < f2
    · rw [if_pos hlt]
      exact ih _ hlt (by simp only; omega) (by simp only; omega)
    · rw [if_neg hlt]
      simp only
      omega

/-- C29 (as stated, refuted): on sixteen records in ascending order the first
pass finds six pairs of the same sense, a `length` of 12 below the cut-off, and
cuts them into runs of two (the last four records are one run), so every run
that is ever merged has fewer than 16 records; yet the merge passes end with
`big` set: in the merge of the runs `[0, 8)` and `[8, 16)` the linear search
has made six steps and jumped to the exponential search. -/
theorem C29_gallop_on_short_runs_counterexample :
    (setup_pairs ex_cmp ex_records16 12 false 12 2 2).2 = 12 ∧
      (List.range 17).map ex_after_setup16.list2.link
        = [2, 0, 4, 0, 6, 0, 8, 0, 10, 0, 12, 0, 16, 0, 0, 0, 0] ∧
      dnet_mergesort ex_records16 8 ex_cmp 136
        = (sort_loop ex_cmp 8 16 16 ex_after_setup16).map (fun s => (0, s.list1.data)) ∧
      (sort_loop ex_cmp 8 16 16 ex_after_setup16).map (fun s => s.big) = some true ∧
      search ex_cmp ex_records16 (rd ex_records16 8) (-1) 0 8 false = (8, true) := by
  refine ⟨by decide, by decide, by decide, by decide, by decide⟩

/-- C29 (amended): `DNET_THRESHOLD = 16` is the cut-off of the first pass
only. A round of `setup` counts the neighbouring pairs that compare with the
same sense; when twice their number is below 16 the stretch is cut into runs
of two records each (pairwise), otherwise the natural branch cuts it where the
order breaks. The exponential-then-binary search of the merge loop is chosen
by the flag `big` and not by the length of the runs: a search entered with
`big` clear is linear and jumps to the exponential search exactly when six
records in a row of the run searched do not end it, and a search entered with
`big` set is exponential from the start. -/
theorem C29_threshold_is_first_pass_cut_off {α : Type} [Inhabited α] (cmp : α → α → Int)
    (n last : Nat) (s : SetupState α) (l : List α) (q : α) (sense : Int) (b t : Nat)
    (hf : s.f1 < last) (hev : (last - s.f1) % 2 = 0) (hp : s.p2 ≤ s.f1) :
    ((setup_pairs cmp s.list1 last s.sense (last - s.f1) (s.f1 + 2) 2).2 < DNET_THRESHOLD →
      (setup_round cmp n last s).f1
          = (setup_pairs cmp s.list1 last s.sense (last - s.f1) (s.f1 + 2) 2).1 ∧
        (setup_round cmp n last s).list2.link s.p2 = s.f1 + 2 ∧
        ∀ m, s.f1 + 2 ≤ m →
          m < (setup_pairs cmp s.list1 last s.sense (last - s.f1) (s.f1 + 2) 2).1 →
          (m - s.f1) % 2 = 0 → (setup_round cmp n last s).list2.link m = m + 2) ∧
      (¬ (setup_pairs cmp s.list1 last s.sense (last - s.f1) (s.f1 + 2) 2).2 < DNET_THRESHOLD →
        setup_round cmp n last s
          = { setup_natural_branch cmp n last s
                (setup_pairs cmp s.list1 last s.sense (last - s.f1) (s.f1 + 2) 2).1 with
              sense := !(setup_natural_branch cmp n last s
                (setup_pairs cmp s.list1 last s.sense (last - s.f1) (s.f1 + 2) 2).1).sense }) ∧
      ((linear_search cmp l q sense t (t - b) b 0).2 = true ↔
        (b + 6 < t ∧ ∀ j, 1 ≤ j → j ≤ 6 → cmp q (rd l (b + j)) > sense)) ∧
      search cmp l q sense b t false
        = (if (linear_search cmp l q sense t (t - b) b 0).2 then
            exponential_search cmp l q sense
              (t - (linear_search cmp l q sense t (t - b) b 0).1 + 1)
              (linear_search cmp l q sense t (t - b) b 0).1 t 1 true
           else ((linear_search cmp l q sense t (t - b) b 0).1, false)) ∧
      search cmp l q sense b t true = exponential_search cmp l q sense (t - b + 1) b t 1 true := by
  obtain ⟨p1, p2, p3, _, _⟩ := setup_pairs_spec cmp s.list1 last s.sense (last - s.f1)
    (s.f1 + 2) 2 (by omega) (by omega) (by omega)
  refine ⟨?_, ?_, ?_, ?_, ?_⟩
  · intro hlen
    have hlt : s.f1 < (setup_pairs cmp s.list1 last s.sense (last - s.f1) (s.f1 + 2) 2).1 := by
      omega
    have hpar : ((setup_pairs cmp s.list1 last s.sense (last - s.f1) (s.f1 + 2) 2).1 - s.f1) % 2
        = 0 := by omega
    obtain ⟨a1, a2, _⟩ := setup_pairwise_links
      (setup_pairs cmp s.list1 last s.sense (last - s.f1) (s.f1 + 2) 2).1
      ((setup_pairs cmp s.list1 last s.sense (last - s.f1) (s.f1 + 2) 2).1 - s.f1) s hlt hpar
      (by omega) hp
    have a4 := setup_pairwise_f1
      (setup_pairs cmp s.list1 last s.sense (last - s.f1) (s.f1 + 2) 2).1
      ((setup_pairs cmp s.list1 last s.sense (last - s.f1) (s.f1 + 2) 2).1 - s.f1) s hlt hpar
      (by omega)
    simp only [setup_round, hlen, if_true]
    exact ⟨a4, a1, a2⟩
  · intro hlen
    simp only [setup_round, hlen, if_false]
  · have h := linear_search_jump cmp l q sense t (t - b) b 0 (by omega) (Nat.le_refl _)
    simpa using h
  · simp [search]
  · simp [search]

theorem C29_threshold_is_first_pass_cut_off_witness :
    (0 : Nat) < 12 ∧ (12 - 0) % 2 = 0 ∧
      (setup_pairs ex_cmp ex_records16 12 false (12 - 0) (0 + 2) 2).2 < DNET_THRESHOLD ∧
      (setup_round ex_cmp 16 12
        { list1 := ex_records16, list2 := { data := [], link := fun _ => 0 }, f1 := 0, p2 := 0,
          sense := false }).list2.link 4 = 6 := by
  have hlen : (setup_pairs ex_cmp ex_records16 12 false (12 - 0) (0 + 2) 2).2 < DNET_THRESHOLD := by
    decide
  have h := (C29_threshold_is_first_pass_cut_off ex_cmp 16 12
    { list1 := ex_records16, list2 := { data := [], link := fun _ => 0 }, f1 := 0, p2 := 0,
      sense := false } ex_records16 (rd ex_records16 8) (-1) 0 8
    (by decide) (by decide) (by decide)).1 hlen
  exact ⟨by decide, by decide, hlen, h.2.2 4 (by decide) (by decide) (by decide)⟩

end Elliptics

namespace Elliptics

/-! ## Lemmas on the modelled backend -/

theorem find_filter_of_imp {α : Type} (p q : α → Bool) (l : List α)
    (h : ∀ x, p x = true → q x = true) : (l.filter q).find? p = l.find? p := by
  induction l with
  | nil => rfl
  | cons a l ih =>
    by_cases hq : q a = true
    · rw [List.filter_cons_of_pos hq]
      by_cases hp : p a = true
      · simp [List.find?_cons, hp]
      · simp [List.find?_cons, hp, ih]
    · rw [List.filter_cons_of_neg hq]
      have hp : ¬ p a = true := fun hp => hq (h a hp)
      simp [List.find?_cons, hp, ih]

theorem lookup_put_self (st : List StoredRecord) (r : StoredRecord) (id : Nat)
    (h : r.id = id) : (store_put st r).find? (fun x => x.id = id) = some r := by
  simp [store_put, h]

theorem lookup_put_other (st : List StoredRecord) (r : StoredRecord) (id : Nat)
    (h : id ≠ r.id) :
    (store_put st r).find? (fun x => x.id = id) = st.find? (fun x => x.id = id) := by
  have hr : ¬ r.id = id := fun e => h e.symm
  unfold store_put
  rw [List.find?_cons]
  simp only [hr, decide_False]
  apply find_filter_of_imp
  intro x hx
  have hx2 : x.id = id := by simpa using hx
  simp only [ne_eq, decide_not, Bool.not_eq_true', decide_eq_false_iff_not]
  rw [hx2]
  exact h

theorem read_after_write (transform : List Nat → Nat) (b : BackendState) (id : Nat)
    (bytes : List Nat) :
    backend_read (backend_write transform b id 0 bytes) id 0 0
      = some (bytes, transform bytes) := by
  simp only [backend_read, backend_lookup, backend_write]
  rw [lookup_put_self _ _ id rfl]
  simp [slice, zero_pad]

theorem lookup_after_write_other (transform : List Nat → Nat) (b : BackendState)
    (id id2 offset : Nat) (bytes : List Nat) (h : id ≠ id2) :
    backend_lookup (backend_write transform b id2 offset bytes) id = backend_lookup b id := by
  simp only [backend_lookup, backend_write]
  exact lookup_put_other _ _ id h

theorem read_after_write_other (transform : List Nat → Nat) (b : BackendState)
    (id id2 offset : Nat) (bytes : List Nat) (o s : Nat) (h : id ≠ id2) :
    backend_read (backend_write transform b id2 offset bytes) id o s = backend_read b id o s := by
  simp only [backend_read, lookup_after_write_other transform b id id2 offset bytes h]

theorem store_put_ok (st : List StoredRecord) (r : StoredRecord)
    (h : (st.map (fun x => x.id)).Nodup) :
    ((store_put st r).map (fun x => x.id)).Nodup := by
  unfold store_put
  rw [List.map_cons, List.nodup_cons]
  refine ⟨?_, ?_⟩
  · intro hm
    rw [List.mem_map] at hm
    obtain ⟨x, hx, hid⟩ := hm
    have := (List.mem_filter.mp hx).2
    simp at this
    exact this hid
  · exact List.Nodup.sublist (List.Sublist.map _ (List.filter_sublist _)) h

theorem filter_ok (st : List StoredRecord) (p : StoredRecord → Bool)
    (h : (st.map (fun x => x.id)).Nodup) :
    ((st.filter p).map (fun x => x.id)).Nodup :=
  List.Nodup.sublist (List.Sublist.map _ (List.filter_sublist _)) h

theorem write_store_ok (transform : List Nat → Nat) (b : BackendState) (id offset : Nat)
    (bytes : List Nat) (h : store_ok b) :
    store_ok (backend_write transform b id offset bytes) :=
  store_put_ok _ _ h

theorem cluster_set_same (cl : Cluster) (g : Nat) (b : BackendState) (h : cl g = some b) :
    cluster_set cl g b = cl := by
  funext k
  unfold cluster_set
  by_cases hk : k = g
  · rw [if_pos hk, hk, h]
  · rw [if_neg hk]

end Elliptics

namespace Elliptics

/-! ## Lemmas on the fan-out of writes -/

theorem fan_out_frame (acks : Bool) (op : BackendState → Int × BackendState)
    (gs : List Nat) (cl : Cluster) (h : Nat) (hn : h ∉ gs) :
    (fan_out acks op gs cl).2 h = cl h := by
  induction gs generalizing cl with
  | nil => rfl
  | cons g rest ih =>
    have hg : h ≠ g := fun e => hn (by simp [e])
    have hr : h ∉ rest := fun e => hn (by simp [e])
    simp only [fan_out]
    cases hc : cl g with
    | none => exact ih cl hr
    | some b =>
      simp only
      rw [ih _ hr]
      simp [cluster_set, hg]

theorem fan_out_reachable (acks : Bool) (op : BackendState → Int × BackendState)
    (gs : List Nat) (cl : Cluster) (h : Nat) :
    reachable (fan_out acks op gs cl).2 h = reachable cl h := by
  induction gs generalizing cl with
  | nil => rfl
  | cons g rest ih =>
    simp only [fan_out]
    cases hc : cl g with
    | none => exact ih cl
    | some b =>
      simp only
      rw [ih]
      unfold reachable cluster_set
      by_cases hg : h = g
      · simp [hg, hc]
      · simp [hg]

theorem fan_out_preserve (P : BackendState → Prop) (acks : Bool)
    (op : BackendState → Int × BackendState) (hP : ∀ b, P b → P (op b).2)
    (gs : List Nat) (cl : Cluster) (h0 : ∀ h b, cl h = some b → P b) :
    ∀ h b, (fan_out acks op gs cl).2 h = some b → P b := by
  induction gs generalizing cl with
  | nil => exact h0
  | cons g rest ih =>
    simp only [fan_out]
    cases hc : cl g with
    | none => exact ih cl h0
    | some b =>
      simp only
      apply ih
      intro h b2 hb2
      unfold cluster_set at hb2
      by_cases hg : h = g
      · rw [if_pos hg] at hb2
        have : b2 = (op b).2 := (Option.some.inj hb2).symm
        rw [this]
        exact hP b (h0 g b hc)
      · rw [if_neg hg] at hb2
        exact h0 h b2 hb2

theorem fan_out_establish (T Q : BackendState → Prop) (acks : Bool)
    (op : BackendState → Int × BackendState) (hT : ∀ b, T b → Q (op b).2)
    (hQ : ∀ b, Q b → Q (op b).2) (gs : List Nat) (cl : Cluster)
    (h0 : ∀ h ∈ gs, ∀ b, cl h = some b → T b ∨ Q b) :
    ∀ h ∈ gs, ∀ b, (fan_out acks op gs cl).2 h = some b → Q b := by
  induction gs generalizing cl with
  | nil => intro h hh; simp at hh
  | cons g rest ih =>
    intro h hh b2 hb2
    simp only [fan_out] at hb2
    cases hc : cl g with
    | none =>
      rw [hc] at hb2
      simp only at hb2
      have hne : h ≠ g := by
        intro e
        have hr := fan_out_reachable acks op rest cl h
        rw [e] at hr
        unfold reachable at hr
        rw [e] at hb2
        rw [hb2, hc] at hr
        simp at hr
      have hr : h ∈ rest := by
        rcases List.mem_cons.mp hh with e | e
        · exact absurd e hne
        · exact e
      exact ih cl (fun k hk b hb => h0 k (by simp [hk]) b hb) h hr b2 hb2
    | some b =>
      rw [hc] at hb2
      simp only at hb2
      have hnew : Q (op b).2 := by
        rcases h0 g (by simp) b hc with t | q
        · exact hT b t
        · exact hQ b q
      by_cases hr : h ∈ rest
      · refine ih (cluster_set cl g (op b).2) ?_ h hr b2 hb2
        intro k hk b3 hb3
        unfold cluster_set at hb3
        by_cases hkg : k = g
        · rw [if_pos hkg] at hb3
          rw [← Option.some.inj hb3]
          exact Or.inr hnew
        · rw [if_neg hkg] at hb3
          exact h0 k (by simp [hk]) b3 hb3
      · have hg : h = g := by
          rcases List.mem_cons.mp hh with e | e
          · exact e
          · exact absurd e hr
        rw [fan_out_frame acks op rest _ h hr] at hb2
        unfold cluster_set at hb2
        rw [if_pos hg] at hb2
        rw [← Option.some.inj hb2]
        exact hnew

theorem fan_out_establish_nodup (T Q : BackendState → Prop) (acks : Bool)
    (op : BackendState → Int × BackendState) (hT : ∀ b, T b → Q (op b).2)
    (gs : List Nat) (hnd : gs.Nodup) (cl : Cluster)
    (h0 : ∀ h ∈ gs, ∀ b, cl h = some b → T b) :
    ∀ h ∈ gs, ∀ b, (fan_out acks op gs cl).2 h = some b → Q b := by
  induction gs generalizing cl with
  | nil => intro h hh; simp at hh
  | cons g rest ih =>
    intro h hh b2 hb2
    have hgr : g ∉ rest := (List.nodup_cons.mp hnd).1
    have hnd2 : rest.Nodup := (List.nodup_cons.mp hnd).2
    simp only [fan_out] at hb2
    cases hc : cl g with
    | none =>
      rw [hc] at hb2
      simp only at hb2
      by_cases hr : h ∈ rest
      · exact ih hnd2 cl (fun k hk b hb => h0 k (by simp [hk]) b hb) h hr b2 hb2
      · have hg : h = g := by
          rcases List.mem_cons.mp hh with e | e
          · exact e
          · exact absurd e hr
        rw [fan_out_frame acks op rest _ h hr, hg, hc] at hb2
        exact absurd hb2 (by simp)
    | some b =>
      rw [hc] at hb2
      simp only at hb2
      by_cases hr : h ∈ rest
      · refine ih hnd2 (cluster_set cl g (op b).2) ?_ h hr b2 hb2
        intro k hk b3 hb3
        have hkg : k ≠ g := fun e => hgr (e ▸ hk)
        unfold cluster_set at hb3
        rw [if_neg hkg] at hb3
        exact h0 k (by simp [hk]) b3 hb3
      · have hg : h = g := by
          rcases List.mem_cons.mp hh with e | e
          · exact e
          · exact absurd e hr
        rw [fan_out_frame acks op rest _ h hr] at hb2
        unfold cluster_set at hb2
        rw [if_pos hg] at hb2
        rw [← Option.some.inj hb2]
        exact hT b (h0 g (by simp) b hc)

end Elliptics

namespace Elliptics

/-! ## Lemmas on responses and on reads -/

theorem fan_out_committed (acks : Bool) (op : BackendState → Int × BackendState)
    (hop : ∀ b, (op b).2.committed = b.committed) (gs : List Nat) (cl : Cluster) (h : Nat) :
    ((fan_out acks op gs cl).2 h).map (fun b => b.committed)
      = (cl h).map (fun b => b.committed) := by
  induction gs generalizing cl with
  | nil => rfl
  | cons g rest ih =>
    simp only [fan_out]
    cases hc : cl g with
    | none => exact ih cl
    | some b =>
      simp only
      rw [ih]
      unfold cluster_set
      by_cases hg : h = g
      · rw [if_pos hg, hg, hc]
        simp [hop]
      · rw [if_neg hg]

theorem succeeded_append (a b : List WriteResponse) :
    succeeded (a ++ b) = (succeeded a || succeeded b) := by
  simp [succeeded, List.any_append]

theorem fan_out_succeeded_reachable (acks : Bool) (op : BackendState → Int × BackendState)
    (gs : List Nat) (cl : Cluster) (h : succeeded (fan_out acks op gs cl).1 = true) :
    ∃ g ∈ gs, reachable cl g = true := by
  induction gs generalizing cl with
  | nil => simp [fan_out, succeeded] at h
  | cons g rest ih =>
    simp only [fan_out] at h
    cases hc : cl g with
    | none =>
      rw [hc] at h
      simp only at h
      have h2 : succeeded (fan_out acks op rest cl).1 = true := by
        simpa [succeeded, ENXIO] using h
      obtain ⟨k, hk, hr⟩ := ih cl h2
      exact ⟨k, by simp [hk], hr⟩
    | some b => exact ⟨g, by simp, by simp [reachable, hc]⟩

theorem fan_out_succeeded_of_zero (acks : Bool) (op : BackendState → Int × BackendState)
    (gs : List Nat) (cl : Cluster) (hr : ∃ g ∈ gs, reachable cl g = true)
    (hz : ∀ g ∈ gs, ∀ b, cl g = some b → (op b).1 = 0) :
    succeeded (fan_out acks op gs cl).1 = true := by
  induction gs generalizing cl with
  | nil => obtain ⟨g, hg, _⟩ := hr; simp at hg
  | cons g rest ih =>
    simp only [fan_out]
    cases hc : cl g with
    | none =>
      simp only
      have hr2 : ∃ k ∈ rest, reachable cl k = true := by
        obtain ⟨k, hk, hkr⟩ := hr
        rcases List.mem_cons.mp hk with e | e
        · rw [e] at hkr; simp [reachable, hc] at hkr
        · exact ⟨k, e, hkr⟩
      have := ih cl hr2 (fun k hk b hb => hz k (by simp [hk]) b hb)
      simp only [succeeded, List.any_cons] at this ⊢
      rw [this]
      simp
    | some b =>
      simp only
      have h0 := hz g (by simp) b hc
      rw [succeeded_append]
      simp [succeeded, h0]

theorem fan_out_failed (acks : Bool) (op : BackendState → Int × BackendState) (c : Int)
    (gs : List Nat) (cl : Cluster) (hf : ∀ g ∈ gs, ∀ b, cl g = some b → op b = (c, b)) :
    (fan_out acks op gs cl).2 = cl ∧
      ((fan_out acks op gs cl).1.filter (fun r => !r.is_ack)).map (fun r => r.status)
        = gs.map (fun g => if reachable cl g then c else - ENXIO) := by
  induction gs generalizing cl with
  | nil => exact ⟨rfl, rfl⟩
  | cons g rest ih =>
    have ih2 := ih cl (fun k hk b hb => hf k (by simp [hk]) b hb)
    simp only [fan_out]
    cases hc : cl g with
    | none =>
      simp only
      refine ⟨ih2.1, ?_⟩
      simp [List.filter_cons, ih2.2, reachable, hc]
    | some b =>
      simp only
      have hb := hf g (by simp) b hc
      rw [hb]
      simp only
      rw [cluster_set_same cl g b hc]
      refine ⟨ih2.1, ?_⟩
      cases acks <;> simp [List.filter_cons, ih2.2, reachable, hc]

theorem representative_error_const (c : Int) (gs : List Nat) (cl : Cluster)
    (h1 : c ≠ - ENXIO) (h2 : c ≠ -ENOENT) (hr : ∃ g ∈ gs, reachable cl g = true) :
    representative_error (gs.map (fun g => if reachable cl g then c else - ENXIO)) = c := by
  have hfind : (gs.map (fun g => if reachable cl g then c else - ENXIO)).find?
      (fun c => c ≠ - ENXIO ∧ c ≠ -ENOENT) = some c := by
    induction gs with
    | nil => obtain ⟨g, hg, _⟩ := hr; simp at hg
    | cons g rest ih =>
      by_cases hg : reachable cl g = true
      · simp [hg, h1, h2]
      · have hr2 : ∃ k ∈ rest, reachable cl k = true := by
          obtain ⟨k, hk, hkr⟩ := hr
          rcases List.mem_cons.mp hk with e | e
          · rw [e] at hkr; exact absurd hkr hg
          · exact ⟨k, e, hkr⟩
        have := ih hr2
        simp only [List.map_cons, hg, Bool.false_eq_true, if_false, List.find?_cons]
        simp only [ne_eq, not_true_eq_false, false_and, decide_False]
        exact this
  unfold representative_error
  rw [hfind]

theorem representative_error_route (gs : List Nat) (cl : Cluster) :
    representative_error (gs.map (fun g => if reachable cl g then -ENOENT else - ENXIO))
      = if gs.any (reachable cl) then -ENOENT else - ENXIO := by
  have hfind : (gs.map (fun g => if reachable cl g then -ENOENT else - ENXIO)).find?
      (fun c => c ≠ - ENXIO ∧ c ≠ -ENOENT) = none := by
    rw [List.find?_eq_none]
    intro c hc
    rw [List.mem_map] at hc
    obtain ⟨g, _, rfl⟩ := hc
    by_cases hg : reachable cl g = true <;> simp [hg]
  unfold representative_error
  rw [hfind]
  simp only
  by_cases ha : gs.any (reachable cl) = true
  · rw [if_pos ha, if_pos]
    rw [List.any_eq_true] at ha
    obtain ⟨g, hg, hgr⟩ := ha
    rw [List.mem_map]
    exact ⟨g, hg, by simp [hgr]⟩
  · rw [if_neg ha, if_neg]
    intro hm
    rw [List.mem_map] at hm
    obtain ⟨g, hg, he⟩ := hm
    by_cases hgr : reachable cl g = true
    · exact ha (List.any_eq_true.mpr ⟨g, hg, hgr⟩)
    · simp [hgr, ENXIO, ENOENT] at he

end Elliptics

namespace Elliptics

/-! ## Lemmas on `read_data` -/

theorem read_loop_hit (cl : Cluster) (id o s g : Nat) (rest : List Nat) (codes : List Int)
    (b : BackendState) (v : List Nat × Nat) (hc : cl g = some b)
    (hv : backend_read b id o s = some v) :
    read_loop cl id o s (g :: rest) codes = ReadResult.found g v.1 v.2 := by
  simp only [read_loop, hc, hv]

theorem read_loop_skip (cl : Cluster) (id o s : Nat) (pre rest : List Nat)
    (ha : ∀ g ∈ pre, holds cl g id = false) (codes : List Int) :
    read_loop cl id o s (pre ++ rest) codes
      = read_loop cl id o s rest
          (codes ++ pre.map (fun g => if reachable cl g then -ENOENT else - ENXIO)) := by
  induction pre generalizing codes with
  | nil => simp
  | cons g pre ih =>
    have hg := ha g (by simp)
    have ih2 := fun codes => ih (fun k hk => ha k (by simp [hk])) codes
    rw [List.cons_append]
    simp only [read_loop]
    cases hc : cl g with
    | none =>
      simp only
      rw [ih2]
      simp [reachable, hc]
    | some b =>
      simp only [holds, hc] at hg
      have hl : backend_lookup b id = none := by
        cases hl : backend_lookup b id with
        | none => rfl
        | some r => rw [hl] at hg; simp at hg
      have hrd : backend_read b id o s = none := by simp [backend_read, hl]
      simp only [hrd]
      rw [ih2]
      simp [reachable, hc]

theorem read_data_absent (cl : Cluster) (id o s : Nat) (gs : List Nat)
    (ha : ∀ g ∈ gs, holds cl g id = false) :
    read_data cl gs id o s
      = ReadResult.failed (if gs.any (reachable cl) then -ENOENT else - ENXIO) := by
  have h := read_loop_skip cl id o s gs [] ha []
  rw [List.append_nil, List.nil_append] at h
  unfold read_data
  rw [h, read_loop, representative_error_route]

theorem read_loop_uniform (cl : Cluster) (id o s : Nat) (v : List Nat × Nat) (gs : List Nat)
    (hv : ∀ g ∈ gs, ∀ b, cl g = some b → backend_read b id o s = some v)
    (hr : ∃ g ∈ gs, reachable cl g = true) (codes : List Int) :
    ∃ g ∈ gs, reachable cl g = true
      ∧ read_loop cl id o s gs codes = ReadResult.found g v.1 v.2 := by
  induction gs generalizing codes with
  | nil => obtain ⟨g, hg, _⟩ := hr; simp at hg
  | cons g rest ih =>
    cases hc : cl g with
    | none =>
      have hr2 : ∃ k ∈ rest, reachable cl k = true := by
        obtain ⟨k, hk, hkr⟩ := hr
        rcases List.mem_cons.mp hk with e | e
        · rw [e] at hkr; simp [reachable, hc] at hkr
        · exact ⟨k, e, hkr⟩
      obtain ⟨k, hk, hkr, hres⟩ :=
        ih (fun k hk b hb => hv k (by simp [hk]) b hb) hr2 (codes ++ [- ENXIO])
      refine ⟨k, by simp [hk], hkr, ?_⟩
      simp only [read_loop, hc]
      exact hres
    | some b =>
      exact ⟨g, by simp, by simp [reachable, hc],
        read_loop_hit cl id o s g rest codes b v hc (hv g (by simp) b hc)⟩

theorem read_loop_found (cl : Cluster) (id o s : Nat) (gs : List Nat) (codes : List Int)
    (g : Nat) (data : List Nat) (parent : Nat)
    (h : read_loop cl id o s gs codes = ReadResult.found g data parent) :
    g ∈ gs ∧ ∃ b, cl g = some b ∧ backend_read b id o s = some (data, parent) := by
  induction gs generalizing codes with
  | nil => simp [read_loop] at h
  | cons k rest ih =>
    simp only [read_loop] at h
    cases hc : cl k with
    | none =>
      rw [hc] at h
      obtain ⟨hm, hb⟩ := ih _ h
      exact ⟨by simp [hm], hb⟩
    | some b =>
      rw [hc] at h
      simp only at h
      cases hrd : backend_read b id o s with
      | none =>
        rw [hrd] at h
        obtain ⟨hm, hb⟩ := ih _ h
        exact ⟨by simp [hm], hb⟩
      | some v =>
        rw [hrd] at h
        simp only [ReadResult.found.injEq] at h
        obtain ⟨e1, e2, e3⟩ := h
        subst e1
        refine ⟨by simp, b, hc, ?_⟩
        rw [hrd, ← e2, ← e3]

theorem lookup_after_remove (b : BackendState) (id : Nat) :
    backend_lookup (backend_remove b id).2 id = none := by
  unfold backend_remove
  cases hl : backend_lookup b id with
  | none => exact hl
  | some r =>
    simp only [backend_lookup]
    rw [List.find?_eq_none]
    intro x hx
    have := (List.mem_filter.mp hx).2
    simpa using this

theorem holds_eq_false (cl : Cluster) (g id : Nat)
    (h : ∀ b, cl g = some b → backend_lookup b id = none) : holds cl g id = false := by
  unfold holds
  cases hc : cl g with
  | none => rfl
  | some b => simp [h b hc]

/-- A `write_data` in which no backend of the list fails is the fan-out of
the backend write. -/
theorem write_data_no_io_error (transform : List Nat → Nat) (acks : Bool) (io : Nat → Int)
    (cl : Cluster) (groups : List Nat) (id : Nat) (bytes : List Nat) (offset : Nat)
    (h : ∀ g ∈ groups, io g = 0) :
    write_data transform acks io cl groups id bytes offset
      = fan_out acks (fun b => (0, backend_write transform b id offset bytes)) groups cl := by
  induction groups generalizing cl with
  | nil => rfl
  | cons g rest ih =>
    have hg : io g = 0 := h g (by simp)
    have ih2 := fun cl => ih cl (fun k hk => h k (by simp [hk]))
    simp only [write_data, fan_out]
    cases hc : cl g with
    | none => simp only [ih2]
    | some b => simp only [hg, if_true, ih2]

theorem write_data_reachable (transform : List Nat → Nat) (acks : Bool) (io : Nat → Int)
    (cl : Cluster) (groups : List Nat) (id : Nat) (bytes : List Nat) (offset : Nat)
    (h : Nat) :
    reachable (write_data transform acks io cl groups id bytes offset).2 h = reachable cl h := by
  induction groups generalizing cl with
  | nil => rfl
  | cons g rest ih =>
    simp only [write_data]
    cases hc : cl g with
    | none => exact ih cl
    | some b =>
      simp only
      rw [ih]
      by_cases hio : io g = 0
      · rw [if_pos hio]
        unfold reachable cluster_set
        by_cases hg : h = g
        · simp [hg, hc]
        · simp [hg]
      · rw [if_neg hio]

theorem write_data_frame (transform : List Nat → Nat) (acks : Bool) (io : Nat → Int)
    (cl : Cluster) (groups : List Nat) (id : Nat) (bytes : List Nat) (offset : Nat)
    (h : Nat) (hn : h ∉ groups) :
    (write_data transform acks io cl groups id bytes offset).2 h = cl h := by
  induction groups generalizing cl with
  | nil => rfl
  | cons g rest ih =>
    have hg : h ≠ g := fun e => hn (by simp [e])
    have hr : h ∉ rest := fun e => hn (by simp [e])
    simp only [write_data]
    cases hc : cl g with
    | none => exact ih cl hr
    | some b =>
      simp only
      rw [ih _ hr]
      by_cases hio : io g = 0
      · rw [if_pos hio]
        simp [cluster_set, hg]
      · rw [if_neg hio]

/-- The backend of a group of the list after `write_data`: it reads back the
bytes written when its write was performed, and it is the backend as it was
when its write failed. -/
theorem write_data_state (transform : List Nat → Nat) (acks : Bool) (io : Nat → Int)
    (cl : Cluster) (groups : List Nat) (id : Nat) (bytes : List Nat) :
    ∀ h ∈ groups, ∀ b2, (write_data transform acks io cl groups id bytes 0).2 h = some b2 →
      (io h = 0 → backend_read b2 id 0 0 = some (bytes, transform bytes)) ∧
      (io h ≠ 0 → cl h = some b2) := by
  induction groups generalizing cl with
  | nil => intro h hh; simp at hh
  | cons g rest ih =>
    intro h hh b2 hb2
    simp only [write_data] at hb2
    cases hc : cl g with
    | none =>
      rw [hc] at hb2
      simp only at hb2
      by_cases hr : h ∈ rest
      · exact ih cl h hr b2 hb2
      · have hg : h = g := by
          rcases List.mem_cons.mp hh with e | e
          · exact e
          · exact absurd e hr
        rw [write_data_frame transform acks io cl rest id bytes 0 h hr, hg, hc] at hb2
        exact absurd hb2 (by simp)
    | some b =>
      rw [hc] at hb2
      simp only at hb2
      by_cases hio : io g = 0
      · rw [if_pos hio] at hb2
        by_cases hr : h ∈ rest
        · obtain ⟨h1, h2⟩ := ih _ h hr b2 hb2
          refine ⟨h1, ?_⟩
          intro hne
          have hhg : h ≠ g := fun e => hne (e ▸ hio)
          have := h2 hne
          unfold cluster_set at this
          rw [if_neg hhg] at this
          exact this
        · have hg : h = g := by
            rcases List.mem_cons.mp hh with e | e
            · exact e
            · exact absurd e hr
          rw [write_data_frame transform acks io _ rest id bytes 0 h hr] at hb2
          unfold cluster_set at hb2
          rw [if_pos hg] at hb2
          refine ⟨fun _ => ?_, fun hne => absurd (hg ▸ hio) hne⟩
          rw [← Option.some.inj hb2]
          exact read_after_write transform b id bytes
      · rw [if_neg hio] at hb2
        by_cases hr : h ∈ rest
        · exact ih cl h hr b2 hb2
        · have hg : h = g := by
            rcases List.mem_cons.mp hh with e | e
            · exact e
            · exact absurd e hr
          rw [write_data_frame transform acks io cl rest id bytes 0 h hr, hg, hc] at hb2
          refine ⟨fun h0 => absurd (hg ▸ h0) hio, fun _ => ?_⟩
          rw [hg, hc]
          exact hb2

/-- The aggregate of `write_data` succeeds only when a group of the list was
reached and performed the write. -/
theorem write_data_succeeded (transform : List Nat → Nat) (acks : Bool) (io : Nat → Int)
    (cl : Cluster) (groups : List Nat) (id : Nat) (bytes : List Nat) (offset : Nat)
    (h : succeeded (write_data transform acks io cl groups id bytes offset).1 = true) :
    ∃ g ∈ groups, reachable cl g = true ∧ io g = 0 := by
  induction groups generalizing cl with
  | nil => simp [write_data, succeeded] at h
  | cons g rest ih =>
    simp only [write_data] at h
    cases hc : cl g with
    | none =>
      rw [hc] at h
      simp only at h
      have h2 : succeeded (write_data transform acks io cl rest id bytes offset).1 = true := by
        simpa [succeeded, ENXIO] using h
      obtain ⟨k, hk, hr, hz⟩ := ih cl h2
      exact ⟨k, by simp [hk], hr, hz⟩
    | some b =>
      rw [hc] at h
      simp only at h
      by_cases hio : io g = 0
      · exact ⟨g, by simp, by simp [reachable, hc], hio⟩
      · rw [if_neg hio] at h
        have h2 : succeeded (write_data transform acks io cl rest id bytes offset).1 = true := by
          rw [succeeded_append] at h
          cases acks <;> simpa [succeeded, hio] using h
        obtain ⟨k, hk, hr, hz⟩ := ih cl h2
        exact ⟨k, by simp [hk], hr, hz⟩

theorem write_data_reads (transform : List Nat → Nat) (acks : Bool) (io : Nat → Int)
    (cl : Cluster) (groups : List Nat) (id : Nat) (bytes : List Nat)
    (hio : ∀ g ∈ groups, io g = 0) :
    ∀ g ∈ groups, ∀ b, (write_data transform acks io cl groups id bytes 0).2 g = some b →
      backend_read b id 0 0 = some (bytes, transform bytes) :=
  fun g hg b hb => (write_data_state transform acks io cl groups id bytes g hg b hb).1 (hio g hg)

/-- A read over groups of which each one that can be reached either returns
`v` or holds no record: the first group that returns `v` answers. -/
theorem read_loop_first (cl : Cluster) (id o s : Nat) (v : List Nat × Nat) (gs : List Nat)
    (hv : ∀ g ∈ gs, ∀ b, cl g = some b →
      backend_read b id o s = some v ∨ backend_read b id o s = none)
    (hr : ∃ g ∈ gs, ∃ b, cl g = some b ∧ backend_read b id o s = some v)
    (codes : List Int) :
    ∃ g ∈ gs, reachable cl g = true
      ∧ read_loop cl id o s gs codes = ReadResult.found g v.1 v.2 := by
  induction gs generalizing codes with
  | nil => obtain ⟨g, hg, _⟩ := hr; simp at hg
  | cons g rest ih =>
    have hr2 : (∀ b, cl g = some b → backend_read b id o s ≠ some v) →
        ∃ k ∈ rest, ∃ b, cl k = some b ∧ backend_read b id o s = some v := by
      intro hne
      obtain ⟨k, hk, b, hb, hrd⟩ := hr
      rcases List.mem_cons.mp hk with e | e
      · rw [e] at hb
        exact absurd hrd (hne b hb)
      · exact ⟨k, e, b, hb, hrd⟩
    have hv2 : ∀ k ∈ rest, ∀ b, cl k = some b →
        backend_read b id o s = some v ∨ backend_read b id o s = none :=
      fun k hk b hb => hv k (by simp [hk]) b hb
    cases hc : cl g with
    | none =>
      obtain ⟨k, hk, hkr, hres⟩ := ih hv2
        (hr2 (fun b hb => by rw [hc] at hb; exact absurd hb (by simp))) (codes ++ [- ENXIO])
      refine ⟨k, by simp [hk], hkr, ?_⟩
      simp only [read_loop, hc]
      exact hres
    | some b =>
      rcases hv g (by simp) b hc with h1 | h1
      · exact ⟨g, by simp, by simp [reachable, hc],
          read_loop_hit cl id o s g rest codes b v hc h1⟩
      · obtain ⟨k, hk, hkr, hres⟩ := ih hv2
          (hr2 (fun b2 hb2 => by
            rw [hc] at hb2
            rw [← Option.some.inj hb2, h1]
            simp)) (codes ++ [-ENOENT])
        refine ⟨k, by simp [hk], hkr, ?_⟩
        simp only [read_loop, hc, h1]
        exact hres

end Elliptics

namespace Elliptics

/-! ## Round trip, routing errors and the recovery read -/

/-- C21 (as stated, refuted): group 1 holds an older value for the key and
fails the write with an I/O error, group 2 performs it. The aggregate of
`write_data` succeeds, since one group succeeded, yet `read_data` over the
same list returns the older value: the reads go to the groups in order and
group 1 answers first. -/
theorem C21_stale_replica_counterexample :
    succeeded (write_data ex_transform true ex_io_group1_fails ex_cluster_stale [1, 2] 5
        (ex_bytes "new") 0).1 = true
      ∧ (write_data ex_transform true ex_io_group1_fails ex_cluster_stale [1, 2] 5
          (ex_bytes "new") 0).1.map (fun r => (r.group, r.status, r.is_ack))
        = [(1, 0, true), (1, -5, false), (2, 0, true), (2, 0, false)]
      ∧ read_data (write_data ex_transform true ex_io_group1_fails ex_cluster_stale [1, 2] 5
          (ex_bytes "new") 0).2 [1, 2] 5 0 0
        = ReadResult.found 1 (ex_bytes "an older value")
            (ex_transform (ex_bytes "an older value"))
      ∧ ex_bytes "an older value" ≠ ex_bytes "new"
      ∧ read_data (write_data ex_transform true ex_io_group1_fails ex_cluster_stale [1, 2] 5
          (ex_bytes "new") 0).2 [2] 5 0 0
        = ReadResult.found 2 (ex_bytes "new") (ex_transform (ex_bytes "new")) := by
  refine ⟨by decide, by decide, by decide, by decide, by decide⟩

/-- C21 (amended): after a successful `write_data(k, b, 0)` at the groups `G`
in which no group that holds a value for the key fails the write, whatever
the cluster held for the key before (nothing, a longer or a shorter value),
`read_data(k, 0, 0)` over `G` succeeds: it returns exactly `b`, with the
checksum of `b`, from a group of `G` that performed the write. -/
theorem C21_write_then_read (transform : List Nat → Nat) (acks : Bool) (io : Nat → Int)
    (cl : Cluster) (groups : List Nat) (id : Nat) (bytes : List Nat)
    (hw : succeeded (write_data transform acks io cl groups id bytes 0).1 = true)
    (hstale : ∀ g ∈ groups, io g ≠ 0 → holds cl g id = false) :
    ∃ g ∈ groups, io g = 0 ∧
      read_data (write_data transform acks io cl groups id bytes 0).2 groups id 0 0
        = ReadResult.found g bytes (transform bytes) := by
  have hstate := write_data_state transform acks io cl groups id bytes
  have hnone : ∀ g ∈ groups, io g ≠ 0 → ∀ b,
      (write_data transform acks io cl groups id bytes 0).2 g = some b →
        backend_read b id 0 0 = none := by
    intro g hg hne b hb
    have hcl := (hstate g hg b hb).2 hne
    have hh := hstale g hg hne
    unfold holds at hh
    rw [hcl] at hh
    dsimp only at hh
    cases hl : backend_lookup b id with
    | none => simp [backend_read, hl]
    | some r => rw [hl] at hh; simp at hh
  obtain ⟨g0, hg0, hr0, hz0⟩ := write_data_succeeded transform acks io cl groups id bytes 0 hw
  have hr1 : reachable (write_data transform acks io cl groups id bytes 0).2 g0 = true := by
    rw [write_data_reachable]; exact hr0
  obtain ⟨b0, hb0⟩ : ∃ b, (write_data transform acks io cl groups id bytes 0).2 g0 = some b :=
    Option.isSome_iff_exists.mp hr1
  obtain ⟨k, hk, _, hres⟩ := read_loop_first _ id 0 0 (bytes, transform bytes) groups
    (fun g hg b hb => by
      by_cases hio : io g = 0
      · exact Or.inl ((hstate g hg b hb).1 hio)
      · exact Or.inr (hnone g hg hio b hb))
    ⟨g0, hg0, b0, hb0, (hstate g0 hg0 b0 hb0).1 hz0⟩ []
  refine ⟨k, hk, ?_, hres⟩
  obtain ⟨_, b, hb, hrd⟩ := read_loop_found _ id 0 0 groups [] k bytes (transform bytes) hres
  by_contra hne
  rw [hnone k hk hne b hb] at hrd
  exact absurd hrd (by simp)

theorem C21_write_then_read_witness :
    succeeded (write_data ex_transform true ex_io_group1_fails ex_cluster [1, 2] 5
        (ex_bytes "short") 0).1 = true
      ∧ (∀ g ∈ [1, 2], ex_io_group1_fails g ≠ 0 → holds ex_cluster g 5 = false)
      ∧ (∃ g ∈ [1, 2], ex_io_group1_fails g = 0 ∧
        read_data (write_data ex_transform true ex_io_group1_fails ex_cluster [1, 2] 5
            (ex_bytes "short") 0).2 [1, 2] 5 0 0
          = ReadResult.found g (ex_bytes "short") (ex_transform (ex_bytes "short")))
      ∧ read_data (write_data ex_transform true no_io_error
            (write_data ex_transform true no_io_error ex_cluster [1, 2] 5
              (ex_bytes "a longer value") 0).2
            [1, 2] 5 (ex_bytes "short") 0).2 [1, 2] 5 0 0
          = ReadResult.found 1 (ex_bytes "short") (ex_transform (ex_bytes "short")) :=
  ⟨by decide, by decide,
    C21_write_then_read ex_transform true ex_io_group1_fails ex_cluster [1, 2] 5
      (ex_bytes "short") (by decide) (by decide),
    by decide⟩

/-- C24: `read_data` over a group list of which no group can be reached fails
with `NoRoute` (`-ENXIO`); over a group list with a group that can be reached,
the key being held by no group of the list, it fails with `NotFound`
(`-ENOENT`), and so it does after `remove` of the key at the groups of the
list. -/
theorem C24_no_route_and_not_found (cl : Cluster) (groups : List Nat) (id o s : Nat) :
    ((∀ g ∈ groups, reachable cl g = false) →
        read_data cl groups id o s = ReadResult.failed (- ENXIO))
      ∧ ((∃ g ∈ groups, reachable cl g = true) → (∀ g ∈ groups, holds cl g id = false) →
        read_data cl groups id o s = ReadResult.failed (-ENOENT))
      ∧ (∀ acks, (∃ g ∈ groups, reachable cl g = true) →
        read_data (remove_data acks cl groups id).2 groups id o s
          = ReadResult.failed (-ENOENT)) := by
  refine ⟨?_, ?_, ?_⟩
  · intro hu
    have ha : ∀ g ∈ groups, holds cl g id = false := by
      intro g hg
      have := hu g hg
      unfold reachable at this
      unfold holds
      cases hc : cl g with
      | none => rfl
      | some b => rw [hc] at this; simp at this
    rw [read_data_absent cl id o s groups ha, if_neg]
    intro hany
    obtain ⟨g, hg, hgr⟩ := List.any_eq_true.mp hany
    rw [hu g hg] at hgr
    exact Bool.false_ne_true hgr
  · intro hr ha
    rw [read_data_absent cl id o s groups ha, if_pos]
    exact List.any_eq_true.mpr hr
  · intro acks hr
    have ha : ∀ g ∈ groups, holds (remove_data acks cl groups id).2 g id = false := by
      intro g hg
      apply holds_eq_false
      exact fan_out_establish (fun _ => True) (fun b => backend_lookup b id = none) acks _
        (fun b _ => lookup_after_remove b id) (fun b _ => lookup_after_remove b id) groups cl
        (fun _ _ _ _ => Or.inl trivial) g hg
    rw [read_data_absent _ id o s groups ha, if_pos]
    obtain ⟨g, hg, hgr⟩ := hr
    refine List.any_eq_true.mpr ⟨g, hg, ?_⟩
    unfold remove_data
    rw [fan_out_reachable]
    exact hgr

theorem C24_no_route_and_not_found_witness :
    read_data ex_cluster [99] 7 0 0 = ReadResult.failed (- ENXIO)
      ∧ read_data ex_cluster [99, 1, 2] 7 0 0 = ReadResult.failed (-ENOENT)
      ∧ holds (write_data ex_transform true no_io_error ex_cluster [1, 2] 7 (ex_bytes "data") 0).2 1 7 = true
      ∧ read_data (remove_data true
          (write_data ex_transform true no_io_error ex_cluster [1, 2] 7 (ex_bytes "data") 0).2
          [1, 2] 7).2 [1, 2] 7 0 0 = ReadResult.failed (-ENOENT) :=
  ⟨(C24_no_route_and_not_found ex_cluster [99] 7 0 0).1 (by decide),
    (C24_no_route_and_not_found ex_cluster [99, 1, 2] 7 0 0).2.1 ⟨1, by decide, by decide⟩
      (by decide),
    by decide,
    (C24_no_route_and_not_found _ [1, 2] 7 0 0).2.2 true ⟨1, by decide, by decide⟩⟩

/-- C27: when the data is written only to the last group of the list
`pre ++ [glast]` (the write succeeds there, and no other group of the list
holds the key), `read_data` over the full list returns the written bytes from
the last group; a valid result of a read restricted to one group of the list
carries the written bytes and the number of that group; and a read restricted
to one of the other groups, when it can be reached, returns `NotFound`. -/
theorem C27_recovery_read (transform : List Nat → Nat) (acks : Bool) (io : Nat → Int)
    (cl : Cluster) (pre : List Nat) (glast id : Nat) (bytes : List Nat)
    (hw : succeeded (write_data transform acks io cl [glast] id bytes 0).1 = true)
    (hnd : glast ∉ pre) (hpre : ∀ g ∈ pre, holds cl g id = false) :
    read_data (write_data transform acks io cl [glast] id bytes 0).2 (pre ++ [glast]) id 0 0
        = ReadResult.found glast bytes (transform bytes)
      ∧ (∀ g ∈ pre ++ [glast], ∀ g2 data parent,
        read_data (write_data transform acks io cl [glast] id bytes 0).2 [g] id 0 0
            = ReadResult.found g2 data parent →
          g2 = g ∧ data = bytes)
      ∧ (∀ g ∈ pre, reachable cl g = true →
        read_data (write_data transform acks io cl [glast] id bytes 0).2 [g] id 0 0
          = ReadResult.failed (-ENOENT)) := by
  have hframe : ∀ g ∈ pre, (write_data transform acks io cl [glast] id bytes 0).2 g = cl g := by
    intro g hg
    apply write_data_frame
    intro hm
    rw [List.mem_singleton] at hm
    exact hnd (hm ▸ hg)
  have hpre2 : ∀ g ∈ pre,
      holds (write_data transform acks io cl [glast] id bytes 0).2 g id = false := by
    intro g hg
    have := hpre g hg
    unfold holds at this ⊢
    rw [hframe g hg]
    exact this
  obtain ⟨k, hk, hkr, hkz⟩ := write_data_succeeded transform acks io cl [glast] id bytes 0 hw
  rw [List.mem_singleton] at hk
  subst hk
  have hlast := write_data_reads transform acks io cl [k] id bytes
    (fun g hg => by rw [List.mem_singleton] at hg; rw [hg]; exact hkz) k (by simp)
  have hkr2 : reachable (write_data transform acks io cl [k] id bytes 0).2 k = true := by
    rw [write_data_reachable]; exact hkr
  obtain ⟨b, hb⟩ : ∃ b, (write_data transform acks io cl [k] id bytes 0).2 k = some b := by
    unfold reachable at hkr2
    exact Option.isSome_iff_exists.mp hkr2
  refine ⟨?_, ?_, ?_⟩
  · unfold read_data
    rw [read_loop_skip _ id 0 0 pre [k] hpre2 []]
    exact read_loop_hit _ id 0 0 k [] _ b (bytes, transform bytes) hb (hlast b hb)
  · intro g hg g2 data parent hres
    unfold read_data at hres
    obtain ⟨hm, b2, hb2, hrd⟩ := read_loop_found _ id 0 0 [g] [] g2 data parent hres
    rw [List.mem_singleton] at hm
    subst hm
    refine ⟨rfl, ?_⟩
    rcases List.mem_append.mp hg with hp | hl
    · have hh := hpre2 g2 hp
      unfold holds at hh
      rw [hb2] at hh
      dsimp only at hh
      simp only [backend_read] at hrd
      cases hl2 : backend_lookup b2 id with
      | none => rw [hl2] at hrd; simp at hrd
      | some r => rw [hl2] at hh; simp at hh
    · rw [List.mem_singleton] at hl
      subst hl
      have := hlast b2 hb2
      rw [hrd] at this
      simp only [Option.some.injEq, Prod.mk.injEq] at this
      exact this.1
  · intro g hg hgr
    have ha : ∀ h ∈ [g],
        holds (write_data transform acks io cl [k] id bytes 0).2 h id = false := by
      intro h hh
      rw [List.mem_singleton] at hh
      rw [hh]
      exact hpre2 g hg
    rw [read_data_absent _ id 0 0 [g] ha, if_pos]
    refine List.any_eq_true.mpr ⟨g, by simp, ?_⟩
    rw [write_data_reachable]
    exact hgr

theorem C27_recovery_read_witness :
    succeeded (write_data ex_transform true no_io_error ex_cluster [2] 7 (ex_bytes "data") 0).1 = true
      ∧ read_data (write_data ex_transform true no_io_error ex_cluster [2] 7 (ex_bytes "data") 0).2
          ([1] ++ [2]) 7 0 0
        = ReadResult.found 2 (ex_bytes "data") (ex_transform (ex_bytes "data"))
      ∧ read_data (write_data ex_transform true no_io_error ex_cluster [2] 7 (ex_bytes "data") 0).2
          [1] 7 0 0 = ReadResult.failed (-ENOENT) :=
  ⟨by decide,
    (C27_recovery_read ex_transform true no_io_error ex_cluster [1] 2 7 (ex_bytes "data")
      (by decide) (by decide) (by decide)).1,
    (C27_recovery_read ex_transform true no_io_error ex_cluster [1] 2 7 (ex_bytes "data")
      (by decide) (by decide) (by decide)).2.2 1 (by decide) (by decide)⟩

end Elliptics

namespace Elliptics

/-! ## Compare-and-swap -/

theorem succeeded_eq_any (rs : List WriteResponse) :
    succeeded rs
      = ((rs.filter (fun r => !r.is_ack)).map (fun r => r.status)).any
          (fun c => decide (c = 0)) := by
  induction rs with
  | nil => rfl
  | cons r rs ih =>
    unfold succeeded at ih ⊢
    rw [List.any_cons, ih]
    cases ha : r.is_ack
    · rw [List.filter_cons_of_pos (by simp [ha])]
      simp
    · rw [List.filter_cons_of_neg (by simp [ha])]
      simp

theorem fan_out_failed_not_succeeded (acks : Bool) (op : BackendState → Int × BackendState)
    (c : Int) (hc0 : c ≠ 0) (gs : List Nat) (cl : Cluster)
    (hf : ∀ g ∈ gs, ∀ b, cl g = some b → op b = (c, b)) :
    succeeded (fan_out acks op gs cl).1 = false := by
  rw [succeeded_eq_any, (fan_out_failed acks op c gs cl hf).2]
  rw [Bool.eq_false_iff]
  intro h
  rw [List.any_eq_true] at h
  obtain ⟨x, hx, hx0⟩ := h
  rw [List.mem_map] at hx
  obtain ⟨g, _, hg⟩ := hx
  have hx1 : x = 0 := by simpa using hx0
  by_cases hr : reachable cl g = true
  · rw [if_pos hr] at hg
    exact hc0 (hg.trans hx1)
  · rw [if_neg hr] at hg
    rw [hx1] at hg
    simp [ ENXIO] at hg

theorem fan_out_failed_error (acks : Bool) (op : BackendState → Int × BackendState)
    (c : Int) (h1 : c ≠ - ENXIO) (h2 : c ≠ -ENOENT) (gs : List Nat) (cl : Cluster)
    (hr : ∃ g ∈ gs, reachable cl g = true)
    (hf : ∀ g ∈ gs, ∀ b, cl g = some b → op b = (c, b)) :
    write_error (fan_out acks op gs cl).1 = c := by
  unfold write_error
  rw [(fan_out_failed acks op c gs cl hf).2]
  exact representative_error_const c gs cl h1 h2 hr

end Elliptics

namespace Elliptics

end Elliptics

namespace Elliptics

/-! ## Prepare, plain writes and commit -/

theorem read_loop_congr (cl cl2 : Cluster) (id o s : Nat)
    (h : ∀ g, (cl2 g).map (fun b => b.committed) = (cl g).map (fun b => b.committed))
    (gs : List Nat) (codes : List Int) :
    read_loop cl2 id o s gs codes = read_loop cl id o s gs codes := by
  induction gs generalizing codes with
  | nil => rfl
  | cons g rest ih =>
    have hg := h g
    simp only [read_loop]
    cases hc : cl g with
    | none =>
      cases hc2 : cl2 g with
      | none => exact ih _
      | some b2 => rw [hc, hc2] at hg; simp at hg
    | some b =>
      cases hc2 : cl2 g with
      | none => rw [hc, hc2] at hg; simp at hg
      | some b2 =>
        rw [hc, hc2] at hg
        simp only [Option.map_some', Option.some.injEq] at hg
        have hrd : backend_read b2 id o s = backend_read b id o s := by
          simp only [backend_read, backend_lookup, hg]
        simp only [hrd]
        cases backend_read b id o s with
        | none => exact ih _
        | some v => rfl

theorem write_plain_all_committed (acks : Bool) (groups : List Nat) (id : Nat)
    (chunks : List (Nat × List Nat)) (cl : Cluster) (g : Nat) :
    ((write_plain_all acks groups id chunks cl) g).map (fun b => b.committed)
      = (cl g).map (fun b => b.committed) := by
  induction chunks generalizing cl with
  | nil => rfl
  | cons c rest ih =>
    simp only [write_plain_all]
    rw [ih]
    exact fan_out_committed acks _ (fun _ => rfl) groups cl g

theorem write_plain_all_reachable (acks : Bool) (groups : List Nat) (id : Nat)
    (chunks : List (Nat × List Nat)) (cl : Cluster) (g : Nat) :
    reachable (write_plain_all acks groups id chunks cl) g = reachable cl g := by
  induction chunks generalizing cl with
  | nil => rfl
  | cons c rest ih =>
    simp only [write_plain_all]
    rw [ih]
    exact fan_out_reachable acks _ groups cl g

theorem overlay_end (w c : List Nat) : overlay w w.length c = w ++ c := by
  simp [overlay, zero_pad]

theorem pending_prepare (b : BackendState) (id : Nat) (p : List Nat) (reserve : Nat) :
    pending (backend_prepare b id 0 p reserve) id = p := by
  simp [pending, backend_prepare, overlay, zero_pad]

theorem pending_plain (b : BackendState) (id : Nat) (w c : List Nat)
    (h : pending b id = w) : pending (backend_plain b id w.length c) id = w ++ c := by
  simp only [pending, backend_plain] at h ⊢
  simp only [List.find?_cons, decide_True, Option.map_some', Option.getD_some]
  rw [h, overlay_end]

theorem commit_ok (transform : List Nat → Nat) (b : BackendState) (id : Nat)
    (w last : List Nat) (h : pending b id = w) :
    (backend_commit transform b id w.length last (w ++ last).length).1 = 0
      ∧ backend_read (backend_commit transform b id w.length last (w ++ last).length).2 id 0 0
        = some (w ++ last, transform last) := by
  unfold backend_commit
  simp only [h, overlay_end, lt_irrefl, if_false, true_and]
  simp only [backend_read, backend_lookup]
  rw [lookup_put_self _ _ id rfl]
  simp [slice, zero_pad]

theorem commit_short (transform : List Nat → Nat) (b : BackendState) (id : Nat)
    (w last : List Nat) (final_total : Nat) (h : pending b id = w)
    (hlt : final_total < (w ++ last).length) :
    backend_commit transform b id w.length last final_total = (-EINVAL, b) := by
  unfold backend_commit
  simp only [h, overlay_end, hlt, if_true]

theorem write_plain_all_pending (acks : Bool) (groups : List Nat) (hnd : groups.Nodup)
    (id : Nat) (plains : List (List Nat)) (w : List Nat) (cl : Cluster)
    (h0 : ∀ g ∈ groups, ∀ b, cl g = some b → pending b id = w) :
    ∀ g ∈ groups, ∀ b,
      write_plain_all acks groups id (consecutive_chunks w.length plains) cl g = some b →
        pending b id = w ++ plains.flatten := by
  induction plains generalizing w cl with
  | nil => simpa [consecutive_chunks, write_plain_all] using h0
  | cons c rest ih =>
    have h1 : ∀ g ∈ groups, ∀ b, (write_plain acks cl groups id c w.length).2 g = some b →
        pending b id = w ++ c :=
      fan_out_establish_nodup (fun b => pending b id = w) (fun b => pending b id = w ++ c)
        acks _ (fun b hb => pending_plain b id w c hb) groups hnd cl h0
    have h2 := ih (w ++ c) _ h1
    simp only [consecutive_chunks, write_plain_all]
    rw [List.length_append] at h2
    simpa [List.flatten, List.append_assoc] using h2

end Elliptics

namespace Elliptics

/-- C26: for a `write_prepare` of chunk `p` at offset 0 that succeeds, the
`write_plain` calls of the chunks `plains` at the consecutive offsets after
it, and the `write_commit` of chunk `last` at the offset after those, over a
group list without repetition (each chunk may be empty): every read of the
key after the prepare and after any number of the plain writes returns what
it returned before the prepare (the pre-existing record or `NotFound`); the
commit with `final_total` the total length succeeds and the read after it
returns the concatenation of the chunks in offset order; and a commit with a
`final_total` below the end of the bytes written fails in every group with
`InvalidArgument` (`-EINVAL`) and changes nothing. -/
theorem C26_prepare_plain_commit (transform : List Nat → Nat) (acks : Bool) (cl : Cluster)
    (groups : List Nat) (id : Nat) (p : List Nat) (plains : List (List Nat))
    (last : List Nat) (reserve : Nat) (hnd : groups.Nodup)
    (hw : succeeded (write_prepare acks cl groups id p 0 reserve).1 = true) :
    (∀ k gs o s,
        read_data (write_plain_all acks groups id (consecutive_chunks p.length (plains.take k))
            (write_prepare acks cl groups id p 0 reserve).2) gs id o s
          = read_data cl gs id o s)
      ∧ succeeded (write_commit transform acks
          (write_plain_all acks groups id (consecutive_chunks p.length plains)
            (write_prepare acks cl groups id p 0 reserve).2)
          groups id last (p ++ plains.flatten).length (p ++ plains.flatten ++ last).length).1
        = true
      ∧ (∃ g ∈ groups,
        read_data (write_commit transform acks
            (write_plain_all acks groups id (consecutive_chunks p.length plains)
              (write_prepare acks cl groups id p 0 reserve).2)
            groups id last (p ++ plains.flatten).length
            (p ++ plains.flatten ++ last).length).2 groups id 0 0
          = ReadResult.found g (p ++ plains.flatten ++ last) (transform last))
      ∧ (∀ final_total, final_total < (p ++ plains.flatten ++ last).length →
        succeeded (write_commit transform acks
            (write_plain_all acks groups id (consecutive_chunks p.length plains)
              (write_prepare acks cl groups id p 0 reserve).2)
            groups id last (p ++ plains.flatten).length final_total).1 = false
          ∧ write_error (write_commit transform acks
              (write_plain_all acks groups id (consecutive_chunks p.length plains)
                (write_prepare acks cl groups id p 0 reserve).2)
              groups id last (p ++ plains.flatten).length final_total).1 = -EINVAL
          ∧ (write_commit transform acks
              (write_plain_all acks groups id (consecutive_chunks p.length plains)
                (write_prepare acks cl groups id p 0 reserve).2)
              groups id last (p ++ plains.flatten).length final_total).2
            = write_plain_all acks groups id (consecutive_chunks p.length plains)
                (write_prepare acks cl groups id p 0 reserve).2) := by
  obtain ⟨g0, hg0, hr0⟩ := fan_out_succeeded_reachable acks _ groups cl hw
  have hp1 : ∀ g ∈ groups, ∀ b, (write_prepare acks cl groups id p 0 reserve).2 g = some b →
      pending b id = p :=
    fan_out_establish (fun _ => True) (fun b => pending b id = p) acks _
      (fun b _ => pending_prepare b id p reserve) (fun b _ => pending_prepare b id p reserve)
      groups cl (fun _ _ _ _ => Or.inl trivial)
  have hp2 := write_plain_all_pending acks groups hnd id plains p _ hp1
  have hr2 : ∃ g ∈ groups,
      reachable (write_plain_all acks groups id (consecutive_chunks p.length plains)
        (write_prepare acks cl groups id p 0 reserve).2) g = true := by
    refine ⟨g0, hg0, ?_⟩
    rw [write_plain_all_reachable]
    unfold write_prepare
    rw [fan_out_reachable]
    exact hr0
  have hbefore : ∀ k gs o s,
      read_data (write_plain_all acks groups id (consecutive_chunks p.length (plains.take k))
          (write_prepare acks cl groups id p 0 reserve).2) gs id o s
        = read_data cl gs id o s := by
    intro k gs o s
    unfold read_data
    apply read_loop_congr
    intro g
    rw [write_plain_all_committed]
    exact fan_out_committed acks _ (fun _ => rfl) groups cl g
  refine ⟨hbefore, ?_⟩
  generalize write_plain_all acks groups id (consecutive_chunks p.length plains)
    (write_prepare acks cl groups id p 0 reserve).2 = cl2 at hp2 hr2 ⊢
  refine ⟨?_, ?_, ?_⟩
  · exact fan_out_succeeded_of_zero acks _ groups cl2 hr2 (fun g hg b hb =>
      (commit_ok transform b id (p ++ plains.flatten) last (hp2 g hg b hb)).1)
  · have h3 : ∀ g ∈ groups, ∀ b,
        (write_commit transform acks cl2 groups id last (p ++ plains.flatten).length
          (p ++ plains.flatten ++ last).length).2 g = some b →
          backend_read b id 0 0 = some (p ++ plains.flatten ++ last, transform last) :=
      fan_out_establish_nodup (fun b => pending b id = p ++ plains.flatten)
        (fun b => backend_read b id 0 0 = some (p ++ plains.flatten ++ last, transform last))
        acks _
        (fun b hb => (commit_ok transform b id (p ++ plains.flatten) last hb).2)
        groups hnd cl2 hp2
    have hr3 : ∃ g ∈ groups,
        reachable (write_commit transform acks cl2 groups id last (p ++ plains.flatten).length
          (p ++ plains.flatten ++ last).length).2 g = true := by
      obtain ⟨g, hg, hgr⟩ := hr2
      exact ⟨g, hg, by unfold write_commit; rw [fan_out_reachable]; exact hgr⟩
    obtain ⟨g, hg, _, h⟩ := read_loop_uniform _ id 0 0
      (p ++ plains.flatten ++ last, transform last) groups h3 hr3 []
    exact ⟨g, hg, h⟩
  · intro final_total hlt
    have hf : ∀ g ∈ groups, ∀ b, cl2 g = some b →
        backend_commit transform b id (p ++ plains.flatten).length last final_total
          = (-EINVAL, b) :=
      fun g hg b hb =>
        commit_short transform b id (p ++ plains.flatten) last final_total (hp2 g hg b hb) hlt
    exact ⟨fan_out_failed_not_succeeded acks _ (-EINVAL) (by decide) groups cl2 hf,
      fan_out_failed_error acks _ (-EINVAL) (by decide) (by decide) groups cl2 hr2 hf,
      (fan_out_failed acks _ (-EINVAL) groups cl2 hf).1⟩

theorem C26_prepare_plain_commit_witness :
    [1, 2].Nodup
      ∧ succeeded (write_prepare true ex_cluster [1, 2] 11 (ex_bytes "pre|") 0 1024).1 = true
      ∧ (∃ g ∈ [1, 2],
        read_data (write_commit ex_transform true
            (write_plain_all true [1, 2] 11
              (consecutive_chunks (ex_bytes "pre|").length [ex_bytes "p0|", ex_bytes "p1|"])
              (write_prepare true ex_cluster [1, 2] 11 (ex_bytes "pre|") 0 1024).2)
            [1, 2] 11 (ex_bytes "end")
            (ex_bytes "pre|" ++ [ex_bytes "p0|", ex_bytes "p1|"].flatten).length
            (ex_bytes "pre|" ++ [ex_bytes "p0|", ex_bytes "p1|"].flatten
              ++ ex_bytes "end").length).2 [1, 2] 11 0 0
          = ReadResult.found g
              (ex_bytes "pre|" ++ [ex_bytes "p0|", ex_bytes "p1|"].flatten ++ ex_bytes "end")
              (ex_transform (ex_bytes "end")))
      ∧ write_error (write_commit ex_transform true
          (write_plain_all true [1, 2] 11
            (consecutive_chunks (ex_bytes "pre|").length [ex_bytes "p0|", ex_bytes "p1|"])
            (write_prepare true ex_cluster [1, 2] 11 (ex_bytes "pre|") 0 1024).2)
          [1, 2] 11 (ex_bytes "end")
          (ex_bytes "pre|" ++ [ex_bytes "p0|", ex_bytes "p1|"].flatten).length 12).1
        = -EINVAL :=
  ⟨by decide, by decide,
    (C26_prepare_plain_commit ex_transform true ex_cluster [1, 2] 11 (ex_bytes "pre|")
      [ex_bytes "p0|", ex_bytes "p1|"] (ex_bytes "end") 1024 (by decide) (by decide)).2.2.1,
    ((C26_prepare_plain_commit ex_transform true ex_cluster [1, 2] 11 (ex_bytes "pre|")
      [ex_bytes "p0|", ex_bytes "p1|"] (ex_bytes "end") 1024 (by decide) (by decide)).2.2.2
      12 (by decide)).2.1⟩

end Elliptics

namespace Elliptics

/-! ## Bulk write -/

theorem success_count_append (a b : List WriteResponse) :
    success_count (a ++ b) = success_count a + success_count b := by
  simp [success_count, List.countP_append]

theorem bulk_group_count (transform : List Nat → Nat) (acks : Bool) (g : Nat)
    (items : List (Nat × List Nat)) (b : BackendState) :
    success_count (bulk_group transform acks g items b).1 = items.length := by
  induction items generalizing b with
  | nil => rfl
  | cons item rest ih =>
    simp only [bulk_group]
    rw [success_count_append]
    have h1 : success_count
        (if acks = true then [{ group := g, status := 0, is_ack := true }] else []) = 0 := by
      cases acks <;> simp [success_count]
    have h2 : ∀ l : List WriteResponse,
        success_count ({ group := g, status := 0, is_ack := false } :: l)
          = success_count l + 1 := by
      intro l
      simp [success_count]
    rw [h1, h2, ih, List.length_cons]
    omega

theorem bulk_group_state (transform : List Nat → Nat) (acks : Bool) (g : Nat)
    (items : List (Nat × List Nat)) (b : BackendState) :
    (bulk_group transform acks g items b).2 = (bulk_group transform acks 0 items b).2 := by
  induction items generalizing b with
  | nil => rfl
  | cons item rest ih =>
    simp only [bulk_group]
    exact ih _

theorem bulk_group_frame (transform : List Nat → Nat) (acks : Bool) (g : Nat)
    (items : List (Nat × List Nat)) (b : BackendState) (id o s : Nat)
    (h : id ∉ items.map Prod.fst) :
    backend_read (bulk_group transform acks g items b).2 id o s = backend_read b id o s := by
  induction items generalizing b with
  | nil => rfl
  | cons item rest ih =>
    simp only [bulk_group]
    have h1 : id ≠ item.1 := fun e => h (by simp [e])
    have h2 : id ∉ rest.map Prod.fst := fun e => h (by simp only [List.map_cons]; simp [e])
    rw [ih _ h2]
    exact read_after_write_other transform b id item.1 0 item.2 o s h1

theorem bulk_group_reads (transform : List Nat → Nat) (acks : Bool) (g : Nat)
    (items : List (Nat × List Nat)) (hnd : (items.map Prod.fst).Nodup) (b : BackendState) :
    ∀ it ∈ items,
      backend_read (bulk_group transform acks g items b).2 it.1 0 0
        = some (it.2, transform it.2) := by
  induction items generalizing b with
  | nil => intro it hit; simp at hit
  | cons item rest ih =>
    rw [List.map_cons, List.nodup_cons] at hnd
    intro it hit
    simp only [bulk_group]
    rcases List.mem_cons.mp hit with e | e
    · rw [e, bulk_group_frame transform acks g rest _ item.1 0 0 hnd.1]
      exact read_after_write transform b item.1 item.2
    · exact ih hnd.2 _ it e

theorem bulk_write_count (transform : List Nat → Nat) (acks : Bool) (groups : List Nat)
    (cl : Cluster) (items : List (Nat × List Nat))
    (hall : ∀ g ∈ groups, reachable cl g = true) :
    success_count (bulk_write transform acks groups cl items).1
      = items.length * groups.length := by
  induction groups generalizing cl with
  | nil => simp [bulk_write, success_count]
  | cons g rest ih =>
    have hg := hall g (by simp)
    simp only [bulk_write]
    cases hc : cl g with
    | none => simp [reachable, hc] at hg
    | some b =>
      simp only
      rw [success_count_append, bulk_group_count, ih, List.length_cons, Nat.mul_succ]
      · omega
      · intro k hk
        have := hall k (by simp [hk])
        unfold reachable cluster_set at *
        by_cases hkg : k = g
        · simp [hkg]
        · simpa [hkg] using this

theorem bulk_write_state (transform : List Nat → Nat) (acks : Bool) (groups : List Nat)
    (cl : Cluster) (items : List (Nat × List Nat)) :
    (bulk_write transform acks groups cl items).2
      = (fan_out acks (fun b => (0, (bulk_group transform acks 0 items b).2)) groups cl).2 := by
  induction groups generalizing cl with
  | nil => rfl
  | cons g rest ih =>
    simp only [bulk_write, fan_out]
    cases hc : cl g with
    | none => exact ih cl
    | some b =>
      simp only
      rw [ih, bulk_group_state]

end Elliptics

namespace Elliptics

/-- C23: for a `bulk_write` of the items through a session over groups that
can all be reached (every group accepts every item), the number of responses
with status 0 that are not acks is the number of items times the number of
groups; and afterwards, when the keys of the items are distinct and there is
a group, each key reads back its own blob. -/
theorem C23_bulk_write_counts (transform : List Nat → Nat) (acks : Bool) (cl : Cluster)
    (groups : List Nat) (items : List (Nat × List Nat))
    (hall : ∀ g ∈ groups, reachable cl g = true) :
    success_count (bulk_write transform acks groups cl items).1
        = items.length * groups.length
      ∧ (groups ≠ [] → (items.map Prod.fst).Nodup → ∀ it ∈ items, ∃ g ∈ groups,
        read_data (bulk_write transform acks groups cl items).2 groups it.1 0 0
          = ReadResult.found g it.2 (transform it.2)) := by
  refine ⟨bulk_write_count transform acks groups cl items hall, ?_⟩
  intro hne hnd it hit
  rw [bulk_write_state]
  have hq : ∀ g ∈ groups, ∀ b,
      (fan_out acks (fun b => (0, (bulk_group transform acks 0 items b).2)) groups cl).2 g
          = some b →
        backend_read b it.1 0 0 = some (it.2, transform it.2) :=
    fan_out_establish (fun _ => True)
      (fun b => backend_read b it.1 0 0 = some (it.2, transform it.2)) acks _
      (fun b _ => bulk_group_reads transform acks 0 items hnd b it hit)
      (fun b _ => bulk_group_reads transform acks 0 items hnd b it hit) groups cl
      (fun _ _ _ _ => Or.inl trivial)
  have hr : ∃ g ∈ groups,
      reachable
        (fan_out acks (fun b => (0, (bulk_group transform acks 0 items b).2)) groups cl).2 g
        = true := by
    cases groups with
    | nil => exact absurd rfl hne
    | cons g rest =>
      refine ⟨g, by simp, ?_⟩
      rw [fan_out_reachable]
      exact hall g (by simp)
  obtain ⟨g, hg, _, h⟩ := read_loop_uniform _ it.1 0 0 (it.2, transform it.2) groups hq hr []
  exact ⟨g, hg, h⟩

theorem C23_bulk_write_counts_witness :
    (∀ g ∈ [1, 2], reachable ex_cluster g = true)
      ∧ success_count (bulk_write ex_transform true [1, 2] ex_cluster
          [(20, ex_bytes "b0"), (21, ex_bytes "b1"), (22, ex_bytes "b2")]).1 = 3 * 2
      ∧ ∃ g ∈ [1, 2],
        read_data (bulk_write ex_transform true [1, 2] ex_cluster
            [(20, ex_bytes "b0"), (21, ex_bytes "b1"), (22, ex_bytes "b2")]).2 [1, 2] 21 0 0
          = ReadResult.found g (ex_bytes "b1") (ex_transform (ex_bytes "b1")) :=
  ⟨by decide,
    (C23_bulk_write_counts ex_transform true ex_cluster [1, 2]
      [(20, ex_bytes "b0"), (21, ex_bytes "b1"), (22, ex_bytes "b2")] (by decide)).1,
    (C23_bulk_write_counts ex_transform true ex_cluster [1, 2]
      [(20, ex_bytes "b0"), (21, ex_bytes "b1"), (22, ex_bytes "b2")] (by decide)).2
      (by decide) (by decide) (21, ex_bytes "b1") (by decide)⟩

end Elliptics

namespace Elliptics

/-! ## Range requests -/

theorem iterate_perm (b : BackendState) (begin_id end_id : Nat) :
    (backend_iterate b begin_id end_id).Perm (b.committed.filter (in_range begin_id end_id)) :=
  List.perm_insertionSort _ _

theorem iterate_sorted (b : BackendState) (begin_id end_id : Nat) :
    (backend_iterate b begin_id end_id).Pairwise (fun x y => x.id ≤ y.id) := by
  haveI : IsTotal StoredRecord (fun x y => x.id ≤ y.id) := ⟨fun x y => Nat.le_total x.id y.id⟩
  haveI : IsTrans StoredRecord (fun x y => x.id ≤ y.id) := ⟨fun _ _ _ h1 h2 => Nat.le_trans h1 h2⟩
  exact List.sorted_insertionSort (fun x y : StoredRecord => x.id ≤ y.id) _

theorem iterate_strict (b : BackendState) (begin_id end_id : Nat) (hok : store_ok b) :
    (backend_iterate b begin_id end_id).Pairwise (fun x y => x.id < y.id) := by
  have hnd : ((backend_iterate b begin_id end_id).map (fun r => r.id)).Nodup :=
    ((iterate_perm b begin_id end_id).map _).nodup_iff.mpr (filter_ok _ _ hok)
  have hne : (backend_iterate b begin_id end_id).Pairwise (fun x y => x.id ≠ y.id) := by
    unfold List.Nodup at hnd
    rw [List.pairwise_map] at hnd
    exact hnd
  exact ((iterate_sorted b begin_id end_id).and hne).imp
    (fun h => Nat.lt_of_le_of_ne h.1 h.2)

theorem filter_range_removed (st : List StoredRecord) (begin_id end_id : Nat) :
    (st.filter (fun r => !in_range begin_id end_id r)).filter (in_range begin_id end_id)
      = [] := by
  rw [List.filter_eq_nil_iff]
  intro x hx
  have := (List.mem_filter.mp hx).2
  simpa using this

theorem cas_store_ok (transform : List Nat → Nat) (b : BackendState) (id offset : Nat)
    (bytes : List Nat) (expected : Nat) (h : store_ok b) :
    store_ok (backend_cas transform b id offset bytes expected).2 := by
  unfold backend_cas
  cases backend_lookup b id with
  | none => exact h
  | some r =>
    by_cases hp : r.parent = expected
    · simp only [hp, if_true]
      exact write_store_ok transform b id offset bytes h
    · simp only [hp, if_false]
      exact h

theorem remove_store_ok (b : BackendState) (id : Nat) (h : store_ok b) :
    store_ok (backend_remove b id).2 := by
  unfold backend_remove
  cases backend_lookup b id with
  | none => exact h
  | some r => exact filter_ok _ _ h

theorem commit_store_ok (transform : List Nat → Nat) (b : BackendState) (id offset : Nat)
    (bytes : List Nat) (final_total : Nat) (h : store_ok b) :
    store_ok (backend_commit transform b id offset bytes final_total).2 := by
  unfold backend_commit
  by_cases hlt : final_total < (overlay (pending b id) offset bytes).length
  · simp only [hlt, if_true]
    exact h
  · simp only [hlt, if_false]
    exact store_put_ok _ _ h

/-- C22: on a group that can be reached and whose backend holds no two records
of one ID, with `k` the number of its records in `[begin_id, end_id)`:
`read_data_range` succeeds for every `start` and `limit` and returns
`min(limit, k - start)` records, those at the positions `start`, `start + 1`,
... of the records of the range put in strictly ascending ID order;
`remove_data_range` on the range reports `num`s of sum `k`, and a second
`remove_data_range` on the range reports 0. -/
theorem C22_range_read_and_remove (cl : Cluster) (group : Nat) (b : BackendState)
    (begin_id end_id : Nat) (hc : cl group = some b) (hok : store_ok b) :
    (∀ start limit,
        (read_data_range cl group begin_id end_id start limit).1 = 0
          ∧ (read_data_range cl group begin_id end_id start limit).2.length
            = min limit ((b.committed.filter (in_range begin_id end_id)).length - start)
          ∧ (read_data_range cl group begin_id end_id start limit).2
            = ((backend_iterate b begin_id end_id).drop start).take limit)
      ∧ (backend_iterate b begin_id end_id).Perm
          (b.committed.filter (in_range begin_id end_id))
      ∧ (backend_iterate b begin_id end_id).Pairwise (fun x y => x.id < y.id)
      ∧ (remove_data_range cl group begin_id end_id).1.1 = 0
      ∧ (remove_data_range cl group begin_id end_id).1.2.sum
        = (b.committed.filter (in_range begin_id end_id)).length
      ∧ (remove_data_range (remove_data_range cl group begin_id end_id).2
          group begin_id end_id).1.1 = 0
      ∧ (remove_data_range (remove_data_range cl group begin_id end_id).2
          group begin_id end_id).1.2.sum = 0 := by
  have hrem : remove_data_range cl group begin_id end_id
      = ((0, [(b.committed.filter (in_range begin_id end_id)).length]),
          cluster_set cl group
            { b with committed := b.committed.filter (fun r => !in_range begin_id end_id r) }) := by
    unfold remove_data_range
    rw [hc]
  have hrem2 : (remove_data_range (remove_data_range cl group begin_id end_id).2
      group begin_id end_id).1 = (0, [0]) := by
    rw [hrem]
    unfold remove_data_range
    simp only [cluster_set, if_true, filter_range_removed, List.length_nil]
  refine ⟨?_, iterate_perm b begin_id end_id, iterate_strict b begin_id end_id hok, ?_, ?_, ?_, ?_⟩
  · intro start limit
    have hrd : read_data_range cl group begin_id end_id start limit
        = (0, ((backend_iterate b begin_id end_id).drop start).take limit) := by
      unfold read_data_range
      rw [hc]
    rw [hrd]
    refine ⟨rfl, ?_, rfl⟩
    simp only [List.length_take, List.length_drop, (iterate_perm b begin_id end_id).length_eq]
  · rw [hrem]
  · rw [hrem]
    simp
  · rw [hrem2]
  · rw [hrem2]
    simp

set_option maxRecDepth 100000 in
theorem C22_range_read_and_remove_witness :
    (bulk_write ex_transform false [2] ex_cluster ex_range_items).2 2
        = some (bulk_group ex_transform false 2 ex_range_items ex_backend_empty).2
      ∧ store_ok (bulk_group ex_transform false 2 ex_range_items ex_backend_empty).2
      ∧ (read_data_range (bulk_write ex_transform false [2] ex_cluster ex_range_items).2
          2 1300 1316 3 14).2.length
        = min 14 (((bulk_group ex_transform false 2 ex_range_items
            ex_backend_empty).2.committed.filter (in_range 1300 1316)).length - 3)
      ∧ ((bulk_group ex_transform false 2 ex_range_items
            ex_backend_empty).2.committed.filter (in_range 1300 1316)).length = 16 :=
  ⟨by decide, by decide,
    ((C22_range_read_and_remove (bulk_write ex_transform false [2] ex_cluster ex_range_items).2
      2 (bulk_group ex_transform false 2 ex_range_items ex_backend_empty).2 1300 1316
      (by decide) (by decide)).1 3 14).2.1,
    by decide⟩

end Elliptics

namespace Elliptics

/-! ## Lines that end in CR LF -/

theorem tokenize_line_of_value (key value : List Char) (hk : plain_key key)
    (hstart : starts_plain value = true) (hvall : ∀ c ∈ value, c ≠ NUL)
    (hpen : (key ++ [' ', '=', ' '] ++ value).getD
        ((key ++ [' ', '=', ' '] ++ value).length - 2) NUL ≠ '\r' ∧
      (key ++ [' ', '=', ' '] ++ value).getD
        ((key ++ [' ', '=', ' '] ++ value).length - 2) NUL ≠ '\n') :
    tokenize (config_data_writer_line key value) = some (key, value) := by
  obtain ⟨hkne, hkall⟩ := hk
  obtain ⟨k0, ktail, rfl⟩ := List.exists_cons_of_ne_nil hkne
  cases value with
  | nil => simp [starts_plain] at hstart
  | cons v0 vtail =>
    have hv0 : isspace v0 = false := by simpa [starts_plain] using hstart
    have hk0 := hkall k0 (by simp)
    unfold tokenize config_data_writer_line
    rw [strip_terminator_newline _ (by simp) hpen]
    simp only
    have b0 : k0 :: ktail ++ [' ', '=', ' '] ++ v0 :: vtail ++ [NUL]
        = [] ++ k0 :: (ktail ++ ' ' :: '=' :: ' ' :: v0 :: vtail ++ [NUL]) := by simp
    have l0 : (k0 :: ktail ++ [' ', '=', ' '] ++ v0 :: vtail).length
        = (ktail.length + (vtail.length + 4)) + 1 := by
      simp only [List.length_append, List.length_cons, List.length_nil]; omega
    rw [b0, l0]
    have s0 := tok_step_first [] (ktail ++ ' ' :: '=' :: ' ' :: v0 :: vtail ++ [NUL]) k0
      (ktail.length + (vtail.length + 4)) none hk0.1
    simp only [List.length_nil] at s0
    rw [s0]
    have b1 : [] ++ k0 :: (ktail ++ ' ' :: '=' :: ' ' :: v0 :: vtail ++ [NUL])
        = [k0] ++ ktail ++ (' ' :: '=' :: ' ' :: v0 :: vtail ++ [NUL]) := by simp
    have s1 := tok_scan_plain ktail [k0] (' ' :: '=' :: ' ' :: v0 :: vtail ++ [NUL])
      (vtail.length + 4) 0
      (fun c hc => ⟨(hkall c (by simp [hc])).1, (hkall c (by simp [hc])).2.1,
        (hkall c (by simp [hc])).2.2.1⟩)
    simp only [List.length_singleton] at s1
    rw [b1, show (0 : Nat) + 1 = 1 from rfl, s1]
    have b2 : [k0] ++ ktail ++ (' ' :: '=' :: ' ' :: v0 :: vtail ++ [NUL])
        = (k0 :: ktail) ++ ' ' :: ('=' :: ' ' :: v0 :: vtail ++ [NUL]) := by simp
    have l2 : 1 + ktail.length = (k0 :: ktail).length := by
      simp only [List.length_cons]; omega
    rw [b2, l2, show vtail.length + 4 = (vtail.length + 3) + 1 from rfl,
      tok_step_space (k0 :: ktail) _ ' ' _ 0 none (by decide)]
    have b3 : (k0 :: ktail) ++ NUL :: ('=' :: ' ' :: v0 :: vtail ++ [NUL])
        = (k0 :: ktail ++ [NUL]) ++ DNET_CONF_DELIMITER :: (' ' :: v0 :: vtail ++ [NUL]) := by
      simp [DNET_CONF_DELIMITER]
    have l3 : (k0 :: ktail).length + 1 = (k0 :: ktail ++ [NUL]).length := by simp
    rw [b3, l3, show vtail.length + 3 = (vtail.length + 2) + 1 from rfl,
      tok_step_delimiter (k0 :: ktail ++ [NUL]) _ _ 0]
    have b4 : (k0 :: ktail ++ [NUL]) ++ NUL :: (' ' :: v0 :: vtail ++ [NUL])
        = (k0 :: ktail ++ [NUL, NUL]) ++ ' ' :: (v0 :: vtail ++ [NUL]) := by simp
    have l4 : (k0 :: ktail ++ [NUL]).length + 1 = (k0 :: ktail ++ [NUL, NUL]).length := by simp
    rw [b4, l4, show vtail.length + 2 = (vtail.length + 1) + 1 from rfl,
      tok_step_space (k0 :: ktail ++ [NUL, NUL]) _ ' ' _ 0 (some 0) (by decide)]
    have b5 : (k0 :: ktail ++ [NUL, NUL]) ++ NUL :: (v0 :: vtail ++ [NUL])
        = (k0 :: ktail ++ [NUL, NUL, NUL]) ++ v0 :: (vtail ++ [NUL]) := by simp
    have l5 : (k0 :: ktail ++ [NUL, NUL]).length + 1
        = (k0 :: ktail ++ [NUL, NUL, NUL]).length := by simp
    rw [b5, l5, tok_step_value (k0 :: ktail ++ [NUL, NUL, NUL]) _ v0 _ 0 0 hv0]
    simp only [List.drop_zero, Option.some.injEq, Prod.mk.injEq]
    refine ⟨?_, ?_⟩
    · have e : (k0 :: ktail ++ [NUL, NUL, NUL]) ++ v0 :: (vtail ++ [NUL])
          = (k0 :: ktail) ++ NUL :: ([NUL, NUL] ++ v0 :: (vtail ++ [NUL])) := by simp
      rw [e]
      exact c_str_append_nul _ _ (fun c hc => (hkall c hc).2.2.2)
    · rw [List.drop_left]
      have e : v0 :: (vtail ++ [NUL]) = (v0 :: vtail) ++ NUL :: [] := by simp
      rw [e]
      exact c_str_append_nul _ _ (fun c hc => hvall c hc)

theorem crlf_penultimate (key value : List Char) (hv : plain_value value) :
    (key ++ [' ', '=', ' '] ++ (value ++ ['\r'])).getD
        ((key ++ [' ', '=', ' '] ++ (value ++ ['\r'])).length - 2) NUL ≠ '\r' ∧
      (key ++ [' ', '=', ' '] ++ (value ++ ['\r'])).getD
        ((key ++ [' ', '=', ' '] ++ (value ++ ['\r'])).length - 2) NUL ≠ '\n' := by
  obtain ⟨hstart, hall⟩ := hv
  have hne : value ≠ [] := by
    intro h; subst h; simp [starts_plain] at hstart
  obtain ⟨vinit, vl, rfl⟩ : ∃ vinit vl, value = vinit ++ [vl] :=
    ⟨value.dropLast, value.getLast hne, (List.dropLast_append_getLast hne).symm⟩
  have e : key ++ [' ', '=', ' '] ++ (vinit ++ [vl] ++ ['\r'])
      = (key ++ [' ', '=', ' '] ++ vinit) ++ vl :: ['\r'] := by simp
  have hl : (key ++ [' ', '=', ' '] ++ (vinit ++ [vl] ++ ['\r'])).length - 2
      = (key ++ [' ', '=', ' '] ++ vinit).length := by
    simp only [List.length_append, List.length_cons, List.length_nil]; omega
  rw [hl, e, getD_append_len _ vl ['\r'] _ NUL rfl]
  have := hall vl (by simp)
  exact ⟨this.1, this.2.1⟩

end Elliptics

namespace Elliptics

/-- C36 (failing input): for every line `key = value` that ends in CR LF,
with a key free of whitespace, `=`, `#` and NUL and a value that starts with
a character other than whitespace and contains no CR, LF or NUL, the two
terminator checks remove the LF and leave the CR: the second check looks at
the character in front of the CR, since `len` has been decremented by then.
The tokenizer returns the value with the CR as its last character, and that
is the value the lookup hands to the handler. -/
theorem C36_crlf_line_keeps_cr (x : CfgExternals) (g : CfgGlobals) (key value : List Char)
    (hk : plain_key key) (hv : plain_value value) :
    strip_terminator (key ++ [' ', '=', ' '] ++ value ++ ['\r', '\n'])
        = (key ++ [' ', '=', ' '] ++ value ++ ['\r', NUL],
           (key ++ [' ', '=', ' '] ++ value).length + 1)
      ∧ tokenize (key ++ [' ', '=', ' '] ++ value ++ ['\r', '\n'])
        = some (key, value ++ ['\r'])
      ∧ dnet_parse_line x g (key ++ [' ', '=', ' '] ++ value ++ ['\r', '\n'])
        = dispatch x g key (value ++ ['\r'])
      ∧ value ++ ['\r'] ≠ value := by
  have hpen := crlf_penultimate key value hv
  have hline : key ++ [' ', '=', ' '] ++ value ++ ['\r', '\n']
      = config_data_writer_line key (value ++ ['\r']) := by
    simp [config_data_writer_line]
  have hstart : starts_plain (value ++ ['\r']) = true := by
    obtain ⟨hs, _⟩ := hv
    cases value with
    | nil => simp [starts_plain] at hs
    | cons v0 vtail => simpa [starts_plain] using hs
  have hnul : ∀ c ∈ value ++ ['\r'], c ≠ NUL := by
    intro c hc
    rcases List.mem_append.mp hc with h | h
    · exact (hv.2 c h).2.2
    · rw [List.mem_singleton] at h
      rw [h]; decide
  have htok := tokenize_line_of_value key (value ++ ['\r']) hk hstart hnul hpen
  refine ⟨?_, ?_, ?_, ?_⟩
  · have h := strip_terminator_newline (key ++ [' ', '=', ' '] ++ (value ++ ['\r']))
      (by simp only [List.length_append, List.length_cons, List.length_nil]; omega) hpen
    have e1 : key ++ [' ', '=', ' '] ++ value ++ ['\r', '\n']
        = key ++ [' ', '=', ' '] ++ (value ++ ['\r']) ++ ['\n'] := by simp
    rw [e1, h]
    refine Prod.ext ?_ ?_
    · simp
    · simp only [List.length_append, List.length_cons, List.length_nil]
      omega
  · rw [hline]
    exact htok
  · rw [hline]
    unfold dnet_parse_line
    have hc : c_str (config_data_writer_line key (value ++ ['\r']))
        = config_data_writer_line key (value ++ ['\r']) := by
      apply c_str_no_nul
      intro c hc
      simp only [config_data_writer_line, List.mem_append, List.mem_cons, List.mem_singleton,
        List.not_mem_nil, or_false] at hc
      rcases hc with ((h | h | h | h) | h | h) | h
      · exact (hk.2 c h).2.2.2
      · rw [h]; decide
      · rw [h]; decide
      · rw [h]; decide
      · exact (hv.2 c h).2.2
      · rw [h]; decide
      · rw [h]; decide
    rw [hc, writer_line_skip key (value ++ ['\r']) hk]
    simp only [htok]
  · intro h
    have := congrArg List.length h
    simp at this

theorem C36_crlf_line_keeps_cr_witness :
    plain_key "backend".toList ∧ plain_value "blob".toList
      ∧ tokenize ("backend".toList ++ [' ', '=', ' '] ++ "blob".toList ++ ['\r', '\n'])
        = some ("backend".toList, "blob".toList ++ ['\r'])
      ∧ (dnet_parse_config ex_cfg_externals 0 (some "backend = blob\n".toList)
          ex_globals).map (fun r => r.err) = some 0
      ∧ (dnet_parse_config ex_cfg_externals 0 (some "backend = blob\r\n".toList)
          ex_globals).map (fun r => r.err) = some (-ENOENT) :=
  ⟨by decide, by decide,
    (C36_crlf_line_keeps_cr ex_cfg_externals ex_globals "backend".toList "blob".toList
      (by decide) (by decide)).2.1,
    by decide, by decide⟩

end Elliptics

namespace Elliptics

/-! ## Lines that the tokenizer passes over -/

theorem getD_set_nul (l : List Char) (i j : Nat) :
    (l.set i NUL).getD j NUL = if j = i then NUL else l.getD j NUL := by
  by_cases hj : j = i
  · rw [if_pos hj, hj]
    by_cases hi : i < l.length
    · exact getD_set_self l i NUL NUL hi
    · rw [List.getD_eq_default]
      rw [List.length_set]
      omega
  · rw [if_neg hj]
    exact getD_set_other l i j NUL NUL hj

theorem set_terminator_getD (l : List Char) (a : Nat)
    (h : l.getD a NUL = '\r' ∨ l.getD a NUL = '\n') (j : Nat) :
    (l.set a NUL).getD j NUL = l.getD j NUL ∨
      ((l.set a NUL).getD j NUL = NUL ∧ isspace (l.getD j NUL) = true) := by
  rw [getD_set_nul]
  by_cases hj : j = a
  · rw [if_pos hj, hj]
    refine Or.inr ⟨rfl, ?_⟩
    rcases h with h | h <;> rw [h] <;> decide
  · rw [if_neg hj]
    exact Or.inl rfl

theorem strip_terminator_getD (ptr : List Char) (j : Nat) :
    (strip_terminator ptr).1.getD j NUL = ptr.getD j NUL ∨
      ((strip_terminator ptr).1.getD j NUL = NUL ∧ isspace (ptr.getD j NUL) = true) := by
  have step : ∀ (l : List Char) (a : Nat) (c : Prop) [Decidable c] (n1 n2 : Nat),
      (c → l.getD a NUL = '\r' ∨ l.getD a NUL = '\n') → ∀ j,
      (if c then (l.set a NUL, n1) else (l, n2)).1.getD j NUL = l.getD j NUL ∨
        ((if c then (l.set a NUL, n1) else (l, n2)).1.getD j NUL = NUL ∧
          isspace (l.getD j NUL) = true) := by
    intro l a c _ n1 n2 hc j
    by_cases h : c
    · rw [if_pos h]
      exact set_terminator_getD l a (hc h) j
    · rw [if_neg h]
      exact Or.inl rfl
  unfold strip_terminator
  simp only []
  have h1 := step ptr (ptr.length - 1)
    (1 < ptr.length ∧
      (ptr.getD (ptr.length - 1) NUL = '\r' ∨ ptr.getD (ptr.length - 1) NUL = '\n'))
    (ptr.length - 1) ptr.length (fun h => h.2) j
  generalize (if 1 < ptr.length ∧
      (ptr.getD (ptr.length - 1) NUL = '\r' ∨ ptr.getD (ptr.length - 1) NUL = '\n') then
      (ptr.set (ptr.length - 1) NUL, ptr.length - 1) else (ptr, ptr.length)) = r1 at h1 ⊢
  have h2 : (if 2 < r1.2 ∧ (r1.1.getD (r1.2 - 2) NUL = '\r' ∨ r1.1.getD (r1.2 - 2) NUL = '\n')
      then (r1.1.set (r1.2 - 2) NUL, r1.2 - 1) else r1).1.getD j NUL = r1.1.getD j NUL ∨
      ((if 2 < r1.2 ∧ (r1.1.getD (r1.2 - 2) NUL = '\r' ∨ r1.1.getD (r1.2 - 2) NUL = '\n')
        then (r1.1.set (r1.2 - 2) NUL, r1.2 - 1) else r1).1.getD j NUL = NUL ∧
        isspace (r1.1.getD j NUL) = true) := by
    have := step r1.1 (r1.2 - 2)
      (2 < r1.2 ∧ (r1.1.getD (r1.2 - 2) NUL = '\r' ∨ r1.1.getD (r1.2 - 2) NUL = '\n'))
      (r1.2 - 1) r1.2 (fun h => h.2) j
    exact this
  rcases h2 with h2 | ⟨h2, hs2⟩
  · rcases h1 with h1 | ⟨h1, hs1⟩
    · exact Or.inl (h2.trans h1)
    · exact Or.inr ⟨h2.trans h1, hs1⟩
  · rcases h1 with h1 | ⟨h1, hs1⟩
    · exact Or.inr ⟨h2, h1 ▸ hs2⟩
    · exact Or.inr ⟨h2, hs1⟩

theorem tokenize_loop_no_value :
    ∀ (k i : Nat) (t : Tok), t.value = none → t.key.isSome = true →
      (∀ j, i ≤ j → t.buf.getD j NUL = DNET_CONF_DELIMITER →
        ∃ m, i ≤ m ∧ m < j ∧ t.buf.getD m NUL = DNET_CONF_COMMENT) →
      (tokenize_loop k i t).value = none := by
  intro k
  induction k with
  | zero => intro i t hv _ _; exact hv
  | succ k ih =>
    intro i t hv hk hP
    have hkn : t.key.isNone = false := by
      cases hkk : t.key with
      | none => rw [hkk] at hk; simp at hk
      | some _ => rfl
    have hvn : t.value.isNone = true := by rw [hv]; rfl
    simp only [tokenize_loop]
    by_cases hsp : isspace (t.buf.getD i NUL) = true
    · rw [if_pos hsp, if_pos hk]
      refine ih (i + 1) _ hv hk ?_
      intro j hj hd
      show ∃ m, i + 1 ≤ m ∧ m < j ∧ (t.buf.set i NUL).getD m NUL = DNET_CONF_COMMENT
      have hd2 : (t.buf.set i NUL).getD j NUL = DNET_CONF_DELIMITER := hd
      rw [getD_set_nul, if_neg (by omega)] at hd2
      obtain ⟨m, hm1, hm2, hm3⟩ := hP j (by omega) hd2
      have hmi : m ≠ i := by
        intro e
        rw [e] at hm3
        rw [hm3] at hsp
        exact absurd hsp (by decide)
      refine ⟨m, by omega, hm2, ?_⟩
      rw [getD_set_nul, if_neg hmi]
      exact hm3
    · rw [if_neg hsp, if_neg (by rw [hkn]; exact Bool.false_ne_true), if_pos hvn]
      by_cases hd : t.buf.getD i NUL = DNET_CONF_DELIMITER
      · obtain ⟨m, hm1, hm2, _⟩ := hP i (Nat.le_refl _) hd
        omega
      · rw [if_neg hd]
        by_cases hc : t.buf.getD i NUL = DNET_CONF_COMMENT
        · rw [if_pos hc]
        · rw [if_neg hc]
          refine ih (i + 1) t hv hk ?_
          intro j hj hdj
          obtain ⟨m, hm1, hm2, hm3⟩ := hP j (by omega) hdj
          have hmi : m ≠ i := by
            intro e
            rw [e] at hm3
            exact hc hm3
          exact ⟨m, by omega, hm2, hm3⟩

theorem tokenize_loop_key_head (c : Char) :
    ∀ (k i : Nat) (t : Tok), 1 ≤ i → t.key = some 0 → t.buf.getD 0 NUL = c →
      ((tokenize_loop k i t).key = some 0 ∨ (tokenize_loop k i t).key = none) ∧
        (tokenize_loop k i t).buf.getD 0 NUL = c := by
  intro k
  induction k with
  | zero => intro i t _ hk hb; exact ⟨Or.inl hk, hb⟩
  | succ k ih =>
    intro i t hi hk hb
    have hks : t.key.isSome = true := by rw [hk]; rfl
    have hkn : t.key.isNone = false := by rw [hk]; rfl
    have hset : (t.buf.set i NUL).getD 0 NUL = c := by
      rw [getD_set_nul, if_neg (by omega)]
      exact hb
    simp only [tokenize_loop]
    by_cases hsp : isspace (t.buf.getD i NUL) = true
    · rw [if_pos hsp, if_pos hks]
      exact ih (i + 1) _ (by omega) hk hset
    · rw [if_neg hsp, if_neg (by rw [hkn]; exact Bool.false_ne_true)]
      by_cases hvn : t.value.isNone = true
      · rw [if_pos hvn]
        by_cases hd : t.buf.getD i NUL = DNET_CONF_DELIMITER
        · rw [if_pos hd]
          exact ih (i + 1) _ (by omega) hk hset
        · rw [if_neg hd]
          by_cases hc : t.buf.getD i NUL = DNET_CONF_COMMENT
          · rw [if_pos hc]
            exact ⟨Or.inr rfl, hb⟩
          · rw [if_neg hc]
            exact ih (i + 1) t (by omega) hk hb
      · rw [if_neg hvn]
        exact ⟨Or.inl hk, hb⟩

end Elliptics

namespace Elliptics

theorem getD_split (l : List Char) (j : Nat) (ch : Char) (hne : ch ≠ NUL)
    (h : l.getD j NUL = ch) : l = l.take j ++ ch :: l.drop (j + 1) := by
  have hj : j < l.length := by
    by_contra hlt
    rw [List.getD_eq_default _ _ (by omega)] at h
    exact hne h.symm
  rw [List.getD_eq_getElem _ _ hj] at h
  rw [← h, ← List.drop_eq_getElem_cons hj, List.take_append_drop]

theorem mem_take_getD (l : List Char) (j : Nat) (ch : Char) (h : ch ∈ l.take j) :
    ∃ m, m < j ∧ l.getD m NUL = ch := by
  obtain ⟨m, hm, e⟩ := List.mem_iff_getElem.mp h
  have hm2 : m < j ∧ m < l.length := by
    rw [List.length_take] at hm
    omega
  refine ⟨m, hm2.1, ?_⟩
  rw [List.getD_eq_getElem _ _ hm2.2, ← e, List.getElem_take]

theorem strip_terminator_head (c : Char) (rest : List Char) (hs : isspace c = false) :
    (strip_terminator (c :: rest)).1.getD 0 NUL = c := by
  rcases strip_terminator_getD (c :: rest) 0 with h | ⟨_, h⟩
  · rw [h]; rfl
  · have : isspace c = true := h
    rw [hs] at this
    exact absurd this Bool.false_ne_true

theorem tokenize_first_step (c : Char) (rest : List Char) (hs : isspace c = false) (k : Nat) :
    tokenize_loop (k + 1) 0
        { buf := (strip_terminator (c :: rest)).1, key := none, value := none }
      = tokenize_loop k 1
          { buf := (strip_terminator (c :: rest)).1, key := some 0, value := none } := by
  simp only [tokenize_loop, strip_terminator_head c rest hs, hs]
  rfl

theorem tokenize_none_of_comment (c : Char) (rest : List Char) (hs : isspace c = false)
    (hP : ∀ pre post, c :: rest = pre ++ DNET_CONF_DELIMITER :: post →
      DNET_CONF_COMMENT ∈ pre)
    (hc : c ≠ DNET_CONF_COMMENT) : tokenize (c :: rest) = none := by
  have hval : (tokenize_loop (strip_terminator (c :: rest)).2 0
      { buf := (strip_terminator (c :: rest)).1, key := none, value := none }).value
        = none := by
    cases hk : (strip_terminator (c :: rest)).2 with
    | zero => rfl
    | succ k =>
      rw [tokenize_first_step c rest hs k]
      refine tokenize_loop_no_value k 1
        { buf := (strip_terminator (c :: rest)).1, key := some 0, value := none } rfl rfl ?_
      intro j hj hd
      have hd1 : (strip_terminator (c :: rest)).1.getD j NUL = DNET_CONF_DELIMITER := hd
      have hd2 : (c :: rest).getD j NUL = DNET_CONF_DELIMITER := by
        rcases strip_terminator_getD (c :: rest) j with h | ⟨h, _⟩
        · rw [← h]; exact hd1
        · rw [h] at hd1
          exact absurd hd1 (by decide)
      have hsplit := getD_split (c :: rest) j DNET_CONF_DELIMITER (by decide) hd2
      obtain ⟨m, hm1, hm2⟩ := mem_take_getD (c :: rest) j DNET_CONF_COMMENT
        (hP _ _ hsplit)
      have hm0 : m ≠ 0 := by
        intro e
        rw [e] at hm2
        exact hc hm2
      refine ⟨m, by omega, hm1, ?_⟩
      show (strip_terminator (c :: rest)).1.getD m NUL = DNET_CONF_COMMENT
      rcases strip_terminator_getD (c :: rest) m with h | ⟨_, h⟩
      · rw [h]; exact hm2
      · rw [hm2] at h
        exact absurd h (by decide)
  unfold tokenize
  simp only []
  generalize tokenize_loop (strip_terminator (c :: rest)).2 0
    { buf := (strip_terminator (c :: rest)).1, key := none, value := none } = t at hval ⊢
  rw [hval]
  cases t.key <;> rfl

theorem tokenize_key_head (c : Char) (rest : List Char) (hs : isspace c = false)
    (hn : c ≠ NUL) (kv : List Char × List Char) (h : tokenize (c :: rest) = some kv) :
    kv.1.head? = some c := by
  unfold tokenize at h
  simp only [] at h
  cases hk : (strip_terminator (c :: rest)).2 with
  | zero =>
    rw [hk] at h
    simp [tokenize_loop] at h
  | succ k =>
    rw [hk, tokenize_first_step c rest hs k] at h
    obtain ⟨hkey, hbuf⟩ := tokenize_loop_key_head c k 1
      { buf := (strip_terminator (c :: rest)).1, key := some 0, value := none }
      (Nat.le_refl _) rfl (strip_terminator_head c rest hs)
    generalize tokenize_loop k 1
      { buf := (strip_terminator (c :: rest)).1, key := some 0, value := none } = t
      at h hkey hbuf
    rcases hkey with hkey | hkey
    · rw [hkey] at h
      cases hv : t.value with
      | none => rw [hv] at h; simp at h
      | some v =>
        rw [hv] at h
        simp only [Option.some.injEq] at h
        rw [← h]
        simp only [List.drop_zero]
        cases hb : t.buf with
        | nil =>
          rw [hb] at hbuf
          exact absurd hbuf.symm hn
        | cons b0 btail =>
          rw [hb] at hbuf
          have e : b0 = c := hbuf
          rw [e]
          simp [c_str, List.takeWhile_cons, hn]
    · rw [hkey] at h
      simp at h

end Elliptics

namespace Elliptics

theorem skip_line_some (line ptr : List Char) (h : dnet_skip_line line = some ptr) :
    ∃ c rest, ptr = c :: rest ∧ isspace c = false ∧ c ≠ DNET_CONF_COMMENT ∧
      line = line.takeWhile isspace ++ c :: rest ∧ line.dropWhile isspace = c :: rest := by
  rw [skip_line_dropWhile] at h
  cases hd : line.dropWhile isspace with
  | nil => rw [hd] at h; simp at h
  | cons c rest =>
    rw [hd] at h
    simp only at h
    have hsp : isspace c = false := by
      have := List.head_dropWhile_not isspace line (by rw [hd]; simp)
      simpa [hd] using this
    by_cases hc : c = DNET_CONF_COMMENT
    · rw [if_pos hc] at h; simp at h
    · rw [if_neg hc] at h
      simp only [Option.some.injEq] at h
      refine ⟨c, rest, h.symm, hsp, hc, ?_, rfl⟩
      rw [← hd, List.takeWhile_append_dropWhile]

theorem parse_line_skips (x : CfgExternals) (g : CfgGlobals) (buf : List Char)
    (hP : ∀ pre post, c_str buf = pre ++ DNET_CONF_DELIMITER :: post →
      DNET_CONF_COMMENT ∈ pre) :
    dnet_parse_line x g buf = (0, g) := by
  unfold dnet_parse_line
  cases hsk : dnet_skip_line (c_str buf) with
  | none => rfl
  | some ptr =>
    obtain ⟨c, rest, hptr, hsp, hc, hline, _⟩ := skip_line_some _ _ hsk
    have htok : tokenize ptr = none := by
      rw [hptr]
      apply tokenize_none_of_comment c rest hsp _ hc
      intro pre post hsplit
      have h1 := hP ((c_str buf).takeWhile isspace ++ pre) post (by
        rw [List.append_assoc, ← hsplit]; exact hline)
      rcases List.mem_append.mp h1 with h2 | h2
      · have := List.mem_takeWhile_imp h2
        exact absurd this (by decide)
      · exact h2
    simp only [htok]

theorem parse_line_unmatched (x : CfgExternals) (g : CfgGlobals) (buf ptr : List Char)
    (kv : List Char × List Char) (hsk : dnet_skip_line (c_str buf) = some ptr)
    (htok : tokenize ptr = some kv) (hk : kv.1 ∉ current_keys g) :
    dnet_parse_line x g buf = (0, g) := by
  unfold dnet_parse_line
  simp only [hsk, htok]
  exact dispatch_absent x g kv.1 kv.2 hk

theorem c_str_no_nul_mem (buf : List Char) (c : Char) (h : c ∈ c_str buf) : c ≠ NUL := by
  have := List.mem_takeWhile_imp h
  simpa using this

theorem parse_line_key_head (buf ptr : List Char) (kv : List Char × List Char)
    (hsk : dnet_skip_line (c_str buf) = some ptr) (htok : tokenize ptr = some kv) :
    kv.1.head? = ptr.head? := by
  obtain ⟨c, rest, hptr, hsp, _, hline, _⟩ := skip_line_some _ _ hsk
  have hn : c ≠ NUL := by
    apply c_str_no_nul_mem buf
    rw [hline]
    simp
  rw [hptr] at htok ⊢
  exact tokenize_key_head c rest hsp hn kv htok

theorem parse_line_cases (x : CfgExternals) (g : CfgGlobals) (buf : List Char) :
    dnet_parse_line x g buf = (0, g) ∨
      ∃ ptr kv, dnet_skip_line (c_str buf) = some ptr ∧ tokenize ptr = some kv ∧
        kv.1 ∈ current_keys g ∧ dnet_parse_line x g buf = dispatch x g kv.1 kv.2 := by
  cases hsk : dnet_skip_line (c_str buf) with
  | none =>
    left
    unfold dnet_parse_line
    rw [hsk]
  | some ptr =>
    cases htok : tokenize ptr with
    | none =>
      left
      unfold dnet_parse_line
      simp only [hsk, htok]
    | some kv =>
      have e : dnet_parse_line x g buf = dispatch x g kv.1 kv.2 := by
        unfold dnet_parse_line
        simp only [hsk, htok]
      by_cases hk : kv.1 ∈ current_keys g
      · exact Or.inr ⟨ptr, kv, rfl, htok, hk, e⟩
      · exact Or.inl (e.trans (dispatch_absent x g kv.1 kv.2 hk))

theorem parse_line_error (x : CfgExternals) (g : CfgGlobals) (buf : List Char)
    (h : (dnet_parse_line x g buf).1 ≠ 0) :
    ∃ c, (dnet_parse_line x g buf).2.calls = g.calls ++ [c] ∧
      c.err = (dnet_parse_line x g buf).1 := by
  rcases parse_line_cases x g buf with h0 | ⟨ptr, kv, _, _, hk, hd⟩
  · rw [h0] at h
    exact absurd rfl h
  · rw [hd]
    exact ⟨_, dispatch_present x g kv.1 kv.2 hk, rfl⟩

theorem parse_line_calls (x : CfgExternals) (g : CfgGlobals) (buf : List Char) :
    ∃ later, (dnet_parse_line x g buf).2.calls = g.calls ++ later := by
  rcases parse_line_cases x g buf with h0 | ⟨ptr, kv, _, _, hk, hd⟩
  · rw [h0]
    exact ⟨[], by simp⟩
  · rw [hd]
    exact ⟨_, dispatch_present x g kv.1 kv.2 hk⟩

theorem parse_loop_error (x : CfgExternals) :
    ∀ (F : Nat) (input : List Char) (g : CfgGlobals), (parse_loop x F input g).1 ≠ 0 →
      ∃ pre c, (parse_loop x F input g).2.calls = g.calls ++ pre ++ [c] ∧
        c.err = (parse_loop x F input g).1 := by
  intro F
  induction F with
  | zero => intro input g h; exact absurd rfl h
  | succ F ih =>
    intro input g h
    by_cases hnil : input = []
    · rw [hnil, parse_loop_nil] at h
      exact absurd rfl h
    · rw [parse_loop_unfold x F input g hnil] at h ⊢
      by_cases he : (dnet_parse_line x g (fgets_take (4096 - 1) input).1).1 ≠ 0
      · rw [if_pos he] at h ⊢
        obtain ⟨c, hc1, hc2⟩ := parse_line_error x g _ he
        exact ⟨[], c, by simpa using hc1, hc2⟩
      · rw [if_neg he] at h ⊢
        obtain ⟨pre, c, hc1, hc2⟩ := ih _ _ h
        obtain ⟨later, hl⟩ := parse_line_calls x g (fgets_take (4096 - 1) input).1
        refine ⟨later ++ pre, c, ?_, hc2⟩
        rw [hc1, hl]
        simp

end Elliptics

namespace Elliptics

/-! ## Files without a successful `backend` line -/

theorem set_backend_loop_root (x : CfgExternals) (g : CfgGlobals) (value : List Char) :
    ∀ (bs : List dnet_config_backend) (i : Nat),
      (dnet_set_backend_loop x g value i bs).1 ≠ 0 →
      (dnet_set_backend_loop x g value i bs).2.dnet_cur_cfg_entries = g.dnet_cur_cfg_entries ∧
        (dnet_set_backend_loop x g value i bs).2.dnet_cfg_current_backend
          = g.dnet_cfg_current_backend := by
  intro bs
  induction bs with
  | nil => intro i _; exact ⟨rfl, rfl⟩
  | cons b rest ih =>
    intro i h
    simp only [dnet_set_backend_loop] at h ⊢
    by_cases hv : value = b.name.toList
    · rw [if_pos hv] at h ⊢
      by_cases hm : b.size ≠ 0 ∧ x.malloc_ok b.size = false
      · rw [if_pos hm]
        exact ⟨rfl, rfl⟩
      · rw [if_neg hm] at h
        exact absurd rfl h
    · rw [if_neg hv] at h ⊢
      exact ih (i + 1) h

theorem backend_entry_key :
    ∀ p ∈ dnet_cfg_entries, p.2 = RootCallback.dnet_set_backend → p.1 = "backend" := by
  decide

theorem find_entry_backend_key (key : List Char) (i : Nat)
    (h : find_entry key 0 dnet_cfg_entries = some (i, RootCallback.dnet_set_backend)) :
    key = "backend".toList := by
  by_cases hk : key ∈ dnet_cfg_entries.map (fun e => e.1.toList)
  · obtain ⟨cb, hf, k, hget, hkey⟩ := find_entry_some key 0 dnet_cfg_entries hk
    rw [hf] at h
    simp only [Option.some.injEq, Prod.mk.injEq] at h
    rw [h.2] at hget
    have hmem := List.get?_mem hget
    have := backend_entry_key _ hmem rfl
    simp only at this
    rw [← hkey, this]
  · rw [find_entry_none key 0 dnet_cfg_entries hk] at h
    simp at h

theorem root_callback_root_mode (x : CfgExternals) (g : CfgGlobals) (key value : List Char)
    (cb : RootCallback)
    (h : cb ≠ RootCallback.dnet_set_backend ∨ (root_callback x g key value cb).1 ≠ 0) :
    (root_callback x g key value cb).2.dnet_cur_cfg_entries = g.dnet_cur_cfg_entries ∧
      (root_callback x g key value cb).2.dnet_cfg_current_backend
        = g.dnet_cfg_current_backend := by
  cases cb with
  | dnet_simple_set =>
    simp only [root_callback, dnet_simple_set]
    split_ifs <;> exact ⟨rfl, rfl⟩
  | dnet_set_id => exact ⟨rfl, rfl⟩
  | dnet_set_addr => exact ⟨rfl, rfl⟩
  | dnet_set_remote_addrs =>
    simp only [root_callback, dnet_set_remote_addrs]
    split_ifs <;> exact ⟨rfl, rfl⟩
  | dnet_set_transform_functions =>
    simp only [root_callback, dnet_set_transform_functions]
    split_ifs <;> exact ⟨rfl, rfl⟩
  | dnet_set_backend =>
    rcases h with h | h
    · exact absurd rfl h
    · exact set_backend_loop_root x g value g.dnet_cfg_backend 0 h
  | dnet_set_log =>
    simp only [root_callback, dnet_set_log]
    split_ifs <;> exact ⟨rfl, rfl⟩

theorem dispatch_root_mode (x : CfgExternals) (g : CfgGlobals) (key value : List Char)
    (hroot : g.dnet_cur_cfg_entries = none) (hcur : g.dnet_cfg_current_backend = none) :
    ((dispatch x g key value).2.dnet_cur_cfg_entries = none ∧
        (dispatch x g key value).2.dnet_cfg_current_backend = none) ∨
      (key = "backend".toList ∧ (dispatch x g key value).1 = 0) := by
  cases hf : find_entry key 0 dnet_cfg_entries with
  | none =>
    left
    have e : dispatch x g key value = (0, g) := by
      unfold dispatch
      simp only [hroot, hf]
    rw [e]
    exact ⟨hroot, hcur⟩
  | some p =>
    obtain ⟨i, cb⟩ := p
    rw [dispatch_root x g key value i cb hroot hf]
    by_cases h : cb ≠ RootCallback.dnet_set_backend ∨ (root_callback x g key value cb).1 ≠ 0
    · left
      obtain ⟨h1, h2⟩ := root_callback_root_mode x g key value cb h
      exact ⟨h1.trans hroot, h2.trans hcur⟩
    · right
      have hcb : cb = RootCallback.dnet_set_backend := by
        by_contra hne
        exact h (Or.inl hne)
      have herr : (root_callback x g key value cb).1 = 0 := by
        by_contra hne
        exact h (Or.inr hne)
      rw [hcb] at hf
      exact ⟨find_entry_backend_key key i hf, herr⟩

theorem parse_line_root_mode (x : CfgExternals) (g : CfgGlobals) (buf : List Char) :
    ∃ later, (dnet_parse_line x g buf).2.calls = g.calls ++ later ∧
      (g.dnet_cur_cfg_entries = none → g.dnet_cfg_current_backend = none →
        (∀ c ∈ later, c.key = "backend".toList → c.err ≠ 0) →
        (dnet_parse_line x g buf).2.dnet_cur_cfg_entries = none ∧
          (dnet_parse_line x g buf).2.dnet_cfg_current_backend = none) := by
  rcases parse_line_cases x g buf with h0 | ⟨ptr, kv, _, _, hk, hd⟩
  · rw [h0]
    exact ⟨[], by simp, fun hroot hcur _ => ⟨hroot, hcur⟩⟩
  · rw [hd]
    refine ⟨_, dispatch_present x g kv.1 kv.2 hk, ?_⟩
    intro hroot hcur hno
    rcases dispatch_root_mode x g kv.1 kv.2 hroot hcur with h | ⟨h1, h2⟩
    · exact h
    · exact absurd h2 (hno _ (List.mem_singleton.mpr rfl) h1)

theorem parse_loop_root_mode (x : CfgExternals) :
    ∀ (F : Nat) (input : List Char) (g : CfgGlobals),
      ∃ later, (parse_loop x F input g).2.calls = g.calls ++ later ∧
        (g.dnet_cur_cfg_entries = none → g.dnet_cfg_current_backend = none →
          (∀ c ∈ later, c.key = "backend".toList → c.err ≠ 0) →
          (parse_loop x F input g).2.dnet_cur_cfg_entries = none ∧
            (parse_loop x F input g).2.dnet_cfg_current_backend = none) := by
  intro F
  induction F with
  | zero =>
    intro input g
    exact ⟨[], by simp [parse_loop], fun hroot hcur _ => ⟨hroot, hcur⟩⟩
  | succ F ih =>
    intro input g
    by_cases hnil : input = []
    · rw [hnil, parse_loop_nil]
      exact ⟨[], by simp, fun hroot hcur _ => ⟨hroot, hcur⟩⟩
    · rw [parse_loop_unfold x F input g hnil]
      obtain ⟨l1, hl1, hr1⟩ := parse_line_root_mode x g (fgets_take (4096 - 1) input).1
      by_cases he : (dnet_parse_line x g (fgets_take (4096 - 1) input).1).1 ≠ 0
      · rw [if_pos he]
        exact ⟨l1, hl1, hr1⟩
      · rw [if_neg he]
        obtain ⟨l2, hl2, hr2⟩ := ih (fgets_take (4096 - 1) input).2
          (dnet_parse_line x g (fgets_take (4096 - 1) input).1).2
        refine ⟨l1 ++ l2, by rw [hl2, hl1, List.append_assoc], ?_⟩
        intro hroot hcur hno
        obtain ⟨a, b⟩ := hr1 hroot hcur (fun c hc => hno c (List.mem_append_left _ hc))
        exact hr2 a b (fun c hc => hno c (List.mem_append_right _ hc))

end Elliptics

namespace Elliptics

/-- The strings are freed once per failed call and the pointers are kept: a
call that fails after a `remote` line returns `NULL` and leaves
`dnet_cfg_remotes` pointing to the freed block; a second call, failing
without a new `remote` line, frees that block again and has no defined
result, while a second call whose file sets `remote` anew returns. -/
theorem parse_config_freed_twice :
    (dnet_parse_config ex_cfg_externals 0 (some "remote = a:1:2\n".toList) ex_globals).map
        (fun r => (r.node.isSome, r.err, r.globals.dnet_cfg_remotes, r.globals.remotes_freed))
      = some (false, -EINVAL, some "a:1:2".toList, true)
      ∧ ((dnet_parse_config ex_cfg_externals 0 (some "remote = a:1:2\n".toList)
            ex_globals).bind
          (fun r => (dnet_parse_config ex_cfg_externals 0 (some "join = 1\n".toList)
            r.globals).map (fun r2 => r2.err))) = none
      ∧ ((dnet_parse_config ex_cfg_externals 0 (some "remote = a:1:2\n".toList)
            ex_globals).bind
          (fun r => (dnet_parse_config ex_cfg_externals 0
            (some "backend = blob\n".toList) r.globals).map (fun r2 => r2.err))) = none
      ∧ ((dnet_parse_config ex_cfg_externals 0 (some "remote = a:1:2\n".toList)
            ex_globals).bind
          (fun r => (dnet_parse_config ex_cfg_externals 0
            (some "remote = b:1:2\njoin = 1\n".toList) r.globals).map (fun r2 => r2.err)))
        = some (-EINVAL) := by
  refine ⟨by decide, by decide, by decide, by decide⟩

/-- C35 (as stated, refuted): the file `join = 1`, `backend = nosuch` has no
successful `backend` line, the variables are those of program start, and
`dnet_parse_config` returns `NULL`; yet the error it leaves with is not
`-EINVAL` but the `-ENOENT` of the `backend` handler. Likewise a file whose
only line is `log = /nonexistent/log`, where the log file cannot be opened
(`errno` 13), ends with `-13`. And when the variables are those that an
earlier call left behind after `backend = blob`, the file `join = 1` yields a
node although it has no `backend` line. -/
theorem C35_handler_error_counterexample :
    ex_globals.dnet_cur_cfg_entries = none ∧ ex_globals.dnet_cfg_current_backend = none
      ∧ not_freed ex_globals
      ∧ (dnet_parse_config ex_cfg_externals 0 (some "join = 1\nbackend = nosuch\n".toList)
          ex_globals).map (fun r => (r.node.isSome, r.err, r.initialised))
        = some (false, -ENOENT, none)
      ∧ (-ENOENT : Int) ≠ -EINVAL
      ∧ (dnet_parse_config ex_cfg_externals 0 (some "join = 1\nbackend = nosuch\n".toList)
          ex_globals).map (fun r => r.globals.calls.map (fun c => (c.key, c.err)))
        = some [("join".toList, 0), ("backend".toList, -ENOENT)]
      ∧ (dnet_parse_config { ex_cfg_externals with fopen_errno := fun _ => 13 } 0
          (some "log = /nonexistent/log\n".toList) ex_globals).map
          (fun r => (r.node.isSome, r.err)) = some (false, -13)
      ∧ ((dnet_parse_config ex_cfg_externals 0 (some "backend = blob\n".toList)
            ex_globals).bind
          (fun r => (dnet_parse_config ex_cfg_externals 0 (some "join = 1\n".toList)
            r.globals).map (fun r2 => (r2.node.isSome, r2.err)))) = some (true, 0) := by
  refine ⟨rfl, rfl, by decide, by decide, by decide, by decide, by decide, by decide⟩

/-- C35 (amended): when `dnet_parse_config` is entered with the root table
current, no backend current and no string left freed by an earlier call (the
variables of program start) and reads a file in which no call of the
`backend` handler returns 0, it returns `NULL`: no backend is initialised and
no node is created, whatever other keys the file sets. When every handler
invoked returned 0 the error it leaves with is `-EINVAL`; otherwise exactly
one handler failed, the last one invoked, and the error is the value that
handler returned. -/
theorem C35_no_backend_no_node (x : CfgExternals) (e : Int) (input : List Char)
    (g : CfgGlobals) (later : List CfgCall)
    (hroot : g.dnet_cur_cfg_entries = none) (hcur : g.dnet_cfg_current_backend = none)
    (hfresh : not_freed g)
    (hcalls : (state_after x g input).calls = g.calls ++ later)
    (hno : ∀ c ∈ later, c.key = "backend".toList → c.err ≠ 0) :
    ∃ r, dnet_parse_config x e (some input) g = some r
      ∧ r.node = none ∧ r.initialised = none
      ∧ r.globals.calls = g.calls ++ later
      ∧ (((∀ c ∈ later, c.err = 0) ∧ r.err = -EINVAL)
        ∨ ∃ pre c, later = pre ++ [c] ∧ (∀ d ∈ pre, d.err = 0) ∧ c.err ≠ 0
            ∧ r.err = c.err) := by
  obtain ⟨l2, hl2, hr2⟩ := parse_loop_root_mode x (input.length + 1) input
    { g with dnet_cfg_state := { g.dnet_cfg_state with log_is_common := true } }
  obtain ⟨l3, hl3, hz, hnz⟩ := parse_loop_trace x (input.length + 1) input
    { g with dnet_cfg_state := { g.dnet_cfg_state with log_is_common := true } }
  have hcalls2 : (parse_loop x (input.length + 1) input
      { g with dnet_cfg_state := { g.dnet_cfg_state with log_is_common := true } }).2.calls
        = g.calls ++ later := hcalls
  have hl : l2 = later := by
    rw [hcalls2] at hl2
    exact (List.append_cancel_left hl2).symm
  have hl' : l3 = later := by
    rw [hcalls2] at hl3
    exact (List.append_cancel_left hl3).symm
  rw [hl] at hr2
  rw [hl'] at hz hnz
  obtain ⟨_, hcb⟩ := hr2 hroot hcur hno
  by_cases hs : (parse_loop x (input.length + 1) input
      { g with dnet_cfg_state := { g.dnet_cfg_state with log_is_common := true } }).1 ≠ 0
  · obtain ⟨pre, c, hlat, hpre, hce⟩ := hnz hs
    refine ⟨_, parse_config_error x e input g hfresh hs, rfl, rfl, hcalls,
      Or.inr ⟨pre, c, hlat, hpre, ?_, hce.symm⟩⟩
    rw [hce]
    exact hs
  · have hs0 := not_not.mp hs
    exact ⟨_, parse_config_no_backend x e input g hfresh hs0 hcb, rfl, rfl, hcalls,
      Or.inl ⟨hz hs0, rfl⟩⟩

set_option maxRecDepth 100000 in
theorem C35_no_backend_no_node_witness :
    ex_globals.dnet_cur_cfg_entries = none ∧ ex_globals.dnet_cfg_current_backend = none
      ∧ not_freed ex_globals
      ∧ (state_after ex_cfg_externals ex_globals
          "join = 1\nwait_timeout = 20\n".toList).calls.map (fun c => (c.key, c.err))
        = [("join".toList, 0), ("wait_timeout".toList, 0)]
      ∧ (dnet_parse_config ex_cfg_externals 0 (some "join = 1\nwait_timeout = 20\n".toList)
          ex_globals).map (fun r => (r.node.isSome, r.err, r.initialised))
        = some (false, -EINVAL, none)
      ∧ (∃ r, dnet_parse_config ex_cfg_externals 0
          (some "join = 1\nwait_timeout = 20\n".toList) ex_globals = some r
        ∧ r.node = none ∧ r.initialised = none) := by
  obtain ⟨r, hr, hn, hi, _⟩ :=
    C35_no_backend_no_node ex_cfg_externals 0 "join = 1\nwait_timeout = 20\n".toList
      ex_globals
      (state_after ex_cfg_externals ex_globals "join = 1\nwait_timeout = 20\n".toList).calls
      rfl rfl (by decide) (by simp [ex_globals]) (by decide)
  exact ⟨rfl, rfl, by decide, by decide, by decide, r, hr, hn, hi⟩

end Elliptics

namespace Elliptics

/-! ## No syntax errors -/

/-- C34: the tokenizer reports no syntax error. For every buffer that `fgets`
may deliver and all values of the variables: when the body of the read loop
ends with an error, a handler has been invoked for this line and the error is
the value it returned. A line that is blank or a comment, a line in which
every `=` stands behind a `#` (so also a line without `=`), a line that
starts with `=` when no key of the current table does, and a line whose key
is not in the current table invoke no handler and leave every variable as it
was. After a line that ends without error the loop goes on with the rest of
the input, and when the loop ends with an error it is the error returned by
the handler invoked last. -/
theorem C34_no_syntax_error (x : CfgExternals) (g : CfgGlobals) (buf : List Char) :
    ((dnet_parse_line x g buf).1 ≠ 0 →
        ∃ c, (dnet_parse_line x g buf).2.calls = g.calls ++ [c] ∧
          c.err = (dnet_parse_line x g buf).1)
      ∧ (blank_or_comment (c_str buf) → dnet_parse_line x g buf = (0, g))
      ∧ ((∀ pre post, c_str buf = pre ++ DNET_CONF_DELIMITER :: post →
          DNET_CONF_COMMENT ∈ pre) → dnet_parse_line x g buf = (0, g))
      ∧ (∀ rest, (c_str buf).dropWhile isspace = DNET_CONF_DELIMITER :: rest →
          (∀ k ∈ current_keys g, k.head? ≠ some DNET_CONF_DELIMITER) →
          dnet_parse_line x g buf = (0, g))
      ∧ (∀ ptr kv, dnet_skip_line (c_str buf) = some ptr → tokenize ptr = some kv →
          kv.1 ∉ current_keys g → dnet_parse_line x g buf = (0, g))
      ∧ (∀ input, input ≠ [] → (dnet_parse_line x g (fgets_take (4096 - 1) input).1).1 = 0 →
          parse_loop x (input.length + 1) input g
            = parse_loop x ((fgets_take (4096 - 1) input).2.length + 1)
                (fgets_take (4096 - 1) input).2
                (dnet_parse_line x g (fgets_take (4096 - 1) input).1).2)
      ∧ (∀ F input, (parse_loop x F input g).1 ≠ 0 →
          ∃ pre c, (parse_loop x F input g).2.calls = g.calls ++ pre ++ [c] ∧
            c.err = (parse_loop x F input g).1) := by
  refine ⟨parse_line_error x g buf, ?_, parse_line_skips x g buf, ?_, ?_, ?_, ?_⟩
  · intro h
    have hsk : dnet_skip_line (c_str buf) = none := by
      rw [skip_line_dropWhile]
      unfold blank_or_comment at h
      cases hd : (c_str buf).dropWhile isspace with
      | nil => rfl
      | cons c rest =>
        rw [hd] at h
        simp only at h
        simp [h]
    unfold dnet_parse_line
    rw [hsk]
  · intro rest hd hkeys
    have hsk : dnet_skip_line (c_str buf) = some (DNET_CONF_DELIMITER :: rest) := by
      rw [skip_line_dropWhile, hd]
      simp only
      rw [if_neg (by decide)]
    cases htok : tokenize (DNET_CONF_DELIMITER :: rest) with
    | none =>
      unfold dnet_parse_line
      simp only [hsk, htok]
    | some kv =>
      have hh := parse_line_key_head buf _ kv hsk htok
      apply parse_line_unmatched x g buf _ kv hsk htok
      intro hk
      exact hkeys kv.1 hk hh
  · intro ptr kv hsk htok hk
    exact parse_line_unmatched x g buf ptr kv hsk htok hk
  · intro input hnil h0
    rw [parse_loop_step x input g hnil, if_neg (by rw [h0]; exact fun h => h rfl)]
  · intro F input
    exact parse_loop_error x F input g

theorem C34_no_syntax_error_witness :
    dnet_parse_line ex_cfg_externals ex_globals "join 1\n".toList = (0, ex_globals)
      ∧ dnet_parse_line ex_cfg_externals ex_globals "join # = 1\n".toList = (0, ex_globals)
      ∧ dnet_parse_line ex_cfg_externals ex_globals " = 1\n".toList = (0, ex_globals)
      ∧ dnet_parse_line ex_cfg_externals ex_globals "nokey = 1\n".toList = (0, ex_globals) :=
  ⟨(C34_no_syntax_error ex_cfg_externals ex_globals "join 1\n".toList).2.2.1
      (by
        intro pre post h
        have hm : DNET_CONF_DELIMITER ∈ c_str "join 1\n".toList := by
          rw [h]; simp
        exact absurd hm (by decide)),
    (C34_no_syntax_error ex_cfg_externals ex_globals "join # = 1\n".toList).2.2.1
      (by
        intro pre post h
        have h7 : (c_str "join # = 1\n".toList).getD 7 NUL = DNET_CONF_DELIMITER := by decide
        have hn : ∀ j, j < 7 → (c_str "join # = 1\n".toList).getD j NUL ≠ DNET_CONF_DELIMITER := by
          decide
        have hlen : 7 ≤ pre.length := by
          by_contra hlt
          have := hn pre.length (by omega)
          rw [h, getD_append_len pre _ post pre.length NUL rfl] at this
          exact this rfl
        have h5 : (pre ++ DNET_CONF_DELIMITER :: post).getD 5 NUL = DNET_CONF_COMMENT := by
          rw [← h]; decide
        rw [List.getD_eq_getElem?_getD, List.getElem?_append_left (by omega)] at h5
        have h5' : pre[5]? = some DNET_CONF_COMMENT := by
          cases hp : pre[5]? with
          | none =>
            have := List.getElem?_eq_none_iff.mp hp
            omega
          | some ch =>
            rw [hp] at h5
            simp only [Option.getD_some] at h5
            rw [h5]
        exact List.getElem?_mem h5'),
    (C34_no_syntax_error ex_cfg_externals ex_globals " = 1\n".toList).2.2.2.1 " 1\n".toList
      (by decide) (by decide),
    (C34_no_syntax_error ex_cfg_externals ex_globals "nokey = 1\n".toList).2.2.2.2.1
      "nokey = 1\n".toList ("nokey".toList, "1".toList) (by decide) (by decide) (by decide)⟩

end Elliptics
